import Mathlib

/-!
Verification of the satire SAT solver (Rust) against its specification.

The Rust source is shallowly embedded: each Rust function becomes a Lean
function over explicit state; machine integers become Nat (with explicit
bounds where overflow matters); fallible operations (panics, asserts,
unwraps) return Option/Except or a dedicated result constructor; text is
embedded as List Char so that every parsing function is kernel-computable.

Source files referenced throughout:
  src/formula.rs            -- Variable, Literal, Clause, Cnf, Model
  src/parser.rs             -- DIMACS parser
  src/solver/dpll.rs        -- DPLL engine
  src/solver/cdcl.rs        -- CDCL engine
  src/solver/cdcl/tracker.rs   -- clause tracker
  src/solver/cdcl/conflict.rs  -- First-UIP conflict analysis
  src/solver/cdcl/vsids.rs     -- VSIDS scoring
-/

namespace Satire

/-! ## Formula types (src/formula.rs) -/

/-- Newtype wrapper for variable ID (src/formula.rs, struct Variable(u32)).
Internally a 0-based index. -/
structure Variable where
  idx : Nat
deriving DecidableEq, Repr

/-- Variable::MAX_VARIABLE_INDEX = u32::MAX (src/formula.rs line 27). -/
def MAX_VARIABLE_INDEX : Nat := 2 ^ 32 - 1

/-- usize::MAX on the 64-bit platforms the crate targets. -/
def USIZE_MAX : Nat := 2 ^ 64 - 1

namespace Variable

/-- Variable::index (src/formula.rs lines 31-33). -/
def index (v : Variable) : Nat := v.idx

/-- Variable::from_index (src/formula.rs lines 37-42): None if the index is
greater than MAX_VARIABLE_INDEX. -/
def from_index (index : Nat) : Option Variable :=
  if index > MAX_VARIABLE_INDEX then none else some ⟨index⟩

end Variable

/-- A literal: a variable together with a polarity (src/formula.rs,
struct Literal).  The source field named variable is called var here
because variable is a Lean keyword. -/
structure Literal where
  var : Variable
  positive : Bool
deriving DecidableEq, Repr

namespace Literal

/-- Literal::index (src/formula.rs lines 76-78). -/
def index (l : Literal) : Nat := l.var.idx

/-- Literal::value (src/formula.rs lines 84-90): evaluation under a total
assignment. The Rust code indexes the slice directly (panicking out of
bounds); every call site guarantees index < length, which the lemmas below
carry as a hypothesis, so the embedding uses getD. -/
def value (l : Literal) (assignments : List Bool) : Bool :=
  if l.positive then assignments.getD l.index false
  else !(assignments.getD l.index false)

/-- Literal::partial_value (src/formula.rs lines 92-97), renamed optValue
here: evaluation under a per-variable optional assignment; none means the
variable is unassigned. -/
def optValue (l : Literal) (assignments : List (Option Bool)) : Option Bool :=
  match assignments.getD l.index none with
  | some val => some (if l.positive then val else !val)
  | none => none

/-- Literal negation (impl Not for Literal, src/formula.rs lines 125-134). -/
def neg (l : Literal) : Literal := ⟨l.var, !l.positive⟩

end Literal

/-- A clause is a disjunction of literals (src/formula.rs, struct Clause, a
newtype over a literal vector). num_literals is List.length. -/
abbrev Clause := List Literal

/-- Formula in conjunctive normal form (src/formula.rs, struct Cnf). -/
structure Cnf where
  num_variables : Nat
  clauses : List Clause

/-- Cnf::add_clause (src/formula.rs lines 204-211). The Rust function
asserts that every literal of the clause has index < num_variables and
panics otherwise; the panic is modeled as none. -/
def Cnf.add_clause (f : Cnf) (c : Clause) : Option Cnf :=
  if c.all (fun l => l.index < f.num_variables) then
    some ⟨f.num_variables, f.clauses ++ [c]⟩
  else none

/-- The Cnf invariant established by Cnf::new and Cnf::add_clause: every
literal's variable index is below num_variables (and num_variables is at
most u32::MAX + 1, the assert in Cnf::new). -/
def Cnf.wf (f : Cnf) : Prop :=
  f.num_variables ≤ MAX_VARIABLE_INDEX + 1 ∧
    ∀ c ∈ f.clauses, ∀ l ∈ c, l.index < f.num_variables

/-! ### Semantics: satisfaction -/

/-- A clause is satisfied by a total assignment when at least one literal
evaluates to true (the condition checked by Model::new, src/formula.rs
line 250). -/
def clauseSat (assignment : List Bool) (c : Clause) : Bool :=
  c.any (fun l => l.value assignment)

/-- Every clause of the formula is satisfied. -/
def cnfSat (f : Cnf) (assignment : List Bool) : Bool :=
  f.clauses.all (fun c => clauseSat assignment c)

/-- Represents a satisfying assignment for a formula (src/formula.rs,
struct Model). -/
structure Model where
  formula : Cnf
  assignment : List Bool

/-- Model::new (src/formula.rs lines 245-257): asserts the assignment
length matches and that every clause is satisfied; the asserts (panics)
are modeled as none. -/
def Model.new (formula : Cnf) (assignment : List Bool) : Option Model :=
  if assignment.length = formula.num_variables ∧ cnfSat formula assignment then
    some ⟨formula, assignment⟩
  else none

/-! ## DIMACS parsing (src/parser.rs and the FromStr impls in
src/formula.rs).  Strings are embedded as List Char. -/

/-- Rust str trim: remove whitespace from both ends. -/
def trimChars (s : List Char) : List Char :=
  ((s.dropWhile Char.isWhitespace).reverse.dropWhile Char.isWhitespace).reverse

/-- Rust str::parse::<usize>: an optional leading plus sign followed by one
or more ASCII digits; a value past usize::MAX is a ParseIntError (overflow).
Returns none on any parse error. -/
def parseUsize (s : List Char) : Option Nat :=
  let digits := match s with
    | '+' :: rest => rest
    | _ => s
  if digits.length > 0 ∧ digits.all Char.isDigit then
    let n := digits.foldl (fun acc c => acc * 10 + (c.toNat - 48)) 0
    if n ≤ USIZE_MAX then some n else none
  else none

/-- VariableParseError (src/formula.rs lines 9-19). rangeError carries the
num payload used in the error message. -/
inductive VariableParseError where
  | parseIntError : VariableParseError
  | rangeError : Nat → VariableParseError
deriving DecidableEq, Repr

/-- FromStr for Variable (src/formula.rs lines 45-53): parse as usize,
checked_sub 1 (zero gives RangeError carrying the original number), then
Variable::from_index (failure gives RangeError carrying the index). -/
def Variable.from_str (s : List Char) : Except VariableParseError Variable :=
  match parseUsize s with
  | none => .error .parseIntError
  | some num =>
    match num with
    | 0 => .error (.rangeError 0)
    | Nat.succ m =>
      match Variable.from_index m with
      | some v => .ok v
      | none => .error (.rangeError m)

/-- Rust str::starts_with for a single character. -/
def startsWithChar (s : List Char) (c : Char) : Bool :=
  match s with
  | [] => false
  | x :: _ => x = c

/-- FromStr for Literal (src/formula.rs lines 100-112): a leading minus
sign (s.starts_with) means negative polarity and the rest (s[1..]) parses
as a Variable; otherwise the whole token parses as a Variable. -/
def Literal.from_str (s : List Char) : Except VariableParseError Literal :=
  if startsWithChar s '-' then
    (Variable.from_str (s.drop 1)).map (fun v => ⟨v, false⟩)
  else
    (Variable.from_str s).map (fun v => ⟨v, true⟩)

/-- Outcome of the problem-line validation segment of parse_file
(src/parser.rs lines 73-85). panicked models an out-of-bounds index into
the splitted token vector; malformed models the MalformedProblemDefinition
error. -/
inductive HeaderOutcome where
  | accepted : Nat → Nat → HeaderOutcome
  | malformed : HeaderOutcome
  | panicked : HeaderOutcome
deriving DecidableEq, Repr

/-- The problem-line validation of parse_file (src/parser.rs lines 73-85),
transcribed with the semantics of the source, including the short-circuit
of the disjunction in the ensure condition
(splitted.len() == 4 || splitted[0] == "p" || splitted[1] == "cnf")
and the direct indexing of splitted[1], splitted[2], splitted[3], which
panics when the token vector is too short. -/
def headerValidate (prob_line : List Char) : HeaderOutcome :=
  let splitted := (trimChars prob_line).splitOn ' '
  let ensured : Option Bool :=
    if splitted.length = 4 then some true
    else if splitted.getD 0 [] = ['p'] then some true
    else
      match splitted.get? 1 with
      | none => none
      | some t => some (t = ['c', 'n', 'f'])
  match ensured with
  | none => .panicked
  | some false => .malformed
  | some true =>
    match splitted.get? 2 with
    | none => .panicked
    | some t2 =>
      match splitted.get? 3 with
      | none => .panicked
      | some t3 =>
        match parseUsize t2, parseUsize t3 with
        | some nv, some nc => .accepted nv nc
        | _, _ => .malformed

/-- The canonical header contract stated by the claim: exactly four
whitespace-separated tokens, the first two being p and cnf, the last two
parsing as integers. -/
def headerSpecOk (prob_line : List Char) : Prop :=
  let splitted := (trimChars prob_line).splitOn ' '
  splitted.length = 4 ∧ splitted.getD 0 [] = ['p'] ∧
    splitted.getD 1 [] = ['c', 'n', 'f'] ∧
    (parseUsize (splitted.getD 2 [])).isSome ∧
    (parseUsize (splitted.getD 3 [])).isSome

/-- The remainder of a literal token after stripping an optional leading
minus sign. -/
def litRemainder (s : List Char) : List Char :=
  if startsWithChar s '-' then s.drop 1 else s

/-- Whether a literal token carries a leading minus sign. -/
def litNegSign (s : List Char) : Bool :=
  startsWithChar s '-'

/-- Literal::from_str expressed through litRemainder and litNegSign. -/
theorem Literal.from_str_eq (s : List Char) :
    Literal.from_str s =
      (Variable.from_str (litRemainder s)).map
        (fun v => ⟨v, !litNegSign s⟩) := by
  unfold Literal.from_str litRemainder litNegSign
  by_cases h : startsWithChar s '-' <;> simp [h]

/-! ## Theorems for claims C7 and C8 -/

/-- C7: the claim states that parse_file proceeds past header validation
only when the problem line has exactly four whitespace-separated tokens
with p and cnf first and two integers last, and that any other header
yields MalformedProblemDefinition.  The source (src/parser.rs line 77)
joins the three conditions with a logical OR instead of AND, so the
five-token header "p cnf 1 1 junk" is accepted and parsing proceeds,
contradicting the claim; the spec itself flags this OR as a slip
(an AND was intended).  This theorem evaluates the embedded validation
at that failing input. -/
theorem C7_header_or_bug :
    headerValidate "p cnf 1 1 junk".toList = .accepted 1 1 ∧
      ¬ headerSpecOk "p cnf 1 1 junk".toList := by
  constructor
  · decide
  · intro h
    exact absurd h.1 (by decide)

/-- C8 counterexample: the claim states that parsing a literal succeeds
exactly when the identifier is in the range 1..N (the formula's variable
count) and fails with RangeError when it exceeds N.  With N = 1, the
token 2 exceeds N yet Literal::from_str succeeds (the FromStr impl never
sees N; its range check is against u32::MAX).  The out-of-range literal
is rejected only later, by the assert in Cnf::add_clause (a panic, not a
RangeError), modeled here as none. -/
theorem C8_parse_not_bounded_by_N :
    Literal.from_str ['2'] = .ok ⟨⟨1⟩, true⟩ ∧
      (2 : Nat) > 1 ∧
      Cnf.add_clause ⟨1, []⟩ [⟨⟨1⟩, true⟩] = none := by
  refine ⟨rfl, by decide, rfl⟩

/-- C8 amended: parsing a literal token succeeds exactly when, after
stripping an optional leading minus sign, the remainder parses as a
nonnegative integer (Rust usize syntax) with value in 1..u32::MAX + 1; the
1-based DIMACS identifier is converted to a 0-based index and the polarity
is the absence of the minus sign; a non-numeric (or usize-overflowing)
remainder gives ParseIntError; the value zero gives RangeError (carrying
0); a value above u32::MAX + 1 gives RangeError (carrying the decremented
value); the bound N of a formula is enforced only later, by the panicking
assert of Cnf::add_clause. -/
theorem C8_literal_from_str_characterization (s : List Char) :
    ((Literal.from_str s).isOk ↔
      ∃ n, parseUsize (litRemainder s) = some n ∧ 1 ≤ n ∧
        n ≤ MAX_VARIABLE_INDEX + 1) ∧
    (∀ l, Literal.from_str s = .ok l →
      parseUsize (litRemainder s) = some (l.index + 1) ∧
        l.positive = !litNegSign s) ∧
    (parseUsize (litRemainder s) = none →
      Literal.from_str s = .error .parseIntError) ∧
    (parseUsize (litRemainder s) = some 0 →
      Literal.from_str s = .error (.rangeError 0)) ∧
    (∀ n, parseUsize (litRemainder s) = some (n + 1) →
      n + 1 > MAX_VARIABLE_INDEX + 1 →
      Literal.from_str s = .error (.rangeError n)) ∧
    (∀ f l, Literal.from_str s = .ok l → l.index ≥ f.num_variables →
      Cnf.add_clause f [l] = none) := by
  rw [Literal.from_str_eq]
  have hadd : ∀ (f : Cnf) (l : Literal), l.index ≥ f.num_variables →
      Cnf.add_clause f [l] = none := by
    intro f l hl
    unfold Cnf.add_clause
    simp [Nat.not_lt_of_ge hl]
  cases hp : parseUsize (litRemainder s) with
  | none =>
    simp [Variable.from_str, hp, Except.map, Except.isOk, Except.toBool, hadd]
  | some n =>
    cases n with
    | zero =>
      simp [Variable.from_str, hp, Except.map, Except.isOk, Except.toBool, hadd]
    | succ m =>
      by_cases hm : m > MAX_VARIABLE_INDEX
      · have hidx : Variable.from_index m = none := by
          unfold Variable.from_index
          simp [hm]
        simp [Variable.from_str, hp, hidx, Except.map, Except.isOk,
          Except.toBool]
        omega
      · have hidx : Variable.from_index m = some ⟨m⟩ := by
          unfold Variable.from_index
          simp [hm]
        simp [Variable.from_str, hp, hidx, Except.map, Except.isOk,
          Except.toBool, Literal.index, hadd]
        exact ⟨by omega, fun f hf => hadd f _ hf⟩

/-- C8 witness: the characterization applied at the concrete non-numeric
token a, discharging its hypothesis by evaluation. -/
theorem C8_literal_from_str_characterization_witness :
    Literal.from_str ['a'] = .error .parseIntError :=
  (C8_literal_from_str_characterization ['a']).2.2.1 rfl

/-! ## DPLL engine (src/solver/dpll.rs) -/

namespace Dpll

/-- The DPLL watch index (src/solver/dpll.rs, mod inner, struct Watch):
one positive and one negative row of clause indices. -/
structure Watch where
  positive : List (List Nat)
  negative : List (List Nat)
deriving DecidableEq, Repr

/-- The indexing operation of the watch (impl Index for Watch,
src/solver/dpll.rs lines 36-46): rows are looked up by the literal's
VARIABLE index.  Returns none (models the Rust index panic) when the
variable index is not below the number of rows. -/
def Watch.push (w : Watch) (l : Literal) (clause_idx : Nat) : Option Watch :=
  if l.positive then
    if l.index < w.positive.length then
      some ⟨w.positive.set l.index (w.positive.getD l.index [] ++ [clause_idx]),
        w.negative⟩
    else none
  else
    if l.index < w.negative.length then
      some ⟨w.positive,
        w.negative.set l.index (w.negative.getD l.index [] ++ [clause_idx])⟩
    else none

/-- Watch::new (src/solver/dpll.rs lines 19-34): the rows are allocated
with ONE ROW PER CLAUSE (vec![Vec::new(); clauses.len()]), then every
literal of every clause is pushed onto the row selected by its variable
index.  A variable index that is not below the number of clauses panics
(none). -/
def Watch.new (clauses : List Clause) : Option Watch :=
  let init : Watch := ⟨List.replicate clauses.length [],
    List.replicate clauses.length []⟩
  (clauses.enum.foldlM (fun w (p : Nat × Clause) =>
    p.2.foldlM (fun w l => w.push l p.1) w) init : Option Watch)

/-- Number of literal occurrences of clause c that are true under the
current assignment: the value cached in ClauseStat::satisfied of
src/solver/dpll.rs through the increments of assign_literal and the
decrements of pop_assignment. -/
def countSatOcc (a : List (Option Bool)) (c : Clause) : Nat :=
  (c.filter (fun l => l.optValue a = some true)).length

/-- Number of literal occurrences of clause c that are false under the
current assignment: the value cached in ClauseStat::unsatisfied. -/
def countUnsatOcc (a : List (Option Bool)) (c : Clause) : Nat :=
  (c.filter (fun l => l.optValue a = some false)).length

/-- The satisfied_clauses counter of DpllSolver: documented in the source
(line 75) as a cache for clauses.count(satisfied_literals > 0), i.e. the
number of clauses with at least one true literal.  The counter starts at 0
(matching: no literal is true under the empty assignment) and
assign_literal/pop_assignment adjust it exactly when a clause's satisfied
count moves between zero and nonzero, so the cache always equals this
count. -/
def satisfiedClausesCount (f : Cnf) (a : List (Option Bool)) : Nat :=
  (f.clauses.filter (fun c => c.any (fun l => l.optValue a = some true))).length

/-- The unsatisfied_clauses counter of DpllSolver: the source comment
(line 77) describes it as a cache for
clauses.count(unsatisfied_literals == num_literals), but the counter is
initialized to 0 and only ever incremented when an assign_literal pushes a
clause's unsatisfied count UP TO its length, which never happens for a
0-literal clause (it has no watch entries).  The maintained value is
therefore the number of NON-EMPTY clauses all of whose literals are false
under the current assignment, which this definition captures. -/
def unsatisfiedClausesCount (f : Cnf) (a : List (Option Bool)) : Nat :=
  (f.clauses.filter (fun c =>
    !c.isEmpty && c.all (fun l => l.optValue a = some false))).length

/-- DpllSolver::forced_assignment (src/solver/dpll.rs lines 89-102):
returns the forced literal of a unit clause.  The source guard is
stat.satisfied == 0 && stat.unsatisfied == clause.num_literals() - 1 with
usize arithmetic; the embedding states it as unsatisfied + 1 ==
num_literals, which agrees with the release-build wrapping semantics on
every clause length including 0 (for a 0-literal clause both are false).
Under the guard exactly one literal occurrence is unassigned, so the
source's unreachable!() fallthrough cannot fire and find? is total
here. -/
def forced_assignment (a : List (Option Bool)) (c : Clause) : Option Literal :=
  if countSatOcc a c = 0 ∧ countUnsatOcc a c + 1 = c.length then
    c.find? (fun l => (l.optValue a).isNone)
  else none

/-- DpllSolver::search_unit_clause (src/solver/dpll.rs lines 105-113):
scan the clauses in order and return the first forced literal. -/
def search_unit_clause (f : Cnf) (a : List (Option Bool)) : Option Literal :=
  f.clauses.findSome? (fun c => forced_assignment a c)

/-- DpllSolver::first_unassigned (src/solver/dpll.rs lines 115-123):
position of the first unassigned variable; the source unwraps (panics)
when every variable is assigned, which the none result models. -/
def first_unassigned (a : List (Option Bool)) : Option Nat :=
  a.findIdx? (fun x => x.isNone)

/-- DpllSolver::assign_literal (src/solver/dpll.rs lines 125-147)
restricted to the assignment vector: the clause counters it maintains
through the watch are represented semantically by satisfiedClausesCount
and unsatisfiedClausesCount above, and pop_assignment (lines 149-171)
restores exactly the previous state, which in this functional embedding
is simply the previous value of a. -/
def assignLit (a : List (Option Bool)) (l : Literal) : List (Option Bool) :=
  a.set l.index (some l.positive)

/-- Result of DpllSolver::solve.  panicked models any Rust panic inside
solve (the only reachable one is the unwrap in first_unassigned, possible
when the formula contains an empty clause); fuelOut is an artifact of the
bounded recursion and is proved unreachable for the fuel used by solve
(dpll fuel sufficiency lemma below). -/
inductive DpllResult where
  | sat : List Bool → DpllResult
  | unsat : DpllResult
  | panicked : DpllResult
  | fuelOut : DpllResult
deriving DecidableEq, Repr

/-- The recursive solve_inner of DpllSolver::solve (src/solver/dpll.rs
lines 195-241): if every clause is satisfied, fill the unassigned
variables with true and succeed; if some clause can never be satisfied,
fail; otherwise propagate the first unit clause or branch on the first
unassigned variable, trying positive then negative polarity.  The
source's mutable assign/pop pairs around each recursive call become
recursion on the extended assignment. -/
def solve_inner (f : Cnf) : Nat → List (Option Bool) → DpllResult
  | fuel, a =>
    if satisfiedClausesCount f a = f.clauses.length then
      .sat (a.map (fun x => x.getD true))
    else if unsatisfiedClausesCount f a > 0 then
      .unsat
    else
      match search_unit_clause f a with
      | some l =>
        match fuel with
        | 0 => .fuelOut
        | fuel' + 1 =>
          match solve_inner f fuel' (assignLit a l) with
          | .sat m => .sat m
          | .unsat => .unsat
          | r => r
      | none =>
        match first_unassigned a with
        | none => .panicked
        | some index =>
          match fuel with
          | 0 => .fuelOut
          | fuel' + 1 =>
            let l : Literal := ⟨⟨index⟩, true⟩
            match solve_inner f fuel' (assignLit a l) with
            | .sat m => .sat m
            | .unsat =>
              match solve_inner f fuel' (assignLit a l.neg) with
              | .sat m => .sat m
              | r => r
            | r => r

/-- DpllSolver::solve (src/solver/dpll.rs lines 194-245) started from the
all-unassigned state produced by DpllSolver::new.  The fuel
num_variables covers the recursion depth: every recursive call assigns
one previously-unassigned variable first. -/
def solve (f : Cnf) : DpllResult :=
  solve_inner f f.num_variables (List.replicate f.num_variables none)

/-! ### Helper lemmas about partial assignments -/

/-- A total assignment agrees with (extends) a per-variable optional
assignment of the same length. -/
structure agrees (a : List (Option Bool)) (τ : List Bool) : Prop where
  len_eq : a.length = τ.length
  val : ∀ (i : Nat) (v : Bool), a[i]? = some (some v) → τ[i]? = some v

theorem optValue_get {l : Literal} {a : List (Option Bool)} {v : Bool}
    (h : l.optValue a = some v) :
    ∃ w, a[l.index]? = some (some w) ∧ v = (if l.positive then w else !w) := by
  unfold Literal.optValue at h
  rw [List.getD_eq_getElem?_getD] at h
  cases hg : a[l.index]? with
  | none => rw [hg] at h; simp at h
  | some o =>
    cases o with
    | none => rw [hg] at h; simp at h
    | some w =>
      rw [hg] at h
      simp at h
      exact ⟨w, rfl, h.symm⟩

theorem optValue_some_lt {l : Literal} {a : List (Option Bool)} {v : Bool}
    (h : l.optValue a = some v) : l.index < a.length := by
  obtain ⟨w, hw, -⟩ := optValue_get h
  exact (List.getElem?_eq_some_iff.mp hw).1

theorem value_of_agrees {l : Literal} {a : List (Option Bool)}
    {τ : List Bool} {v : Bool} (hag : agrees a τ)
    (h : l.optValue a = some v) : l.value τ = v := by
  obtain ⟨w, hw, hv⟩ := optValue_get h
  have hτ : τ[l.index]? = some w := hag.val _ _ hw
  unfold Literal.value
  rw [List.getD_eq_getElem?_getD, hτ]
  subst hv
  cases hp : l.positive <;> simp

/-- Filling the unassigned variables with true agrees with the original
assignment. -/
theorem agrees_fill (a : List (Option Bool)) :
    agrees a (a.map (fun x => x.getD true)) := by
  refine ⟨by simp, ?_⟩
  intro i v hi
  rw [List.getElem?_map, hi]
  rfl

theorem agrees_set {a : List (Option Bool)} {τ : List Bool}
    (hag : agrees a τ) {i : Nat} {b : Bool} (hi : τ[i]? = some b) :
    agrees (a.set i (some b)) τ := by
  refine ⟨by simp [hag.len_eq], ?_⟩
  intro j v hj
  by_cases hij : i = j
  · subst hij
    have hlen : i < a.length := by
      have h1 := (List.getElem?_eq_some_iff.mp hi).1
      have h2 := hag.len_eq
      omega
    rw [List.getElem?_set_self hlen] at hj
    obtain rfl : b = v := by
      simpa using hj
    exact hi
  · rw [List.getElem?_set_ne hij] at hj
    exact hag.val _ _ hj

/-- A true literal under τ pins the value of τ at its index. -/
theorem value_true_getElem {l : Literal} {τ : List Bool}
    (hlt : l.index < τ.length) (h : l.value τ = true) :
    τ[l.index]? = some l.positive := by
  unfold Literal.value at h
  rw [List.getD_eq_getElem?_getD] at h
  have hg : τ[l.index]? = some (τ[l.index]) := List.getElem?_eq_getElem hlt
  rw [hg] at h ⊢
  cases hp : l.positive <;> rw [hp] at h <;> simp at h <;> simp [h]

/-- The three-way split of a clause's occurrences by their value under the
assignment. -/
theorem count_split (a : List (Option Bool)) (c : Clause) :
    countSatOcc a c + countUnsatOcc a c +
      (c.filter (fun l => (l.optValue a).isNone)).length = c.length := by
  induction c with
  | nil => rfl
  | cons l c ih =>
    unfold countSatOcc countUnsatOcc at *
    cases h : l.optValue a with
    | none => simp [List.filter_cons, h]; omega
    | some b => cases b <;> simp [List.filter_cons, h] <;> omega

/-- In a list whose p-filter has exactly one element, any two members
satisfying p are equal. -/
theorem filter_length_one_unique {α : Type} {p : α → Bool} {c : List α}
    (h : (c.filter p).length = 1) {x y : α}
    (hx : x ∈ c) (hpx : p x) (hy : y ∈ c) (hpy : p y) : x = y := by
  obtain ⟨z, hz⟩ := List.length_eq_one.mp h
  have hxz : x ∈ c.filter p := List.mem_filter.mpr ⟨hx, hpx⟩
  have hyz : y ∈ c.filter p := List.mem_filter.mpr ⟨hy, hpy⟩
  rw [hz] at hxz hyz
  simp at hxz hyz
  rw [hxz, hyz]

/-! ### Soundness of the sat answer -/

/-- At a node where the satisfied count equals the clause count, every
clause has a literal that is already true. -/
theorem sat_node_all {f : Cnf} {a : List (Option Bool)}
    (h : satisfiedClausesCount f a = f.clauses.length) :
    ∀ c ∈ f.clauses, c.any (fun l => l.optValue a = some true) = true := by
  unfold satisfiedClausesCount at h
  exact List.filter_length_eq_length.mp h

/-- Filling a node where every clause has a true literal yields a
satisfying total assignment. -/
theorem fill_sat {f : Cnf} {a : List (Option Bool)}
    (h : satisfiedClausesCount f a = f.clauses.length) :
    cnfSat f (a.map (fun x => x.getD true)) = true := by
  unfold cnfSat
  rw [List.all_eq_true]
  intro c hc
  have hany := sat_node_all h c hc
  rw [List.any_eq_true] at hany
  obtain ⟨l, hl, hlv⟩ := hany
  simp only [decide_eq_true_eq] at hlv
  unfold clauseSat
  rw [List.any_eq_true]
  exact ⟨l, hl, value_of_agrees (agrees_fill a) hlv⟩

/-- If solve_inner answers sat, the returned total assignment satisfies
every clause and has the length of the working assignment. -/
theorem solve_inner_sat {f : Cnf} : ∀ (fuel : Nat) (a : List (Option Bool))
    (m : List Bool), solve_inner f fuel a = .sat m →
    cnfSat f m = true ∧ m.length = a.length := by
  intro fuel
  induction fuel with
  | zero =>
    intro a m h
    unfold solve_inner at h
    by_cases h1 : satisfiedClausesCount f a = f.clauses.length
    · rw [if_pos h1] at h
      obtain rfl : a.map (fun x => x.getD true) = m := by simpa using h
      exact ⟨fill_sat h1, by simp⟩
    · rw [if_neg h1] at h
      by_cases h2 : unsatisfiedClausesCount f a > 0
      · rw [if_pos h2] at h; cases h
      · rw [if_neg h2] at h
        cases hu : search_unit_clause f a <;> rw [hu] at h <;> dsimp only at h
        · cases hfa : first_unassigned a <;> rw [hfa] at h <;>
            dsimp only at h <;> cases h
        · cases h
  | succ fuel ih =>
    intro a m h
    unfold solve_inner at h
    by_cases h1 : satisfiedClausesCount f a = f.clauses.length
    · rw [if_pos h1] at h
      obtain rfl : a.map (fun x => x.getD true) = m := by simpa using h
      exact ⟨fill_sat h1, by simp⟩
    · rw [if_neg h1] at h
      by_cases h2 : unsatisfiedClausesCount f a > 0
      · rw [if_pos h2] at h; cases h
      · rw [if_neg h2] at h
        cases hu : search_unit_clause f a <;> rw [hu] at h <;> dsimp only at h
        · cases hfa : first_unassigned a <;> rw [hfa] at h <;> dsimp only at h
          · cases h
          · rename_i index
            cases hr1 : solve_inner f fuel (assignLit a ⟨⟨index⟩, true⟩) <;>
              rw [hr1] at h <;> dsimp only at h
            · obtain rfl : _ = m := by simpa using h
              have hs := (ih _ _ hr1).1
              have hlen := (ih _ _ hr1).2
              exact ⟨hs, by simpa [assignLit] using hlen⟩
            · cases hr2 : solve_inner f fuel
                (assignLit a (Literal.neg ⟨⟨index⟩, true⟩)) <;>
                rw [hr2] at h <;> dsimp only at h
              · obtain rfl : _ = m := by simpa using h
                have hs := (ih _ _ hr2).1
                have hlen := (ih _ _ hr2).2
                exact ⟨hs, by simpa [assignLit] using hlen⟩
              · cases h
              · cases h
              · cases h
            · cases h
            · cases h
        · rename_i l
          cases hr1 : solve_inner f fuel (assignLit a l) <;> rw [hr1] at h <;>
            dsimp only at h
          · obtain rfl : _ = m := by simpa using h
            have hs := (ih _ _ hr1).1
            have hlen := (ih _ _ hr1).2
            exact ⟨hs, by simpa [assignLit] using hlen⟩
          · cases h
          · cases h
          · cases h

/-! ### Soundness of the unsat answer -/

/-- A positive unsatisfied count exhibits a nonempty clause all of whose
literals are false. -/
theorem unsat_node_exists {f : Cnf} {a : List (Option Bool)}
    (h : unsatisfiedClausesCount f a > 0) :
    ∃ c ∈ f.clauses, c ≠ [] ∧ ∀ l ∈ c, l.optValue a = some false := by
  unfold unsatisfiedClausesCount at h
  obtain ⟨c, hc⟩ := List.exists_mem_of_length_pos h
  rw [List.mem_filter] at hc
  refine ⟨c, hc.1, ?_, ?_⟩
  · have := hc.2
    simp only [Bool.and_eq_true, Bool.not_eq_true'] at this
    exact fun he => by simp [he] at this
  · have := hc.2
    simp only [Bool.and_eq_true, List.all_eq_true, decide_eq_true_eq] at this
    exact this.2

/-- A clause whose literals are all false under the node assignment stays
false under any agreeing total assignment. -/
theorem falsified_clause_unsat {c : Clause} {a : List (Option Bool)}
    {τ : List Bool} (hag : agrees a τ)
    (hall : ∀ l ∈ c, l.optValue a = some false) : clauseSat τ c = false := by
  unfold clauseSat
  rw [List.any_eq_false]
  intro l hl
  rw [value_of_agrees hag (hall l hl)]
  simp

/-- The data carried by a successful forced_assignment. -/
theorem forced_assignment_spec {a : List (Option Bool)} {c : Clause}
    {l : Literal} (ated : forced_assignment a c = some l) :
    countSatOcc a c = 0 ∧ countUnsatOcc a c + 1 = c.length ∧ l ∈ c ∧
      (l.optValue a).isNone = true := by
  unfold forced_assignment at ated
  split at ated
  · next hguard =>
    refine ⟨hguard.1, hguard.2, List.mem_of_find?_eq_some ated, ?_⟩
    have := List.find?_some (p := fun (y : Literal) => (y.optValue a).isNone) ated
    simpa using this
  · cases ated

/-- The literal returned by a unit clause is forced: any agreeing total
assignment that satisfies the clause must assign the literal true. -/
theorem unit_forces {a : List (Option Bool)} {c : Clause} {l : Literal}
    {τ : List Bool} (hag : agrees a τ)
    (hforced : forced_assignment a c = some l)
    (hidx : ∀ x ∈ c, x.index < τ.length)
    (hsat : clauseSat τ c = true) : τ[l.index]? = some l.positive := by
  obtain ⟨hs0, hu1, hmem, hnone⟩ := forced_assignment_spec hforced
  unfold clauseSat at hsat
  rw [List.any_eq_true] at hsat
  obtain ⟨x, hx, hxv⟩ := hsat
  have hsplit := count_split a c
  have hnone1 : (c.filter (fun y => (y.optValue a).isNone)).length = 1 := by
    omega
  have hxnone : (x.optValue a).isNone = true := by
    cases hov : x.optValue a with
    | none => rfl
    | some b =>
      cases b with
      | true =>
        exfalso
        have : x ∈ c.filter (fun y => decide (y.optValue a = some true)) :=
          List.mem_filter.mpr ⟨hx, by simp [hov]⟩
        unfold countSatOcc at hs0
        rw [List.length_eq_zero] at hs0
        rw [hs0] at this
        cases this
      | false =>
        exfalso
        have := value_of_agrees hag hov
        rw [hxv] at this
        cases this
  obtain rfl : x = l :=
    filter_length_one_unique hnone1 hx hxnone hmem hnone
  exact value_true_getElem (hidx x hx) hxv

/-- The first unassigned index is in bounds. -/
theorem first_unassigned_lt {a : List (Option Bool)} {i : Nat}
    (h : first_unassigned a = some i) : i < a.length := by
  unfold first_unassigned at h
  exact (List.findIdx?_eq_some_iff_findIdx_eq.mp h).1

/-- If solve_inner answers unsat, no total assignment that agrees with the
node assignment satisfies the formula. -/
theorem solve_inner_unsat {f : Cnf}
    (hwf : ∀ c ∈ f.clauses, ∀ l ∈ c, l.index < f.num_variables) :
    ∀ (fuel : Nat) (a : List (Option Bool)), a.length = f.num_variables →
    solve_inner f fuel a = .unsat →
    ∀ τ : List Bool, agrees a τ → cnfSat f τ = false := by
  have hstep : ∀ (c : Clause) (τ : List Bool), c ∈ f.clauses →
      τ.length = f.num_variables → ∀ l ∈ c, l.index < τ.length := by
    intro c τ hc hτ l hl
    rw [hτ]
    exact hwf c hc l hl
  intro fuel
  induction fuel with
  | zero =>
    intro a hlen h τ hag
    unfold solve_inner at h
    by_cases h1 : satisfiedClausesCount f a = f.clauses.length
    · rw [if_pos h1] at h; cases h
    · rw [if_neg h1] at h
      by_cases h2 : unsatisfiedClausesCount f a > 0
      · obtain ⟨c, hc, -, hall⟩ := unsat_node_exists h2
        unfold cnfSat
        rw [List.all_eq_false]
        exact ⟨c, hc, by simp [falsified_clause_unsat hag hall]⟩
      · rw [if_neg h2] at h
        cases hu : search_unit_clause f a <;> rw [hu] at h <;> dsimp only at h
        · cases hfa : first_unassigned a <;> rw [hfa] at h <;>
            dsimp only at h <;> cases h
        · cases h
  | succ fuel ih =>
    intro a hlen h τ hag
    unfold solve_inner at h
    by_cases h1 : satisfiedClausesCount f a = f.clauses.length
    · rw [if_pos h1] at h; cases h
    · rw [if_neg h1] at h
      by_cases h2 : unsatisfiedClausesCount f a > 0
      · obtain ⟨c, hc, -, hall⟩ := unsat_node_exists h2
        unfold cnfSat
        rw [List.all_eq_false]
        exact ⟨c, hc, by simp [falsified_clause_unsat hag hall]⟩
      · rw [if_neg h2] at h
        have hτlen : τ.length = f.num_variables := by
          have := hag.len_eq
          omega
        cases hu : search_unit_clause f a <;> rw [hu] at h <;> dsimp only at h
        · -- branching case
          cases hfa : first_unassigned a <;> rw [hfa] at h <;> dsimp only at h
          · cases h
          · rename_i index
            have hilt : index < τ.length := by
              have := first_unassigned_lt hfa
              have := hag.len_eq
              omega
            cases hr1 : solve_inner f fuel (assignLit a ⟨⟨index⟩, true⟩) <;>
              rw [hr1] at h <;> dsimp only at h
            · cases h
            · cases hr2 : solve_inner f fuel
                (assignLit a (Literal.neg ⟨⟨index⟩, true⟩)) <;>
                rw [hr2] at h <;> dsimp only at h
              · cases h
              · -- both polarities exhausted
                cases hcs : cnfSat f τ
                · rfl
                · exfalso
                  have hτi : τ[index]? = some (τ[index]) :=
                    List.getElem?_eq_getElem hilt
                  cases hv : τ[index] with
                  | true =>
                    have hagT : agrees (assignLit a ⟨⟨index⟩, true⟩) τ := by
                      apply agrees_set hag
                      show τ[index]? = some true
                      rw [hτi, hv]
                    have := ih (assignLit a ⟨⟨index⟩, true⟩)
                      (by simpa [assignLit] using hlen) hr1 τ hagT
                    rw [hcs] at this
                    cases this
                  | false =>
                    have hagF : agrees
                        (assignLit a (Literal.neg ⟨⟨index⟩, true⟩)) τ := by
                      apply agrees_set hag
                      show τ[index]? = some false
                      rw [hτi, hv]
                    have := ih (assignLit a (Literal.neg ⟨⟨index⟩, true⟩))
                      (by simpa [assignLit] using hlen) hr2 τ hagF
                    rw [hcs] at this
                    cases this
              · cases h
              · cases h
            · cases h
            · cases h
        · -- unit propagation case
          rename_i l
          cases hr1 : solve_inner f fuel (assignLit a l) <;> rw [hr1] at h <;>
            dsimp only at h
          · cases h
          · cases hcs : cnfSat f τ
            · rfl
            · exfalso
              obtain ⟨c, hc, hforced⟩ :=
                List.exists_of_findSome?_eq_some hu
              have hl := forced_assignment_spec hforced
              have hcsat : clauseSat τ c = true := by
                unfold cnfSat at hcs
                rw [List.all_eq_true] at hcs
                simpa using hcs c hc
              have hτl := unit_forces hag hforced (hstep c τ hc hτlen) hcsat
              have hagl : agrees (assignLit a l) τ := agrees_set hag hτl
              have := ih (assignLit a l)
                (by simpa [assignLit] using hlen) hr1 τ hagl
              rw [hcs] at this
              cases this
          · cases h
          · cases h

/-! ### Sufficiency of the fuel used by solve -/

/-- Number of unassigned variables. -/
def unassignedCount (a : List (Option Bool)) : Nat :=
  a.countP (fun x => x.isNone)

theorem countP_set_some {a : List (Option Bool)} :
    ∀ (i : Nat) (b : Bool), a[i]? = some none →
    (a.set i (some b)).countP (fun x => x.isNone) + 1 =
      a.countP (fun x => x.isNone) := by
  induction a with
  | nil => intro i b h; simp at h
  | cons x xs ih =>
    intro i b h
    cases i with
    | zero =>
      obtain rfl : x = none := by simpa using h
      simp [List.countP_cons]
    | succ j =>
      have hx : xs[j]? = some none := by simpa using h
      have := ih j b hx
      rw [List.set_cons_succ]
      simp only [List.countP_cons] at this ⊢
      omega

/-- An unassigned literal with an in-bounds index witnesses a none entry. -/
theorem optValue_none_getElem {l : Literal} {a : List (Option Bool)}
    (hnone : (l.optValue a).isNone = true) (hlt : l.index < a.length) :
    a[l.index]? = some none := by
  unfold Literal.optValue at hnone
  rw [List.getD_eq_getElem?_getD] at hnone
  have hg : a[l.index]? = some (a[l.index]) := List.getElem?_eq_getElem hlt
  rw [hg] at hnone ⊢
  cases hv : a[l.index] with
  | none => rfl
  | some b => rw [hv] at hnone; simp at hnone

/-- A none entry keeps the unassigned count positive. -/
theorem unassignedCount_pos {a : List (Option Bool)} {i : Nat}
    (h : a[i]? = some none) : 0 < unassignedCount a := by
  unfold unassignedCount
  rw [List.countP_pos_iff]
  exact ⟨none, List.getElem?_mem h, rfl⟩

/-- The index found by first_unassigned holds none. -/
theorem first_unassigned_none {a : List (Option Bool)} {i : Nat}
    (h : first_unassigned a = some i) : a[i]? = some none := by
  unfold first_unassigned at h
  obtain ⟨hlt, hfi⟩ := List.findIdx?_eq_some_iff_findIdx_eq.mp h
  subst hfi
  have hp := @List.findIdx_getElem _ (fun x : Option Bool => x.isNone) a hlt
  have hg := List.getElem?_eq_getElem hlt
  rw [hg]
  cases hv : a[List.findIdx (fun x : Option Bool => x.isNone) a] with
  | none => rfl
  | some b =>
    rw [hv] at hp
    simp at hp

/-- The unit literal returned by search_unit_clause is unassigned and in
bounds. -/
theorem search_unit_none_entry {f : Cnf} {a : List (Option Bool)}
    {l : Literal} (hwf : ∀ c ∈ f.clauses, ∀ x ∈ c, x.index < f.num_variables)
    (hlen : a.length = f.num_variables)
    (hu : search_unit_clause f a = some l) : a[l.index]? = some none := by
  obtain ⟨c, hc, hforced⟩ := List.exists_of_findSome?_eq_some hu
  obtain ⟨-, -, hmem, hnone⟩ := forced_assignment_spec hforced
  exact optValue_none_getElem hnone (by rw [hlen]; exact hwf c hc l hmem)

/-- With fuel at least the number of unassigned variables, solve_inner
never runs out of fuel: every recursive call assigns a previously
unassigned variable first. -/
theorem solve_inner_no_fuelOut {f : Cnf}
    (hwf : ∀ c ∈ f.clauses, ∀ l ∈ c, l.index < f.num_variables) :
    ∀ (fuel : Nat) (a : List (Option Bool)), a.length = f.num_variables →
    unassignedCount a ≤ fuel → solve_inner f fuel a ≠ .fuelOut := by
  intro fuel
  induction fuel with
  | zero =>
    intro a hlen hcnt h
    unfold solve_inner at h
    by_cases h1 : satisfiedClausesCount f a = f.clauses.length
    · rw [if_pos h1] at h; cases h
    · rw [if_neg h1] at h
      by_cases h2 : unsatisfiedClausesCount f a > 0
      · rw [if_pos h2] at h; cases h
      · rw [if_neg h2] at h
        cases hu : search_unit_clause f a <;> rw [hu] at h <;> dsimp only at h
        · cases hfa : first_unassigned a <;> rw [hfa] at h <;> dsimp only at h
          · cases h
          · have := unassignedCount_pos (first_unassigned_none hfa)
            omega
        · have := unassignedCount_pos (search_unit_none_entry hwf hlen hu)
          omega
  | succ fuel ih =>
    intro a hlen hcnt h
    unfold solve_inner at h
    by_cases h1 : satisfiedClausesCount f a = f.clauses.length
    · rw [if_pos h1] at h; cases h
    · rw [if_neg h1] at h
      by_cases h2 : unsatisfiedClausesCount f a > 0
      · rw [if_pos h2] at h; cases h
      · rw [if_neg h2] at h
        cases hu : search_unit_clause f a <;> rw [hu] at h <;> dsimp only at h
        · cases hfa : first_unassigned a <;> rw [hfa] at h <;> dsimp only at h
          · cases h
          · rename_i index
            have hnone := first_unassigned_none hfa
            have hdec := countP_set_some index true hnone
            have hdec' := countP_set_some index (!true) hnone
            cases hr1 : solve_inner f fuel (assignLit a ⟨⟨index⟩, true⟩) <;>
              rw [hr1] at h <;> dsimp only at h
            · cases h
            · cases hr2 : solve_inner f fuel
                (assignLit a (Literal.neg ⟨⟨index⟩, true⟩)) <;>
                rw [hr2] at h <;> dsimp only at h
              · cases h
              · cases h
              · cases h
              · refine ih (assignLit a (Literal.neg ⟨⟨index⟩, true⟩))
                  (by simpa [assignLit] using hlen) ?_ hr2
                show unassignedCount (a.set index (some (!true))) ≤ fuel
                unfold unassignedCount at hcnt ⊢
                omega
            · cases h
            · refine ih (assignLit a ⟨⟨index⟩, true⟩)
                (by simpa [assignLit] using hlen) ?_ hr1
              show unassignedCount (a.set index (some true)) ≤ fuel
              unfold unassignedCount at hcnt ⊢
              omega
        · rename_i l
          have hnone := search_unit_none_entry hwf hlen hu
          have hdec := countP_set_some l.index l.positive hnone
          cases hr1 : solve_inner f fuel (assignLit a l) <;> rw [hr1] at h <;>
            dsimp only at h
          · cases h
          · cases h
          · cases h
          · refine ih (assignLit a l) (by simpa [assignLit] using hlen)
              ?_ hr1
            show unassignedCount (a.set l.index (some l.positive)) ≤ fuel
            unfold unassignedCount at hcnt ⊢
            omega

/-! ### End-to-end sanity checks of the DPLL embedding -/

example : solve ⟨1, [[⟨⟨0⟩, true⟩]]⟩ = .sat [true] := by decide
example : solve ⟨1, [[⟨⟨0⟩, true⟩], [⟨⟨0⟩, false⟩]]⟩ = .unsat := by decide
example : solve ⟨2, []⟩ = .sat [true, true] := by decide
example : solve ⟨1, [[]]⟩ = .panicked := by decide
example : solve ⟨3, [[⟨⟨0⟩, true⟩, ⟨⟨1⟩, true⟩],
    [⟨⟨0⟩, false⟩, ⟨⟨2⟩, true⟩], [⟨⟨1⟩, false⟩, ⟨⟨2⟩, false⟩]]⟩ =
    .sat [true, false, true] := by decide

/-! ### Properties of the watch allocation (claim C10) -/

theorem Watch_push_isSome {w : Watch} {l : Literal} {i : Nat} :
    (w.push l i).isSome = true ↔
      (if l.positive then l.index < w.positive.length
        else l.index < w.negative.length) := by
  unfold Watch.push
  by_cases hp : l.positive = true
  · by_cases hlt : l.index < w.positive.length <;> simp [hp, hlt]
  · have hp2 : l.positive = false := by simpa using hp
    by_cases hlt : l.index < w.negative.length <;> simp [hp2, hlt]

theorem Watch_push_lengths {w w2 : Watch} {l : Literal} {i : Nat}
    (h : w.push l i = some w2) :
    w2.positive.length = w.positive.length ∧
      w2.negative.length = w.negative.length := by
  unfold Watch.push at h
  by_cases hp : l.positive = true
  · by_cases hlt : l.index < w.positive.length
    · simp only [hp, if_true, hlt] at h
      obtain rfl : _ = w2 := by simpa using h
      simp
    · simp [hp, hlt] at h
  · have hp2 : l.positive = false := by simpa using hp
    by_cases hlt : l.index < w.negative.length
    · simp only [hp2, Bool.false_eq_true, if_false, hlt, if_true] at h
      obtain rfl : _ = w2 := by simpa using h
      simp
    · simp [hp2, hlt] at h

/-- Folding one clause's literals into the watch succeeds exactly when
every literal's variable index is below the (invariant) row count. -/
theorem Watch_fold_clause {n : Nat} : ∀ (c : Clause) (w : Watch) (i : Nat),
    w.positive.length = n → w.negative.length = n →
    ((c.foldlM (fun (w : Watch) (l : Literal) => w.push l i) w).isSome = true ↔
      ∀ l ∈ c, l.index < n) ∧
    (∀ w2, c.foldlM (fun (w : Watch) (l : Literal) => w.push l i) w = some w2 →
      w2.positive.length = n ∧ w2.negative.length = n) := by
  intro c
  induction c with
  | nil =>
    intro w i hp hn
    constructor
    · simp [List.foldlM_nil]
    · intro w2 h
      obtain rfl : w = w2 := by simpa [List.foldlM_nil] using h
      exact ⟨hp, hn⟩
  | cons l c ih =>
    intro w i hp hn
    cases hpush : w.push l i with
    | none =>
      have hfail : ¬ (if l.positive then l.index < w.positive.length
          else l.index < w.negative.length) := by
        intro hcontra
        have := (Watch_push_isSome (i := i)).mpr hcontra
        rw [hpush] at this
        cases this
      constructor
      · simp only [List.foldlM_cons, hpush]
        constructor
        · intro h; exact Bool.noConfusion h
        · intro h
          exfalso
          have := h l (by simp)
          apply hfail
          rw [hp, hn]
          split <;> omega
      · intro w2 h
        simp only [List.foldlM_cons, hpush] at h
        exact Option.noConfusion h
    | some w1 =>
      have hl : (if l.positive then l.index < w.positive.length
          else l.index < w.negative.length) := by
        apply (Watch_push_isSome (i := i)).mp
        rw [hpush]
        rfl
      have hlens := Watch_push_lengths hpush
      have hrec := ih w1 i (by omega) (by omega)
      constructor
      · simp only [List.foldlM_cons, hpush]
        show (List.foldlM (fun (w : Watch) (l : Literal) =>
          w.push l i) w1 c).isSome = true ↔ ∀ x ∈ l :: c, x.index < n
        rw [hrec.1]
        constructor
        · intro h x hx
          cases hx with
          | head => rw [hp, hn] at hl; split at hl <;> omega
          | tail _ hx => exact h x hx
        · intro h x hx
          exact h x (List.mem_cons_of_mem _ hx)
      · intro w2 h
        simp only [List.foldlM_cons, hpush] at h
        exact hrec.2 w2 h

/-- Folding a list of indexed clauses into the watch succeeds exactly when
every literal's index is below the row count. -/
theorem Watch_fold_clauses {n : Nat} : ∀ (ps : List (Nat × Clause)) (w : Watch),
    w.positive.length = n → w.negative.length = n →
    ((ps.foldlM (fun (w : Watch) (p : Nat × Clause) =>
        p.2.foldlM (fun (w : Watch) (l : Literal) => w.push l p.1) w)
        w).isSome = true ↔
      ∀ p ∈ ps, ∀ l ∈ p.2, l.index < n) := by
  intro ps
  induction ps with
  | nil => intro w hp hn; simp [List.foldlM_nil]
  | cons q ps ih =>
    intro w hp hn
    cases hfold : q.2.foldlM
        (fun (w : Watch) (l : Literal) => w.push l q.1) w with
    | none =>
      have hiff := (Watch_fold_clause q.2 w q.1 hp hn).1
      rw [hfold] at hiff
      simp only [Option.isSome_none] at hiff
      simp only [List.foldlM_cons, hfold]
      constructor
      · intro h; exact Bool.noConfusion h
      · intro h
        exfalso
        have hq := h q (by simp)
        exact absurd (hiff.mpr hq) (by simp)
    | some w1 =>
      have hq := (Watch_fold_clause q.2 w q.1 hp hn).1
      rw [hfold] at hq
      have hlens := (Watch_fold_clause q.2 w q.1 hp hn).2 w1 hfold
      have hrec := ih w1 hlens.1 hlens.2
      simp only [List.foldlM_cons, hfold]
      show (List.foldlM (fun (w : Watch) (p : Nat × Clause) =>
          p.2.foldlM (fun (w : Watch) (l : Literal) => w.push l p.1) w)
          w1 ps).isSome = true ↔ ∀ p ∈ q :: ps, ∀ l ∈ p.2, l.index < n
      rw [hrec]
      constructor
      · intro h p hmem
        cases hmem with
        | head => exact hq.mp rfl
        | tail _ hmem => exact h p hmem
      · intro h p hmem
        exact h p (List.mem_cons_of_mem _ hmem)

/-- Watch::new succeeds exactly when every literal's variable index is
strictly below the number of clauses. -/
theorem Watch_new_isSome (cs : List Clause) :
    (Watch.new cs).isSome = true ↔
      ∀ c ∈ cs, ∀ l ∈ c, l.index < cs.length := by
  unfold Watch.new
  rw [Watch_fold_clauses (n := cs.length) cs.enum _ (by simp) (by simp)]
  constructor
  · intro h c hc l hl
    have : c ∈ cs.enum.map Prod.snd := by rw [List.enum_map_snd]; exact hc
    obtain ⟨p, hp, hpc⟩ := List.mem_map.mp this
    subst hpc
    exact h p hp l hl
  · intro h p hp l hl
    exact h p.2 (List.snd_mem_of_mem_enum hp) l hl

end Dpll

/-- C10: the DPLL watch index allocates one positive and one negative row
PER CLAUSE (vec![Vec::new(); clauses.len()] in inner::Watch::new) while
rows are looked up by VARIABLE index (impl Index for Watch), so
construction completes without an out-of-bounds index exactly when every
literal's variable index is strictly below the number of clauses, and for
the one-clause formula whose clause is the single literal x2 (variable
index 1) the construction panics (none). -/
theorem C10_dpll_watch_rows_per_clause :
    (∀ cs : List Clause, (Dpll.Watch.new cs).isSome = true ↔
      ∀ c ∈ cs, ∀ l ∈ c, l.index < cs.length) ∧
    Dpll.Watch.new [[⟨⟨1⟩, true⟩]] = none :=
  ⟨Dpll.Watch_new_isSome, by decide⟩

/-! ## The CDCL clause tracker (src/solver/cdcl/tracker.rs) -/

namespace Cdcl

/-- ClauseStatus (src/solver/cdcl/tracker.rs lines 58-64). -/
inductive ClauseStatus where
  | Falsified : ClauseStatus
  | Satisfied : ClauseStatus
  | Unit : ClauseStatus
  | Unresolved : ClauseStatus
deriving DecidableEq, Repr

/-- ClauseStatus::from_count (src/solver/cdcl/tracker.rs lines 67-77). -/
def ClauseStatus.from_count (total satisfied unsatisfied : Nat) : ClauseStatus :=
  if unsatisfied = total then .Falsified
  else if satisfied > 0 then .Satisfied
  else if unsatisfied + 1 = total then .Unit
  else .Unresolved

/-- ClauseStat (src/solver/cdcl/tracker.rs lines 80-90). -/
structure ClauseStat where
  total : Nat
  satisfied : Nat
  unsatisfied : Nat
  status : ClauseStatus
deriving DecidableEq, Repr

/-- ClauseStatusChange (src/solver/cdcl/tracker.rs lines 92-96). -/
structure ClauseStatusChange where
  old : ClauseStatus
  new : ClauseStatus
deriving DecidableEq, Repr

namespace ClauseStat

/-- ClauseStat::new (src/solver/cdcl/tracker.rs lines 99-108); the assert
satisfied + unsatisfied <= total holds at the one call site (add_clause)
by construction. -/
def mkNew (total satisfied unsatisfied : Nat) : ClauseStat :=
  ⟨total, satisfied, unsatisfied,
    ClauseStatus.from_count total satisfied unsatisfied⟩

/-- ClauseStat::increment_satisfied (lines 115-123): bump the counter,
recompute the status, return the old and new status. -/
def increment_satisfied (s : ClauseStat) : ClauseStat × ClauseStatusChange :=
  let satisfied := s.satisfied + 1
  let status := ClauseStatus.from_count s.total satisfied s.unsatisfied
  (⟨s.total, satisfied, s.unsatisfied, status⟩, ⟨s.status, status⟩)

/-- ClauseStat::increment_unsatisfied (lines 126-134). -/
def increment_unsatisfied (s : ClauseStat) : ClauseStat × ClauseStatusChange :=
  let unsatisfied := s.unsatisfied + 1
  let status := ClauseStatus.from_count s.total s.satisfied unsatisfied
  (⟨s.total, s.satisfied, unsatisfied, status⟩, ⟨s.status, status⟩)

/-- ClauseStat::decrement_satisfied (lines 137-145).  The usize
subtraction panics at 0 in a debug build; every call site decrements a
counter previously incremented (tracker invariant), so the Nat monus
agrees with the source. -/
def decrement_satisfied (s : ClauseStat) : ClauseStat × ClauseStatusChange :=
  let satisfied := s.satisfied - 1
  let status := ClauseStatus.from_count s.total satisfied s.unsatisfied
  (⟨s.total, satisfied, s.unsatisfied, status⟩, ⟨s.status, status⟩)

/-- ClauseStat::decrement_unsatisfied (lines 148-156). -/
def decrement_unsatisfied (s : ClauseStat) : ClauseStat × ClauseStatusChange :=
  let unsatisfied := s.unsatisfied - 1
  let status := ClauseStatus.from_count s.total s.satisfied unsatisfied
  (⟨s.total, s.satisfied, unsatisfied, status⟩, ⟨s.status, status⟩)

end ClauseStat

/-- ClauseStateCache (src/solver/cdcl/tracker.rs lines 162-168): one
BTreeSet of clause indices per status.  Finset Nat models BTreeSet of
ClauseIdx; iter().next() on a BTreeSet yields the minimum, modeled by
Finset.min. -/
structure ClauseStateCache where
  falsified : Finset Nat
  satisfied : Finset Nat
  unit : Finset Nat
  unresolved : Finset Nat

namespace ClauseStateCache

/-- The Index impl (src/solver/cdcl/tracker.rs lines 170-181). -/
def get (cache : ClauseStateCache) (s : ClauseStatus) : Finset Nat :=
  match s with
  | .Falsified => cache.falsified
  | .Satisfied => cache.satisfied
  | .Unit => cache.unit
  | .Unresolved => cache.unresolved

/-- The IndexMut impl, as a functional bucket update. -/
def setBucket (cache : ClauseStateCache) (s : ClauseStatus) (v : Finset Nat) :
    ClauseStateCache :=
  match s with
  | .Falsified => { cache with falsified := v }
  | .Satisfied => { cache with satisfied := v }
  | .Unit => { cache with unit := v }
  | .Unresolved => { cache with unresolved := v }

/-- ClauseStateCache::handle_change (src/solver/cdcl/tracker.rs lines
199-205): when the status changed, move the clause index from the old
bucket to the new one.  The source asserts that the removal finds the
index and the insertion is fresh; both hold in every bucket-consistent
state (bucketOk below), which each preservation theorem maintains. -/
def handle_change (cache : ClauseStateCache) (change : ClauseStatusChange)
    (idx : Nat) : ClauseStateCache :=
  if change.old ≠ change.new then
    let cache1 := cache.setBucket change.old ((cache.get change.old).erase idx)
    cache1.setBucket change.new (insert idx (cache1.get change.new))
  else cache

end ClauseStateCache

/-- WatchElement (src/solver/cdcl/tracker.rs lines 207-210): the clause
index plus the interior-mutable back-pointer (Cell of Option ClauseCol)
into the clause's live-literal list.  Cell mutation becomes functional
update of the containing row. -/
structure WatchElement where
  clause_idx : Nat
  clause_col : Option Nat
deriving DecidableEq, Repr

/-- The per-variable watch rows (src/solver/cdcl/tracker.rs lines
223-241). -/
structure Watch where
  positive : List (List WatchElement)
  negative : List (List WatchElement)

namespace Watch

/-- The Index impl (lines 243-253): select the row of the literal's
variable, by polarity.  Out-of-range indices cannot occur: rows are
allocated for every variable below num_variables, and every literal the
tracker sees has index below num_variables. -/
def row (w : Watch) (l : Literal) : List WatchElement :=
  if l.positive then w.positive.getD l.index []
  else w.negative.getD l.index []

/-- Functional update of the row of a literal. -/
def setRow (w : Watch) (l : Literal) (r : List WatchElement) : Watch :=
  if l.positive then { w with positive := w.positive.set l.index r }
  else { w with negative := w.negative.set l.index r }

/-- Overwrite the clause_col cell of the element at position v in the row
of l (mirrors Cell::set / Cell::take on that element). -/
def setCell (w : Watch) (l : Literal) (v : Nat) (col : Option Nat) : Watch :=
  let r := w.row l
  match r[v]? with
  | none => w
  | some e => w.setRow l (r.set v ⟨e.clause_idx, col⟩)

end Watch

/-- WatchedLiteral (src/solver/cdcl/tracker.rs lines 271-274). -/
structure WatchedLiteral where
  literal : Literal
  variable_col : Nat
deriving DecidableEq, Repr

/-- TrackedClause (src/solver/cdcl/tracker.rs lines 265-269). -/
structure TrackedClause where
  stat : ClauseStat
  original : List Literal
  literals : List WatchedLiteral

/-- The Tracker (src/solver/cdcl/tracker.rs lines 276-289). -/
structure Tracker where
  num_variables : Nat
  assignments : List (Option Bool)
  assigned_count : Nat
  watch : Watch
  clauses : List TrackedClause
  clause_cache : ClauseStateCache

/-- Vec::swap_remove: remove position i by moving the last element into
it.  An out-of-range i panics in Rust; it cannot occur here because every
live-literal column pointer is in range (fwdOk/backOk below). -/
def swapRemove {α : Type} (xs : List α) (i : Nat) : List α :=
  match xs.getLast? with
  | none => xs
  | some last => (xs.set i last).dropLast

namespace Tracker

/-- Tracker::new (src/solver/cdcl/tracker.rs lines 292-301). -/
def mkNew (num_variables : Nat) : Tracker :=
  ⟨num_variables, List.replicate num_variables none, 0,
    ⟨List.replicate num_variables [], List.replicate num_variables []⟩,
    [], ⟨∅, ∅, ∅, ∅⟩⟩

/-- Tracker::add_clause (src/solver/cdcl/tracker.rs lines 311-348):
classify every literal of the clause against the current assignment;
assigned literals only get a watch entry with an empty back-pointer,
unassigned literals get a live-literal slot and mutually-linked watch
entry; then record the stat and insert the new clause index into the
bucket of its initial status. -/
def add_clause (t : Tracker) (clause : List Literal) : Tracker :=
  let clause_index := t.clauses.length
  let folded := clause.foldl
    (fun (acc : Nat × Nat × List WatchedLiteral × Watch) l =>
      let (satisfied, unsatisfied, literals, watch) := acc
      match l.optValue t.assignments with
      | some true =>
        (satisfied + 1, unsatisfied, literals,
          watch.setRow l (watch.row l ++ [⟨clause_index, none⟩]))
      | some false =>
        (satisfied, unsatisfied + 1, literals,
          watch.setRow l (watch.row l ++ [⟨clause_index, none⟩]))
      | none =>
        let new_clause_col := literals.length
        let variable_col := (watch.row l).length
        (satisfied, unsatisfied, literals ++ [⟨l, variable_col⟩],
          watch.setRow l (watch.row l ++ [⟨clause_index, some new_clause_col⟩])))
    (0, 0, [], t.watch)
  let stat := ClauseStat.mkNew clause.length folded.1 folded.2.1
  { t with
    watch := folded.2.2.2,
    clause_cache := t.clause_cache.setBucket stat.status
      (insert clause_index (t.clause_cache.get stat.status)),
    clauses := t.clauses ++ [⟨stat, clause, folded.2.2.1⟩] }

/-- Tracker::from_cnf (src/solver/cdcl/tracker.rs lines 303-309). -/
def from_cnf (formula : Cnf) : Tracker :=
  formula.clauses.foldl (fun t c => t.add_clause c)
    (mkNew formula.num_variables)

/-- Tracker::fixup_clause (src/solver/cdcl/tracker.rs lines 387-393):
after a swap_remove moved a live literal into column col, repoint that
literal's watch cell at col. -/
def fixup_clause (t : Tracker) (idx : Nat) (col : Nat) : Tracker :=
  match t.clauses[idx]? with
  | none => t
  | some tc =>
    match tc.literals[col]? with
    | none => t
    | some wl =>
      { t with watch := t.watch.setCell wl.literal wl.variable_col (some col) }

/-- One iteration of a set_literal loop (src/solver/cdcl/tracker.rs lines
402-413 and 415-426), at watch-row position i of the row of l: increment
the satisfied (satFlag) or unsatisfied counter of the watched clause,
rebucket, take the back-pointer cell (leaving none), swap-remove the
literal from the clause's live list, and fix up the moved literal.  The
take().unwrap() of the source panics when the cell is empty; that case
(and a dangling clause index) is modeled as a no-op and proved
unreachable from the tracker invariant. -/
def setLiteralStep (t : Tracker) (l : Literal) (satFlag : Bool) (i : Nat) :
    Tracker :=
  match (t.watch.row l)[i]? with
  | none => t
  | some w =>
    match t.clauses[w.clause_idx]? with
    | none => t
    | some tc =>
      match w.clause_col with
      | none => t
      | some clause_col =>
        let pr := if satFlag then tc.stat.increment_satisfied
          else tc.stat.increment_unsatisfied
        let cache2 := t.clause_cache.handle_change pr.2 w.clause_idx
        let lits2 := swapRemove tc.literals clause_col
        let clauses2 := t.clauses.set w.clause_idx
          { tc with stat := pr.1, literals := lits2 }
        let watch2 := t.watch.setCell l i none
        let t2 := { t with
          clauses := clauses2
          clause_cache := cache2
          watch := watch2 }
        fixup_clause t2 w.clause_idx clause_col

/-- Run setLiteralStep at positions 0..k-1 in order.  The row's membership
and length never change during the loop (only cells are mutated), so
iterating positions of the initial row is exactly the source's
iteration over watch[literal].iter(). -/
def processSetRow (t : Tracker) (l : Literal) (satFlag : Bool) :
    Nat → Tracker
  | 0 => t
  | k + 1 => setLiteralStep (processSetRow t l satFlag k) l satFlag k

/-- Tracker::set_literal (src/solver/cdcl/tracker.rs lines 397-427):
record the assignment (the source asserts the variable was unassigned),
then sweep the rows of l (incrementing satisfied counters) and of the
negation of l (incrementing unsatisfied counters). -/
def set_literal (t : Tracker) (l : Literal) : Tracker :=
  let t1 := { t with
    assignments := t.assignments.set l.index (some l.positive),
    assigned_count := t.assigned_count + 1 }
  let t2 := processSetRow t1 l true (t1.watch.row l).length
  processSetRow t2 (Literal.neg l) false (t2.watch.row (Literal.neg l)).length

/-- One iteration of an unset loop (src/solver/cdcl/tracker.rs lines
436-449 and 451-464), at watch-row position i (the enumerate index, which
equals the stored variable_col) of the row of l: decrement the matching
counter, rebucket, append the literal back to the clause's live list
(push_and_get_key), and point the cell at the new tail column. -/
def unsetStep (t : Tracker) (l : Literal) (satFlag : Bool) (i : Nat) :
    Tracker :=
  match (t.watch.row l)[i]? with
  | none => t
  | some w =>
    match t.clauses[w.clause_idx]? with
    | none => t
    | some tc =>
      let pr := if satFlag then tc.stat.decrement_satisfied
        else tc.stat.decrement_unsatisfied
      let cache2 := t.clause_cache.handle_change pr.2 w.clause_idx
      let clause_col := tc.literals.length
      let lits2 := tc.literals ++ [⟨l, i⟩]
      let clauses2 := t.clauses.set w.clause_idx
        { tc with stat := pr.1, literals := lits2 }
      let watch2 := t.watch.setCell l i (some clause_col)
      { t with clauses := clauses2, clause_cache := cache2, watch := watch2 }

/-- Run unsetStep at positions 0..k-1 in order. -/
def processUnsetRow (t : Tracker) (l : Literal) (satFlag : Bool) :
    Nat → Tracker
  | 0 => t
  | k + 1 => unsetStep (processUnsetRow t l satFlag k) l satFlag k

/-- Tracker::unset (src/solver/cdcl/tracker.rs lines 431-465): take the
stored polarity (the source unwraps, panicking when the variable is not
set — the claims carry that precondition), rebuild the literal, then sweep
its rows undoing what set_literal did, re-appending live literals. -/
def unset (t : Tracker) (x : Variable) : Tracker :=
  match t.assignments.getD x.idx none with
  | none => t
  | some old_value =>
    let literal : Literal := ⟨x, old_value⟩
    let t1 := { t with
      assignments := t.assignments.set x.idx none,
      assigned_count := t.assigned_count - 1 }
    let t2 := processUnsetRow t1 literal true (t1.watch.row literal).length
    processUnsetRow t2 (Literal.neg literal) false
      (t2.watch.row (Literal.neg literal)).length

/-- Tracker::original_clause (src/solver/cdcl/tracker.rs lines 468-470);
an out-of-range index (a Rust panic) is none. -/
def original_clause (t : Tracker) (idx : Nat) : Option (List Literal) :=
  (t.clauses[idx]?).map (fun tc => tc.original)

/-- Tracker::get_unit_clause_literal (src/solver/cdcl/tracker.rs lines
474-478): assert exactly one live literal remains and return it; the
asserts/panics are modeled as none. -/
def get_unit_clause_literal (t : Tracker) (idx : Nat) : Option Literal :=
  match t.clauses[idx]? with
  | none => none
  | some tc =>
    if tc.literals.length = 1 then (tc.literals.head?).map (·.literal)
    else none

/-- Tracker::num_clauses. -/
def num_clauses (t : Tracker) : Nat := t.clauses.length

/-- Tracker::literal_occurrence (src/solver/cdcl/tracker.rs lines
383-385). -/
def literal_occurrence (t : Tracker) (l : Literal) : Nat :=
  (t.watch.row l).length

/-- Tracker::variable_occurrence (src/solver/cdcl/tracker.rs lines
378-381). -/
def variable_occurrence (t : Tracker) (v : Variable) : Nat :=
  t.literal_occurrence ⟨v, true⟩ + t.literal_occurrence ⟨v, false⟩

end Tracker

/-! ### The tracker invariant -/

/-- Number of occurrences (with multiplicity) of literals of c that are
true under a. -/
def satCount (a : List (Option Bool)) (c : List Literal) : Nat :=
  c.countP (fun l => l.optValue a = some true)

/-- Number of occurrences of literals of c that are false under a. -/
def unsatCount (a : List (Option Bool)) (c : List Literal) : Nat :=
  c.countP (fun l => l.optValue a = some false)

/-- Number of occurrences of the literal l in the clause c. -/
def occCount (c : List Literal) (l : Literal) : Nat :=
  c.countP (fun y => y = l)

/-- Number of live-list entries of tc holding the literal l. -/
def liveCount (tc : TrackedClause) (l : Literal) : Nat :=
  tc.literals.countP (fun wl => wl.literal = l)

/-- Number of elements of the watch row of l that belong to clause i. -/
def rowIdxCount (t : Tracker) (l : Literal) (i : Nat) : Nat :=
  (t.watch.row l).countP (fun w => w.clause_idx = i)

/-- The core structural invariant of the tracker: everything except the
linkage to the assignment.  These components hold not only between public
operations but also at every intermediate state inside the set_literal and
unset loops, which is what makes them provable by induction over the loop
positions. -/
structure CoreInv (t : Tracker) : Prop where
  alen : t.assignments.length = t.num_variables
  wplen : t.watch.positive.length = t.num_variables
  wnlen : t.watch.negative.length = t.num_variables
  idxOk : ∀ (l : Literal) (v : Nat) (w : WatchElement),
    (t.watch.row l)[v]? = some w → w.clause_idx < t.clauses.length
  backOk : ∀ (l : Literal) (v : Nat) (w : WatchElement),
    (t.watch.row l)[v]? = some w → ∀ c, w.clause_col = some c →
    ∃ tc, t.clauses[w.clause_idx]? = some tc ∧ tc.literals[c]? = some ⟨l, v⟩
  fwdOk : ∀ (i c : Nat) (tc : TrackedClause) (wl : WatchedLiteral),
    t.clauses[i]? = some tc → tc.literals[c]? = some wl →
    wl.literal.index < t.num_variables ∧
      (t.watch.row wl.literal)[wl.variable_col]? = some ⟨i, some c⟩
  rowCountOk : ∀ (l : Literal) (i : Nat) (tc : TrackedClause),
    t.clauses[i]? = some tc → rowIdxCount t l i = occCount tc.original l
  sumOk : ∀ (i : Nat) (tc : TrackedClause), t.clauses[i]? = some tc →
    tc.stat.satisfied + tc.stat.unsatisfied + tc.literals.length =
      tc.stat.total ∧ tc.stat.total = tc.original.length
  statOk : ∀ (i : Nat) (tc : TrackedClause), t.clauses[i]? = some tc →
    tc.stat.status = ClauseStatus.from_count tc.stat.total tc.stat.satisfied
      tc.stat.unsatisfied
  bucketSub : ∀ (s : ClauseStatus), ∀ j ∈ t.clause_cache.get s,
    j < t.clauses.length
  bucketOk : ∀ (i : Nat) (tc : TrackedClause), t.clauses[i]? = some tc →
    ∀ s, i ∈ t.clause_cache.get s ↔ s = tc.stat.status
  origIdxOk : ∀ (i : Nat) (tc : TrackedClause), t.clauses[i]? = some tc →
    ∀ l ∈ tc.original, l.index < t.num_variables

/-- The full tracker invariant: established by Tracker::new and preserved
by add_clause, set_literal and unset.  On top of the core structure it
records the per-clause count/status/bucket contract relative to the
current assignment (countOk), the live-literal list contract (liveOk),
and the cell/assignment linkage (cellsOk). -/
structure Inv (t : Tracker) extends CoreInv t : Prop where
  cellsOk : ∀ (l : Literal) (v : Nat) (w : WatchElement),
    (t.watch.row l)[v]? = some w →
    (w.clause_col.isSome = true ↔ t.assignments.getD l.index none = none)
  countOk : ∀ (i : Nat) (tc : TrackedClause), t.clauses[i]? = some tc →
    tc.stat.satisfied = satCount t.assignments tc.original ∧
      tc.stat.unsatisfied = unsatCount t.assignments tc.original
  liveOk : ∀ (i : Nat) (tc : TrackedClause), t.clauses[i]? = some tc →
    ∀ (y : Literal), liveCount tc y =
      (if y.optValue t.assignments = none then occCount tc.original y else 0)

/-! ### Infrastructure lemmas: rows, cells, swapRemove, counts -/

namespace Watch

theorem row_setRow_self {w : Watch} {l : Literal} {r : List WatchElement}
    (h : if l.positive then l.index < w.positive.length
      else l.index < w.negative.length) :
    (w.setRow l r).row l = r := by
  unfold setRow row
  by_cases hp : l.positive = true
  · rw [hp] at h
    simp only [hp, if_true]
    rw [List.getD_eq_getElem?_getD, List.getElem?_set_self (by simpa using h)]
    rfl
  · have hp2 : l.positive = false := by simpa using hp
    rw [hp2] at h
    simp only [hp2, Bool.false_eq_true, if_false]
    rw [List.getD_eq_getElem?_getD, List.getElem?_set_self (by simpa using h)]
    rfl

theorem row_setRow_other {w : Watch} {l y : Literal} {r : List WatchElement}
    (h : y ≠ l) : (w.setRow l r).row y = w.row y := by
  have hvar : y.index ≠ l.index ∨ y.positive ≠ l.positive := by
    by_contra hc
    push_neg at hc
    obtain ⟨h1, h2⟩ := hc
    apply h
    cases y with
    | mk yv yp =>
      cases l with
      | mk lv lp =>
        cases yv with
        | mk yi =>
          cases lv with
          | mk li =>
            simp only [Literal.index] at h1
            simp_all
  unfold setRow row
  by_cases hp : l.positive = true <;> by_cases hq : y.positive = true
  · have hidx : y.index ≠ l.index := by
      rcases hvar with h1 | h2
      · exact h1
      · exact absurd (hq.trans hp.symm) h2
    simp only [hp, hq, if_true]
    rw [List.getD_eq_getElem?_getD, List.getD_eq_getElem?_getD,
      List.getElem?_set_ne (by omega)]
  · have hq2 : y.positive = false := by simpa using hq
    simp [hp, hq2]
  · have hp2 : l.positive = false := by simpa using hp
    simp [hp2, hq]
  · have hp2 : l.positive = false := by simpa using hp
    have hq2 : y.positive = false := by simpa using hq
    have hidx : y.index ≠ l.index := by
      rcases hvar with h1 | h2
      · exact h1
      · exact absurd (hq2.trans hp2.symm) h2
    simp only [hp2, hq2, Bool.false_eq_true, if_false]
    rw [List.getD_eq_getElem?_getD, List.getD_eq_getElem?_getD,
      List.getElem?_set_ne (by omega)]

theorem setRow_lengths {w : Watch} {l : Literal} {r : List WatchElement} :
    ((w.setRow l r).positive.length = w.positive.length) ∧
      ((w.setRow l r).negative.length = w.negative.length) := by
  unfold setRow
  by_cases hp : l.positive = true <;> simp [hp]

theorem setCell_lengths {w : Watch} {l : Literal} {v : Nat}
    {col : Option Nat} :
    ((w.setCell l v col).positive.length = w.positive.length) ∧
      ((w.setCell l v col).negative.length = w.negative.length) := by
  unfold setCell
  cases h : (w.row l)[v]? <;> simp only [h]
  · trivial
  · exact setRow_lengths

/-- A nonempty row forces the variable index in range (the row selector
reads via getD, which yields the empty default out of range). -/
theorem row_bound {w : Watch} {l : Literal} (h : w.row l ≠ []) :
    if l.positive then l.index < w.positive.length
      else l.index < w.negative.length := by
  unfold row at h
  by_cases hp : l.positive = true
  · simp only [hp, if_true] at h ⊢
    by_contra hc
    push_neg at hc
    apply h
    rw [List.getD_eq_getElem?_getD, List.getElem?_eq_none_iff.mpr (by omega)]
    rfl
  · have hp2 : l.positive = false := by simpa using hp
    simp only [hp2, Bool.false_eq_true, if_false] at h ⊢
    by_contra hc
    push_neg at hc
    apply h
    rw [List.getD_eq_getElem?_getD, List.getElem?_eq_none_iff.mpr (by omega)]
    rfl

theorem row_setCell_self {w : Watch} {l : Literal} {v : Nat}
    {col : Option Nat} {e : WatchElement} (hv : (w.row l)[v]? = some e) :
    (w.setCell l v col).row l = (w.row l).set v ⟨e.clause_idx, col⟩ := by
  unfold setCell
  simp only [hv]
  apply row_setRow_self
  apply row_bound
  intro hnil
  rw [hnil] at hv
  simp at hv

theorem row_setCell_other {w : Watch} {l y : Literal} {v : Nat}
    {col : Option Nat} (h : y ≠ l) :
    (w.setCell l v col).row y = w.row y := by
  unfold setCell
  cases hv : (w.row l)[v]? <;> simp only [hv]
  exact row_setRow_other h

end Watch

/-! ### swapRemove and counting lemmas -/

theorem swapRemove_length {α : Type} {xs : List α} (h : xs ≠ []) (i : Nat) :
    (swapRemove xs i).length = xs.length - 1 := by
  unfold swapRemove
  rw [List.getLast?_eq_getLast _ h]
  simp

theorem getLast?_set_self_last {α : Type} {xs : List α} {v : α}
    (hlast : xs.getLast? = some v) (i : Nat) :
    (xs.set i v).getLast? = some v := by
  have hlen : 0 < xs.length := by
    cases xs
    · simp at hlast
    · simp
  rw [List.getLast?_eq_getElem?] at hlast ⊢
  rw [List.length_set]
  by_cases hil : i = xs.length - 1
  · subst hil
    rw [List.getElem?_set_self (by omega)]
  · rw [List.getElem?_set_ne hil]
    exact hlast

theorem swapRemove_getElem? {α : Type} {xs : List α} {i j : Nat}
    (hi : i < xs.length) (hj : j < xs.length - 1) :
    (swapRemove xs i)[j]? =
      if j = i then xs[xs.length - 1]? else xs[j]? := by
  have hne : xs ≠ [] := by
    intro h
    subst h
    simp at hi
  unfold swapRemove
  rw [List.getLast?_eq_getLast _ hne]
  rw [List.getElem?_dropLast]
  rw [if_pos (by rw [List.length_set]; omega)]
  by_cases hij : j = i
  · subst hij
    rw [List.getElem?_set_self (by omega), if_pos rfl]
    rw [List.getLast_eq_getElem]
    rw [List.getElem?_eq_getElem (by omega)]
  · rw [List.getElem?_set_ne (by omega), if_neg hij]

theorem mem_swapRemove {α : Type} {xs : List α} {i : Nat} {a : α}
    (h : a ∈ swapRemove xs i) : a ∈ xs := by
  unfold swapRemove at h
  cases hl : xs.getLast? with
  | none => rw [hl] at h; exact h
  | some last =>
    rw [hl] at h
    have h1 := List.mem_of_mem_dropLast h
    rcases List.mem_or_eq_of_mem_set h1 with h2 | h2
    · exact h2
    · subst h2
      rw [List.getLast?_eq_getElem?] at hl
      exact List.getElem?_mem hl

theorem countP_set_eq {α : Type} (p : α → Bool) (xs : List α) (i : Nat)
    (b : α) (hi : i < xs.length) :
    (xs.set i b).countP p + (if p xs[i] then 1 else 0) =
      xs.countP p + (if p b then 1 else 0) := by
  induction xs generalizing i with
  | nil => simp at hi
  | cons x xs ih =>
    cases i with
    | zero => simp [List.countP_cons]; omega
    | succ j =>
      rw [List.set_cons_succ]
      simp only [List.countP_cons, List.getElem_cons_succ]
      have := ih j (by simpa using hi)
      omega

theorem countP_dropLast_eq {α : Type} (p : α → Bool) (xs : List α)
    {last : α} (h : xs.getLast? = some last) :
    xs.countP p = xs.dropLast.countP p + (if p last then 1 else 0) := by
  have hne : xs ≠ [] := by
    intro he
    subst he
    simp at h
  have hl : xs.getLast hne = last := by
    rw [List.getLast?_eq_getLast _ hne] at h
    simpa using h
  conv_lhs => rw [← List.dropLast_append_getLast hne]
  rw [List.countP_append, hl]
  simp [List.countP_cons]

theorem countP_swapRemove {α : Type} (p : α → Bool) (xs : List α) (i : Nat)
    (hi : i < xs.length) :
    (swapRemove xs i).countP p + (if p xs[i] then 1 else 0) =
      xs.countP p := by
  have hne : xs ≠ [] := by
    intro h
    subst h
    simp at hi
  have hlast := List.getLast?_eq_getLast _ hne
  have h1 := countP_set_eq p xs i (xs.getLast hne) hi
  have h2 := getLast?_set_self_last hlast i
  have h3 := countP_dropLast_eq p (xs.set i (xs.getLast hne)) h2
  unfold swapRemove
  rw [hlast]
  show ((xs.set i (xs.getLast hne)).dropLast).countP p +
    (if p xs[i] then 1 else 0) = xs.countP p
  omega

/-! ### Bucket lemmas -/

namespace ClauseStateCache

theorem get_setBucket (cache : ClauseStateCache) (s s2 : ClauseStatus)
    (v : Finset Nat) :
    (cache.setBucket s v).get s2 = if s2 = s then v else cache.get s2 := by
  cases s <;> cases s2 <;> simp [setBucket, get]

/-- The bucket contents after handle_change with distinct statuses. -/
theorem handle_change_get {cache : ClauseStateCache}
    {old new : ClauseStatus} {idx : Nat} (hon : old ≠ new)
    (s : ClauseStatus) :
    (cache.handle_change ⟨old, new⟩ idx).get s =
      if s = new then insert idx (cache.get new)
      else if s = old then (cache.get old).erase idx
      else cache.get s := by
  unfold handle_change
  rw [if_pos (by simpa using hon)]
  by_cases hsn : s = new
  · subst hsn
    rw [get_setBucket, if_pos rfl, get_setBucket,
      if_neg (fun h => hon h.symm), if_pos rfl]
  · rw [get_setBucket, if_neg hsn, get_setBucket, if_neg hsn]

theorem handle_change_same {cache : ClauseStateCache} {s : ClauseStatus}
    {idx : Nat} : cache.handle_change ⟨s, s⟩ idx = cache := by
  unfold handle_change
  rw [if_neg (by simp)]

/-- Effect of handle_change on bucket membership, given that the moved
index sat exactly in the bucket of its old status (the condition the
source asserts). -/
theorem handle_change_spec {cache : ClauseStateCache}
    {old new : ClauseStatus} {idx : Nat}
    (hex : ∀ s, idx ∈ cache.get s ↔ s = old) :
    (∀ s, idx ∈ (cache.handle_change ⟨old, new⟩ idx).get s ↔ s = new) ∧
    (∀ j, j ≠ idx → ∀ s,
      (j ∈ (cache.handle_change ⟨old, new⟩ idx).get s ↔ j ∈ cache.get s)) := by
  by_cases hon : old = new
  · subst hon
    rw [handle_change_same]
    exact ⟨hex, fun j hj s => Iff.rfl⟩
  · constructor
    · intro s
      rw [handle_change_get hon]
      by_cases hsn : s = new
      · simp [hsn]
      · rw [if_neg hsn]
        by_cases hso : s = old
        · subst hso
          simp [Finset.mem_erase, hsn]
        · simp [hso, hsn, hex s]
    · intro j hj s
      rw [handle_change_get hon]
      by_cases hsn : s = new
      · subst hsn
        rw [if_pos rfl, Finset.mem_insert]
        simp [hj]
      · rw [if_neg hsn]
        by_cases hso : s = old
        · subst hso
          simp [Finset.mem_erase, hj]
        · simp [hso]

theorem handle_change_sub {cache : ClauseStateCache}
    {old new : ClauseStatus} {idx n : Nat} (hidx : idx < n)
    (hsub : ∀ s, ∀ j ∈ cache.get s, j < n) :
    ∀ s, ∀ j ∈ (cache.handle_change ⟨old, new⟩ idx).get s, j < n := by
  by_cases hon : old = new
  · subst hon
    rw [handle_change_same]
    exact hsub
  · intro s j hj
    rw [handle_change_get hon] at hj
    by_cases hsn : s = new
    · rw [if_pos hsn, Finset.mem_insert] at hj
      rcases hj with rfl | hj
      · exact hidx
      · exact hsub new j hj
    · rw [if_neg hsn] at hj
      by_cases hso : s = old
      · rw [if_pos hso] at hj
        exact hsub old j (Finset.mem_of_mem_erase hj)
      · rw [if_neg hso] at hj
        exact hsub s j hj

end ClauseStateCache

/-! ### Pointwise characterization of a cell update -/

theorem getElem?_row_setCell {W : Watch} {l : Literal} {i : Nat}
    {col : Option Nat} {e : WatchElement} (he : (W.row l)[i]? = some e)
    (y : Literal) (v : Nat) :
    ((W.setCell l i col).row y)[v]? =
      if y = l ∧ v = i then some ⟨e.clause_idx, col⟩
      else (W.row y)[v]? := by
  have hib : i < (W.row l).length := (List.getElem?_eq_some_iff.mp he).1
  by_cases hy : y = l
  · subst hy
    rw [Watch.row_setCell_self he]
    by_cases hv : v = i
    · subst hv
      rw [List.getElem?_set_self hib, if_pos ⟨rfl, rfl⟩]
    · rw [List.getElem?_set_ne (fun h => hv h.symm), if_neg (by simp [hv])]
  · rw [Watch.row_setCell_other hy, if_neg (by simp [hy])]

/-! ### Specification of one set_literal loop iteration -/

/-- What one setLiteralStep does, beyond preserving CoreInv: the stats of
the watched clause are bumped, one live occurrence of l disappears from
it, the visited cell is cleared, and everything else is untouched. -/
structure SetStepOut (t t2 : Tracker) (l : Literal) (idx : Nat)
    (satFlag : Bool) (i : Nat) : Prop where
  assign : t2.assignments = t.assignments
  nv : t2.num_variables = t.num_variables
  ac : t2.assigned_count = t.assigned_count
  clen : t2.clauses.length = t.clauses.length
  other : ∀ j, j ≠ idx → t2.clauses[j]? = t.clauses[j]?
  main : ∃ tc tc2, t.clauses[idx]? = some tc ∧ t2.clauses[idx]? = some tc2 ∧
    tc2.original = tc.original ∧
    tc2.stat.total = tc.stat.total ∧
    tc2.stat.satisfied = tc.stat.satisfied + (if satFlag then 1 else 0) ∧
    tc2.stat.unsatisfied = tc.stat.unsatisfied + (if satFlag then 0 else 1) ∧
    tc2.literals.length + 1 = tc.literals.length ∧
    (∀ y : Literal, liveCount tc y = liveCount tc2 y +
      (if y = l then 1 else 0))
  rowmap : ∀ y : Literal, (t2.watch.row y).map (fun e => e.clause_idx) =
    (t.watch.row y).map (fun e => e.clause_idx)
  cellVisited : ((t2.watch.row l)[i]?).map (fun e => e.clause_col) =
    some none
  cellOther : ∀ (y : Literal) (v : Nat), ¬(y = l ∧ v = i) →
    ((t2.watch.row y)[v]?).map (fun e => e.clause_col.isSome) =
      ((t.watch.row y)[v]?).map (fun e => e.clause_col.isSome)

theorem setLiteralStep_spec {t : Tracker} {l : Literal} {satFlag : Bool}
    {i : Nat} {w : WatchElement} (hcore : CoreInv t)
    (hrow : (t.watch.row l)[i]? = some w) {c : Nat}
    (hcol : w.clause_col = some c) :
    CoreInv (Tracker.setLiteralStep t l satFlag i) ∧
      SetStepOut t (Tracker.setLiteralStep t l satFlag i) l w.clause_idx
        satFlag i := by
  obtain ⟨tc, htc, hlc⟩ := hcore.backOk l i w hrow c hcol
  have hclt : c < tc.literals.length := (List.getElem?_eq_some_iff.mp hlc).1
  have hlcv : tc.literals[c] = ⟨l, i⟩ := by
    obtain ⟨h1, h2⟩ := List.getElem?_eq_some_iff.mp hlc
    exact h2
  have hlitne : tc.literals ≠ [] := by
    intro h
    rw [h] at hlc
    simp at hlc
  have hidxlt : w.clause_idx < t.clauses.length := hcore.idxOk l i w hrow
  have hwid : w = ⟨w.clause_idx, some c⟩ := by
    cases w
    simp_all
  -- the updated stat
  have hprt : ((if satFlag then tc.stat.increment_satisfied
      else tc.stat.increment_unsatisfied)).1.total = tc.stat.total := by
    cases satFlag <;> rfl
  have hprs : ((if satFlag then tc.stat.increment_satisfied
      else tc.stat.increment_unsatisfied)).1.satisfied =
      tc.stat.satisfied + (if satFlag then 1 else 0) := by
    cases satFlag <;> simp [ClauseStat.increment_satisfied,
      ClauseStat.increment_unsatisfied]
  have hpru : ((if satFlag then tc.stat.increment_satisfied
      else tc.stat.increment_unsatisfied)).1.unsatisfied =
      tc.stat.unsatisfied + (if satFlag then 0 else 1) := by
    cases satFlag <;> simp [ClauseStat.increment_satisfied,
      ClauseStat.increment_unsatisfied]
  have hprst : ((if satFlag then tc.stat.increment_satisfied
      else tc.stat.increment_unsatisfied)).1.status =
      ClauseStatus.from_count
        ((if satFlag then tc.stat.increment_satisfied
          else tc.stat.increment_unsatisfied)).1.total
        ((if satFlag then tc.stat.increment_satisfied
          else tc.stat.increment_unsatisfied)).1.satisfied
        ((if satFlag then tc.stat.increment_satisfied
          else tc.stat.increment_unsatisfied)).1.unsatisfied := by
    cases satFlag <;> rfl
  have hprch : ((if satFlag then tc.stat.increment_satisfied
      else tc.stat.increment_unsatisfied)).2 =
      ⟨tc.stat.status, ((if satFlag then tc.stat.increment_satisfied
        else tc.stat.increment_unsatisfied)).1.status⟩ := by
    cases satFlag <;> rfl
  have hstep : Tracker.setLiteralStep t l satFlag i =
      Tracker.fixup_clause
        { t with
          clauses := t.clauses.set w.clause_idx
            ⟨(if satFlag then tc.stat.increment_satisfied
              else tc.stat.increment_unsatisfied).1, tc.original,
              swapRemove tc.literals c⟩
          clause_cache := t.clause_cache.handle_change
            (if satFlag then tc.stat.increment_satisfied
              else tc.stat.increment_unsatisfied).2 w.clause_idx
          watch := t.watch.setCell l i none }
        w.clause_idx c := by
    unfold Tracker.setLiteralStep
    simp only [hrow, htc, hcol]
  rw [hstep]
  set tc2 : TrackedClause :=
    ⟨(if satFlag then tc.stat.increment_satisfied
      else tc.stat.increment_unsatisfied).1, tc.original,
      swapRemove tc.literals c⟩ with htc2
  set t2big : Tracker :=
    { t with
      clauses := t.clauses.set w.clause_idx tc2
      clause_cache := t.clause_cache.handle_change
        (if satFlag then tc.stat.increment_satisfied
          else tc.stat.increment_unsatisfied).2 w.clause_idx
      watch := t.watch.setCell l i none } with ht2bigdef
  have e1 : t2big.clauses = t.clauses.set w.clause_idx tc2 := rfl
  have e2 : t2big.watch = t.watch.setCell l i none := rfl
  have e4 : t2big.assignments = t.assignments := rfl
  have ht2c : t2big.clauses[w.clause_idx]? = some tc2 := by
    rw [e1]
    exact List.getElem?_set_self hidxlt
  have hother2 : ∀ j, j ≠ w.clause_idx → t2big.clauses[j]? = t.clauses[j]? := by
    intro j hj
    rw [e1]
    exact List.getElem?_set_ne (fun h => hj h.symm)
  have hclen2 : t2big.clauses.length = t.clauses.length := by
    rw [e1]
    simp
  have htcof : ∀ {tcx : TrackedClause},
      t.clauses[w.clause_idx]? = some tcx → tcx = tc := by
    intro tcx h
    have h2 := htc.symm.trans h
    exact (Option.some.inj h2).symm
  have htc2of : ∀ {tcx : TrackedClause},
      t2big.clauses[w.clause_idx]? = some tcx → tcx = tc2 := by
    intro tcx h
    have h2 := ht2c.symm.trans h
    exact (Option.some.inj h2).symm
  have htc2o : tc2.original = tc.original := rfl
  have htc2l : tc2.literals = swapRemove tc.literals c := rfl
  have hlen2 : tc2.literals.length + 1 = tc.literals.length := by
    rw [htc2l, swapRemove_length hlitne]
    omega
  have hlive2 : ∀ y : Literal, liveCount tc y = liveCount tc2 y +
      (if y = l then 1 else 0) := by
    intro y
    have hc := countP_swapRemove (fun wl => wl.literal = y) tc.literals c hclt
    rw [hlcv] at hc
    unfold liveCount
    rw [htc2l]
    split_ifs at hc with hcond
    · have hly : l = y := by simpa using hcond
      rw [if_pos hly.symm]
      omega
    · have hly : ¬ l = y := by simpa using hcond
      rw [if_neg (fun h => hly h.symm)]
      omega
  have e3p : t2big.clause_cache = t.clause_cache.handle_change
      ⟨tc.stat.status, (if satFlag then tc.stat.increment_satisfied
        else tc.stat.increment_unsatisfied).1.status⟩ w.clause_idx := by
    show t.clause_cache.handle_change _ _ = _
    rw [hprch]
  have hbspec := @ClauseStateCache.handle_change_spec t.clause_cache
    tc.stat.status
    ((if satFlag then tc.stat.increment_satisfied
      else tc.stat.increment_unsatisfied).1.status)
    w.clause_idx (fun s => hcore.bucketOk w.clause_idx tc htc s)
  have hbidx : ∀ s, w.clause_idx ∈ t2big.clause_cache.get s ↔
      s = (if satFlag then tc.stat.increment_satisfied
        else tc.stat.increment_unsatisfied).1.status := by
    intro s
    rw [e3p]
    exact hbspec.1 s
  have hbother : ∀ j, j ≠ w.clause_idx →
      ∀ s, (j ∈ t2big.clause_cache.get s ↔ j ∈ t.clause_cache.get s) := by
    intro j hj s
    rw [e3p]
    exact hbspec.2 j hj s
  have hbsub : ∀ s, ∀ j ∈ t2big.clause_cache.get s, j < t.clauses.length := by
    intro s j hm
    rw [e3p] at hm
    exact ClauseStateCache.handle_change_sub hidxlt hcore.bucketSub s j hm
  by_cases hcB : c + 1 = tc.literals.length
  · -- the removed column is the last live column: no fixup
    have hfixnone : tc2.literals[c]? = none := by
      rw [htc2l]
      apply List.getElem?_eq_none_iff.mpr
      rw [swapRemove_length hlitne]
      omega
    have hfixA : Tracker.fixup_clause t2big w.clause_idx c = t2big := by
      unfold Tracker.fixup_clause
      simp only [ht2c, hfixnone]
    rw [hfixA]
    have hrowchar : ∀ (y : Literal) (v : Nat), ((t2big.watch.row y)[v]?) =
        if y = l ∧ v = i then some ⟨w.clause_idx, none⟩
        else (t.watch.row y)[v]? := by
      intro y v
      rw [e2]
      exact getElem?_row_setCell hrow y v
    have hrowmap : ∀ y : Literal,
        (t2big.watch.row y).map (fun e => e.clause_idx) =
          (t.watch.row y).map (fun e => e.clause_idx) := by
      intro y
      apply List.ext_getElem?
      intro v
      rw [List.getElem?_map, List.getElem?_map, hrowchar]
      by_cases h1 : y = l ∧ v = i
      · rw [if_pos h1]
        obtain ⟨rfl, rfl⟩ := h1
        rw [hrow]
        rfl
      · rw [if_neg h1]
    have hrowcount : ∀ (y : Literal) (j : Nat),
        rowIdxCount t2big y j = rowIdxCount t y j := by
      intro y j
      unfold rowIdxCount
      have hmapped : ∀ (r : List WatchElement),
          r.countP (fun e => e.clause_idx = j) =
            (r.map (fun e => e.clause_idx)).countP (fun x => x = j) := by
        intro r
        rw [List.countP_map]
        rfl
      rw [hmapped, hmapped, hrowmap]
    have hlits2get : ∀ d, d + 1 < tc.literals.length →
        tc2.literals[d]? = tc.literals[d]? := by
      intro d hd
      rw [htc2l, swapRemove_getElem? hclt (by omega), if_neg (by omega)]
    refine ⟨⟨hcore.alen, ?_, ?_, ?_, ?_, ?_, ?_, ?_, ?_, ?_, ?_, ?_⟩,
      ⟨rfl, rfl, rfl, hclen2, hother2, ?_, hrowmap, ?_, ?_⟩⟩
    · show (t2big.watch).positive.length = t.num_variables
      rw [e2, Watch.setCell_lengths.1]
      exact hcore.wplen
    · show (t2big.watch).negative.length = t.num_variables
      rw [e2, Watch.setCell_lengths.2]
      exact hcore.wnlen
    · -- idxOk
      intro y v w2 h
      rw [hrowchar] at h
      rw [hclen2]
      by_cases h1 : y = l ∧ v = i
      · rw [if_pos h1] at h
        obtain rfl : (⟨w.clause_idx, none⟩ : WatchElement) = w2 := by
          simpa using h
        exact hidxlt
      · rw [if_neg h1] at h
        exact hcore.idxOk y v w2 h
    · -- backOk
      intro y v w2 h d hd
      rw [hrowchar] at h
      by_cases h1 : y = l ∧ v = i
      · rw [if_pos h1] at h
        obtain rfl : (⟨w.clause_idx, none⟩ : WatchElement) = w2 := by
          simpa using h
        cases hd
      · rw [if_neg h1] at h
        obtain ⟨tcj, htcj, hlitsj⟩ := hcore.backOk y v w2 h d hd
        by_cases hj : w2.clause_idx = w.clause_idx
        · obtain rfl : tc = tcj := (htcof (hj ▸ htcj)).symm
          have hdlt : d < tc.literals.length :=
            (List.getElem?_eq_some_iff.mp hlitsj).1
          have hdc : d ≠ c := by
            intro hdc
            subst hdc
            rw [List.getElem?_eq_getElem hdlt, hlcv] at hlitsj
            have hinj := Option.some.inj hlitsj
            rw [WatchedLiteral.mk.injEq] at hinj
            exact h1 ⟨hinj.1.symm, hinj.2.symm⟩
          refine ⟨tc2, by rw [hj]; exact ht2c, ?_⟩
          rw [hlits2get d (by omega)]
          exact hlitsj
        · exact ⟨tcj, by rw [hother2 w2.clause_idx hj]; exact htcj, hlitsj⟩
    · -- fwdOk
      intro j d tcj wl htcj hwl
      by_cases hj : j = w.clause_idx
      · subst hj
        obtain rfl : tc2 = tcj := (htc2of htcj).symm
        have hd2 : d < tc2.literals.length :=
          (List.getElem?_eq_some_iff.mp hwl).1
        rw [hlits2get d (by omega)] at hwl
        obtain ⟨hwli, hwlrow⟩ := hcore.fwdOk w.clause_idx d tc wl htc hwl
        refine ⟨hwli, ?_⟩
        rw [hrowchar]
        rw [if_neg ?_]
        · exact hwlrow
        · rintro ⟨hy, hv⟩
          rw [hy, hv, hrow] at hwlrow
          have hweq := Option.some.inj hwlrow
          have hcd : c = d := by
            have h2 : w.clause_col = some d := by rw [hweq]
            rw [hcol] at h2
            simpa using h2
          omega
      · have htcj2 : t.clauses[j]? = some tcj := by
          rw [← hother2 j hj]
          exact htcj
        obtain ⟨hwli, hwlrow⟩ := hcore.fwdOk j d tcj wl htcj2 hwl
        refine ⟨hwli, ?_⟩
        rw [hrowchar]
        rw [if_neg ?_]
        · exact hwlrow
        · rintro ⟨hy, hv⟩
          rw [hy, hv, hrow] at hwlrow
          have hweq := Option.some.inj hwlrow
          have h2 : w.clause_idx = j := by rw [hweq]
          exact hj h2.symm
    · -- rowCountOk
      intro y j tcj htcj
      rw [show rowIdxCount t2big y j = rowIdxCount t y j from hrowcount y j]
      by_cases hj : j = w.clause_idx
      · subst hj
        obtain rfl : tc2 = tcj := (htc2of htcj).symm
        rw [htc2o]
        exact hcore.rowCountOk y w.clause_idx tc htc
      · exact hcore.rowCountOk y j tcj (by rw [← hother2 j hj]; exact htcj)
    · -- sumOk
      intro j tcj htcj
      by_cases hj : j = w.clause_idx
      · subst hj
        obtain rfl : tc2 = tcj := (htc2of htcj).symm
        obtain ⟨hsum, htot⟩ := hcore.sumOk w.clause_idx tc htc
        constructor
        · show tc2.stat.satisfied + tc2.stat.unsatisfied +
            tc2.literals.length = tc2.stat.total
          rw [show tc2.stat = _ from rfl]
          rw [hprs, hpru, hprt]
          have hone : (if satFlag then (1:Nat) else 0) +
              (if satFlag then (0:Nat) else 1) = 1 := by
            cases satFlag <;> rfl
          have hl2 : tc2.literals.length + 1 = tc.literals.length := hlen2
          omega
        · show tc2.stat.total = tc2.original.length
          rw [show tc2.stat = _ from rfl, hprt, htc2o]
          exact htot
      · exact hcore.sumOk j tcj (by rw [← hother2 j hj]; exact htcj)
    · -- statOk
      intro j tcj htcj
      by_cases hj : j = w.clause_idx
      · subst hj
        obtain rfl : tc2 = tcj := (htc2of htcj).symm
        exact hprst
      · exact hcore.statOk j tcj (by rw [← hother2 j hj]; exact htcj)
    · -- bucketSub
      intro s j hm
      rw [hclen2]
      exact hbsub s j hm
    · -- bucketOk
      intro j tcj htcj s
      by_cases hj : j = w.clause_idx
      · subst hj
        obtain rfl : tc2 = tcj := (htc2of htcj).symm
        exact hbidx s
      · rw [hbother j hj s]
        exact hcore.bucketOk j tcj (by rw [← hother2 j hj]; exact htcj) s
    · -- origIdxOk
      intro j tcj htcj y hy
      by_cases hj : j = w.clause_idx
      · subst hj
        obtain rfl : tc2 = tcj := (htc2of htcj).symm
        rw [htc2o] at hy
        exact hcore.origIdxOk w.clause_idx tc htc y hy
      · exact hcore.origIdxOk j tcj (by rw [← hother2 j hj]; exact htcj) y hy
    · -- main
      exact ⟨tc, tc2, htc, ht2c, htc2o, hprt, hprs, hpru, hlen2, hlive2⟩
    · -- cellVisited
      rw [hrowchar l i, if_pos ⟨rfl, rfl⟩]
      rfl
    · -- cellOther
      intro y v h1
      rw [hrowchar, if_neg h1]
  · -- the removed column is not the last: the last live literal moves in
    have hcBlt : c + 1 < tc.literals.length := by omega
    obtain ⟨ml, hmlget⟩ :
        ∃ ml, tc.literals[tc.literals.length - 1]? = some ml := by
      rw [List.getElem?_eq_getElem (by omega)]
      exact ⟨_, rfl⟩
    have hfixsome : tc2.literals[c]? = some ml := by
      rw [htc2l, swapRemove_getElem? hclt (by omega), if_pos rfl]
      exact hmlget
    obtain ⟨hmlidx, hmlrow⟩ := hcore.fwdOk w.clause_idx
      (tc.literals.length - 1) tc ml htc hmlget
    have hmlne : ¬(ml.literal = l ∧ ml.variable_col = i) := by
      rintro ⟨h1, h2⟩
      rw [h1, h2] at hmlrow
      have heq := Option.some.inj (hrow.symm.trans hmlrow)
      have h3 : w.clause_col = some (tc.literals.length - 1) := by rw [heq]
      rw [hcol] at h3
      have h4 : c = tc.literals.length - 1 := by simpa using h3
      omega
    have hrowchar2 : ∀ (y : Literal) (v : Nat), ((t2big.watch.row y)[v]?) =
        if y = l ∧ v = i then some ⟨w.clause_idx, none⟩
        else (t.watch.row y)[v]? := by
      intro y v
      rw [e2]
      exact getElem?_row_setCell hrow y v
    have hmlrow2 : (t2big.watch.row ml.literal)[ml.variable_col]? =
        some ⟨w.clause_idx, some (tc.literals.length - 1)⟩ := by
      rw [hrowchar2, if_neg hmlne]
      exact hmlrow
    have hfixB : Tracker.fixup_clause t2big w.clause_idx c =
        { t2big with watch := (t2big.watch.setCell ml.literal
            ml.variable_col (some c)) } := by
      unfold Tracker.fixup_clause
      simp only [ht2c, hfixsome]
    rw [hfixB]
    set t3big : Tracker := { t2big with
      watch := (t2big.watch.setCell ml.literal ml.variable_col (some c)) }
      with ht3bigdef
    have e3w : t3big.watch =
        t2big.watch.setCell ml.literal ml.variable_col (some c) := rfl
    have ht3c : t3big.clauses[w.clause_idx]? = some tc2 := ht2c
    have hother3 : ∀ j, j ≠ w.clause_idx →
        t3big.clauses[j]? = t.clauses[j]? := hother2
    have hclen3 : t3big.clauses.length = t.clauses.length := hclen2
    have htc3of : ∀ {tcx : TrackedClause},
        t3big.clauses[w.clause_idx]? = some tcx → tcx = tc2 := htc2of
    have hbidx3 : ∀ s, w.clause_idx ∈ t3big.clause_cache.get s ↔
        s = (if satFlag then tc.stat.increment_satisfied
          else tc.stat.increment_unsatisfied).1.status := hbidx
    have hbother3 : ∀ j, j ≠ w.clause_idx →
        ∀ s, (j ∈ t3big.clause_cache.get s ↔ j ∈ t.clause_cache.get s) :=
      hbother
    have hbsub3 : ∀ s, ∀ j ∈ t3big.clause_cache.get s,
        j < t.clauses.length := hbsub
    have hrowchar : ∀ (y : Literal) (v : Nat), ((t3big.watch.row y)[v]?) =
        if y = ml.literal ∧ v = ml.variable_col then
          some ⟨w.clause_idx, some c⟩
        else if y = l ∧ v = i then some ⟨w.clause_idx, none⟩
        else (t.watch.row y)[v]? := by
      intro y v
      rw [e3w, getElem?_row_setCell hmlrow2 y v]
      by_cases h1 : y = ml.literal ∧ v = ml.variable_col
      · rw [if_pos h1, if_pos h1]
      · rw [if_neg h1, if_neg h1]
        exact hrowchar2 y v
    have hrowmap : ∀ y : Literal,
        (t3big.watch.row y).map (fun e => e.clause_idx) =
          (t.watch.row y).map (fun e => e.clause_idx) := by
      intro y
      apply List.ext_getElem?
      intro v
      rw [List.getElem?_map, List.getElem?_map, hrowchar]
      by_cases h1 : y = ml.literal ∧ v = ml.variable_col
      · rw [if_pos h1]
        obtain ⟨rfl, rfl⟩ := h1
        rw [hmlrow]
        rfl
      · rw [if_neg h1]
        by_cases h2 : y = l ∧ v = i
        · rw [if_pos h2]
          obtain ⟨rfl, rfl⟩ := h2
          rw [hrow]
          rfl
        · rw [if_neg h2]
    have hrowcount : ∀ (y : Literal) (j : Nat),
        rowIdxCount t3big y j = rowIdxCount t y j := by
      intro y j
      unfold rowIdxCount
      have hmapped : ∀ (r : List WatchElement),
          r.countP (fun e => e.clause_idx = j) =
            (r.map (fun e => e.clause_idx)).countP (fun x => x = j) := by
        intro r
        rw [List.countP_map]
        rfl
      rw [hmapped, hmapped, hrowmap]
    have hlits2get : ∀ d, d + 1 < tc.literals.length → d ≠ c →
        tc2.literals[d]? = tc.literals[d]? := by
      intro d hd hdc
      rw [htc2l, swapRemove_getElem? hclt (by omega), if_neg hdc]
    refine ⟨⟨hcore.alen, ?_, ?_, ?_, ?_, ?_, ?_, ?_, ?_, ?_, ?_, ?_⟩,
      ⟨rfl, rfl, rfl, hclen3, hother3, ?_, hrowmap, ?_, ?_⟩⟩
    · show (t3big.watch).positive.length = t.num_variables
      rw [e3w, Watch.setCell_lengths.1, e2, Watch.setCell_lengths.1]
      exact hcore.wplen
    · show (t3big.watch).negative.length = t.num_variables
      rw [e3w, Watch.setCell_lengths.2, e2, Watch.setCell_lengths.2]
      exact hcore.wnlen
    · -- idxOk
      intro y v w2 h
      rw [hrowchar] at h
      rw [hclen3]
      by_cases h1 : y = ml.literal ∧ v = ml.variable_col
      · rw [if_pos h1] at h
        obtain rfl : (⟨w.clause_idx, some c⟩ : WatchElement) = w2 := by
          simpa using h
        exact hidxlt
      · rw [if_neg h1] at h
        by_cases h2 : y = l ∧ v = i
        · rw [if_pos h2] at h
          obtain rfl : (⟨w.clause_idx, none⟩ : WatchElement) = w2 := by
            simpa using h
          exact hidxlt
        · rw [if_neg h2] at h
          exact hcore.idxOk y v w2 h
    · -- backOk
      intro y v w2 h d hd
      rw [hrowchar] at h
      by_cases h1 : y = ml.literal ∧ v = ml.variable_col
      · rw [if_pos h1] at h
        obtain ⟨rfl, rfl⟩ := h1
        obtain rfl : (⟨w.clause_idx, some c⟩ : WatchElement) = w2 := by
          simpa using h
        obtain rfl : c = d := by simpa using hd
        exact ⟨tc2, ht3c, by rw [hfixsome]⟩
      · rw [if_neg h1] at h
        by_cases h2 : y = l ∧ v = i
        · rw [if_pos h2] at h
          obtain rfl : (⟨w.clause_idx, none⟩ : WatchElement) = w2 := by
            simpa using h
          cases hd
        · rw [if_neg h2] at h
          obtain ⟨tcj, htcj, hlitsj⟩ := hcore.backOk y v w2 h d hd
          by_cases hj : w2.clause_idx = w.clause_idx
          · obtain rfl : tc = tcj := (htcof (hj ▸ htcj)).symm
            have hdlt : d < tc.literals.length :=
              (List.getElem?_eq_some_iff.mp hlitsj).1
            have hdc : d ≠ c := by
              intro hdc
              subst hdc
              rw [List.getElem?_eq_getElem hdlt, hlcv] at hlitsj
              have hinj := Option.some.inj hlitsj
              rw [WatchedLiteral.mk.injEq] at hinj
              exact h2 ⟨hinj.1.symm, hinj.2.symm⟩
            have hdml : d ≠ tc.literals.length - 1 := by
              intro hdm
              subst hdm
              have heq := Option.some.inj (hmlget.symm.trans hlitsj)
              exact h1 ⟨(congrArg WatchedLiteral.literal heq).symm,
                (congrArg WatchedLiteral.variable_col heq).symm⟩
            refine ⟨tc2, by rw [hj]; exact ht3c, ?_⟩
            rw [hlits2get d (by omega) hdc]
            exact hlitsj
          · exact ⟨tcj, by rw [hother3 w2.clause_idx hj]; exact htcj,
              hlitsj⟩
    · -- fwdOk
      intro j d tcj wl htcj hwl
      by_cases hj : j = w.clause_idx
      · subst hj
        obtain rfl : tc2 = tcj := (htc3of htcj).symm
        have hd2 : d < tc2.literals.length :=
          (List.getElem?_eq_some_iff.mp hwl).1
        by_cases hdc : d = c
        · subst hdc
          rw [hfixsome] at hwl
          obtain rfl : ml = wl := Option.some.inj hwl
          refine ⟨hmlidx, ?_⟩
          rw [hrowchar, if_pos ⟨rfl, rfl⟩]
        · rw [hlits2get d (by omega) hdc] at hwl
          obtain ⟨hwli, hwlrow⟩ := hcore.fwdOk w.clause_idx d tc wl htc hwl
          refine ⟨hwli, ?_⟩
          have hn1 : ¬(wl.literal = ml.literal ∧
              wl.variable_col = ml.variable_col) := by
            rintro ⟨hy, hv⟩
            rw [hy, hv] at hwlrow
            have heq := Option.some.inj (hmlrow.symm.trans hwlrow)
            have h4 := congrArg WatchElement.clause_col heq
            have h5 : tc.literals.length - 1 = d := by simpa using h4
            omega
          have hn2 : ¬(wl.literal = l ∧ wl.variable_col = i) := by
            rintro ⟨hy, hv⟩
            rw [hy, hv] at hwlrow
            have heq := Option.some.inj (hrow.symm.trans hwlrow)
            have h3 : w.clause_col = some d := by rw [heq]
            rw [hcol] at h3
            have h4 : c = d := by simpa using h3
            exact hdc h4.symm
          rw [hrowchar, if_neg hn1, if_neg hn2]
          exact hwlrow
      · have htcj2 : t.clauses[j]? = some tcj := by
          rw [← hother3 j hj]
          exact htcj
        obtain ⟨hwli, hwlrow⟩ := hcore.fwdOk j d tcj wl htcj2 hwl
        refine ⟨hwli, ?_⟩
        have hn1 : ¬(wl.literal = ml.literal ∧
            wl.variable_col = ml.variable_col) := by
          rintro ⟨hy, hv⟩
          rw [hy, hv] at hwlrow
          have heq := Option.some.inj (hmlrow.symm.trans hwlrow)
          have h4 := congrArg WatchElement.clause_idx heq
          have h5 : w.clause_idx = j := by simpa using h4
          exact hj h5.symm
        have hn2 : ¬(wl.literal = l ∧ wl.variable_col = i) := by
          rintro ⟨hy, hv⟩
          rw [hy, hv] at hwlrow
          have heq := Option.some.inj (hrow.symm.trans hwlrow)
          have h3 : w.clause_idx = j := by rw [heq]
          exact hj h3.symm
        rw [hrowchar, if_neg hn1, if_neg hn2]
        exact hwlrow
    · -- rowCountOk
      intro y j tcj htcj
      rw [show rowIdxCount t3big y j = rowIdxCount t y j from hrowcount y j]
      by_cases hj : j = w.clause_idx
      · subst hj
        obtain rfl : tc2 = tcj := (htc3of htcj).symm
        rw [htc2o]
        exact hcore.rowCountOk y w.clause_idx tc htc
      · exact hcore.rowCountOk y j tcj (by rw [← hother3 j hj]; exact htcj)
    · -- sumOk
      intro j tcj htcj
      by_cases hj : j = w.clause_idx
      · subst hj
        obtain rfl : tc2 = tcj := (htc3of htcj).symm
        obtain ⟨hsum, htot⟩ := hcore.sumOk w.clause_idx tc htc
        constructor
        · show tc2.stat.satisfied + tc2.stat.unsatisfied +
            tc2.literals.length = tc2.stat.total
          rw [show tc2.stat = _ from rfl]
          rw [hprs, hpru, hprt]
          have hone : (if satFlag then (1:Nat) else 0) +
              (if satFlag then (0:Nat) else 1) = 1 := by
            cases satFlag <;> rfl
          have hl2 : tc2.literals.length + 1 = tc.literals.length := hlen2
          omega
        · show tc2.stat.total = tc2.original.length
          rw [show tc2.stat = _ from rfl, hprt, htc2o]
          exact htot
      · exact hcore.sumOk j tcj (by rw [← hother3 j hj]; exact htcj)
    · -- statOk
      intro j tcj htcj
      by_cases hj : j = w.clause_idx
      · subst hj
        obtain rfl : tc2 = tcj := (htc3of htcj).symm
        exact hprst
      · exact hcore.statOk j tcj (by rw [← hother3 j hj]; exact htcj)
    · -- bucketSub
      intro s j hm
      rw [hclen3]
      exact hbsub3 s j hm
    · -- bucketOk
      intro j tcj htcj s
      by_cases hj : j = w.clause_idx
      · subst hj
        obtain rfl : tc2 = tcj := (htc3of htcj).symm
        exact hbidx3 s
      · rw [hbother3 j hj s]
        exact hcore.bucketOk j tcj (by rw [← hother3 j hj]; exact htcj) s
    · -- origIdxOk
      intro j tcj htcj y hy
      by_cases hj : j = w.clause_idx
      · subst hj
        obtain rfl : tc2 = tcj := (htc3of htcj).symm
        rw [htc2o] at hy
        exact hcore.origIdxOk w.clause_idx tc htc y hy
      · exact hcore.origIdxOk j tcj (by rw [← hother3 j hj]; exact htcj)
          y hy
    · -- main
      exact ⟨tc, tc2, htc, ht3c, htc2o, hprt, hprs, hpru, hlen2, hlive2⟩
    · -- cellVisited
      have hn1 : ¬(l = ml.literal ∧ i = ml.variable_col) := by
        rintro ⟨h1, h2⟩
        exact hmlne ⟨h1.symm, h2.symm⟩
      rw [hrowchar l i, if_neg hn1, if_pos ⟨rfl, rfl⟩]
      rfl
    · -- cellOther
      intro y v h1
      rw [hrowchar]
      by_cases h2 : y = ml.literal ∧ v = ml.variable_col
      · rw [if_pos h2]
        obtain ⟨rfl, rfl⟩ := h2
        rw [hmlrow]
        rfl
      · rw [if_neg h2, if_neg h1]

/-- What one unsetStep does, beyond preserving CoreInv: the stats of the
watched clause are decremented, one live occurrence of l (at the fresh
tail column) is appended to it, the visited cell becomes live again, and
everything else is untouched. -/
structure UnsetStepOut (t t2 : Tracker) (l : Literal) (idx : Nat)
    (satFlag : Bool) (i : Nat) : Prop where
  assign : t2.assignments = t.assignments
  nv : t2.num_variables = t.num_variables
  ac : t2.assigned_count = t.assigned_count
  clen : t2.clauses.length = t.clauses.length
  other : ∀ j, j ≠ idx → t2.clauses[j]? = t.clauses[j]?
  main : ∃ tc tc2, t.clauses[idx]? = some tc ∧ t2.clauses[idx]? = some tc2 ∧
    tc2.original = tc.original ∧
    tc2.stat.total = tc.stat.total ∧
    tc2.stat.satisfied + (if satFlag then 1 else 0) = tc.stat.satisfied ∧
    tc2.stat.unsatisfied + (if satFlag then 0 else 1) =
      tc.stat.unsatisfied ∧
    tc2.literals.length = tc.literals.length + 1 ∧
    (∀ y : Literal, liveCount tc2 y = liveCount tc y +
      (if y = l then 1 else 0))
  rowmap : ∀ y : Literal, (t2.watch.row y).map (fun e => e.clause_idx) =
    (t.watch.row y).map (fun e => e.clause_idx)
  cellVisited : ((t2.watch.row l)[i]?).map (fun e => e.clause_col.isSome) =
    some true
  cellOther : ∀ (y : Literal) (v : Nat), ¬(y = l ∧ v = i) →
    ((t2.watch.row y)[v]?).map (fun e => e.clause_col.isSome) =
      ((t.watch.row y)[v]?).map (fun e => e.clause_col.isSome)

theorem unsetStep_spec {t : Tracker} {l : Literal} {satFlag : Bool}
    {i : Nat} {w : WatchElement} (hcore : CoreInv t)
    (hrow : (t.watch.row l)[i]? = some w) (hcol : w.clause_col = none)
    (hpos : ∀ tc, t.clauses[w.clause_idx]? = some tc →
      0 < (if satFlag then tc.stat.satisfied else tc.stat.unsatisfied)) :
    CoreInv (Tracker.unsetStep t l satFlag i) ∧
      UnsetStepOut t (Tracker.unsetStep t l satFlag i) l w.clause_idx
        satFlag i := by
  have hidxlt : w.clause_idx < t.clauses.length := hcore.idxOk l i w hrow
  obtain ⟨tc, htc⟩ : ∃ tc, t.clauses[w.clause_idx]? = some tc := by
    rw [List.getElem?_eq_getElem hidxlt]
    exact ⟨_, rfl⟩
  have hposv := hpos tc htc
  have hrowne : t.watch.row l ≠ [] := by
    intro h
    rw [h] at hrow
    simp at hrow
  have hlidx : l.index < t.num_variables := by
    have hb := Watch.row_bound hrowne
    by_cases hp : l.positive = true
    · rw [if_pos hp] at hb
      rw [← hcore.wplen]
      exact hb
    · rw [if_neg hp] at hb
      rw [← hcore.wnlen]
      exact hb
  have hprt : ((if satFlag then tc.stat.decrement_satisfied
      else tc.stat.decrement_unsatisfied)).1.total = tc.stat.total := by
    cases satFlag <;> rfl
  have hprs : ((if satFlag then tc.stat.decrement_satisfied
      else tc.stat.decrement_unsatisfied)).1.satisfied +
      (if satFlag then 1 else 0) = tc.stat.satisfied := by
    cases satFlag
    · rfl
    · have h0 : 0 < tc.stat.satisfied := hposv
      show tc.stat.satisfied - 1 + 1 = tc.stat.satisfied
      omega
  have hpru : ((if satFlag then tc.stat.decrement_satisfied
      else tc.stat.decrement_unsatisfied)).1.unsatisfied +
      (if satFlag then 0 else 1) = tc.stat.unsatisfied := by
    cases satFlag
    · have h0 : 0 < tc.stat.unsatisfied := hposv
      show tc.stat.unsatisfied - 1 + 1 = tc.stat.unsatisfied
      omega
    · rfl
  have hprst : ((if satFlag then tc.stat.decrement_satisfied
      else tc.stat.decrement_unsatisfied)).1.status =
      ClauseStatus.from_count
        ((if satFlag then tc.stat.decrement_satisfied
          else tc.stat.decrement_unsatisfied)).1.total
        ((if satFlag then tc.stat.decrement_satisfied
          else tc.stat.decrement_unsatisfied)).1.satisfied
        ((if satFlag then tc.stat.decrement_satisfied
          else tc.stat.decrement_unsatisfied)).1.unsatisfied := by
    cases satFlag <;> rfl
  have hprch : ((if satFlag then tc.stat.decrement_satisfied
      else tc.stat.decrement_unsatisfied)).2 =
      ⟨tc.stat.status, ((if satFlag then tc.stat.decrement_satisfied
        else tc.stat.decrement_unsatisfied)).1.status⟩ := by
    cases satFlag <;> rfl
  have hstep : Tracker.unsetStep t l satFlag i =
      { t with
        clauses := t.clauses.set w.clause_idx
          ⟨(if satFlag then tc.stat.decrement_satisfied
            else tc.stat.decrement_unsatisfied).1, tc.original,
            tc.literals ++ [⟨l, i⟩]⟩
        clause_cache := t.clause_cache.handle_change
          (if satFlag then tc.stat.decrement_satisfied
            else tc.stat.decrement_unsatisfied).2 w.clause_idx
        watch := t.watch.setCell l i (some tc.literals.length) } := by
    unfold Tracker.unsetStep
    simp only [hrow, htc]
  rw [hstep]
  set tc2 : TrackedClause :=
    ⟨(if satFlag then tc.stat.decrement_satisfied
      else tc.stat.decrement_unsatisfied).1, tc.original,
      tc.literals ++ [⟨l, i⟩]⟩ with htc2
  set t2big : Tracker :=
    { t with
      clauses := t.clauses.set w.clause_idx tc2
      clause_cache := t.clause_cache.handle_change
        (if satFlag then tc.stat.decrement_satisfied
          else tc.stat.decrement_unsatisfied).2 w.clause_idx
      watch := t.watch.setCell l i (some tc.literals.length) }
    with ht2bigdef
  have e1 : t2big.clauses = t.clauses.set w.clause_idx tc2 := rfl
  have e2 : t2big.watch = t.watch.setCell l i (some tc.literals.length) :=
    rfl
  have ht2c : t2big.clauses[w.clause_idx]? = some tc2 := by
    rw [e1]
    exact List.getElem?_set_self hidxlt
  have hother2 : ∀ j, j ≠ w.clause_idx →
      t2big.clauses[j]? = t.clauses[j]? := by
    intro j hj
    rw [e1]
    exact List.getElem?_set_ne (fun h => hj h.symm)
  have hclen2 : t2big.clauses.length = t.clauses.length := by
    rw [e1]
    simp
  have htcof : ∀ {tcx : TrackedClause},
      t.clauses[w.clause_idx]? = some tcx → tcx = tc := by
    intro tcx h
    have h2 := htc.symm.trans h
    exact (Option.some.inj h2).symm
  have htc2of : ∀ {tcx : TrackedClause},
      t2big.clauses[w.clause_idx]? = some tcx → tcx = tc2 := by
    intro tcx h
    have h2 := ht2c.symm.trans h
    exact (Option.some.inj h2).symm
  have htc2o : tc2.original = tc.original := rfl
  have htc2l : tc2.literals = tc.literals ++ [⟨l, i⟩] := rfl
  have hlen2 : tc2.literals.length = tc.literals.length + 1 := by
    rw [htc2l]
    simp
  have hlive2 : ∀ y : Literal, liveCount tc2 y = liveCount tc y +
      (if y = l then 1 else 0) := by
    intro y
    have hsing : (List.countP (fun wl => wl.literal = y)
        [(⟨l, i⟩ : WatchedLiteral)]) = if y = l then 1 else 0 := by
      by_cases hy : y = l
      · subst hy
        simp
      · rw [if_neg hy]
        have hly : ¬ (l = y) := fun h => hy h.symm
        simp [hly]
    unfold liveCount
    rw [htc2l, List.countP_append, hsing]
  have e3p : t2big.clause_cache = t.clause_cache.handle_change
      ⟨tc.stat.status, (if satFlag then tc.stat.decrement_satisfied
        else tc.stat.decrement_unsatisfied).1.status⟩ w.clause_idx := by
    show t.clause_cache.handle_change _ _ = _
    rw [hprch]
  have hbspec := @ClauseStateCache.handle_change_spec t.clause_cache
    tc.stat.status
    ((if satFlag then tc.stat.decrement_satisfied
      else tc.stat.decrement_unsatisfied).1.status)
    w.clause_idx (fun s => hcore.bucketOk w.clause_idx tc htc s)
  have hbidx : ∀ s, w.clause_idx ∈ t2big.clause_cache.get s ↔
      s = (if satFlag then tc.stat.decrement_satisfied
        else tc.stat.decrement_unsatisfied).1.status := by
    intro s
    rw [e3p]
    exact hbspec.1 s
  have hbother : ∀ j, j ≠ w.clause_idx →
      ∀ s, (j ∈ t2big.clause_cache.get s ↔ j ∈ t.clause_cache.get s) := by
    intro j hj s
    rw [e3p]
    exact hbspec.2 j hj s
  have hbsub : ∀ s, ∀ j ∈ t2big.clause_cache.get s,
      j < t.clauses.length := by
    intro s j hm
    rw [e3p] at hm
    exact ClauseStateCache.handle_change_sub hidxlt hcore.bucketSub s j hm
  have hrowchar : ∀ (y : Literal) (v : Nat), ((t2big.watch.row y)[v]?) =
      if y = l ∧ v = i then
        some ⟨w.clause_idx, some tc.literals.length⟩
      else (t.watch.row y)[v]? := by
    intro y v
    rw [e2]
    exact getElem?_row_setCell hrow y v
  have hrowmap : ∀ y : Literal,
      (t2big.watch.row y).map (fun e => e.clause_idx) =
        (t.watch.row y).map (fun e => e.clause_idx) := by
    intro y
    apply List.ext_getElem?
    intro v
    rw [List.getElem?_map, List.getElem?_map, hrowchar]
    by_cases h1 : y = l ∧ v = i
    · rw [if_pos h1]
      obtain ⟨rfl, rfl⟩ := h1
      rw [hrow]
      rfl
    · rw [if_neg h1]
  have hrowcount : ∀ (y : Literal) (j : Nat),
      rowIdxCount t2big y j = rowIdxCount t y j := by
    intro y j
    unfold rowIdxCount
    have hmapped : ∀ (r : List WatchElement),
        r.countP (fun e => e.clause_idx = j) =
          (r.map (fun e => e.clause_idx)).countP (fun x => x = j) := by
      intro r
      rw [List.countP_map]
      rfl
    rw [hmapped, hmapped, hrowmap]
  refine ⟨⟨hcore.alen, ?_, ?_, ?_, ?_, ?_, ?_, ?_, ?_, ?_, ?_, ?_⟩,
    ⟨rfl, rfl, rfl, hclen2, hother2, ?_, hrowmap, ?_, ?_⟩⟩
  · show (t2big.watch).positive.length = t.num_variables
    rw [e2, Watch.setCell_lengths.1]
    exact hcore.wplen
  · show (t2big.watch).negative.length = t.num_variables
    rw [e2, Watch.setCell_lengths.2]
    exact hcore.wnlen
  · -- idxOk
    intro y v w2 h
    rw [hrowchar] at h
    rw [hclen2]
    by_cases h1 : y = l ∧ v = i
    · rw [if_pos h1] at h
      obtain rfl : (⟨w.clause_idx, some tc.literals.length⟩ :
          WatchElement) = w2 := by
        simpa using h
      exact hidxlt
    · rw [if_neg h1] at h
      exact hcore.idxOk y v w2 h
  · -- backOk
    intro y v w2 h d hd
    rw [hrowchar] at h
    by_cases h1 : y = l ∧ v = i
    · rw [if_pos h1] at h
      obtain ⟨rfl, rfl⟩ := h1
      obtain rfl : (⟨w.clause_idx, some tc.literals.length⟩ :
          WatchElement) = w2 := by
        simpa using h
      obtain rfl : tc.literals.length = d := by simpa using hd
      refine ⟨tc2, ht2c, ?_⟩
      rw [htc2l]
      exact List.getElem?_concat_length tc.literals ⟨y, v⟩
    · rw [if_neg h1] at h
      obtain ⟨tcj, htcj, hlitsj⟩ := hcore.backOk y v w2 h d hd
      by_cases hj : w2.clause_idx = w.clause_idx
      · obtain rfl : tc = tcj := (htcof (hj ▸ htcj)).symm
        have hdlt : d < tc.literals.length :=
          (List.getElem?_eq_some_iff.mp hlitsj).1
        refine ⟨tc2, by rw [hj]; exact ht2c, ?_⟩
        rw [htc2l, List.getElem?_append_left hdlt]
        exact hlitsj
      · exact ⟨tcj, by rw [hother2 w2.clause_idx hj]; exact htcj, hlitsj⟩
  · -- fwdOk
    intro j d tcj wl htcj hwl
    by_cases hj : j = w.clause_idx
    · subst hj
      obtain rfl : tc2 = tcj := (htc2of htcj).symm
      rw [htc2l] at hwl
      by_cases hd : d < tc.literals.length
      · rw [List.getElem?_append_left hd] at hwl
        obtain ⟨hwli, hwlrow⟩ := hcore.fwdOk w.clause_idx d tc wl htc hwl
        refine ⟨hwli, ?_⟩
        have hn : ¬(wl.literal = l ∧ wl.variable_col = i) := by
          rintro ⟨hy, hv⟩
          rw [hy, hv] at hwlrow
          have heq := Option.some.inj (hrow.symm.trans hwlrow)
          have h3 : w.clause_col = some d := by rw [heq]
          rw [hcol] at h3
          cases h3
        rw [hrowchar, if_neg hn]
        exact hwlrow
      · have hlt : d < (tc.literals ++
            [(⟨l, i⟩ : WatchedLiteral)]).length :=
          (List.getElem?_eq_some_iff.mp hwl).1
        rw [List.length_append] at hlt
        have hdlen : d = tc.literals.length := by
          simp at hlt
          omega
        subst hdlen
        rw [List.getElem?_concat_length] at hwl
        obtain rfl : (⟨l, i⟩ : WatchedLiteral) = wl := Option.some.inj hwl
        refine ⟨hlidx, ?_⟩
        rw [hrowchar, if_pos ⟨rfl, rfl⟩]
    · have htcj2 : t.clauses[j]? = some tcj := by
        rw [← hother2 j hj]
        exact htcj
      obtain ⟨hwli, hwlrow⟩ := hcore.fwdOk j d tcj wl htcj2 hwl
      refine ⟨hwli, ?_⟩
      have hn : ¬(wl.literal = l ∧ wl.variable_col = i) := by
        rintro ⟨hy, hv⟩
        rw [hy, hv] at hwlrow
        have heq := Option.some.inj (hrow.symm.trans hwlrow)
        have h3 : w.clause_col = some d := by rw [heq]
        rw [hcol] at h3
        cases h3
      rw [hrowchar, if_neg hn]
      exact hwlrow
  · -- rowCountOk
    intro y j tcj htcj
    rw [show rowIdxCount t2big y j = rowIdxCount t y j from hrowcount y j]
    by_cases hj : j = w.clause_idx
    · subst hj
      obtain rfl : tc2 = tcj := (htc2of htcj).symm
      rw [htc2o]
      exact hcore.rowCountOk y w.clause_idx tc htc
    · exact hcore.rowCountOk y j tcj (by rw [← hother2 j hj]; exact htcj)
  · -- sumOk
    intro j tcj htcj
    by_cases hj : j = w.clause_idx
    · subst hj
      obtain rfl : tc2 = tcj := (htc2of htcj).symm
      obtain ⟨hsum, htot⟩ := hcore.sumOk w.clause_idx tc htc
      have hone : (if satFlag then (1:Nat) else 0) +
          (if satFlag then (0:Nat) else 1) = 1 := by
        cases satFlag <;> rfl
      have es : tc2.stat.satisfied = (if satFlag then
          tc.stat.decrement_satisfied
          else tc.stat.decrement_unsatisfied).1.satisfied := rfl
      have eu : tc2.stat.unsatisfied = (if satFlag then
          tc.stat.decrement_satisfied
          else tc.stat.decrement_unsatisfied).1.unsatisfied := rfl
      have et : tc2.stat.total = (if satFlag then
          tc.stat.decrement_satisfied
          else tc.stat.decrement_unsatisfied).1.total := rfl
      constructor
      · have hl2 : tc2.literals.length = tc.literals.length + 1 := hlen2
        omega
      · rw [et, hprt, htc2o]
        exact htot
    · exact hcore.sumOk j tcj (by rw [← hother2 j hj]; exact htcj)
  · -- statOk
    intro j tcj htcj
    by_cases hj : j = w.clause_idx
    · subst hj
      obtain rfl : tc2 = tcj := (htc2of htcj).symm
      exact hprst
    · exact hcore.statOk j tcj (by rw [← hother2 j hj]; exact htcj)
  · -- bucketSub
    intro s j hm
    rw [hclen2]
    exact hbsub s j hm
  · -- bucketOk
    intro j tcj htcj s
    by_cases hj : j = w.clause_idx
    · subst hj
      obtain rfl : tc2 = tcj := (htc2of htcj).symm
      exact hbidx s
    · rw [hbother j hj s]
      exact hcore.bucketOk j tcj (by rw [← hother2 j hj]; exact htcj) s
  · -- origIdxOk
    intro j tcj htcj y hy
    by_cases hj : j = w.clause_idx
    · subst hj
      obtain rfl : tc2 = tcj := (htc2of htcj).symm
      rw [htc2o] at hy
      exact hcore.origIdxOk w.clause_idx tc htc y hy
    · exact hcore.origIdxOk j tcj (by rw [← hother2 j hj]; exact htcj) y hy
  · -- main
    exact ⟨tc, tc2, htc, ht2c, htc2o, hprt, hprs, hpru, hlen2, hlive2⟩
  · -- cellVisited
    rw [hrowchar l i, if_pos ⟨rfl, rfl⟩]
    rfl
  · -- cellOther
    intro y v h1
    rw [hrowchar, if_neg h1]

theorem countP_take_succ {α : Type} (p : α → Bool) (xs : List α) (k : Nat)
    (h : k < xs.length) :
    (xs.take (k+1)).countP p =
      (xs.take k).countP p + (if p xs[k] then 1 else 0) := by
  rw [List.take_succ, List.countP_append, List.getElem?_eq_getElem h]
  simp [List.countP_cons]

theorem countP_take_le {α : Type} (p : α → Bool) (xs : List α) (k : Nat) :
    (xs.take k).countP p ≤ xs.countP p :=
  List.Sublist.countP_le p (List.take_sublist k xs)

/-- The cumulative effect of the first k iterations of a set_literal
sweep over the row of l. -/
structure SetSweepOut (t1 t2 : Tracker) (l : Literal) (satFlag : Bool)
    (k : Nat) : Prop where
  assign : t2.assignments = t1.assignments
  nv : t2.num_variables = t1.num_variables
  ac : t2.assigned_count = t1.assigned_count
  clen : t2.clauses.length = t1.clauses.length
  rowmap : ∀ y : Literal, (t2.watch.row y).map (fun e => e.clause_idx) =
    (t1.watch.row y).map (fun e => e.clause_idx)
  clauseAgg : ∀ j tc, t1.clauses[j]? = some tc →
    ∃ tc2, t2.clauses[j]? = some tc2 ∧
      tc2.original = tc.original ∧
      tc2.stat.total = tc.stat.total ∧
      tc2.stat.satisfied = tc.stat.satisfied + (if satFlag then
        ((t1.watch.row l).take k).countP (fun e => e.clause_idx = j)
        else 0) ∧
      tc2.stat.unsatisfied = tc.stat.unsatisfied + (if satFlag then 0 else
        ((t1.watch.row l).take k).countP (fun e => e.clause_idx = j)) ∧
      (∀ y : Literal, liveCount tc2 y +
        (if y = l then ((t1.watch.row l).take k).countP
          (fun e => e.clause_idx = j) else 0) = liveCount tc y)
  cellsDone : ∀ v, v < k →
    ((t2.watch.row l)[v]?).map (fun e => e.clause_col.isSome) = some false
  cellsTodo : ∀ (y : Literal) (v : Nat), (y = l → k ≤ v) →
    ((t2.watch.row y)[v]?).map (fun e => e.clause_col.isSome) =
      ((t1.watch.row y)[v]?).map (fun e => e.clause_col.isSome)

theorem processSetRow_spec {t1 : Tracker} {l : Literal} {satFlag : Bool}
    (hcore : CoreInv t1)
    (hcells : ∀ (v : Nat) (w : WatchElement),
      (t1.watch.row l)[v]? = some w → w.clause_col.isSome = true) :
    ∀ k, k ≤ (t1.watch.row l).length →
      CoreInv (Tracker.processSetRow t1 l satFlag k) ∧
        SetSweepOut t1 (Tracker.processSetRow t1 l satFlag k) l satFlag
          k := by
  intro k
  induction k with
  | zero =>
    intro _
    refine ⟨hcore, ⟨rfl, rfl, rfl, rfl, fun y => rfl, ?_, ?_, ?_⟩⟩
    · intro j tc htcj
      refine ⟨tc, htcj, rfl, rfl, by simp, by simp, by intro y; simp⟩
    · intro v hv
      exact absurd hv (Nat.not_lt_zero v)
    · intro y v hyv
      rfl
  | succ k ih =>
    intro hk1
    have hk : k < (t1.watch.row l).length := by omega
    obtain ⟨hcoreK, hout⟩ := ih (by omega)
    obtain ⟨w1, hw1⟩ : ∃ w1, (t1.watch.row l)[k]? = some w1 := by
      rw [List.getElem?_eq_getElem hk]
      exact ⟨_, rfl⟩
    have hw1some : w1.clause_col.isSome = true := hcells k w1 hw1
    have hcellk := hout.cellsTodo l k (fun _ => le_refl k)
    rw [hw1] at hcellk
    obtain ⟨wk, hwk, hwksome⟩ : ∃ wk,
        ((Tracker.processSetRow t1 l satFlag k).watch.row l)[k]? = some wk ∧
          wk.clause_col.isSome = true := by
      cases hopt : ((Tracker.processSetRow t1 l satFlag k).watch.row
          l)[k]? with
      | none =>
        rw [hopt] at hcellk
        simp at hcellk
      | some wk =>
        rw [hopt] at hcellk
        simp at hcellk
        exact ⟨wk, rfl, by rw [hcellk, hw1some]⟩
    obtain ⟨c, hc⟩ : ∃ c, wk.clause_col = some c := by
      cases hoc : wk.clause_col with
      | none =>
        rw [hoc] at hwksome
        simp at hwksome
      | some c => exact ⟨c, rfl⟩
    have hidxeq : wk.clause_idx = w1.clause_idx := by
      have hm := congrArg (fun r => r[k]?) (hout.rowmap l)
      simp only [List.getElem?_map] at hm
      rw [hwk, hw1] at hm
      simpa using hm
    obtain ⟨hcoreK1, hstep⟩ := setLiteralStep_spec hcoreK hwk hc
    refine ⟨hcoreK1, ⟨hstep.assign.trans hout.assign,
      hstep.nv.trans hout.nv, hstep.ac.trans hout.ac,
      hstep.clen.trans hout.clen,
      fun y => (hstep.rowmap y).trans (hout.rowmap y), ?_, ?_, ?_⟩⟩
    · -- clauseAgg
      intro j tc htcj
      obtain ⟨tck, htck, horig, htot, hsat, hunsat, hlive⟩ :=
        hout.clauseAgg j tc htcj
      have hxsk : (t1.watch.row l)[k] = w1 := by
        have := List.getElem?_eq_getElem hk
        rw [hw1] at this
        exact (Option.some.inj this).symm
      by_cases hj : j = wk.clause_idx
      · obtain ⟨tca, tcb, htca, htcb, horigb, htotb, hsatb, hunsatb,
          hlenb, hliveb⟩ := hstep.main
        obtain rfl : tca = tck := by
          rw [hj] at htck
          exact Option.some.inj (htca.symm.trans htck)
        have hpk1 : ((t1.watch.row l).take (k+1)).countP
            (fun e => e.clause_idx = j) =
            ((t1.watch.row l).take k).countP
              (fun e => e.clause_idx = j) + 1 := by
          rw [countP_take_succ _ _ k hk, hxsk]
          have hpj : w1.clause_idx = j := by rw [hj, hidxeq]
          simp [hpj]
        refine ⟨tcb, by rw [hj]; exact htcb, horigb.trans horig,
          htotb.trans htot, ?_, ?_, ?_⟩
        · rw [hsatb, hsat, hpk1]
          cases satFlag <;> simp <;> omega
        · rw [hunsatb, hunsat, hpk1]
          cases satFlag <;> simp <;> omega
        · intro y
          have h1 := hliveb y
          have h2 := hlive y
          rw [hpk1]
          by_cases hy : y = l <;> simp [hy] at h1 h2 ⊢ <;> omega
      · have hpk0 : ((t1.watch.row l).take (k+1)).countP
            (fun e => e.clause_idx = j) =
            ((t1.watch.row l).take k).countP
              (fun e => e.clause_idx = j) := by
          rw [countP_take_succ _ _ k hk, hxsk]
          have hpj : ¬ (w1.clause_idx = j) := by
            rw [← hidxeq]
            exact fun h => hj h.symm
          simp [hpj]
        refine ⟨tck, (hstep.other j hj).trans htck, horig, htot,
          ?_, ?_, ?_⟩
        · rw [hpk0]
          exact hsat
        · rw [hpk0]
          exact hunsat
        · intro y
          rw [hpk0]
          exact hlive y
    · -- cellsDone
      intro v hv
      by_cases hvk : v = k
      · have hcv := hstep.cellVisited
        show (((Tracker.setLiteralStep (Tracker.processSetRow t1 l satFlag
            k) l satFlag k).watch.row l)[v]?).map
            (fun e => e.clause_col.isSome) = some false
        rw [hvk]
        cases hopt : ((Tracker.setLiteralStep (Tracker.processSetRow t1 l
            satFlag k) l satFlag k).watch.row l)[k]? with
        | none =>
          rw [hopt] at hcv
          simp at hcv
        | some e =>
          rw [hopt] at hcv
          simp at hcv
          show some e.clause_col.isSome = some false
          rw [hcv]
          rfl
      · have h1 : ¬(l = l ∧ v = k) := by
          rintro ⟨_, hva⟩
          exact hvk hva
        exact (hstep.cellOther l v h1).trans (hout.cellsDone v (by omega))
    · -- cellsTodo
      intro y v hyv
      have h1 : ¬(y = l ∧ v = k) := by
        rintro ⟨hy, rfl⟩
        have := hyv hy
        omega
      exact (hstep.cellOther y v h1).trans
        (hout.cellsTodo y v (fun hy => by have := hyv hy; omega))

/-- The cumulative effect of the first k iterations of an unset sweep
over the row of l. -/
structure UnsetSweepOut (t1 t2 : Tracker) (l : Literal) (satFlag : Bool)
    (k : Nat) : Prop where
  assign : t2.assignments = t1.assignments
  nv : t2.num_variables = t1.num_variables
  ac : t2.assigned_count = t1.assigned_count
  clen : t2.clauses.length = t1.clauses.length
  rowmap : ∀ y : Literal, (t2.watch.row y).map (fun e => e.clause_idx) =
    (t1.watch.row y).map (fun e => e.clause_idx)
  clauseAgg : ∀ j tc, t1.clauses[j]? = some tc →
    ∃ tc2, t2.clauses[j]? = some tc2 ∧
      tc2.original = tc.original ∧
      tc2.stat.total = tc.stat.total ∧
      tc2.stat.satisfied + (if satFlag then
        ((t1.watch.row l).take k).countP (fun e => e.clause_idx = j)
        else 0) = tc.stat.satisfied ∧
      tc2.stat.unsatisfied + (if satFlag then 0 else
        ((t1.watch.row l).take k).countP (fun e => e.clause_idx = j)) =
        tc.stat.unsatisfied ∧
      (∀ y : Literal, liveCount tc2 y = liveCount tc y +
        (if y = l then ((t1.watch.row l).take k).countP
          (fun e => e.clause_idx = j) else 0))
  cellsDone : ∀ v, v < k →
    ((t2.watch.row l)[v]?).map (fun e => e.clause_col.isSome) = some true
  cellsTodo : ∀ (y : Literal) (v : Nat), (y = l → k ≤ v) →
    ((t2.watch.row y)[v]?).map (fun e => e.clause_col.isSome) =
      ((t1.watch.row y)[v]?).map (fun e => e.clause_col.isSome)

theorem processUnsetRow_spec {t1 : Tracker} {l : Literal}
    {satFlag : Bool} (hcore : CoreInv t1)
    (hcells : ∀ (v : Nat) (w : WatchElement),
      (t1.watch.row l)[v]? = some w → w.clause_col = none)
    (hposAll : ∀ j tc, t1.clauses[j]? = some tc →
      rowIdxCount t1 l j ≤
        (if satFlag then tc.stat.satisfied else tc.stat.unsatisfied)) :
    ∀ k, k ≤ (t1.watch.row l).length →
      CoreInv (Tracker.processUnsetRow t1 l satFlag k) ∧
        UnsetSweepOut t1 (Tracker.processUnsetRow t1 l satFlag k) l satFlag
          k := by
  intro k
  induction k with
  | zero =>
    intro _
    refine ⟨hcore, ⟨rfl, rfl, rfl, rfl, fun y => rfl, ?_, ?_, ?_⟩⟩
    · intro j tc htcj
      refine ⟨tc, htcj, rfl, rfl, by simp, by simp, by intro y; simp⟩
    · intro v hv
      exact absurd hv (Nat.not_lt_zero v)
    · intro y v hyv
      rfl
  | succ k ih =>
    intro hk1
    have hk : k < (t1.watch.row l).length := by omega
    obtain ⟨hcoreK, hout⟩ := ih (by omega)
    obtain ⟨w1, hw1⟩ : ∃ w1, (t1.watch.row l)[k]? = some w1 := by
      rw [List.getElem?_eq_getElem hk]
      exact ⟨_, rfl⟩
    have hw1none : w1.clause_col = none := hcells k w1 hw1
    have hcellk := hout.cellsTodo l k (fun _ => le_refl k)
    rw [hw1] at hcellk
    obtain ⟨wk, hwk, hwknone⟩ : ∃ wk,
        ((Tracker.processUnsetRow t1 l satFlag k).watch.row l)[k]? =
          some wk ∧ wk.clause_col = none := by
      cases hopt : ((Tracker.processUnsetRow t1 l satFlag k).watch.row
          l)[k]? with
      | none =>
        rw [hopt] at hcellk
        simp at hcellk
      | some wk =>
        rw [hopt] at hcellk
        simp at hcellk
        rw [hw1none] at hcellk
        refine ⟨wk, rfl, ?_⟩
        cases hoc : wk.clause_col with
        | none => rfl
        | some c =>
          rw [hoc] at hcellk
          simp at hcellk
    have hidxeq : wk.clause_idx = w1.clause_idx := by
      have hm := congrArg (fun r => r[k]?) (hout.rowmap l)
      simp only [List.getElem?_map] at hm
      rw [hwk, hw1] at hm
      simpa using hm
    have hxsk : (t1.watch.row l)[k] = w1 := by
      have := List.getElem?_eq_getElem hk
      rw [hw1] at this
      exact (Option.some.inj this).symm
    have hidxlt1 : wk.clause_idx < t1.clauses.length := by
      have := hcoreK.idxOk l k wk hwk
      rw [hout.clen] at this
      exact this
    obtain ⟨tcj, htcj1⟩ : ∃ tcj, t1.clauses[wk.clause_idx]? = some tcj := by
      rw [List.getElem?_eq_getElem hidxlt1]
      exact ⟨_, rfl⟩
    obtain ⟨tck, htck, horigk, htotk, hsatk, hunsatk, hlivek⟩ :=
      hout.clauseAgg wk.clause_idx tcj htcj1
    have hpk1 : ((t1.watch.row l).take (k+1)).countP
        (fun e => e.clause_idx = wk.clause_idx) =
        ((t1.watch.row l).take k).countP
          (fun e => e.clause_idx = wk.clause_idx) + 1 := by
      rw [countP_take_succ _ _ k hk, hxsk]
      have hpj : w1.clause_idx = wk.clause_idx := hidxeq.symm
      simp [hpj]
    have hrowle : ((t1.watch.row l).take (k+1)).countP
        (fun e => e.clause_idx = wk.clause_idx) ≤
        rowIdxCount t1 l wk.clause_idx := by
      unfold rowIdxCount
      exact countP_take_le _ _ (k+1)
    have hposj := hposAll wk.clause_idx tcj htcj1
    have hposStep : ∀ tc3, (Tracker.processUnsetRow t1 l satFlag
        k).clauses[wk.clause_idx]? = some tc3 →
        0 < (if satFlag then tc3.stat.satisfied
          else tc3.stat.unsatisfied) := by
      intro tc3 htc3
      obtain rfl : tck = tc3 := Option.some.inj (htck.symm.trans htc3)
      cases satFlag
      · simp only [Bool.false_eq_true, if_false] at hposj hunsatk ⊢
        omega
      · simp only [if_true] at hposj hsatk ⊢
        omega
    obtain ⟨hcoreK1, hstep⟩ := unsetStep_spec hcoreK hwk hwknone hposStep
    refine ⟨hcoreK1, ⟨hstep.assign.trans hout.assign,
      hstep.nv.trans hout.nv, hstep.ac.trans hout.ac,
      hstep.clen.trans hout.clen,
      fun y => (hstep.rowmap y).trans (hout.rowmap y), ?_, ?_, ?_⟩⟩
    · -- clauseAgg
      intro j tc htcjj
      obtain ⟨tck2, htck2, horig, htot, hsat, hunsat, hlive⟩ :=
        hout.clauseAgg j tc htcjj
      by_cases hj : j = wk.clause_idx
      · subst hj
        obtain rfl : tcj = tc := Option.some.inj (htcj1.symm.trans htcjj)
        obtain rfl : tck = tck2 := Option.some.inj (htck.symm.trans htck2)
        obtain ⟨tca, tcb, htca, htcb, horigb, htotb, hsatb, hunsatb,
          hlenb, hliveb⟩ := hstep.main
        obtain rfl : tca = tck := Option.some.inj (htca.symm.trans htck)
        refine ⟨tcb, htcb, horigb.trans horig, htotb.trans htot,
          ?_, ?_, ?_⟩
        · rw [hpk1]
          cases satFlag
          · simp only [Bool.false_eq_true, if_false] at hsatb hsat ⊢
            omega
          · simp only [if_true] at hsatb hsat ⊢
            omega
        · rw [hpk1]
          cases satFlag
          · simp only [Bool.false_eq_true, if_false] at hunsatb hunsat ⊢
            omega
          · simp only [if_true] at hunsatb hunsat ⊢
            omega
        · intro y
          have h1 := hliveb y
          have h2 := hlive y
          rw [hpk1]
          by_cases hy : y = l
          · simp only [hy, if_true] at h1 h2 ⊢
            omega
          · simp only [hy, if_false] at h1 h2 ⊢
            omega
      · have hpk0 : ((t1.watch.row l).take (k+1)).countP
            (fun e => e.clause_idx = j) =
            ((t1.watch.row l).take k).countP
              (fun e => e.clause_idx = j) := by
          rw [countP_take_succ _ _ k hk, hxsk]
          have hpj : ¬ (w1.clause_idx = j) := by
            rw [← hidxeq]
            exact fun h => hj h.symm
          simp [hpj]
        refine ⟨tck2, (hstep.other j hj).trans htck2, horig, htot,
          ?_, ?_, ?_⟩
        · rw [hpk0]
          exact hsat
        · rw [hpk0]
          exact hunsat
        · intro y
          rw [hpk0]
          exact hlive y
    · -- cellsDone
      intro v hv
      by_cases hvk : v = k
      · show (((Tracker.unsetStep (Tracker.processUnsetRow t1 l satFlag
            k) l satFlag k).watch.row l)[v]?).map
            (fun e => e.clause_col.isSome) = some true
        rw [hvk]
        exact hstep.cellVisited
      · have h1 : ¬(l = l ∧ v = k) := by
          rintro ⟨_, hva⟩
          exact hvk hva
        exact (hstep.cellOther l v h1).trans (hout.cellsDone v (by omega))
    · -- cellsTodo
      intro y v hyv
      have h1 : ¬(y = l ∧ v = k) := by
        rintro ⟨hy, rfl⟩
        have := hyv hy
        omega
      exact (hstep.cellOther y v h1).trans
        (hout.cellsTodo y v (fun hy => by have := hyv hy; omega))

/-! ### Assignment-update counting lemmas -/

theorem Literal.neg_ne (l : Literal) : Literal.neg l ≠ l := by
  intro h
  have := congrArg Literal.positive h
  simp [Literal.neg] at this

theorem Literal.index_neg (l : Literal) :
    (Literal.neg l).index = l.index := rfl

theorem Literal.eq_or_neg_of_index {y l : Literal}
    (h : y.index = l.index) : y = l ∨ y = Literal.neg l := by
  obtain ⟨⟨yi⟩, yp⟩ := y
  obtain ⟨⟨li⟩, lp⟩ := l
  obtain rfl : yi = li := h
  by_cases hp : yp = lp
  · subst hp
    exact Or.inl rfl
  · right
    show (⟨⟨yi⟩, yp⟩ : Literal) = ⟨⟨yi⟩, !lp⟩
    have : yp = !lp := by
      cases yp <;> cases lp <;> simp_all
    rw [this]

theorem getD_set_self {a : List (Option Bool)} {i : Nat} {v : Option Bool}
    (h : i < a.length) : (a.set i v).getD i none = v := by
  rw [List.getD_eq_getElem?_getD, List.getElem?_set_self h]
  rfl

theorem getD_set_ne {a : List (Option Bool)} {i j : Nat} {v : Option Bool}
    (h : j ≠ i) : (a.set i v).getD j none = a.getD j none := by
  rw [List.getD_eq_getElem?_getD, List.getElem?_set_ne (fun e => h e.symm),
    ← List.getD_eq_getElem?_getD]

theorem getD_some_lt {a : List (Option Bool)} {i : Nat} {b : Bool}
    (h : a.getD i none = some b) : i < a.length := by
  by_contra hge
  push_neg at hge
  rw [List.getD_eq_getElem?_getD, List.getElem?_eq_none_iff.mpr hge] at h
  simp at h

/-- Pointwise effect of assigning l on any literal's optional value. -/
theorem Literal.optValue_set (a : List (Option Bool)) (l y : Literal)
    (hun : a.getD l.index none = none) (hlt : l.index < a.length) :
    y.optValue (a.set l.index (some l.positive)) =
      if y = l then some true
      else if y = Literal.neg l then some false
      else y.optValue a := by
  by_cases hidx : y.index = l.index
  · unfold Literal.optValue
    rw [hidx, getD_set_self hlt]
    rcases Literal.eq_or_neg_of_index hidx with rfl | rfl
    · rw [if_pos rfl]
      cases hp : y.positive <;> simp [hp]
    · rw [if_neg (Literal.neg_ne l), if_pos rfl]
      show some (if (Literal.neg l).positive then l.positive
        else !l.positive) = some false
      cases hp : l.positive <;> simp [Literal.neg, hp]
  · have hyl : y ≠ l := fun h => hidx (by rw [h])
    have hyn : y ≠ Literal.neg l := fun h => hidx (by rw [h]; rfl)
    rw [if_neg hyl, if_neg hyn]
    unfold Literal.optValue
    rw [getD_set_ne hidx]

theorem satCount_set (a : List (Option Bool)) (l : Literal)
    (c : List Literal) (hun : a.getD l.index none = none)
    (hlt : l.index < a.length) :
    satCount (a.set l.index (some l.positive)) c =
      satCount a c + occCount c l := by
  induction c with
  | nil => rfl
  | cons y ys ih =>
    unfold satCount occCount at ih ⊢
    simp only [List.countP_cons]
    rw [Literal.optValue_set a l y hun hlt] at *
    by_cases h1 : y = l
    · subst h1
      have hnone : y.optValue a = none := by
        unfold Literal.optValue
        rw [hun]
      simp [hnone]
      omega
    · by_cases h2 : y = Literal.neg l
      · subst h2
        have hnone : (Literal.neg l).optValue a = none := by
          unfold Literal.optValue
          rw [show (Literal.neg l).index = l.index from rfl, hun]
        simp [h1, hnone]
        omega
      · simp [h1, h2]
        omega

theorem unsatCount_set (a : List (Option Bool)) (l : Literal)
    (c : List Literal) (hun : a.getD l.index none = none)
    (hlt : l.index < a.length) :
    unsatCount (a.set l.index (some l.positive)) c =
      unsatCount a c + occCount c (Literal.neg l) := by
  induction c with
  | nil => rfl
  | cons y ys ih =>
    unfold unsatCount occCount at ih ⊢
    simp only [List.countP_cons]
    rw [Literal.optValue_set a l y hun hlt] at *
    by_cases h1 : y = l
    · subst h1
      have hnone : y.optValue a = none := by
        unfold Literal.optValue
        rw [hun]
      have hne : y ≠ Literal.neg y := fun h => Literal.neg_ne y h.symm
      simp [hnone, hne]
      omega
    · by_cases h2 : y = Literal.neg l
      · subst h2
        have hnone : (Literal.neg l).optValue a = none := by
          unfold Literal.optValue
          rw [show (Literal.neg l).index = l.index from rfl, hun]
        simp [h1, hnone]
        omega
      · simp [h1, h2]
        omega

theorem occCount_le_count_true {a : List (Option Bool)} {l : Literal}
    (h : l.optValue a = some true) (c : List Literal) :
    occCount c l ≤ satCount a c := by
  unfold occCount satCount
  apply List.countP_mono_left
  intro y hy hd
  have : y = l := by simpa using hd
  subst this
  simp [h]

theorem occCount_le_count_false {a : List (Option Bool)} {l : Literal}
    (h : l.optValue a = some false) (c : List Literal) :
    occCount c l ≤ unsatCount a c := by
  unfold occCount unsatCount
  apply List.countP_mono_left
  intro y hy hd
  have : y = l := by simpa using hd
  subst this
  simp [h]

theorem countP_idx_of_rowmap {r1 r2 : List WatchElement}
    (h : r2.map (fun e => e.clause_idx) = r1.map (fun e => e.clause_idx))
    (j : Nat) :
    r2.countP (fun e => e.clause_idx = j) =
      r1.countP (fun e => e.clause_idx = j) := by
  have h2 : ∀ (r : List WatchElement),
      r.countP (fun e => e.clause_idx = j) =
        (r.map (fun e => e.clause_idx)).countP (fun x => x = j) := by
    intro r
    rw [List.countP_map]
    rfl
  rw [h2, h2, h]

theorem length_of_rowmap {r1 r2 : List WatchElement}
    (h : r2.map (fun e => e.clause_idx) = r1.map (fun e => e.clause_idx)) :
    r2.length = r1.length := by
  have := congrArg List.length h
  simpa using this

/-- Tracker::set_literal preserves the tracker invariant and performs
exactly the assignment update; every clause keeps its original literals
and its total. -/
theorem set_literal_spec {t : Tracker} {l : Literal} (hInv : Inv t)
    (hun : t.assignments.getD l.index none = none)
    (hidx : l.index < t.num_variables) :
    Inv (Tracker.set_literal t l) ∧
      (Tracker.set_literal t l).assignments =
        t.assignments.set l.index (some l.positive) ∧
      (Tracker.set_literal t l).num_variables = t.num_variables ∧
      (Tracker.set_literal t l).assigned_count = t.assigned_count + 1 ∧
      (Tracker.set_literal t l).clauses.length = t.clauses.length ∧
      (∀ (j : Nat) (tc : TrackedClause), t.clauses[j]? = some tc →
        ∃ tc2 : TrackedClause,
        (Tracker.set_literal t l).clauses[j]? = some tc2 ∧
        tc2.original = tc.original ∧ tc2.stat.total = tc.stat.total) := by
  have hlt : l.index < t.assignments.length := by
    rw [hInv.alen]
    exact hidx
  set t1 : Tracker := { t with
    assignments := t.assignments.set l.index (some l.positive)
    assigned_count := t.assigned_count + 1 } with ht1
  have hcore1 : CoreInv t1 :=
    ⟨by show (t.assignments.set l.index (some l.positive)).length =
          t.num_variables
        rw [List.length_set]
        exact hInv.alen,
     hInv.wplen, hInv.wnlen, hInv.idxOk, hInv.backOk, hInv.fwdOk,
     hInv.rowCountOk, hInv.sumOk, hInv.statOk, hInv.bucketSub,
     hInv.bucketOk, hInv.origIdxOk⟩
  have hcells1 : ∀ (v : Nat) (w : WatchElement),
      (t1.watch.row l)[v]? = some w → w.clause_col.isSome = true := by
    intro v w h
    exact (hInv.cellsOk l v w h).mpr hun
  obtain ⟨hcore2, hout1⟩ := processSetRow_spec hcore1 hcells1
    (t1.watch.row l).length (le_refl _)
  set T2 : Tracker :=
    Tracker.processSetRow t1 l true (t1.watch.row l).length with hT2
  have hlnl : ¬ (l = Literal.neg l) :=
    fun h => Literal.neg_ne l h.symm
  have hcells2 : ∀ (v : Nat) (w : WatchElement),
      (T2.watch.row (Literal.neg l))[v]? = some w →
        w.clause_col.isSome = true := by
    intro v w h
    have heq := hout1.cellsTodo (Literal.neg l) v
      (fun hy => absurd hy (Literal.neg_ne l))
    rw [h] at heq
    cases hrow1 : (t1.watch.row (Literal.neg l))[v]? with
    | none =>
      rw [hrow1] at heq
      simp at heq
    | some w1 =>
      rw [hrow1] at heq
      simp at heq
      rw [heq]
      exact (hInv.cellsOk (Literal.neg l) v w1 hrow1).mpr hun
  obtain ⟨hcoreF, hout2⟩ := processSetRow_spec hcore2 hcells2
    (T2.watch.row (Literal.neg l)).length (le_refl _)
  have hassignF : (Tracker.set_literal t l).assignments =
      t.assignments.set l.index (some l.positive) :=
    hout2.assign.trans hout1.assign
  have hnvF : (Tracker.set_literal t l).num_variables = t.num_variables :=
    hout2.nv.trans hout1.nv
  have hacF : (Tracker.set_literal t l).assigned_count =
      t.assigned_count + 1 :=
    hout2.ac.trans hout1.ac
  have hclenF : (Tracker.set_literal t l).clauses.length =
      t.clauses.length :=
    hout2.clen.trans hout1.clen
  have hagg : ∀ (j : Nat) (tc : TrackedClause), t.clauses[j]? = some tc →
      ∃ tcF : TrackedClause,
      (Tracker.set_literal t l).clauses[j]? = some tcF ∧
      tcF.original = tc.original ∧
      tcF.stat.total = tc.stat.total ∧
      tcF.stat.satisfied = tc.stat.satisfied + occCount tc.original l ∧
      tcF.stat.unsatisfied = tc.stat.unsatisfied +
        occCount tc.original (Literal.neg l) ∧
      (∀ y : Literal, liveCount tcF y +
        (if y = Literal.neg l then occCount tc.original (Literal.neg l)
          else 0) +
        (if y = l then occCount tc.original l else 0) = liveCount tc y) :=
    by
    intro j tc htcj
    obtain ⟨tc2, htc2, horig2, htot2, hsat2, hunsat2, hlive2⟩ :=
      hout1.clauseAgg j tc htcj
    obtain ⟨tcF, htcF, horigF, htotF, hsatF, hunsatF, hliveF⟩ :=
      hout2.clauseAgg j tc2 htc2
    have hcnt1 : ((t1.watch.row l).take
        (t1.watch.row l).length).countP (fun e => e.clause_idx = j) =
        occCount tc.original l := by
      rw [List.take_length]
      exact hInv.rowCountOk l j tc htcj
    have hcnt2 : ((T2.watch.row (Literal.neg l)).take
        (T2.watch.row (Literal.neg l)).length).countP
          (fun e => e.clause_idx = j) =
        occCount tc.original (Literal.neg l) := by
      rw [List.take_length,
        countP_idx_of_rowmap (hout1.rowmap (Literal.neg l)) j]
      exact hInv.rowCountOk (Literal.neg l) j tc htcj
    rw [hcnt1] at hsat2 hunsat2 hlive2
    rw [hcnt2] at hsatF hunsatF hliveF
    rw [if_pos rfl] at hsat2 hunsat2
    rw [if_neg (by simp)] at hsatF hunsatF
    refine ⟨tcF, htcF, horigF.trans horig2, htotF.trans htot2, ?_, ?_, ?_⟩
    · rw [hsatF, hsat2]
      omega
    · rw [hunsatF, hunsat2]
      omega
    · intro y
      have h1 := hlive2 y
      have h2 := hliveF y
      omega
  refine ⟨⟨hcoreF, ?_, ?_, ?_⟩, hassignF, hnvF, hacF, hclenF, ?_⟩
  · -- cellsOk
    intro y v w h
    have hF : ((T2.processSetRow (Literal.neg l) false
        (T2.watch.row (Literal.neg l)).length).watch.row y)[v]? =
        some w := h
    have hvl : v < ((T2.processSetRow (Literal.neg l) false
        (T2.watch.row (Literal.neg l)).length).watch.row y).length :=
      (List.getElem?_eq_some_iff.mp hF).1
    by_cases hyi : y.index = l.index
    · have hgd : (Tracker.set_literal t l).assignments.getD y.index none =
          some l.positive := by
        rw [hassignF, hyi, getD_set_self hlt]
      rcases Literal.eq_or_neg_of_index hyi with hcase | hcase
      · -- row of l itself: all cells were cleared by the first sweep
        rw [hcase] at hF hvl
        have hl2 := length_of_rowmap (hout2.rowmap l)
        have hl1 := length_of_rowmap (hout1.rowmap l)
        have hvlt : v < (t1.watch.row l).length := by omega
        have hchain := (hout2.cellsTodo l v
          (fun hy => absurd hy hlnl)).trans (hout1.cellsDone v hvlt)
        rw [hF] at hchain
        simp at hchain
        rw [hchain, hgd]
        simp
      · -- row of the negation: cleared by the second sweep
        rw [hcase] at hF hvl
        have hvlt : v < (T2.watch.row (Literal.neg l)).length := by
          have hl2 := length_of_rowmap (hout2.rowmap (Literal.neg l))
          omega
        have hchain := hout2.cellsDone v hvlt
        rw [hF] at hchain
        simp at hchain
        rw [hchain, hgd]
        simp
    · have hyl : y ≠ l := fun hq => hyi (by rw [hq])
      have hyn : y ≠ Literal.neg l := fun hq => hyi (by rw [hq]; rfl)
      have hchain := (hout2.cellsTodo y v (fun hy => absurd hy hyn)).trans
        (hout1.cellsTodo y v (fun hy => absurd hy hyl))
      rw [hF] at hchain
      cases hrow0 : (t1.watch.row y)[v]? with
      | none =>
        rw [hrow0] at hchain
        simp at hchain
      | some w0 =>
        rw [hrow0] at hchain
        simp at hchain
        rw [hchain]
        have hiff := hInv.cellsOk y v w0 hrow0
        rw [hassignF, getD_set_ne hyi]
        exact hiff
  · -- countOk
    intro j tcF htcF
    have hjlt : j < t.clauses.length := by
      have := (List.getElem?_eq_some_iff.mp htcF).1
      omega
    obtain ⟨tc, htcj⟩ : ∃ tc, t.clauses[j]? = some tc := by
      rw [List.getElem?_eq_getElem hjlt]
      exact ⟨_, rfl⟩
    obtain ⟨tcF2, htcF2, horig, htot, hsat, hunsat, hlive⟩ := hagg j tc htcj
    obtain rfl : tcF2 = tcF := Option.some.inj (htcF2.symm.trans htcF)
    obtain ⟨hsatv, hunsatv⟩ := hInv.countOk j tc htcj
    constructor
    · rw [hassignF, horig, satCount_set t.assignments l tc.original hun hlt]
      rw [hsat, hsatv]
    · rw [hassignF, horig,
        unsatCount_set t.assignments l tc.original hun hlt]
      rw [hunsat, hunsatv]
  · -- liveOk
    intro j tcF htcF y
    have hjlt : j < t.clauses.length := by
      have := (List.getElem?_eq_some_iff.mp htcF).1
      omega
    obtain ⟨tc, htcj⟩ : ∃ tc, t.clauses[j]? = some tc := by
      rw [List.getElem?_eq_getElem hjlt]
      exact ⟨_, rfl⟩
    obtain ⟨tcF2, htcF2, horig, htot, hsat, hunsat, hlive⟩ := hagg j tc htcj
    obtain rfl : tcF2 = tcF := Option.some.inj (htcF2.symm.trans htcF)
    have hliveT := hInv.liveOk j tc htcj
    have hval : y.optValue (Tracker.set_literal t l).assignments =
        if y = l then some true
        else if y = Literal.neg l then some false
        else y.optValue t.assignments := by
      rw [hassignF]
      exact Literal.optValue_set t.assignments l y hun hlt
    have h1 := hlive y
    rw [horig, hval]
    by_cases hy1 : y = l
    · rw [if_pos hy1, if_neg (by simp)]
      have hyn1 : ¬ y = Literal.neg l := by
        rw [hy1]
        exact hlnl
      rw [if_neg hyn1, if_pos hy1] at h1
      have h2 := hliveT y
      have hnone : y.optValue t.assignments = none := by
        unfold Literal.optValue
        rw [hy1, hun]
      rw [if_pos hnone] at h2
      have hocc : occCount tc.original y = occCount tc.original l := by
        rw [hy1]
      omega
    · by_cases hy2 : y = Literal.neg l
      · rw [if_neg hy1, if_pos hy2, if_neg (by simp)]
        rw [if_pos hy2, if_neg hy1] at h1
        have h2 := hliveT y
        have hnone : y.optValue t.assignments = none := by
          unfold Literal.optValue
          rw [hy2, show (Literal.neg l).index = l.index from rfl, hun]
        rw [if_pos hnone] at h2
        have hocc : occCount tc.original y =
            occCount tc.original (Literal.neg l) := by
          rw [hy2]
        omega
      · rw [if_neg hy1, if_neg hy2]
        have h2 := hliveT y
        rw [if_neg hy2, if_neg hy1] at h1
        omega
  · -- per-clause originals and totals
    intro j tc htcj
    obtain ⟨tcF, htcF, horig, htot, _, _, _⟩ := hagg j tc htcj
    exact ⟨tcF, htcF, horig, htot⟩

/-- Tracker::unset (with the stored polarity b) restores the variable to
unassigned and undoes exactly one set_literal worth of counting; every
clause keeps its original literals and its total. -/
theorem unset_spec {t : Tracker} {x : Variable} {b : Bool} (hInv : Inv t)
    (hass : t.assignments.getD x.idx none = some b) :
    Inv (Tracker.unset t x) ∧
      (Tracker.unset t x).assignments = t.assignments.set x.idx none ∧
      (Tracker.unset t x).num_variables = t.num_variables ∧
      (Tracker.unset t x).assigned_count = t.assigned_count - 1 ∧
      (Tracker.unset t x).clauses.length = t.clauses.length ∧
      (∀ (j : Nat) (tc : TrackedClause), t.clauses[j]? = some tc →
        ∃ tc2 : TrackedClause,
        (Tracker.unset t x).clauses[j]? = some tc2 ∧
        tc2.original = tc.original ∧ tc2.stat.total = tc.stat.total) := by
  have hlt : x.idx < t.assignments.length := getD_some_lt hass
  set l : Literal := ⟨x, b⟩ with hldef
  have hlidx : l.index = x.idx := rfl
  have hlval : l.optValue t.assignments = some true := by
    unfold Literal.optValue
    rw [show l.index = x.idx from rfl, hass]
    show some (if b then b else !b) = some true
    cases b <;> rfl
  have hnlval : (Literal.neg l).optValue t.assignments = some false := by
    unfold Literal.optValue
    rw [show (Literal.neg l).index = x.idx from rfl, hass]
    show some (if !b then b else !b) = some false
    cases b <;> rfl
  have hlnl : ¬ (l = Literal.neg l) := fun h => Literal.neg_ne l h.symm
  have hd : Tracker.unset t x =
      Tracker.processUnsetRow
        (Tracker.processUnsetRow { t with
            assignments := t.assignments.set x.idx none
            assigned_count := t.assigned_count - 1 } l true
          (({ t with
            assignments := t.assignments.set x.idx none
            assigned_count := t.assigned_count - 1 } :
              Tracker).watch.row l).length)
        (Literal.neg l) false
        ((Tracker.processUnsetRow { t with
            assignments := t.assignments.set x.idx none
            assigned_count := t.assigned_count - 1 } l true
          (({ t with
            assignments := t.assignments.set x.idx none
            assigned_count := t.assigned_count - 1 } :
              Tracker).watch.row l).length).watch.row
          (Literal.neg l)).length := by
    unfold Tracker.unset
    rw [hass]
  rw [hd]
  set t1 : Tracker := { t with
    assignments := t.assignments.set x.idx none
    assigned_count := t.assigned_count - 1 } with ht1
  have hcore1 : CoreInv t1 :=
    ⟨by show (t.assignments.set x.idx none).length = t.num_variables
        rw [List.length_set]
        exact hInv.alen,
     hInv.wplen, hInv.wnlen, hInv.idxOk, hInv.backOk, hInv.fwdOk,
     hInv.rowCountOk, hInv.sumOk, hInv.statOk, hInv.bucketSub,
     hInv.bucketOk, hInv.origIdxOk⟩
  have hcells1 : ∀ (v : Nat) (w : WatchElement),
      (t1.watch.row l)[v]? = some w → w.clause_col = none := by
    intro v w h
    have hiff := hInv.cellsOk l v w h
    have hns : ¬ (w.clause_col.isSome = true) := by
      rw [hiff, hlidx, hass]
      simp
    cases hoc : w.clause_col with
    | none => rfl
    | some c =>
      rw [hoc] at hns
      simp at hns
  have hposAll1 : ∀ j tc, t1.clauses[j]? = some tc →
      rowIdxCount t1 l j ≤
        (if true then tc.stat.satisfied else tc.stat.unsatisfied) := by
    intro j tc htcj
    rw [if_pos rfl]
    have hrc : rowIdxCount t1 l j = occCount tc.original l :=
      hInv.rowCountOk l j tc htcj
    rw [hrc, (hInv.countOk j tc htcj).1]
    exact occCount_le_count_true hlval tc.original
  obtain ⟨hcore2, hout1⟩ := processUnsetRow_spec hcore1 hcells1 hposAll1
    (t1.watch.row l).length (le_refl _)
  set T2 : Tracker :=
    Tracker.processUnsetRow t1 l true (t1.watch.row l).length with hT2
  have hcells2 : ∀ (v : Nat) (w : WatchElement),
      (T2.watch.row (Literal.neg l))[v]? = some w →
        w.clause_col = none := by
    intro v w h
    have heq := hout1.cellsTodo (Literal.neg l) v
      (fun hy => absurd hy (Literal.neg_ne l))
    rw [h] at heq
    cases hrow1 : (t1.watch.row (Literal.neg l))[v]? with
    | none =>
      rw [hrow1] at heq
      simp at heq
    | some w1 =>
      rw [hrow1] at heq
      simp at heq
      have hiff := hInv.cellsOk (Literal.neg l) v w1 hrow1
      have hw1f : ¬ (w1.clause_col.isSome = true) := by
        rw [hiff, show (Literal.neg l).index = x.idx from rfl, hass]
        simp
      cases hoc : w.clause_col with
      | none => rfl
      | some c =>
        rw [hoc] at heq
        simp at heq
        exact absurd heq hw1f
  have hposAll2 : ∀ j tc2, T2.clauses[j]? = some tc2 →
      rowIdxCount T2 (Literal.neg l) j ≤
        (if false then tc2.stat.satisfied else tc2.stat.unsatisfied) := by
    intro j tc2 htc2
    rw [if_neg (by simp)]
    have hjlt : j < t.clauses.length := by
      have h1 := (List.getElem?_eq_some_iff.mp htc2).1
      have h2 := hout1.clen
      have h3 : t1.clauses.length = t.clauses.length := rfl
      omega
    obtain ⟨tc, htcj⟩ : ∃ tc, t.clauses[j]? = some tc := by
      rw [List.getElem?_eq_getElem hjlt]
      exact ⟨_, rfl⟩
    obtain ⟨tc2q, htc2q, horig, htot, hsatq, hunsatq, hliveq⟩ :=
      hout1.clauseAgg j tc htcj
    obtain rfl : tc2q = tc2 := Option.some.inj (htc2q.symm.trans htc2)
    rw [if_pos rfl] at hunsatq
    have hrc : rowIdxCount T2 (Literal.neg l) j =
        occCount tc.original (Literal.neg l) := by
      rw [show rowIdxCount T2 (Literal.neg l) j =
          rowIdxCount t1 (Literal.neg l) j from
        countP_idx_of_rowmap (hout1.rowmap (Literal.neg l)) j]
      exact hInv.rowCountOk (Literal.neg l) j tc htcj
    rw [hrc]
    have hunsatT := (hInv.countOk j tc htcj).2
    have hle := occCount_le_count_false hnlval tc.original
    omega
  obtain ⟨hcoreF, hout2⟩ := processUnsetRow_spec hcore2 hcells2 hposAll2
    (T2.watch.row (Literal.neg l)).length (le_refl _)
  have hassignF : (Tracker.processUnsetRow T2 (Literal.neg l) false
      (T2.watch.row (Literal.neg l)).length).assignments =
      t.assignments.set x.idx none :=
    hout2.assign.trans hout1.assign
  have hnvF : (Tracker.processUnsetRow T2 (Literal.neg l) false
      (T2.watch.row (Literal.neg l)).length).num_variables =
      t.num_variables :=
    hout2.nv.trans hout1.nv
  have hacF : (Tracker.processUnsetRow T2 (Literal.neg l) false
      (T2.watch.row (Literal.neg l)).length).assigned_count =
      t.assigned_count - 1 :=
    hout2.ac.trans hout1.ac
  have hclenF : (Tracker.processUnsetRow T2 (Literal.neg l) false
      (T2.watch.row (Literal.neg l)).length).clauses.length =
      t.clauses.length :=
    hout2.clen.trans hout1.clen
  have hagg : ∀ (j : Nat) (tc : TrackedClause), t.clauses[j]? = some tc →
      ∃ tcF : TrackedClause,
      (Tracker.processUnsetRow T2 (Literal.neg l) false
        (T2.watch.row (Literal.neg l)).length).clauses[j]? = some tcF ∧
      tcF.original = tc.original ∧
      tcF.stat.total = tc.stat.total ∧
      tcF.stat.satisfied + occCount tc.original l = tc.stat.satisfied ∧
      tcF.stat.unsatisfied + occCount tc.original (Literal.neg l) =
        tc.stat.unsatisfied ∧
      (∀ y : Literal, liveCount tcF y = liveCount tc y +
        (if y = l then occCount tc.original l else 0) +
        (if y = Literal.neg l then occCount tc.original (Literal.neg l)
          else 0)) := by
    intro j tc htcj
    obtain ⟨tc2, htc2, horig2, htot2, hsat2, hunsat2, hlive2⟩ :=
      hout1.clauseAgg j tc htcj
    obtain ⟨tcF, htcF, horigF, htotF, hsatF, hunsatF, hliveF⟩ :=
      hout2.clauseAgg j tc2 htc2
    have hcnt1 : ((t1.watch.row l).take
        (t1.watch.row l).length).countP (fun e => e.clause_idx = j) =
        occCount tc.original l := by
      rw [List.take_length]
      exact hInv.rowCountOk l j tc htcj
    have hcnt2 : ((T2.watch.row (Literal.neg l)).take
        (T2.watch.row (Literal.neg l)).length).countP
          (fun e => e.clause_idx = j) =
        occCount tc.original (Literal.neg l) := by
      rw [List.take_length,
        countP_idx_of_rowmap (hout1.rowmap (Literal.neg l)) j]
      exact hInv.rowCountOk (Literal.neg l) j tc htcj
    rw [hcnt1] at hsat2 hunsat2 hlive2
    rw [hcnt2] at hsatF hunsatF hliveF
    rw [if_pos rfl] at hsat2 hunsat2
    rw [if_neg (by simp)] at hsatF hunsatF
    refine ⟨tcF, htcF, horigF.trans horig2, htotF.trans htot2, ?_, ?_, ?_⟩
    · omega
    · omega
    · intro y
      have h1 := hlive2 y
      have h2 := hliveF y
      by_cases hy1 : y = l
      · have hyn1 : ¬ y = Literal.neg l := by
          rw [hy1]
          exact hlnl
        rw [if_pos hy1] at h1 ⊢
        rw [if_neg hyn1] at h2 ⊢
        omega
      · rw [if_neg hy1] at h1 ⊢
        by_cases hy2 : y = Literal.neg l
        · rw [if_pos hy2] at h2 ⊢
          omega
        · rw [if_neg hy2] at h2 ⊢
          omega
  have hsetback : t.assignments =
      (t.assignments.set x.idx none).set l.index (some l.positive) := by
    have hlp : l.positive = b := rfl
    rw [hlidx, hlp]
    apply List.ext_getElem?
    intro j
    by_cases hj : j = x.idx
    · subst hj
      rw [List.getElem?_set_self (by rw [List.length_set]; exact hlt)]
      rw [List.getD_eq_getElem?_getD] at hass
      cases hjq : t.assignments[x.idx]? with
      | none =>
        rw [hjq] at hass
        simp at hass
      | some v =>
        rw [hjq] at hass
        simp at hass
        rw [hass]
    · rw [List.getElem?_set_ne (fun h => hj h.symm),
        List.getElem?_set_ne (fun h => hj h.symm)]
  have hunb : (t.assignments.set x.idx none).getD l.index none = none :=
    getD_set_self hlt
  have hltb : l.index < (t.assignments.set x.idx none).length := by
    rw [List.length_set]
    exact hlt
  have hsatCnt : ∀ c : List Literal, satCount t.assignments c =
      satCount (t.assignments.set x.idx none) c + occCount c l := by
    intro c
    conv_lhs => rw [hsetback]
    exact satCount_set _ l c hunb hltb
  have hunsatCnt : ∀ c : List Literal, unsatCount t.assignments c =
      unsatCount (t.assignments.set x.idx none) c +
        occCount c (Literal.neg l) := by
    intro c
    conv_lhs => rw [hsetback]
    exact unsatCount_set _ l c hunb hltb
  refine ⟨⟨hcoreF, ?_, ?_, ?_⟩, hassignF, hnvF, hacF, hclenF, ?_⟩
  · -- cellsOk
    intro y v w h
    have hvl : v < ((Tracker.processUnsetRow T2 (Literal.neg l) false
        (T2.watch.row (Literal.neg l)).length).watch.row y).length :=
      (List.getElem?_eq_some_iff.mp h).1
    by_cases hyi : y.index = l.index
    · have hgd : (Tracker.processUnsetRow T2 (Literal.neg l) false
          (T2.watch.row (Literal.neg l)).length).assignments.getD
            y.index none = none := by
        rw [hassignF, hyi, hlidx, getD_set_self hlt]
      rcases Literal.eq_or_neg_of_index hyi with hcase | hcase
      · rw [hcase] at h hvl
        have hl2 := length_of_rowmap (hout2.rowmap l)
        have hl1 := length_of_rowmap (hout1.rowmap l)
        have hvlt : v < (t1.watch.row l).length := by omega
        have hchain := (hout2.cellsTodo l v
          (fun hy => absurd hy hlnl)).trans (hout1.cellsDone v hvlt)
        rw [h] at hchain
        simp at hchain
        rw [hchain, hgd]
        simp
      · rw [hcase] at h hvl
        have hvlt : v < (T2.watch.row (Literal.neg l)).length := by
          have hl2 := length_of_rowmap (hout2.rowmap (Literal.neg l))
          omega
        have hchain := hout2.cellsDone v hvlt
        rw [h] at hchain
        simp at hchain
        rw [hchain, hgd]
        simp
    · have hyl : y ≠ l := fun hq => hyi (by rw [hq])
      have hyn : y ≠ Literal.neg l := fun hq => hyi (by rw [hq]; rfl)
      have hchain := (hout2.cellsTodo y v (fun hy => absurd hy hyn)).trans
        (hout1.cellsTodo y v (fun hy => absurd hy hyl))
      rw [h] at hchain
      cases hrow0 : (t1.watch.row y)[v]? with
      | none =>
        rw [hrow0] at hchain
        simp at hchain
      | some w0 =>
        rw [hrow0] at hchain
        simp at hchain
        rw [hchain]
        have hiff := hInv.cellsOk y v w0 hrow0
        rw [hassignF, getD_set_ne (by rw [← hlidx]; exact hyi)]
        exact hiff
  · -- countOk
    intro j tcF htcF
    have hjlt : j < t.clauses.length := by
      have := (List.getElem?_eq_some_iff.mp htcF).1
      omega
    obtain ⟨tc, htcj⟩ : ∃ tc, t.clauses[j]? = some tc := by
      rw [List.getElem?_eq_getElem hjlt]
      exact ⟨_, rfl⟩
    obtain ⟨tcF2, htcF2, horig, htot, hsat, hunsat, hlive⟩ := hagg j tc htcj
    obtain rfl : tcF2 = tcF := Option.some.inj (htcF2.symm.trans htcF)
    obtain ⟨hsatv, hunsatv⟩ := hInv.countOk j tc htcj
    have hs := hsatCnt tc.original
    have hu := hunsatCnt tc.original
    constructor
    · rw [hassignF, horig]
      omega
    · rw [hassignF, horig]
      omega
  · -- liveOk
    intro j tcF htcF y
    have hjlt : j < t.clauses.length := by
      have := (List.getElem?_eq_some_iff.mp htcF).1
      omega
    obtain ⟨tc, htcj⟩ : ∃ tc, t.clauses[j]? = some tc := by
      rw [List.getElem?_eq_getElem hjlt]
      exact ⟨_, rfl⟩
    obtain ⟨tcF2, htcF2, horig, htot, hsat, hunsat, hlive⟩ := hagg j tc htcj
    obtain rfl : tcF2 = tcF := Option.some.inj (htcF2.symm.trans htcF)
    have hliveT := hInv.liveOk j tc htcj
    have h1 := hlive y
    rw [horig, hassignF]
    by_cases hy1 : y = l
    · have hyn1 : ¬ y = Literal.neg l := by
        rw [hy1]
        exact hlnl
      have hnoneb : y.optValue (t.assignments.set x.idx none) = none := by
        unfold Literal.optValue
        rw [show y.index = x.idx from by rw [hy1]; exact hlidx,
          getD_set_self hlt]
      rw [if_pos hnoneb]
      have h2 := hliveT y
      have hvt : y.optValue t.assignments = some true := by
        rw [hy1]
        exact hlval
      rw [hvt] at h2
      simp at h2
      rw [if_pos hy1, if_neg hyn1] at h1
      have hocc : occCount tc.original y = occCount tc.original l := by
        rw [hy1]
      omega
    · by_cases hy2 : y = Literal.neg l
      · have hnoneb : y.optValue (t.assignments.set x.idx none) =
            none := by
          unfold Literal.optValue
          rw [show y.index = x.idx from by rw [hy2]; rfl,
            getD_set_self hlt]
        rw [if_pos hnoneb]
        have h2 := hliveT y
        have hvf : y.optValue t.assignments = some false := by
          rw [hy2]
          exact hnlval
        rw [hvf] at h2
        simp at h2
        rw [if_neg hy1, if_pos hy2] at h1
        have hocc : occCount tc.original y =
            occCount tc.original (Literal.neg l) := by
          rw [hy2]
        omega
      · have hyi : y.index ≠ x.idx := by
          intro hq
          rcases Literal.eq_or_neg_of_index (hq.trans hlidx.symm) with
            hc | hc
          · exact hy1 hc
          · exact hy2 hc
        have hvb : y.optValue (t.assignments.set x.idx none) =
            y.optValue t.assignments := by
          unfold Literal.optValue
          rw [getD_set_ne hyi]
        rw [hvb]
        have h2 := hliveT y
        rw [if_neg hy1, if_neg hy2] at h1
        omega
  · -- per-clause originals and totals
    intro j tc htcj
    obtain ⟨tcF, htcF, horig, htot, _, _, _⟩ := hagg j tc htcj
    exact ⟨tcF, htcF, horig, htot⟩

/-- Invariant of the add_clause literal fold after processing the prefix
cs of the new clause.  The accumulator is (satisfied, unsatisfied,
live literals, watch); ci is the index the new clause will get. -/
structure AddFoldInv (t : Tracker) (ci : Nat) (cs : List Literal)
    (acc : Nat × Nat × List WatchedLiteral × Watch) : Prop where
  sat : acc.1 = satCount t.assignments cs
  unsat : acc.2.1 = unsatCount t.assignments cs
  live : ∀ y : Literal, acc.2.2.1.countP (fun wl => wl.literal = y) =
    (if y.optValue t.assignments = none then occCount cs y else 0)
  len : acc.1 + acc.2.1 + acc.2.2.1.length = cs.length
  wplen : acc.2.2.2.positive.length = t.watch.positive.length
  wnlen : acc.2.2.2.negative.length = t.watch.negative.length
  rowlen : ∀ y : Literal, (acc.2.2.2.row y).length =
    (t.watch.row y).length + occCount cs y
  oldrow : ∀ (y : Literal) (v : Nat), v < (t.watch.row y).length →
    (acc.2.2.2.row y)[v]? = (t.watch.row y)[v]?
  newidx : ∀ (y : Literal) (v : Nat) (e : WatchElement),
    (acc.2.2.2.row y)[v]? = some e → (t.watch.row y).length ≤ v →
    e.clause_idx = ci
  fwd : ∀ (c : Nat) (wl : WatchedLiteral), acc.2.2.1[c]? = some wl →
    (acc.2.2.2.row wl.literal)[wl.variable_col]? = some ⟨ci, some c⟩ ∧
    (t.watch.row wl.literal).length ≤ wl.variable_col ∧
    wl.literal.index < t.num_variables
  back : ∀ (y : Literal) (v : Nat) (e : WatchElement),
    (acc.2.2.2.row y)[v]? = some e → (t.watch.row y).length ≤ v →
    ∀ c, e.clause_col = some c → acc.2.2.1[c]? = some ⟨y, v⟩
  rowcnt : ∀ (y : Literal) (j : Nat),
    (acc.2.2.2.row y).countP (fun e => e.clause_idx = j) =
      (t.watch.row y).countP (fun e => e.clause_idx = j) +
      (if j = ci then occCount cs y else 0)
  cells : ∀ (y : Literal) (v : Nat) (e : WatchElement),
    (acc.2.2.2.row y)[v]? = some e → (t.watch.row y).length ≤ v →
    (e.clause_col.isSome = true ↔ y.optValue t.assignments = none)

theorem addFoldInv_nil (t : Tracker) (ci : Nat) :
    AddFoldInv t ci [] (0, 0, [], t.watch) := by
  refine ⟨rfl, rfl, ?_, rfl, rfl, rfl, ?_, ?_, ?_, ?_, ?_, ?_, ?_⟩
  · intro y
    simp [occCount]
  · intro y
    simp [occCount]
  · intro y v hv
    rfl
  · intro y v e he hle
    have : (t.watch.row y)[v]? = none :=
      List.getElem?_eq_none_iff.mpr hle
    rw [this] at he
    cases he
  · intro c wl hc
    simp at hc
  · intro y v e he hle c hcol
    have : (t.watch.row y)[v]? = none :=
      List.getElem?_eq_none_iff.mpr hle
    rw [this] at he
    cases he
  · intro y j
    simp [occCount]
  · intro y v e he hle
    have : (t.watch.row y)[v]? = none :=
      List.getElem?_eq_none_iff.mpr hle
    rw [this] at he
    cases he

theorem occCount_append_single (cs : List Literal) (y z : Literal) :
    occCount (cs ++ [y]) z = occCount cs z + (if y = z then 1 else 0) := by
  unfold occCount
  rw [List.countP_append]
  simp [List.countP_cons]

theorem addFold_step_none {t : Tracker} {ci : Nat} {cs : List Literal}
    {s u : Nat} {lits : List WatchedLiteral} {W : Watch}
    (h : AddFoldInv t ci cs (s, u, lits, W)) {y : Literal}
    (hy : y.index < t.num_variables)
    (hwp : t.watch.positive.length = t.num_variables)
    (hwn : t.watch.negative.length = t.num_variables)
    (hv : y.optValue t.assignments = none) :
    AddFoldInv t ci (cs ++ [y])
      (s, u, lits ++ [⟨y, (W.row y).length⟩],
        W.setRow y (W.row y ++ [⟨ci, some lits.length⟩])) := by
  have hbound : if y.positive then y.index < W.positive.length
      else y.index < W.negative.length := by
    by_cases hp : y.positive = true
    · rw [if_pos hp, h.wplen, hwp]
      exact hy
    · rw [if_neg hp, h.wnlen, hwn]
      exact hy
  have hself : (W.setRow y (W.row y ++ [⟨ci, some lits.length⟩])).row y =
      W.row y ++ [⟨ci, some lits.length⟩] :=
    Watch.row_setRow_self hbound
  have hother : ∀ z : Literal, z ≠ y →
      (W.setRow y (W.row y ++ [⟨ci, some lits.length⟩])).row z =
        W.row z :=
    fun z hz => Watch.row_setRow_other hz
  refine ⟨?_, ?_, ?_, ?_, ?_, ?_, ?_, ?_, ?_, ?_, ?_, ?_, ?_⟩
  · show s = satCount t.assignments (cs ++ [y])
    unfold satCount
    rw [List.countP_append]
    have : List.countP (fun z => z.optValue t.assignments = some true)
        [y] = 0 := by
      simp [List.countP_cons, hv]
    rw [this]
    exact h.sat
  · show u = unsatCount t.assignments (cs ++ [y])
    unfold unsatCount
    rw [List.countP_append]
    have : List.countP (fun z => z.optValue t.assignments = some false)
        [y] = 0 := by
      simp [List.countP_cons, hv]
    rw [this]
    exact h.unsat
  · intro z
    show (lits ++ [(⟨y, (W.row y).length⟩ : WatchedLiteral)]).countP
        (fun wl => wl.literal = z) = _
    rw [List.countP_append, occCount_append_single]
    have hz : lits.countP (fun wl => wl.literal = z) =
        (if z.optValue t.assignments = none then occCount cs z else 0) :=
      h.live z
    by_cases hzy : y = z
    · subst hzy
      rw [if_pos rfl]
      rw [show y.optValue t.assignments = none from hv] at hz ⊢
      rw [if_pos rfl] at hz ⊢
      have hsing : List.countP (fun wl => wl.literal = y)
          [(⟨y, (W.row y).length⟩ : WatchedLiteral)] = 1 := by
        simp [List.countP_cons]
      rw [hsing, hz]
    · rw [if_neg hzy]
      have hsing : List.countP (fun wl => wl.literal = z)
          [(⟨y, (W.row y).length⟩ : WatchedLiteral)] = 0 := by
        simp [List.countP_cons, hzy]
      rw [hsing]
      by_cases hzn : z.optValue t.assignments = none
      · rw [if_pos hzn] at hz ⊢
        omega
      · rw [if_neg hzn] at hz ⊢
        omega
  · show s + u + (lits ++ [_]).length = (cs ++ [y]).length
    rw [List.length_append, List.length_append]
    have := h.len
    simp at this ⊢
    omega
  · show (W.setRow y _).positive.length = t.watch.positive.length
    rw [Watch.setRow_lengths.1]
    exact h.wplen
  · show (W.setRow y _).negative.length = t.watch.negative.length
    rw [Watch.setRow_lengths.2]
    exact h.wnlen
  · intro z
    rw [occCount_append_single]
    by_cases hzy : z = y
    · subst hzy
      rw [hself, List.length_append, h.rowlen z, if_pos rfl]
      simp
      omega
    · rw [hother z hzy, h.rowlen z,
        if_neg (fun hq => hzy hq.symm)]
      omega
  · intro z v hvlt
    by_cases hzy : z = y
    · subst hzy
      rw [hself, List.getElem?_append_left (by rw [h.rowlen z]; omega)]
      exact h.oldrow z v hvlt
    · rw [hother z hzy]
      exact h.oldrow z v hvlt
  · intro z v e he hle
    by_cases hzy : z = y
    · subst hzy
      rw [hself] at he
      by_cases hvw : v < (W.row z).length
      · rw [List.getElem?_append_left hvw] at he
        exact h.newidx z v e he hle
      · have hveq : v = (W.row z).length := by
          have := (List.getElem?_eq_some_iff.mp he).1
          rw [List.length_append] at this
          simp at this
          omega
        subst hveq
        rw [List.getElem?_concat_length] at he
        obtain rfl := Option.some.inj he
        rfl
    · rw [hother z hzy] at he
      exact h.newidx z v e he hle
  · intro c wl hc
    by_cases hcl : c < lits.length
    · rw [List.getElem?_append_left hcl] at hc
      obtain ⟨hrow, hge, hidx⟩ := h.fwd c wl hc
      refine ⟨?_, hge, hidx⟩
      by_cases hzy : wl.literal = y
      · rw [hzy, hself, List.getElem?_append_left
          (by rw [← hzy]; exact (List.getElem?_eq_some_iff.mp hrow).1)]
        rw [← hzy]
        exact hrow
      · rw [hother wl.literal hzy]
        exact hrow
    · have hceq : c = lits.length := by
        have := (List.getElem?_eq_some_iff.mp hc).1
        rw [List.length_append] at this
        simp at this
        omega
      subst hceq
      rw [List.getElem?_concat_length] at hc
      obtain rfl := Option.some.inj hc
      refine ⟨?_, ?_, hy⟩
      · show ((W.setRow y _).row y)[(W.row y).length]? = _
        rw [hself, List.getElem?_concat_length]
      · show (t.watch.row y).length ≤ (W.row y).length
        rw [h.rowlen y]
        omega
  · intro z v e he hle c hcol
    by_cases hzy : z = y
    · subst hzy
      rw [hself] at he
      by_cases hvw : v < (W.row z).length
      · rw [List.getElem?_append_left hvw] at he
        have := h.back z v e he hle c hcol
        rw [List.getElem?_append_left
          (List.getElem?_eq_some_iff.mp this).1]
        exact this
      · have hveq : v = (W.row z).length := by
          have := (List.getElem?_eq_some_iff.mp he).1
          rw [List.length_append] at this
          simp at this
          omega
        subst hveq
        rw [List.getElem?_concat_length] at he
        obtain rfl := Option.some.inj he
        have hceq : lits.length = c := by simpa using hcol
        subst hceq
        rw [List.getElem?_concat_length]
    · rw [hother z hzy] at he
      have := h.back z v e he hle c hcol
      rw [List.getElem?_append_left
        (List.getElem?_eq_some_iff.mp this).1]
      exact this
  · intro z j
    rw [occCount_append_single]
    by_cases hzy : z = y
    · subst hzy
      rw [hself, List.countP_append, h.rowcnt z j]
      by_cases hj : j = ci
      · rw [if_pos hj, if_pos hj, if_pos rfl]
        simp [List.countP_cons, hj]
        omega
      · rw [if_neg hj, if_neg hj]
        have : List.countP (fun e => e.clause_idx = j)
            [(⟨ci, some lits.length⟩ : WatchElement)] = 0 := by
          simp [List.countP_cons]
          exact fun hq => hj hq.symm
        rw [this]
    · rw [hother z hzy, h.rowcnt z j]
      have hyz : ¬ (y = z) := fun hq => hzy hq.symm
      rw [if_neg hyz]
      by_cases hj : j = ci
      · rw [if_pos hj, if_pos hj]
        omega
      · rw [if_neg hj, if_neg hj]
  · intro z v e he hle
    by_cases hzy : z = y
    · subst hzy
      rw [hself] at he
      by_cases hvw : v < (W.row z).length
      · rw [List.getElem?_append_left hvw] at he
        exact h.cells z v e he hle
      · have hveq : v = (W.row z).length := by
          have := (List.getElem?_eq_some_iff.mp he).1
          rw [List.length_append] at this
          simp at this
          omega
        subst hveq
        rw [List.getElem?_concat_length] at he
        obtain rfl := Option.some.inj he
        simp [hv]
    · rw [hother z hzy] at he
      exact h.cells z v e he hle

theorem addFold_step_true {t : Tracker} {ci : Nat} {cs : List Literal}
    {s u : Nat} {lits : List WatchedLiteral} {W : Watch}
    (h : AddFoldInv t ci cs (s, u, lits, W)) {y : Literal}
    (hy : y.index < t.num_variables)
    (hwp : t.watch.positive.length = t.num_variables)
    (hwn : t.watch.negative.length = t.num_variables)
    (hv : y.optValue t.assignments = some true) :
    AddFoldInv t ci (cs ++ [y])
      (s + 1, u, lits,
        W.setRow y (W.row y ++ [⟨ci, none⟩])) := by
  have hvne : ¬ (y.optValue t.assignments = none) := by
    rw [hv]
    simp
  have hbound : if y.positive then y.index < W.positive.length
      else y.index < W.negative.length := by
    by_cases hp : y.positive = true
    · rw [if_pos hp, h.wplen, hwp]
      exact hy
    · rw [if_neg hp, h.wnlen, hwn]
      exact hy
  have hself : (W.setRow y (W.row y ++ [⟨ci, none⟩])).row y =
      W.row y ++ [⟨ci, none⟩] :=
    Watch.row_setRow_self hbound
  have hother : ∀ z : Literal, z ≠ y →
      (W.setRow y (W.row y ++ [⟨ci, none⟩])).row z = W.row z :=
    fun z hz => Watch.row_setRow_other hz
  refine ⟨?_, ?_, ?_, ?_, ?_, ?_, ?_, ?_, ?_, ?_, ?_, ?_, ?_⟩
  · show (s + 1) = satCount t.assignments (cs ++ [y])
    unfold satCount
    rw [List.countP_append]
    have hone : List.countP (fun z => z.optValue t.assignments = some true)
        [y] = 1 := by
      simp [List.countP_cons, hv]
    rw [hone]
    have hsp : s = List.countP
        (fun z => z.optValue t.assignments = some true) cs := h.sat
    omega
  · show u = unsatCount t.assignments (cs ++ [y])
    unfold unsatCount
    rw [List.countP_append]
    have hone : List.countP
        (fun z => z.optValue t.assignments = some false)
        [y] = 0 := by
      simp [List.countP_cons, hv]
    rw [hone]
    have hup : u = List.countP
        (fun z => z.optValue t.assignments = some false) cs := h.unsat
    omega
  · intro z
    show lits.countP (fun wl => wl.literal = z) = _
    have hz : lits.countP (fun wl => wl.literal = z) =
        (if z.optValue t.assignments = none then occCount cs z else 0) :=
      h.live z
    rw [occCount_append_single, hz]
    by_cases hzn : z.optValue t.assignments = none
    · rw [if_pos hzn, if_pos hzn]
      have hzy : ¬ (y = z) := by
        intro hq
        rw [hq] at hv
        rw [hzn] at hv
        cases hv
      rw [if_neg hzy]
      omega
    · rw [if_neg hzn, if_neg hzn]
  · show (s + 1) + u + lits.length = (cs ++ [y]).length
    rw [List.length_append]
    have hlp : s + u + lits.length = cs.length := h.len
    simp
    omega
  · show (W.setRow y _).positive.length = t.watch.positive.length
    rw [Watch.setRow_lengths.1]
    exact h.wplen
  · show (W.setRow y _).negative.length = t.watch.negative.length
    rw [Watch.setRow_lengths.2]
    exact h.wnlen
  · intro z
    rw [occCount_append_single]
    by_cases hzy : z = y
    · subst hzy
      rw [hself, List.length_append, h.rowlen z, if_pos rfl]
      simp
      omega
    · rw [hother z hzy, h.rowlen z,
        if_neg (fun hq => hzy hq.symm)]
      omega
  · intro z v hvlt
    by_cases hzy : z = y
    · subst hzy
      rw [hself, List.getElem?_append_left (by rw [h.rowlen z]; omega)]
      exact h.oldrow z v hvlt
    · rw [hother z hzy]
      exact h.oldrow z v hvlt
  · intro z v e he hle
    by_cases hzy : z = y
    · subst hzy
      rw [hself] at he
      by_cases hvw : v < (W.row z).length
      · rw [List.getElem?_append_left hvw] at he
        exact h.newidx z v e he hle
      · have hveq : v = (W.row z).length := by
          have := (List.getElem?_eq_some_iff.mp he).1
          rw [List.length_append] at this
          simp at this
          omega
        subst hveq
        rw [List.getElem?_concat_length] at he
        obtain rfl := Option.some.inj he
        rfl
    · rw [hother z hzy] at he
      exact h.newidx z v e he hle
  · intro c wl hc
    obtain ⟨hrow, hge, hidx⟩ := h.fwd c wl hc
    refine ⟨?_, hge, hidx⟩
    by_cases hzy : wl.literal = y
    · rw [hzy, hself, List.getElem?_append_left
        (by rw [← hzy]; exact (List.getElem?_eq_some_iff.mp hrow).1)]
      rw [← hzy]
      exact hrow
    · rw [hother wl.literal hzy]
      exact hrow
  · intro z v e he hle c hcol
    by_cases hzy : z = y
    · subst hzy
      rw [hself] at he
      by_cases hvw : v < (W.row z).length
      · rw [List.getElem?_append_left hvw] at he
        exact h.back z v e he hle c hcol
      · have hveq : v = (W.row z).length := by
          have := (List.getElem?_eq_some_iff.mp he).1
          rw [List.length_append] at this
          simp at this
          omega
        subst hveq
        rw [List.getElem?_concat_length] at he
        obtain rfl := Option.some.inj he
        cases hcol
    · rw [hother z hzy] at he
      exact h.back z v e he hle c hcol
  · intro z j
    rw [occCount_append_single]
    by_cases hzy : z = y
    · subst hzy
      rw [hself, List.countP_append, h.rowcnt z j]
      by_cases hj : j = ci
      · rw [if_pos hj, if_pos hj, if_pos rfl]
        simp [List.countP_cons, hj]
        omega
      · rw [if_neg hj, if_neg hj]
        have hone : List.countP (fun e => e.clause_idx = j)
            [(⟨ci, none⟩ : WatchElement)] = 0 := by
          simp [List.countP_cons]
          exact fun hq => hj hq.symm
        rw [hone]
    · rw [hother z hzy, h.rowcnt z j]
      have hyz : ¬ (y = z) := fun hq => hzy hq.symm
      rw [if_neg hyz]
      by_cases hj : j = ci
      · rw [if_pos hj, if_pos hj]
        omega
      · rw [if_neg hj, if_neg hj]
  · intro z v e he hle
    by_cases hzy : z = y
    · subst hzy
      rw [hself] at he
      by_cases hvw : v < (W.row z).length
      · rw [List.getElem?_append_left hvw] at he
        exact h.cells z v e he hle
      · have hveq : v = (W.row z).length := by
          have := (List.getElem?_eq_some_iff.mp he).1
          rw [List.length_append] at this
          simp at this
          omega
        subst hveq
        rw [List.getElem?_concat_length] at he
        obtain rfl := Option.some.inj he
        simp [hv]
    · rw [hother z hzy] at he
      exact h.cells z v e he hle

theorem addFold_step_false {t : Tracker} {ci : Nat} {cs : List Literal}
    {s u : Nat} {lits : List WatchedLiteral} {W : Watch}
    (h : AddFoldInv t ci cs (s, u, lits, W)) {y : Literal}
    (hy : y.index < t.num_variables)
    (hwp : t.watch.positive.length = t.num_variables)
    (hwn : t.watch.negative.length = t.num_variables)
    (hv : y.optValue t.assignments = some false) :
    AddFoldInv t ci (cs ++ [y])
      (s, u + 1, lits,
        W.setRow y (W.row y ++ [⟨ci, none⟩])) := by
  have hvne : ¬ (y.optValue t.assignments = none) := by
    rw [hv]
    simp
  have hbound : if y.positive then y.index < W.positive.length
      else y.index < W.negative.length := by
    by_cases hp : y.positive = true
    · rw [if_pos hp, h.wplen, hwp]
      exact hy
    · rw [if_neg hp, h.wnlen, hwn]
      exact hy
  have hself : (W.setRow y (W.row y ++ [⟨ci, none⟩])).row y =
      W.row y ++ [⟨ci, none⟩] :=
    Watch.row_setRow_self hbound
  have hother : ∀ z : Literal, z ≠ y →
      (W.setRow y (W.row y ++ [⟨ci, none⟩])).row z = W.row z :=
    fun z hz => Watch.row_setRow_other hz
  refine ⟨?_, ?_, ?_, ?_, ?_, ?_, ?_, ?_, ?_, ?_, ?_, ?_, ?_⟩
  · show s = satCount t.assignments (cs ++ [y])
    unfold satCount
    rw [List.countP_append]
    have hone : List.countP (fun z => z.optValue t.assignments = some true)
        [y] = 0 := by
      simp [List.countP_cons, hv]
    rw [hone]
    have hsp : s = List.countP
        (fun z => z.optValue t.assignments = some true) cs := h.sat
    omega
  · show (u + 1) = unsatCount t.assignments (cs ++ [y])
    unfold unsatCount
    rw [List.countP_append]
    have hone : List.countP
        (fun z => z.optValue t.assignments = some false)
        [y] = 1 := by
      simp [List.countP_cons, hv]
    rw [hone]
    have hup : u = List.countP
        (fun z => z.optValue t.assignments = some false) cs := h.unsat
    omega
  · intro z
    show lits.countP (fun wl => wl.literal = z) = _
    have hz : lits.countP (fun wl => wl.literal = z) =
        (if z.optValue t.assignments = none then occCount cs z else 0) :=
      h.live z
    rw [occCount_append_single, hz]
    by_cases hzn : z.optValue t.assignments = none
    · rw [if_pos hzn, if_pos hzn]
      have hzy : ¬ (y = z) := by
        intro hq
        rw [hq] at hv
        rw [hzn] at hv
        cases hv
      rw [if_neg hzy]
      omega
    · rw [if_neg hzn, if_neg hzn]
  · show s + (u + 1) + lits.length = (cs ++ [y]).length
    rw [List.length_append]
    have hlp : s + u + lits.length = cs.length := h.len
    simp
    omega
  · show (W.setRow y _).positive.length = t.watch.positive.length
    rw [Watch.setRow_lengths.1]
    exact h.wplen
  · show (W.setRow y _).negative.length = t.watch.negative.length
    rw [Watch.setRow_lengths.2]
    exact h.wnlen
  · intro z
    rw [occCount_append_single]
    by_cases hzy : z = y
    · subst hzy
      rw [hself, List.length_append, h.rowlen z, if_pos rfl]
      simp
      omega
    · rw [hother z hzy, h.rowlen z,
        if_neg (fun hq => hzy hq.symm)]
      omega
  · intro z v hvlt
    by_cases hzy : z = y
    · subst hzy
      rw [hself, List.getElem?_append_left (by rw [h.rowlen z]; omega)]
      exact h.oldrow z v hvlt
    · rw [hother z hzy]
      exact h.oldrow z v hvlt
  · intro z v e he hle
    by_cases hzy : z = y
    · subst hzy
      rw [hself] at he
      by_cases hvw : v < (W.row z).length
      · rw [List.getElem?_append_left hvw] at he
        exact h.newidx z v e he hle
      · have hveq : v = (W.row z).length := by
          have := (List.getElem?_eq_some_iff.mp he).1
          rw [List.length_append] at this
          simp at this
          omega
        subst hveq
        rw [List.getElem?_concat_length] at he
        obtain rfl := Option.some.inj he
        rfl
    · rw [hother z hzy] at he
      exact h.newidx z v e he hle
  · intro c wl hc
    obtain ⟨hrow, hge, hidx⟩ := h.fwd c wl hc
    refine ⟨?_, hge, hidx⟩
    by_cases hzy : wl.literal = y
    · rw [hzy, hself, List.getElem?_append_left
        (by rw [← hzy]; exact (List.getElem?_eq_some_iff.mp hrow).1)]
      rw [← hzy]
      exact hrow
    · rw [hother wl.literal hzy]
      exact hrow
  · intro z v e he hle c hcol
    by_cases hzy : z = y
    · subst hzy
      rw [hself] at he
      by_cases hvw : v < (W.row z).length
      · rw [List.getElem?_append_left hvw] at he
        exact h.back z v e he hle c hcol
      · have hveq : v = (W.row z).length := by
          have := (List.getElem?_eq_some_iff.mp he).1
          rw [List.length_append] at this
          simp at this
          omega
        subst hveq
        rw [List.getElem?_concat_length] at he
        obtain rfl := Option.some.inj he
        cases hcol
    · rw [hother z hzy] at he
      exact h.back z v e he hle c hcol
  · intro z j
    rw [occCount_append_single]
    by_cases hzy : z = y
    · subst hzy
      rw [hself, List.countP_append, h.rowcnt z j]
      by_cases hj : j = ci
      · rw [if_pos hj, if_pos hj, if_pos rfl]
        simp [List.countP_cons, hj]
        omega
      · rw [if_neg hj, if_neg hj]
        have hone : List.countP (fun e => e.clause_idx = j)
            [(⟨ci, none⟩ : WatchElement)] = 0 := by
          simp [List.countP_cons]
          exact fun hq => hj hq.symm
        rw [hone]
    · rw [hother z hzy, h.rowcnt z j]
      have hyz : ¬ (y = z) := fun hq => hzy hq.symm
      rw [if_neg hyz]
      by_cases hj : j = ci
      · rw [if_pos hj, if_pos hj]
        omega
      · rw [if_neg hj, if_neg hj]
  · intro z v e he hle
    by_cases hzy : z = y
    · subst hzy
      rw [hself] at he
      by_cases hvw : v < (W.row z).length
      · rw [List.getElem?_append_left hvw] at he
        exact h.cells z v e he hle
      · have hveq : v = (W.row z).length := by
          have := (List.getElem?_eq_some_iff.mp he).1
          rw [List.length_append] at this
          simp at this
          omega
        subst hveq
        rw [List.getElem?_concat_length] at he
        obtain rfl := Option.some.inj he
        simp [hv]
    · rw [hother z hzy] at he
      exact h.cells z v e he hle

theorem addFold_all {t : Tracker} {ci : Nat}
    (hwp : t.watch.positive.length = t.num_variables)
    (hwn : t.watch.negative.length = t.num_variables) :
    ∀ (rest cs : List Literal)
      (acc : Nat × Nat × List WatchedLiteral × Watch),
      AddFoldInv t ci cs acc →
      (∀ z ∈ rest, z.index < t.num_variables) →
      AddFoldInv t ci (cs ++ rest)
        (rest.foldl
          (fun (acc : Nat × Nat × List WatchedLiteral × Watch) l =>
            let (satisfied, unsatisfied, literals, watch) := acc
            match l.optValue t.assignments with
            | some true =>
              (satisfied + 1, unsatisfied, literals,
                watch.setRow l (watch.row l ++ [⟨ci, none⟩]))
            | some false =>
              (satisfied, unsatisfied + 1, literals,
                watch.setRow l (watch.row l ++ [⟨ci, none⟩]))
            | none =>
              let new_clause_col := literals.length
              let variable_col := (watch.row l).length
              (satisfied, unsatisfied,
                literals ++ [⟨l, variable_col⟩],
                watch.setRow l
                  (watch.row l ++ [⟨ci, some new_clause_col⟩])))
          acc) := by
  intro rest
  induction rest with
  | nil =>
    intro cs acc hinv hb
    rw [List.append_nil]
    exact hinv
  | cons y ys ih =>
    intro cs acc hinv hb
    obtain ⟨s, u, lits, W⟩ := acc
    rw [List.foldl_cons]
    have hyb : y.index < t.num_variables := hb y (by simp)
    have hstep : AddFoldInv t ci (cs ++ [y])
        ((fun (acc : Nat × Nat × List WatchedLiteral × Watch) l =>
            let (satisfied, unsatisfied, literals, watch) := acc
            match l.optValue t.assignments with
            | some true =>
              (satisfied + 1, unsatisfied, literals,
                watch.setRow l (watch.row l ++ [⟨ci, none⟩]))
            | some false =>
              (satisfied, unsatisfied + 1, literals,
                watch.setRow l (watch.row l ++ [⟨ci, none⟩]))
            | none =>
              let new_clause_col := literals.length
              let variable_col := (watch.row l).length
              (satisfied, unsatisfied,
                literals ++ [⟨l, variable_col⟩],
                watch.setRow l
                  (watch.row l ++ [⟨ci, some new_clause_col⟩])))
          (s, u, lits, W) y) := by
      show AddFoldInv t ci (cs ++ [y])
        (match y.optValue t.assignments with
          | some true =>
            (s + 1, u, lits, W.setRow y (W.row y ++ [⟨ci, none⟩]))
          | some false =>
            (s, u + 1, lits, W.setRow y (W.row y ++ [⟨ci, none⟩]))
          | none =>
            (s, u, lits ++ [⟨y, (W.row y).length⟩],
              W.setRow y (W.row y ++ [⟨ci, some lits.length⟩])))
      cases hv : y.optValue t.assignments with
      | none =>
        exact addFold_step_none hinv hyb hwp hwn hv
      | some b =>
        cases b with
        | true => exact addFold_step_true hinv hyb hwp hwn hv
        | false => exact addFold_step_false hinv hyb hwp hwn hv
    have hrec := ih (cs ++ [y]) _ hstep (fun z hz => hb z (by simp [hz]))
    rw [List.append_assoc] at hrec
    exact hrec

theorem optValue_none_iff (y : Literal) (a : List (Option Bool)) :
    y.optValue a = none ↔ a.getD y.index none = none := by
  unfold Literal.optValue
  cases h : a.getD y.index none <;> simp

/-- Tracker::add_clause preserves the tracker invariant: the new clause is
appended with stat counts taken against the current assignment, and
nothing else changes. -/
theorem add_clause_spec {t : Tracker} {clause : List Literal} (hInv : Inv t)
    (hb : ∀ z ∈ clause, z.index < t.num_variables) :
    Inv (Tracker.add_clause t clause) ∧
      (Tracker.add_clause t clause).assignments = t.assignments ∧
      (Tracker.add_clause t clause).num_variables = t.num_variables ∧
      (Tracker.add_clause t clause).assigned_count = t.assigned_count ∧
      (∃ lits : List WatchedLiteral,
        (Tracker.add_clause t clause).clauses = t.clauses ++
          [⟨ClauseStat.mkNew clause.length
              (satCount t.assignments clause)
              (unsatCount t.assignments clause), clause, lits⟩]) := by
  set F := clause.foldl
    (fun (acc : Nat × Nat × List WatchedLiteral × Watch) l =>
      let (satisfied, unsatisfied, literals, watch) := acc
      match l.optValue t.assignments with
      | some true =>
        (satisfied + 1, unsatisfied, literals,
          watch.setRow l (watch.row l ++ [⟨t.clauses.length, none⟩]))
      | some false =>
        (satisfied, unsatisfied + 1, literals,
          watch.setRow l (watch.row l ++ [⟨t.clauses.length, none⟩]))
      | none =>
        let new_clause_col := literals.length
        let variable_col := (watch.row l).length
        (satisfied, unsatisfied, literals ++ [⟨l, variable_col⟩],
          watch.setRow l
            (watch.row l ++ [⟨t.clauses.length, some new_clause_col⟩])))
    ((0, 0, [], t.watch) : Nat × Nat × List WatchedLiteral × Watch)
    with hFdef
  have hfold : AddFoldInv t t.clauses.length clause F := by
    have h0 := addFold_all hInv.wplen hInv.wnlen clause []
      (0, 0, [], t.watch) (addFoldInv_nil t t.clauses.length) hb
    rw [List.nil_append] at h0
    exact h0
  have hd : Tracker.add_clause t clause = { t with
      watch := F.2.2.2
      clause_cache := t.clause_cache.setBucket
        (ClauseStat.mkNew clause.length F.1 F.2.1).status
        (insert t.clauses.length (t.clause_cache.get
          (ClauseStat.mkNew clause.length F.1 F.2.1).status))
      clauses := t.clauses ++
        [⟨ClauseStat.mkNew clause.length F.1 F.2.1, clause,
          F.2.2.1⟩] } := rfl
  rw [hd]
  set stat : ClauseStat := ClauseStat.mkNew clause.length F.1 F.2.1
    with hstat
  set newtc : TrackedClause := ⟨stat, clause, F.2.2.1⟩ with hnewtc
  set t2 : Tracker := { t with
      watch := F.2.2.2
      clause_cache := t.clause_cache.setBucket stat.status
        (insert t.clauses.length (t.clause_cache.get stat.status))
      clauses := t.clauses ++ [newtc] } with ht2def
  have hclen : t2.clauses.length = t.clauses.length + 1 := by
    show (t.clauses ++ [newtc]).length = t.clauses.length + 1
    simp
  have hold : ∀ j, j < t.clauses.length →
      t2.clauses[j]? = t.clauses[j]? := by
    intro j hj
    show (t.clauses ++ [newtc])[j]? = t.clauses[j]?
    exact List.getElem?_append_left hj
  have hnew : t2.clauses[t.clauses.length]? = some newtc := by
    show (t.clauses ++ [newtc])[t.clauses.length]? = some newtc
    exact List.getElem?_concat_length t.clauses newtc
  have hlook : ∀ (j : Nat) (tcj : TrackedClause),
      t2.clauses[j]? = some tcj →
      (j < t.clauses.length ∧ t.clauses[j]? = some tcj) ∨
      (j = t.clauses.length ∧ tcj = newtc) := by
    intro j tcj hj
    by_cases hlt : j < t.clauses.length
    · left
      refine ⟨hlt, ?_⟩
      rw [← hold j hlt]
      exact hj
    · right
      have hjlt : j < t2.clauses.length :=
        (List.getElem?_eq_some_iff.mp hj).1
      have hje : j = t.clauses.length := by omega
      subst hje
      rw [hnew] at hj
      exact ⟨rfl, (Option.some.inj hj).symm⟩
  have hrowci : ∀ y : Literal, (t.watch.row y).countP
      (fun e => e.clause_idx = t.clauses.length) = 0 := by
    intro y
    rw [List.countP_eq_zero]
    intro e he
    obtain ⟨v, hv⟩ := List.mem_iff_getElem?.mp he
    have := hInv.idxOk y v e hv
    simp
    omega
  have hwrow : ∀ (y : Literal) (v : Nat),
      (t2.watch.row y)[v]? = (F.2.2.2.row y)[v]? := fun y v => rfl
  have hstatus : stat.status = ClauseStatus.from_count clause.length
      F.1 F.2.1 := rfl
  have hbget : ∀ s, t2.clause_cache.get s =
      if s = stat.status then
        insert t.clauses.length (t.clause_cache.get stat.status)
      else t.clause_cache.get s := by
    intro s
    show (t.clause_cache.setBucket stat.status _).get s = _
    exact ClauseStateCache.get_setBucket t.clause_cache stat.status s _
  have hcinot : ∀ s, t.clauses.length ∉ t.clause_cache.get s := by
    intro s h
    have := hInv.bucketSub s t.clauses.length h
    omega
  refine ⟨⟨⟨hInv.alen, ?_, ?_, ?_, ?_, ?_, ?_, ?_, ?_, ?_, ?_, ?_⟩,
    ?_, ?_, ?_⟩, rfl, rfl, rfl, ?_⟩
  · exact hfold.wplen.trans hInv.wplen
  · exact hfold.wnlen.trans hInv.wnlen
  · -- idxOk
    intro y v e he
    have heF : (F.2.2.2.row y)[v]? = some e := he
    rw [hclen]
    by_cases hv : v < (t.watch.row y).length
    · rw [hfold.oldrow y v hv] at heF
      have := hInv.idxOk y v e heF
      omega
    · have := hfold.newidx y v e heF (by omega)
      omega
  · -- backOk
    intro y v e he c hc
    have heF : (F.2.2.2.row y)[v]? = some e := he
    by_cases hv : v < (t.watch.row y).length
    · rw [hfold.oldrow y v hv] at heF
      obtain ⟨tcj, htcj, hlit⟩ := hInv.backOk y v e heF c hc
      have hjlt : e.clause_idx < t.clauses.length :=
        (List.getElem?_eq_some_iff.mp htcj).1
      refine ⟨tcj, ?_, hlit⟩
      rw [hold e.clause_idx hjlt]
      exact htcj
    · have hidx := hfold.newidx y v e heF (by omega)
      have hlit := hfold.back y v e heF (by omega) c hc
      refine ⟨newtc, ?_, hlit⟩
      rw [hidx]
      exact hnew
  · -- fwdOk
    intro j d tcj wl htcj hwl
    rcases hlook j tcj htcj with ⟨hjlt, htcj2⟩ | ⟨hje, htceq⟩
    · obtain ⟨hidx, hcell⟩ := hInv.fwdOk j d tcj wl htcj2 hwl
      refine ⟨hidx, ?_⟩
      have hvlt : wl.variable_col < (t.watch.row wl.literal).length :=
        (List.getElem?_eq_some_iff.mp hcell).1
      show (F.2.2.2.row wl.literal)[wl.variable_col]? = _
      rw [hfold.oldrow wl.literal wl.variable_col hvlt]
      exact hcell
    · subst hje
      subst htceq
      have hwlF : F.2.2.1[d]? = some wl := hwl
      obtain ⟨hcell, hge, hidx⟩ := hfold.fwd d wl hwlF
      exact ⟨hidx, hcell⟩
  · -- rowCountOk
    intro y j tcj htcj
    have hcnt : rowIdxCount t2 y j =
        (t.watch.row y).countP (fun e => e.clause_idx = j) +
        (if j = t.clauses.length then occCount clause y else 0) :=
      hfold.rowcnt y j
    rcases hlook j tcj htcj with ⟨hjlt, htcj2⟩ | ⟨hje, htceq⟩
    · rw [hcnt, if_neg (by omega)]
      exact hInv.rowCountOk y j tcj htcj2
    · subst hje
      subst htceq
      rw [hcnt, if_pos rfl, hrowci y]
      show 0 + occCount clause y = occCount newtc.original y
      rw [show newtc.original = clause from rfl]
      omega
  · -- sumOk
    intro j tcj htcj
    rcases hlook j tcj htcj with ⟨hjlt, htcj2⟩ | ⟨hje, htceq⟩
    · exact hInv.sumOk j tcj htcj2
    · subst htceq
      constructor
      · show F.1 + F.2.1 + F.2.2.1.length = clause.length
        exact hfold.len
      · rfl
  · -- statOk
    intro j tcj htcj
    rcases hlook j tcj htcj with ⟨hjlt, htcj2⟩ | ⟨hje, htceq⟩
    · exact hInv.statOk j tcj htcj2
    · subst htceq
      rfl
  · -- bucketSub
    intro s j hm
    rw [hbget s] at hm
    rw [hclen]
    by_cases hs : s = stat.status
    · rw [if_pos hs, Finset.mem_insert] at hm
      rcases hm with rfl | hm
      · omega
      · have := hInv.bucketSub stat.status j hm
        omega
    · rw [if_neg hs] at hm
      have := hInv.bucketSub s j hm
      omega
  · -- bucketOk
    intro j tcj htcj s
    rw [hbget s]
    rcases hlook j tcj htcj with ⟨hjlt, htcj2⟩ | ⟨hje, htceq⟩
    · have hne : j ≠ t.clauses.length := by omega
      by_cases hs : s = stat.status
      · rw [if_pos hs, Finset.mem_insert]
        constructor
        · rintro (rfl | hm)
          · exact absurd rfl hne
          · exact hs.trans ((hInv.bucketOk j tcj htcj2 stat.status).mp hm)
        · intro hst
          exact Or.inr ((hInv.bucketOk j tcj htcj2 stat.status).mpr
            (hs.symm.trans hst))
      · rw [if_neg hs]
        exact hInv.bucketOk j tcj htcj2 s
    · subst hje
      subst htceq
      by_cases hs : s = stat.status
      · rw [if_pos hs, Finset.mem_insert]
        constructor
        · intro _
          rw [hs]
        · intro _
          exact Or.inl rfl
      · rw [if_neg hs]
        constructor
        · intro hm
          exact absurd hm (hcinot s)
        · intro hst
          exact absurd (hst.trans (show newtc.stat.status = stat.status
            from rfl)) hs
  · -- origIdxOk
    intro j tcj htcj y hy
    rcases hlook j tcj htcj with ⟨hjlt, htcj2⟩ | ⟨hje, htceq⟩
    · exact hInv.origIdxOk j tcj htcj2 y hy
    · subst htceq
      exact hb y hy
  · -- cellsOk
    intro y v e he
    have heF : (F.2.2.2.row y)[v]? = some e := he
    by_cases hv : v < (t.watch.row y).length
    · rw [hfold.oldrow y v hv] at heF
      exact hInv.cellsOk y v e heF
    · have h2 := hfold.cells y v e heF (by omega)
      rw [h2]
      exact optValue_none_iff y t.assignments
  · -- countOk
    intro j tcj htcj
    rcases hlook j tcj htcj with ⟨hjlt, htcj2⟩ | ⟨hje, htceq⟩
    · exact hInv.countOk j tcj htcj2
    · subst htceq
      exact ⟨hfold.sat, hfold.unsat⟩
  · -- liveOk
    intro j tcj htcj y
    rcases hlook j tcj htcj with ⟨hjlt, htcj2⟩ | ⟨hje, htceq⟩
    · exact hInv.liveOk j tcj htcj2 y
    · subst htceq
      exact hfold.live y
  · -- the appended clause
    refine ⟨F.2.2.1, ?_⟩
    show t.clauses ++ [newtc] = _
    rw [hnewtc, hstat, hfold.sat, hfold.unsat]

/-- Tracker::new establishes the tracker invariant. -/
theorem mkNew_Inv (n : Nat) : Inv (Tracker.mkNew n) := by
  have hrow : ∀ y : Literal, (Tracker.mkNew n).watch.row y = [] := by
    intro y
    show Watch.row ⟨List.replicate n [], List.replicate n []⟩ y = []
    unfold Watch.row
    by_cases hp : y.positive = true
    · rw [if_pos hp]
      rw [List.getD_eq_getElem?_getD]
      cases h : (List.replicate n ([] : List WatchElement))[y.index]? with
      | none => rfl
      | some r =>
        have := List.eq_of_mem_replicate (List.getElem?_mem h)
        rw [this]
        rfl
    · rw [if_neg hp]
      rw [List.getD_eq_getElem?_getD]
      cases h : (List.replicate n ([] : List WatchElement))[y.index]? with
      | none => rfl
      | some r =>
        have := List.eq_of_mem_replicate (List.getElem?_mem h)
        rw [this]
        rfl
  have hclause : ∀ j : Nat, (Tracker.mkNew n).clauses[j]? = none := by
    intro j
    show ([] : List TrackedClause)[j]? = none
    simp
  have hbucket : ∀ s, (Tracker.mkNew n).clause_cache.get s = ∅ := by
    intro s
    cases s <;> rfl
  refine ⟨⟨?_, ?_, ?_, ?_, ?_, ?_, ?_, ?_, ?_, ?_, ?_, ?_⟩, ?_, ?_, ?_⟩
  · show (List.replicate n (none : Option Bool)).length = n
    simp
  · show (List.replicate n ([] : List WatchElement)).length = n
    simp
  · show (List.replicate n ([] : List WatchElement)).length = n
    simp
  · intro y v w h
    rw [hrow] at h
    simp at h
  · intro y v w h
    rw [hrow] at h
    simp at h
  · intro j d tcj wl htcj
    rw [hclause] at htcj
    cases htcj
  · intro y j tcj htcj
    rw [hclause] at htcj
    cases htcj
  · intro j tcj htcj
    rw [hclause] at htcj
    cases htcj
  · intro j tcj htcj
    rw [hclause] at htcj
    cases htcj
  · intro s j hm
    rw [hbucket] at hm
    simp at hm
  · intro j tcj htcj
    rw [hclause] at htcj
    cases htcj
  · intro j tcj htcj
    rw [hclause] at htcj
    cases htcj
  · intro y v w h
    rw [hrow] at h
    simp at h
  · intro j tcj htcj
    rw [hclause] at htcj
    cases htcj
  · intro j tcj htcj
    rw [hclause] at htcj
    cases htcj

/-- C3: after every public tracker operation (add_clause on a clause of
in-range variables, set_literal of an unassigned literal, unset of an
assigned variable) the tracker invariant holds; and in any invariant
state, every tracked clause's satisfied counter equals the number of its
literal occurrences true under the current assignment, its unsatisfied
counter the number false, its status is from_count of its counters, and
its index sits in exactly the bucket of its status. -/
theorem C3_tracker_counts_status_buckets :
    (∀ (t : Tracker) (clause : List Literal), Inv t →
      (∀ z ∈ clause, z.index < t.num_variables) →
      Inv (Tracker.add_clause t clause)) ∧
    (∀ (t : Tracker) (l : Literal), Inv t →
      t.assignments.getD l.index none = none →
      l.index < t.num_variables →
      Inv (Tracker.set_literal t l)) ∧
    (∀ (t : Tracker) (x : Variable) (b : Bool), Inv t →
      t.assignments.getD x.idx none = some b →
      Inv (Tracker.unset t x)) ∧
    (∀ t : Tracker, Inv t → ∀ (j : Nat) (tc : TrackedClause),
      t.clauses[j]? = some tc →
      tc.stat.satisfied = satCount t.assignments tc.original ∧
      tc.stat.unsatisfied = unsatCount t.assignments tc.original ∧
      tc.stat.status = ClauseStatus.from_count tc.stat.total
        tc.stat.satisfied tc.stat.unsatisfied ∧
      (∀ s, j ∈ t.clause_cache.get s ↔ s = tc.stat.status)) := by
  refine ⟨?_, ?_, ?_, ?_⟩
  · intro t clause hInv hb
    exact (add_clause_spec hInv hb).1
  · intro t l hInv hun hidx
    exact (set_literal_spec hInv hun hidx).1
  · intro t x b hInv hass
    exact (unset_spec hInv hass).1
  · intro t hInv j tc htcj
    obtain ⟨h1, h2⟩ := hInv.countOk j tc htcj
    exact ⟨h1, h2, hInv.statOk j tc htcj, hInv.bucketOk j tc htcj⟩

theorem C3_tracker_counts_status_buckets_witness :
    Inv (Tracker.add_clause (Tracker.mkNew 1)
      [(⟨⟨0⟩, true⟩ : Literal)]) :=
  C3_tracker_counts_status_buckets.1 (Tracker.mkNew 1)
    [(⟨⟨0⟩, true⟩ : Literal)] (mkNew_Inv 1) (by decide)

/-- C9: after every public tracker operation the tracker invariant holds
(first three conjuncts), and in any invariant state every tracked
clause's live-literal list has length total − satisfied − unsatisfied and
holds exactly the clause's literal occurrences whose variables are
unassigned; consequently a Unit clause has exactly one live literal and
get_unit_clause_literal returns that clause's unique unassigned
literal. -/
theorem C9_live_list_and_unit_literal :
    (∀ (t : Tracker) (clause : List Literal), Inv t →
      (∀ z ∈ clause, z.index < t.num_variables) →
      Inv (Tracker.add_clause t clause)) ∧
    (∀ (t : Tracker) (l : Literal), Inv t →
      t.assignments.getD l.index none = none →
      l.index < t.num_variables →
      Inv (Tracker.set_literal t l)) ∧
    (∀ (t : Tracker) (x : Variable) (b : Bool), Inv t →
      t.assignments.getD x.idx none = some b →
      Inv (Tracker.unset t x)) ∧
    (∀ t : Tracker, Inv t → ∀ (j : Nat) (tc : TrackedClause),
      t.clauses[j]? = some tc →
      tc.literals.length =
        tc.stat.total - tc.stat.satisfied - tc.stat.unsatisfied ∧
      (∀ y : Literal, liveCount tc y =
        (if y.optValue t.assignments = none then occCount tc.original y
          else 0)) ∧
      (tc.stat.status = ClauseStatus.Unit → ∃ y : Literal,
        tc.literals.length = 1 ∧
        Tracker.get_unit_clause_literal t j = some y ∧
        y.optValue t.assignments = none ∧
        y ∈ tc.original ∧
        (∀ z : Literal, z ≠ y → z.optValue t.assignments = none →
          occCount tc.original z = 0))) := by
  refine ⟨?_, ?_, ?_, ?_⟩
  · intro t clause hInv hb
    exact (add_clause_spec hInv hb).1
  · intro t l hInv hun hidx
    exact (set_literal_spec hInv hun hidx).1
  · intro t x b hInv hass
    exact (unset_spec hInv hass).1
  · intro t hInv j tc htcj
    obtain ⟨hsum, htot⟩ := hInv.sumOk j tc htcj
    refine ⟨by omega, hInv.liveOk j tc htcj, ?_⟩
    intro hunit
    have hstat := hInv.statOk j tc htcj
    rw [hunit] at hstat
    have hchar : ¬ (tc.stat.unsatisfied = tc.stat.total) ∧
        ¬ (0 < tc.stat.satisfied) ∧
        tc.stat.unsatisfied + 1 = tc.stat.total := by
      unfold ClauseStatus.from_count at hstat
      split_ifs at hstat with h1 h2 h3
      all_goals try exact ⟨h1, h2, h3⟩
      all_goals cases hstat
    have hlen1 : tc.literals.length = 1 := by omega
    obtain ⟨wl, hwl⟩ := List.length_eq_one.mp hlen1
    have hget : Tracker.get_unit_clause_literal t j = some wl.literal := by
      unfold Tracker.get_unit_clause_literal
      rw [htcj]
      show (if tc.literals.length = 1
        then (tc.literals.head?).map (fun x => x.literal) else none) =
        some wl.literal
      rw [if_pos hlen1, hwl]
      rfl
    have hlive1 : liveCount tc wl.literal = 1 := by
      unfold liveCount
      rw [hwl]
      simp
    have hlv := hInv.liveOk j tc htcj wl.literal
    rw [hlive1] at hlv
    have hval : wl.literal.optValue t.assignments = none := by
      by_contra hq
      rw [if_neg hq] at hlv
      cases hlv
    rw [if_pos hval] at hlv
    have hmem : wl.literal ∈ tc.original := by
      have hocc : 0 < occCount tc.original wl.literal := by omega
      unfold occCount at hocc
      rw [List.countP_pos_iff] at hocc
      obtain ⟨z, hz, hd⟩ := hocc
      have : z = wl.literal := by simpa using hd
      rw [← this]
      exact hz
    refine ⟨wl.literal, hlen1, hget, hval, hmem, ?_⟩
    intro z hz hzval
    have hlz := hInv.liveOk j tc htcj z
    rw [if_pos hzval] at hlz
    have hlz0 : liveCount tc z = 0 := by
      unfold liveCount
      rw [hwl]
      simp
      exact fun hq => hz hq.symm
    omega

theorem C9_live_list_and_unit_literal_witness :
    Inv (Tracker.set_literal (Tracker.mkNew 1) (⟨⟨0⟩, true⟩ : Literal)) :=
  C9_live_list_and_unit_literal.2.1 (Tracker.mkNew 1)
    (⟨⟨0⟩, true⟩ : Literal) (mkNew_Inv 1) (by decide) (by decide)

/-- C2: set_literal of an unassigned literal followed by unset of its
variable restores every status bucket's contents and every clause's
(satisfied, unsatisfied, status) triple. -/
theorem C2_set_unset_round_trip (t : Tracker) (l : Literal)
    (hInv : Inv t) (hun : t.assignments.getD l.index none = none)
    (hidx : l.index < t.num_variables) :
    (∀ s, (Tracker.unset (Tracker.set_literal t l)
        l.var).clause_cache.get s = t.clause_cache.get s) ∧
    (∀ j : Nat, ((Tracker.unset (Tracker.set_literal t l)
          l.var).clauses[j]?).map
        (fun tc => (tc.stat.satisfied, tc.stat.unsatisfied,
          tc.stat.status)) =
      (t.clauses[j]?).map
        (fun tc => (tc.stat.satisfied, tc.stat.unsatisfied,
          tc.stat.status))) := by
  have hlt : l.index < t.assignments.length := by
    rw [hInv.alen]
    exact hidx
  obtain ⟨hI1, ha1, hn1, hc1, hl1, hp1⟩ := set_literal_spec hInv hun hidx
  have hass2 : (Tracker.set_literal t l).assignments.getD l.var.idx none =
      some l.positive := by
    rw [ha1]
    exact getD_set_self hlt
  obtain ⟨hI2, ha2, hn2, hc2, hl2, hp2⟩ := unset_spec hI1 hass2
  have hrest : (Tracker.unset (Tracker.set_literal t l)
      l.var).assignments = t.assignments := by
    rw [ha2, ha1]
    apply List.ext_getElem?
    intro j
    have hjv : l.index = l.var.idx := rfl
    by_cases hj : j = l.index
    · subst hj
      rw [hjv]
      rw [List.getElem?_set_self
        (by rw [List.length_set, ← hjv]; exact hlt)]
      have hun2 : t.assignments.getD l.var.idx none = none := hun
      rw [List.getD_eq_getElem?_getD] at hun2
      cases hq : t.assignments[l.var.idx]? with
      | none =>
        rw [List.getElem?_eq_none_iff, ← hjv] at hq
        omega
      | some v =>
        rw [hq] at hun2
        simp at hun2
        rw [hun2]
    · rw [List.getElem?_set_ne (fun h => hj (h.symm.trans hjv.symm)),
        List.getElem?_set_ne (fun h => hj h.symm)]
  have hlen : (Tracker.unset (Tracker.set_literal t l)
      l.var).clauses.length = t.clauses.length := hl2.trans hl1
  have hstats : ∀ (j : Nat) (tc : TrackedClause),
      t.clauses[j]? = some tc → ∃ tcF : TrackedClause,
      (Tracker.unset (Tracker.set_literal t l) l.var).clauses[j]? =
        some tcF ∧
      tcF.stat.satisfied = tc.stat.satisfied ∧
      tcF.stat.unsatisfied = tc.stat.unsatisfied ∧
      tcF.stat.status = tc.stat.status := by
    intro j tc htcj
    obtain ⟨tc2, htc2, horig2, htot2⟩ := hp1 j tc htcj
    obtain ⟨tcF, htcF, horigF, htotF⟩ := hp2 j tc2 htc2
    obtain ⟨hs1, hu1⟩ := hInv.countOk j tc htcj
    obtain ⟨hsF, huF⟩ := hI2.countOk j tcF htcF
    rw [hrest, horigF, horig2] at hsF huF
    have hsat : tcF.stat.satisfied = tc.stat.satisfied := by
      rw [hsF, hs1]
    have hunsat : tcF.stat.unsatisfied = tc.stat.unsatisfied := by
      rw [huF, hu1]
    refine ⟨tcF, htcF, hsat, hunsat, ?_⟩
    rw [hI2.statOk j tcF htcF, hInv.statOk j tc htcj]
    rw [hsat, hunsat, htotF, htot2]
  constructor
  · intro s
    apply Finset.ext
    intro j
    constructor
    · intro hm
      have hjlt : j < t.clauses.length := by
        have := hI2.bucketSub s j hm
        omega
      obtain ⟨tc, htcj⟩ : ∃ tc, t.clauses[j]? = some tc := by
        rw [List.getElem?_eq_getElem hjlt]
        exact ⟨_, rfl⟩
      obtain ⟨tcF, htcF, _, _, hst⟩ := hstats j tc htcj
      have hs := (hI2.bucketOk j tcF htcF s).mp hm
      exact (hInv.bucketOk j tc htcj s).mpr (hs.trans hst)
    · intro hm
      have hjlt : j < t.clauses.length := hInv.bucketSub s j hm
      obtain ⟨tc, htcj⟩ : ∃ tc, t.clauses[j]? = some tc := by
        rw [List.getElem?_eq_getElem hjlt]
        exact ⟨_, rfl⟩
      obtain ⟨tcF, htcF, _, _, hst⟩ := hstats j tc htcj
      have hs := (hInv.bucketOk j tc htcj s).mp hm
      exact (hI2.bucketOk j tcF htcF s).mpr (hs.trans hst.symm)
  · intro j
    by_cases hjlt : j < t.clauses.length
    · obtain ⟨tc, htcj⟩ : ∃ tc, t.clauses[j]? = some tc := by
        rw [List.getElem?_eq_getElem hjlt]
        exact ⟨_, rfl⟩
      obtain ⟨tcF, htcF, hsat, hunsat, hst⟩ := hstats j tc htcj
      rw [htcj, htcF]
      simp [hsat, hunsat, hst]
    · rw [List.getElem?_eq_none_iff.mpr (by omega),
        List.getElem?_eq_none_iff.mpr (by have := hlen; omega)]

theorem C2_set_unset_round_trip_witness :
    (∀ s, (Tracker.unset (Tracker.set_literal (Tracker.mkNew 1)
        (⟨⟨0⟩, true⟩ : Literal))
        (⟨⟨0⟩, true⟩ : Literal).var).clause_cache.get s =
      (Tracker.mkNew 1).clause_cache.get s) ∧
    (∀ j : Nat, ((Tracker.unset (Tracker.set_literal (Tracker.mkNew 1)
          (⟨⟨0⟩, true⟩ : Literal))
          (⟨⟨0⟩, true⟩ : Literal).var).clauses[j]?).map
        (fun tc => (tc.stat.satisfied, tc.stat.unsatisfied,
          tc.stat.status)) =
      ((Tracker.mkNew 1).clauses[j]?).map
        (fun tc => (tc.stat.satisfied, tc.stat.unsatisfied,
          tc.stat.status))) :=
  C2_set_unset_round_trip (Tracker.mkNew 1) (⟨⟨0⟩, true⟩ : Literal)
    (mkNew_Inv 1) (by decide) (by decide)

/-! ### VSIDS (src/solver/cdcl/vsids.rs)

f64 scores and nonces are embedded as rationals; NaN never arises from
the arithmetic the source performs, so the panicking partial_cmp unwraps
never fire on the embedded values.  A BTreeSet is embedded as its
ascending iteration sequence: a list that is strictly increasing in the
SetEntry order. -/

/-- SetEntry (vsids.rs lines 30-34).  The source field named variable is
called var here because variable is a Lean keyword. -/
structure SetEntry where
  var : Variable
  score : ℚ
  nonce : ℚ
deriving DecidableEq, Repr

/-- SetEntry::cmp (vsids.rs lines 54-74) as the strict order it induces:
by score, ties broken by nonce. -/
def SetEntry.lt (a b : SetEntry) : Prop :=
  a.score < b.score ∨ (a.score = b.score ∧ a.nonce < b.nonce)

instance (a b : SetEntry) : Decidable (SetEntry.lt a b) := by
  unfold SetEntry.lt
  infer_instance

/-- VsidsScoring (vsids.rs lines 78-82): scores are (score, nonce) pairs
per variable index; btree is the ordered set in ascending iteration
order. -/
structure VsidsScoring where
  current_rate : ℚ
  scores : List (ℚ × ℚ)
  btree : List SetEntry

/-- VsidsScoring::top (vsids.rs lines 148-151): the first element of the
set's ascending iteration, i.e. its least entry.  The unwrap on an empty
set is modeled as none. -/
def VsidsScoring.top (v : VsidsScoring) : Option Variable :=
  (v.btree.head?).map (fun e => e.var)

/-- C5: the claim says top() returns the variable with the greatest score
(ties broken by nonce); the code takes btree.iter().next(), the LEAST
element of the BTreeSet.  First conjunct: on every legal set state, top
returns the head of the ascending iteration, whose score is a lower bound
of all scores.  Second conjunct: on a concrete two-variable state the
greatest score belongs to variable 1, yet top returns variable 0. -/
theorem C5_top_returns_least_entry :
    (∀ (v : VsidsScoring) (e0 : SetEntry),
      v.btree.Pairwise SetEntry.lt →
      v.btree.head? = some e0 →
      VsidsScoring.top v = some e0.var ∧
      (∀ e ∈ v.btree, e0.score ≤ e.score)) ∧
    (VsidsScoring.top ⟨1, [(1, 0), (2, 0)],
        [⟨⟨0⟩, 1, 0⟩, ⟨⟨1⟩, 2, 0⟩]⟩ = some ⟨0⟩ ∧
      List.Pairwise SetEntry.lt
        [(⟨⟨0⟩, 1, 0⟩ : SetEntry), ⟨⟨1⟩, 2, 0⟩] ∧
      (∀ e ∈ [(⟨⟨0⟩, 1, 0⟩ : SetEntry), ⟨⟨1⟩, 2, 0⟩],
        e.score ≤ (2:ℚ)) ∧
      (⟨⟨1⟩, 2, 0⟩ : SetEntry) ∈
        [(⟨⟨0⟩, 1, 0⟩ : SetEntry), ⟨⟨1⟩, 2, 0⟩] ∧
      (⟨0⟩ : Variable) ≠ ⟨1⟩) := by
  constructor
  · intro v e0 hpw h0
    constructor
    · unfold VsidsScoring.top
      rw [h0]
      rfl
    · intro e he
      cases hb : v.btree with
      | nil =>
        rw [hb] at he
        simp at he
      | cons x rest =>
        rw [hb] at h0 he hpw
        obtain rfl : x = e0 := by simpa using h0
        rcases List.mem_cons.mp he with rfl | he2
        · exact le_refl _
        · have hlt := (List.pairwise_cons.mp hpw).1 e he2
          unfold SetEntry.lt at hlt
          rcases hlt with h | ⟨h, _⟩
          · exact le_of_lt h
          · exact le_of_eq h
  · refine ⟨rfl, ?_, ?_, ?_, ?_⟩
    · simp [SetEntry.lt]
    · intro e he
      rcases List.mem_cons.mp he with rfl | he2
      · norm_num
      · simp at he2
        rw [he2]
    · simp
    · intro h
      have := congrArg Variable.idx h
      simp at this

theorem C5_top_returns_least_entry_witness :
    VsidsScoring.top ⟨1, [(1, 0), (2, 0)],
        [⟨⟨0⟩, 1, 0⟩, ⟨⟨1⟩, 2, 0⟩]⟩ = some ⟨0⟩ ∧
    (∀ e ∈ [(⟨⟨0⟩, 1, 0⟩ : SetEntry), ⟨⟨1⟩, 2, 0⟩],
      e.score ≤ (2:ℚ)) :=
  ⟨(C5_top_returns_least_entry.1 ⟨1, [(1, 0), (2, 0)],
      [⟨⟨0⟩, 1, 0⟩, ⟨⟨1⟩, 2, 0⟩]⟩ ⟨⟨0⟩, 1, 0⟩
      (by simp [SetEntry.lt]) rfl).1,
    C5_top_returns_least_entry.2.2.2.1⟩

/-! ### The CDCL engine state (src/solver/cdcl.rs) -/

/-- DecisionReason (cdcl.rs lines 16-19). -/
inductive DecisionReason where
  | Decision : DecisionReason
  | UnitPropagation : Nat → DecisionReason
deriving DecidableEq, Repr

/-- Decision (cdcl.rs lines 21-25). -/
structure Decision where
  decision_level : Nat
  reason : DecisionReason
deriving DecidableEq, Repr

/-- CdclSolver (cdcl.rs lines 62-78).  The VSIDS heuristic state is
abstracted to the content of its ordered set (the currently unassigned
variables); scores and random nonces only influence which member top()
returns, which the correctness arguments quantify over. -/
structure CdclSolver where
  formula : Cnf
  decisions : List (Option Decision)
  decision_stack : List Literal
  frame : List Nat
  tracker : Tracker
  unassigned : Finset Variable

/-- CdclSolver::current_level (cdcl.rs lines 81-83). -/
def CdclSolver.current_level (s : CdclSolver) : Nat := s.frame.length

/-- CdclSolver::push_decision (cdcl.rs lines 85-99).  Note the source
records self.current_level() computed after the frame push. -/
def CdclSolver.push_decision (s : CdclSolver) (literal : Literal)
    (reason : DecisionReason) : CdclSolver :=
  let frame2 := match reason with
    | DecisionReason.Decision => s.frame ++ [s.decision_stack.length]
    | _ => s.frame
  { s with
    frame := frame2
    decision_stack := s.decision_stack ++ [literal]
    decisions := s.decisions.set literal.index
      (some ⟨frame2.length, reason⟩)
    tracker := s.tracker.set_literal literal
    unassigned := s.unassigned.erase literal.var }

/-- CdclSolver::pop_decision (cdcl.rs lines 101-113).  The
take().unwrap() of a missing decision memo is a Rust panic, modeled as
none and proved unreachable from the solver invariant. -/
def CdclSolver.pop_decision (s : CdclSolver) :
    Option ((Literal × Decision) × CdclSolver) :=
  match s.decision_stack.getLast? with
  | none => none
  | some literal =>
    match s.decisions.getD literal.index none with
    | none => none
    | some decision =>
      let frame2 := match decision.reason with
        | DecisionReason.Decision => s.frame.dropLast
        | _ => s.frame
      some ((literal, decision),
        { s with
          decision_stack := s.decision_stack.dropLast
          unassigned := insert literal.var s.unassigned
          tracker := s.tracker.unset literal.var
          decisions := s.decisions.set literal.index none
          frame := frame2 })

/-- The backjump rewind loop of CdclSolver::solve (cdcl.rs lines
173-176): pop decisions while the current level exceeds the target.  A
failing pop (empty stack, unreachable under the invariant) stops. -/
def CdclSolver.rewind (s : CdclSolver) (target : Nat) :
    Nat → CdclSolver
  | 0 => s
  | fuel + 1 =>
    if target < s.current_level then
      match s.pop_decision with
      | none => s
      | some (_, s2) => CdclSolver.rewind s2 target fuel
    else s

/-- The second_max computation of CdclSolver::solve (cdcl.rs lines
153-158): the maximum decision level strictly below current among the
learned clause's literals; the unwrap of an unassigned literal's memo is
a panic, modeled by the outer Option. -/
def second_max (decisions : List (Option Decision))
    (learned : List Literal) (current : Nat) : Option (Option Nat) :=
  (learned.mapM (fun l => decisions.getD l.index none)).map
    (fun ds => ((ds.map (fun d => d.decision_level)).filter
      (fun lv => decide (lv < current))).max?)

/-- The parts of the solver invariant that drive the backjump loop: the
frame is strictly increasing and in range, stack variables are distinct,
and the decision memo of every stack literal exists and is a Decision
exactly at the frame positions. -/
structure StackInv (s : CdclSolver) : Prop where
  mono : s.frame.Pairwise (fun a b => a < b)
  bound : ∀ f ∈ s.frame, f < s.decision_stack.length
  distinct : s.decision_stack.Pairwise (fun a b => a.index ≠ b.index)
  memo : ∀ (p : Nat) (l : Literal), s.decision_stack[p]? = some l →
    ∃ d : Decision, s.decisions.getD l.index none = some d ∧
      (d.reason = DecisionReason.Decision ↔ p ∈ s.frame)

theorem sorted_getLast_max {fr : List Nat}
    (hpw : fr.Pairwise (fun a b => a < b)) {m : Nat} (hm : m ∈ fr)
    (hmax : ∀ x ∈ fr, x ≤ m) : fr.getLast? = some m := by
  obtain ⟨pm, hpm, hpmv⟩ := List.getElem_of_mem hm
  have hne : fr ≠ [] := by
    intro h
    subst h
    simp at hm
  have hlen : 0 < fr.length := List.length_pos.mpr hne
  rw [List.getLast?_eq_getElem?]
  rw [List.getElem?_eq_getElem (by omega : fr.length - 1 < fr.length)]
  congr 1
  by_cases hpl : pm = fr.length - 1
  · subst hpl
    exact hpmv
  · have hpw2 := List.pairwise_iff_getElem.mp hpw
    have h1 := hpw2 pm (fr.length - 1) (by omega) (by omega) (by omega)
    have h2 := hmax (fr[fr.length - 1]) (List.getElem_mem _)
    rw [hpmv] at h1
    omega

theorem sorted_dropLast_lt {fr : List Nat}
    (hpw : fr.Pairwise (fun a b => a < b)) {g : Nat}
    (hg : fr.getLast? = some g) : ∀ x ∈ fr.dropLast, x < g := by
  intro x hx
  have hne : fr ≠ [] := by
    intro h
    subst h
    simp at hg
  have hlen : 0 < fr.length := List.length_pos.mpr hne
  have hgv : fr[fr.length - 1]? = some g := by
    rw [← List.getLast?_eq_getElem?]
    exact hg
  obtain ⟨px, hpx, hpxv⟩ := List.getElem_of_mem hx
  rw [List.length_dropLast] at hpx
  have hx2 : fr[px]? = some x := by
    have h3 : fr.dropLast[px]? = some x := by
      rw [List.getElem?_eq_getElem (by rw [List.length_dropLast]; omega)]
      rw [hpxv]
    rw [List.getElem?_dropLast, if_pos hpx] at h3
    exact h3
  have hpw2 := List.pairwise_iff_getElem.mp hpw
  have h1 := hpw2 px (fr.length - 1) (by omega) (by omega) (by omega)
  rw [List.getElem?_eq_getElem (by omega : px < fr.length)] at hx2
  rw [List.getElem?_eq_getElem
    (by omega : fr.length - 1 < fr.length)] at hgv
  rw [Option.some.inj hx2, Option.some.inj hgv] at h1
  exact h1

theorem sorted_mem_dropLast {fr : List Nat}
    (hpw : fr.Pairwise (fun a b => a < b)) {g : Nat}
    (hg : fr.getLast? = some g) {p : Nat} (hp : p ≠ g) :
    (p ∈ fr.dropLast ↔ p ∈ fr) := by
  have hne : fr ≠ [] := by
    intro h
    subst h
    simp at hg
  constructor
  · exact List.mem_of_mem_dropLast
  · intro hm
    have hglast : fr.getLast hne = g := by
      rw [List.getLast?_eq_getLast _ hne] at hg
      exact Option.some.inj hg
    conv at hm => rw [← List.dropLast_append_getLast hne]
    rcases List.mem_append.mp hm with h | h
    · exact h
    · have h2 : p = fr.getLast hne := by simpa using h
      rw [hglast] at h2
      exact absurd h2 hp

theorem pop_decision_spec {s : CdclSolver} (hInv : StackInv s)
    {l : Literal} (hl : s.decision_stack.getLast? = some l) :
    ∃ d s2, CdclSolver.pop_decision s = some ((l, d), s2) ∧ StackInv s2 ∧
      s2.decision_stack = s.decision_stack.dropLast ∧
      s2.current_level =
        (if d.reason = DecisionReason.Decision
          then s.current_level - 1 else s.current_level) ∧
      (d.reason = DecisionReason.Decision → 0 < s.current_level) := by
  have hne : s.decision_stack ≠ [] := by
    intro h
    rw [h] at hl
    simp at hl
  have hlen : 0 < s.decision_stack.length := List.length_pos.mpr hne
  have hptop : s.decision_stack[s.decision_stack.length - 1]? = some l := by
    rw [← List.getLast?_eq_getElem?]
    exact hl
  obtain ⟨d, hd, hdframe⟩ :=
    hInv.memo (s.decision_stack.length - 1) l hptop
  have hdrop : ∀ (p : Nat) (y : Literal),
      s.decision_stack.dropLast[p]? = some y →
      s.decision_stack[p]? = some y ∧ p < s.decision_stack.length - 1 := by
    intro p y hp
    have hplt : p < s.decision_stack.dropLast.length :=
      (List.getElem?_eq_some_iff.mp hp).1
    rw [List.length_dropLast] at hplt
    constructor
    · rw [List.getElem?_dropLast, if_pos hplt] at hp
      exact hp
    · exact hplt
  have hidxne : ∀ (p : Nat) (y : Literal),
      s.decision_stack.dropLast[p]? = some y → y.index ≠ l.index := by
    intro p y hp
    obtain ⟨hp2, hplt⟩ := hdrop p y hp
    have hpw := List.pairwise_iff_getElem.mp hInv.distinct
    have := hpw p (s.decision_stack.length - 1) (by omega) (by omega)
      (by omega)
    rw [List.getElem?_eq_getElem (by omega : p < s.decision_stack.length)]
      at hp2
    rw [List.getElem?_eq_getElem
      (by omega : s.decision_stack.length - 1 < s.decision_stack.length)]
      at hptop
    rw [Option.some.inj hp2] at this
    rw [Option.some.inj hptop] at this
    exact this
  have hframe_last : d.reason = DecisionReason.Decision →
      s.frame.getLast? = some (s.decision_stack.length - 1) := by
    intro hr
    have hmem : s.decision_stack.length - 1 ∈ s.frame := by
      rw [← hdframe]
      exact hr
    apply sorted_getLast_max hInv.mono hmem
    intro x hx
    have := hInv.bound x hx
    omega
  refine ⟨d, { s with
      decision_stack := s.decision_stack.dropLast
      unassigned := insert l.var s.unassigned
      tracker := s.tracker.unset l.var
      decisions := s.decisions.set l.index none
      frame := match d.reason with
        | DecisionReason.Decision => s.frame.dropLast
        | _ => s.frame }, ?_, ?_, rfl, ?_, ?_⟩
  · unfold CdclSolver.pop_decision
    simp only [hl, hd]
  · constructor
    · -- mono
      cases hr : d.reason with
      | Decision =>
        show (s.frame.dropLast).Pairwise (fun a b => a < b)
        exact List.Pairwise.sublist (List.dropLast_sublist s.frame)
          hInv.mono
      | UnitPropagation i =>
        show s.frame.Pairwise (fun a b => a < b)
        exact hInv.mono
    · -- bound
      cases hr : d.reason with
      | Decision =>
        intro f hf
        show f < s.decision_stack.dropLast.length
        rw [List.length_dropLast]
        exact sorted_dropLast_lt hInv.mono (hframe_last hr) f hf
      | UnitPropagation i =>
        intro f hf
        show f < s.decision_stack.dropLast.length
        rw [List.length_dropLast]
        have hfl := hInv.bound f hf
        have hfne : f ≠ s.decision_stack.length - 1 := by
          intro hq
          have hmem : f ∈ s.frame := hf
          rw [hq] at hmem
          have := hdframe.mpr hmem
          rw [hr] at this
          cases this
        omega
    · -- distinct
      exact List.Pairwise.sublist (List.dropLast_sublist _) hInv.distinct
    · -- memo
      intro p y hp
      obtain ⟨hp2, hplt⟩ := hdrop p y hp
      obtain ⟨dy, hdy, hdyframe⟩ := hInv.memo p y hp2
      refine ⟨dy, ?_, ?_⟩
      · show (s.decisions.set l.index none).getD y.index none = some dy
        rw [List.getD_eq_getElem?_getD,
          List.getElem?_set_ne (fun h => hidxne p y hp h.symm),
          ← List.getD_eq_getElem?_getD]
        exact hdy
      · cases hr : d.reason with
        | Decision =>
          show dy.reason = DecisionReason.Decision ↔ p ∈ s.frame.dropLast
          rw [hdyframe]
          exact (sorted_mem_dropLast hInv.mono (hframe_last hr)
            (by omega : p ≠ s.decision_stack.length - 1)).symm
        | UnitPropagation i =>
          show dy.reason = DecisionReason.Decision ↔ p ∈ s.frame
          exact hdyframe
  · cases hr : d.reason with
    | Decision =>
      rw [if_pos rfl]
      show (s.frame.dropLast).length = s.frame.length - 1
      rw [List.length_dropLast]
    | UnitPropagation i =>
      rw [if_neg (fun h => by cases h)]
      rfl
  · intro hr
    have hmem : s.decision_stack.length - 1 ∈ s.frame := by
      rw [← hdframe]
      exact hr
    show 0 < s.frame.length
    cases hq : s.frame with
    | nil =>
      rw [hq] at hmem
      simp at hmem
    | cons a b => simp [hq]

theorem rewind_reaches : ∀ (fuel : Nat) (s : CdclSolver), StackInv s →
    ∀ target : Nat, target ≤ s.current_level →
    s.decision_stack.length ≤ fuel →
    (CdclSolver.rewind s target fuel).current_level = target := by
  intro fuel
  induction fuel with
  | zero =>
    intro s hInv target htle hlen
    show s.current_level = target
    have hframe : s.frame = [] := by
      cases hq : s.frame with
      | nil => rfl
      | cons a b =>
        have hmem : a ∈ s.frame := by
          rw [hq]
          simp
        have := hInv.bound a hmem
        omega
    unfold CdclSolver.current_level at htle ⊢
    rw [hframe] at htle ⊢
    simp at htle ⊢
    omega
  | succ fuel ih =>
    intro s hInv target htle hlen
    show (if target < s.current_level then
        match s.pop_decision with
        | none => s
        | some (_, s2) => CdclSolver.rewind s2 target fuel
      else s).current_level = target
    by_cases hgt : target < s.current_level
    · rw [if_pos hgt]
      have hfne : s.frame ≠ [] := by
        intro hq
        unfold CdclSolver.current_level at hgt
        rw [hq] at hgt
        simp at hgt
      have hsne : s.decision_stack ≠ [] := by
        intro hq
        obtain ⟨g, hg⟩ := List.exists_mem_of_ne_nil s.frame hfne
        have := hInv.bound g hg
        rw [hq] at this
        simp at this
      obtain ⟨l, hl⟩ : ∃ l, s.decision_stack.getLast? = some l := by
        cases hq : s.decision_stack.getLast? with
        | none =>
          rw [List.getLast?_eq_none_iff] at hq
          exact absurd hq hsne
        | some l => exact ⟨l, rfl⟩
      obtain ⟨d, s2, hpop, hInv2, hstack2, hlevel2, hpos⟩ :=
        pop_decision_spec hInv hl
      rw [hpop]
      apply ih s2 hInv2 target
      · rw [hlevel2]
        by_cases hr : d.reason = DecisionReason.Decision
        · rw [if_pos hr]
          have := hpos hr
          omega
        · rw [if_neg hr]
          omega
      · rw [hstack2, List.length_dropLast]
        have : 0 < s.decision_stack.length := List.length_pos.mpr hsne
        omega
    · rw [if_neg hgt]
      omega

theorem mapM_length {α β : Type} (f : α → Option β) :
    ∀ (xs : List α) (ys : List β), xs.mapM f = some ys →
      ys.length = xs.length := by
  intro xs
  induction xs with
  | nil =>
    intro ys h
    have h2 : (some ([] : List β) : Option (List β)) = some ys := h
    cases h2
    rfl
  | cons x xt ih =>
    intro ys h
    rw [List.mapM_cons] at h
    cases hx : f x with
    | none =>
      rw [hx] at h
      simp at h
    | some b =>
      rw [hx] at h
      cases ht : xt.mapM f with
      | none =>
        rw [ht] at h
        simp at h
      | some bs =>
        rw [ht] at h
        simp at h
        rw [← h]
        simp [ih bs ht]

/-- C6: at a conflict the backjump target is max of the learned clause's
decision levels strictly below the current level (second_max); it is
empty exactly when no such literal exists, which under the First-UIP
shape of the learned clause happens exactly when the clause is unit; and
the rewind loop pops decisions until the current level equals the
target. -/
theorem C6_backjump_level :
    (∀ (decisions : List (Option Decision)) (learned : List Literal)
      (current : Nat) (ds : List Decision),
      learned.mapM (fun l => decisions.getD l.index none) = some ds →
      second_max decisions learned current =
        some (((ds.map (fun d => d.decision_level)).filter
          (fun lv => decide (lv < current))).max?) ∧
      (∀ v : Nat, second_max decisions learned current = some (some v) →
        v < current ∧ v ∈ ds.map (fun d => d.decision_level) ∧
        (∀ lv ∈ ds.map (fun d => d.decision_level),
          lv < current → lv ≤ v)) ∧
      (second_max decisions learned current = some none ↔
        ∀ lv ∈ ds.map (fun d => d.decision_level), ¬ lv < current) ∧
      ((ds.map (fun d => d.decision_level)).countP
          (fun lv => lv = current) = 1 →
        (∀ lv ∈ ds.map (fun d => d.decision_level),
          lv = current ∨ (0 < lv ∧ lv < current)) →
        (second_max decisions learned current = some none ↔
          learned.length = 1))) ∧
    (∀ (s : CdclSolver) (target : Nat), StackInv s →
      target ≤ CdclSolver.current_level s →
      CdclSolver.current_level
        (CdclSolver.rewind s target s.decision_stack.length) = target) := by
  constructor
  · intro decisions learned current ds hmap
    have h1 : second_max decisions learned current =
        some (((ds.map (fun d => d.decision_level)).filter
          (fun lv => decide (lv < current))).max?) := by
      unfold second_max
      rw [hmap]
      rfl
    refine ⟨h1, ?_, ?_, ?_⟩
    · intro v hv
      rw [h1] at hv
      have hmax := Option.some.inj hv
      rw [List.max?_eq_some_iff (fun a => le_refl a)
        (fun a b => max_choice a b) (fun a b c => Nat.max_le)] at hmax
      obtain ⟨hmem, hbig⟩ := hmax
      rw [List.mem_filter] at hmem
      refine ⟨by simpa using hmem.2, hmem.1, ?_⟩
      intro lv hlv hlt
      exact hbig lv (List.mem_filter.mpr ⟨hlv, by simpa using hlt⟩)
    · rw [h1]
      constructor
      · intro hv
        have hnil := Option.some.inj hv
        rw [List.max?_eq_none_iff, List.filter_eq_nil_iff] at hnil
        intro lv hlv hlt
        exact hnil lv hlv (decide_eq_true hlt)
      · intro hall
        have : ((ds.map (fun d => d.decision_level)).filter
            (fun lv => decide (lv < current))) = [] := by
          rw [List.filter_eq_nil_iff]
          intro lv hlv
          simpa using hall lv hlv
        rw [this]
        rfl
    · intro hcnt hshape
      rw [h1]
      have hlds := mapM_length _ learned ds hmap
      constructor
      · intro hv
        have hempty := Option.some.inj hv
        rw [List.max?_eq_none_iff, List.filter_eq_nil_iff] at hempty
        have hallcur : ∀ lv ∈ ds.map (fun d => d.decision_level),
            lv = current := by
          intro lv hlv
          rcases hshape lv hlv with h | ⟨_, h⟩
          · exact h
          · exact absurd (hempty lv hlv) (by
              simp
              exact h)
        have : (ds.map (fun d => d.decision_level)).countP
            (fun lv => lv = current) =
            (ds.map (fun d => d.decision_level)).length := by
          rw [List.countP_eq_length]
          intro lv hlv
          simpa using hallcur lv hlv
        rw [this] at hcnt
        simp at hcnt
        omega
      · intro hlen
        have hds1 : ds.length = 1 := by omega
        obtain ⟨d0, hd0⟩ := List.length_eq_one.mp hds1
        rw [hd0]
        have hd0cur : d0.decision_level = current := by
          rw [hd0] at hcnt
          simp [List.countP_cons] at hcnt
          by_cases hq : d0.decision_level = current
          · exact hq
          · simp [hq] at hcnt
        simp [hd0cur]
  · intro s target hInv htle
    exact rewind_reaches s.decision_stack.length s hInv target htle
      (le_refl _)

theorem C6_backjump_level_witness :
    CdclSolver.current_level
      (CdclSolver.rewind
        ⟨⟨0, []⟩, [], [], [], Tracker.mkNew 0, ∅⟩ 0
        (⟨⟨0, []⟩, [], [], [], Tracker.mkNew 0,
          (∅ : Finset Variable)⟩ :
          CdclSolver).decision_stack.length) = 0 :=
  C6_backjump_level.2 ⟨⟨0, []⟩, [], [], [], Tracker.mkNew 0, ∅⟩ 0
    ⟨List.Pairwise.nil, by intro f hf; simp at hf,
      List.Pairwise.nil, by intro p l h; simp at h⟩
    (Nat.le_refl 0)

/-! ### The conflict analyzer (src/solver/cdcl/conflict.rs) -/

/-- ConflictDataProvider (conflict.rs lines 3-13).  value is Option Bool:
the CdclDataProvider implementation unwraps the tracker assignment, so an
unassigned variable is a panic, modeled as none propagating out. -/
structure ConflictData where
  value : Nat → Option Bool
  level : Nat → Nat
  antecedents : Nat → Option Clause

/-- The value a literal takes under the provider assignment (used to state
falsity of learned literals). -/
def ConflictData.litValue (P : ConflictData) (l : Literal) : Option Bool :=
  (P.value l.index).map (fun b => if l.positive then b else !b)

/-- A literal is false under the provider assignment. -/
def litFalse (P : ConflictData) (l : Literal) : Prop :=
  P.litValue l = some false

/-- Session (conflict.rs lines 22-30).  The seen bitmap plus seen_queue of
the enclosing ConflictAnalyzer are represented by the list of marked
variable indices (mark_if_unseen appends when absent). -/
structure Session where
  seen : List Nat
  recorded : List Literal
  unresolved_on_current_level : Nat
deriving Repr

/-- Session::add_clause (conflict.rs lines 50-61): for each literal, if its
variable is unseen mark it, then bump the unresolved counter when its level
is the current level, record it when the level is nonzero, drop it at level
zero. -/
def Session.add_literal (P : ConflictData) (current : Nat)
    (st : Session) (lit : Literal) : Session :=
  if lit.index ∈ st.seen then st
  else if P.level lit.index = current then
    { st with
      seen := st.seen ++ [lit.index]
      unresolved_on_current_level :=
        st.unresolved_on_current_level + 1 }
  else if P.level lit.index ≠ 0 then
    { st with
      seen := st.seen ++ [lit.index]
      recorded := st.recorded ++ [lit] }
  else { st with seen := st.seen ++ [lit.index] }

def Session.add_clause (P : ConflictData) (current : Nat)
    (st : Session) (clause : Clause) : Session :=
  clause.foldl (Session.add_literal P current) st

/-- The loop of ConflictAnalyzer::analyze (conflict.rs lines 112-129) over
the reversed trail.  The final unreachable!(), the value() unwrap inside
the CdclDataProvider, the antecedents unwrap, and counter underflow (a
debug-build panic) are modeled as none. -/
def analyzeLoop (P : ConflictData) (current : Nat) :
    Session → List Literal → Option Clause
  | _, [] => none
  | st, lit :: rest =>
    if lit.index ∈ st.seen then
      if st.unresolved_on_current_level = 0 then none
      else if st.unresolved_on_current_level - 1 = 0 then
        match P.value lit.index with
        | none => none
        | some b => some (st.recorded ++ [⟨⟨lit.index⟩, !b⟩])
      else
        match P.antecedents lit.index with
        | none => none
        | some antecedents =>
          analyzeLoop P current
            (Session.add_clause P current
              { st with unresolved_on_current_level :=
                  st.unresolved_on_current_level - 1 } antecedents) rest
    else analyzeLoop P current st rest

/-- ConflictAnalyzer::analyze (conflict.rs lines 99-133): seed the session
with the conflicting clause, then scan the passed literal slice (the
current-level segment of the decision stack) in reverse. -/
def ConflictAnalyzer.analyze (P : ConflictData) (current : Nat)
    (conflicting_clause : Clause) (literals : List Literal) :
    Option Clause :=
  analyzeLoop P current
    (Session.add_clause P current ⟨[], [], 0⟩ conflicting_clause)
    literals.reverse

theorem filter_seen_snoc_not (xs : List Literal) (seen : List Nat)
    (v : Nat) (h : ∀ l ∈ xs, l.index ≠ v) :
    (xs.filter (fun l => decide (l.index ∈ seen ++ [v]))).length =
    (xs.filter (fun l => decide (l.index ∈ seen))).length := by
  have : xs.filter (fun l => decide (l.index ∈ seen ++ [v])) =
      xs.filter (fun l => decide (l.index ∈ seen)) := by
    apply List.filter_congr
    intro a ha
    simp [List.mem_append, h a ha]
  rw [this]

theorem filter_seen_snoc_mem :
    ∀ (xs : List Literal) (seen : List Nat) (v : Nat), v ∉ seen →
    xs.Pairwise (fun a b => a.index ≠ b.index) →
    ∀ l0 : Literal, l0 ∈ xs → l0.index = v →
    (xs.filter (fun l => decide (l.index ∈ seen ++ [v]))).length =
    (xs.filter (fun l => decide (l.index ∈ seen))).length + 1 := by
  intro xs
  induction xs with
  | nil =>
    intro seen v hv hdis l0 hl0
    simp at hl0
  | cons a tl ih =>
    intro seen v hv hdis l0 hl0 hidx
    rw [List.pairwise_cons] at hdis
    obtain ⟨ha, htl⟩ := hdis
    rw [List.mem_cons] at hl0
    rcases hl0 with hl0 | hl0
    · have hav : a.index = v := by rw [← hl0]; exact hidx
      have h1 : (decide (a.index ∈ seen ++ [v])) = true := by
        rw [hav]
        exact decide_eq_true (by simp)
      have h2 : (decide (a.index ∈ seen)) = false := by
        rw [hav]
        exact decide_eq_false hv
      rw [List.filter_cons, List.filter_cons, if_pos h1,
        if_neg (by simp [h2]), List.length_cons]
      have htlne : ∀ l ∈ tl, l.index ≠ v := by
        intro l hl
        intro hq
        exact (ha l hl) (by rw [hav, hq])
      rw [filter_seen_snoc_not tl seen v htlne]
    · have hav : a.index ≠ v := by
        intro hq
        exact (ha l0 hl0) (by rw [hq, hidx])
      have hsame : (decide (a.index ∈ seen ++ [v])) =
          (decide (a.index ∈ seen)) := by
        rw [decide_eq_decide]
        simp [List.mem_append, hav]
      rw [List.filter_cons, List.filter_cons, hsame]
      have hrec := ih seen v hv htl l0 hl0 hidx
      by_cases hcase : (decide (a.index ∈ seen)) = true
      · rw [if_pos hcase, if_pos hcase]
        simp only [List.length_cons]
        omega
      · rw [if_neg hcase, if_neg hcase]
        omega

/-- The loop invariant of the analyzer: the unresolved counter equals the
number of positions among the first k trail entries whose variable has
been seen, and every recorded literal is false with decision level
strictly between 0 and the current level. -/
def AnalyzeInv (P : ConflictData) (current : Nat) (trail : List Literal)
    (k : Nat) (st : Session) : Prop :=
  st.unresolved_on_current_level =
    ((trail.take k).filter (fun l => decide (l.index ∈ st.seen))).length ∧
  ∀ l ∈ st.recorded, litFalse P l ∧ 0 < P.level l.index ∧
    P.level l.index < current

theorem session_add_clause_spec (P : ConflictData) (current : Nat)
    (trail : List Literal) (k : Nat)
    (htr : ∀ l ∈ trail, P.level l.index = current)
    (hdis : trail.Pairwise (fun a b => a.index ≠ b.index)) :
    ∀ (c : Clause) (st : Session),
    (∀ m ∈ c, P.level m.index ≤ current) →
    (∀ m ∈ c, m.index ∉ st.seen → litFalse P m) →
    (∀ m ∈ c, P.level m.index = current → m.index ∉ st.seen →
      ∃ q, q < k ∧ ∃ l2 : Literal, trail[q]? = some l2 ∧
        l2.index = m.index) →
    AnalyzeInv P current trail k st →
    AnalyzeInv P current trail k (Session.add_clause P current st c) ∧
    (∀ v ∈ st.seen, v ∈ (Session.add_clause P current st c).seen) ∧
    (∀ m ∈ c, m.index ∈ (Session.add_clause P current st c).seen) ∧
    st.unresolved_on_current_level ≤
      (Session.add_clause P current st c).unresolved_on_current_level := by
  intro c
  induction c with
  | nil =>
    intro st hle hfa hocc hInv
    refine ⟨hInv, fun v hv => hv, ?_, le_refl _⟩
    intro m hm
    simp at hm
  | cons m c ih =>
    intro st hle hfa hocc hInv
    obtain ⟨hcount, hrec⟩ := hInv
    by_cases hm : m.index ∈ st.seen
    · have hone : Session.add_literal P current st m = st := by
        unfold Session.add_literal
        rw [if_pos hm]
      have hstep : Session.add_clause P current st (m :: c) =
          Session.add_clause P current st c := by
        unfold Session.add_clause
        rw [List.foldl_cons, hone]
      rw [hstep]
      obtain ⟨hI, hmono, hmem, hun⟩ := ih st
        (fun m2 h2 => hle m2 (List.mem_cons_of_mem _ h2))
        (fun m2 h2 => hfa m2 (List.mem_cons_of_mem _ h2))
        (fun m2 h2 => hocc m2 (List.mem_cons_of_mem _ h2)) ⟨hcount, hrec⟩
      refine ⟨hI, hmono, ?_, hun⟩
      intro m2 h2
      rcases List.mem_cons.mp h2 with h2 | h2
      · rw [h2]
        exact hmono m.index hm
      · exact hmem m2 h2
    · by_cases hlv : P.level m.index = current
      · have hone : Session.add_literal P current st m =
            { st with
              seen := st.seen ++ [m.index]
              unresolved_on_current_level :=
                st.unresolved_on_current_level + 1 } := by
          unfold Session.add_literal
          rw [if_neg hm, if_pos hlv]
        have hstep : Session.add_clause P current st (m :: c) =
            Session.add_clause P current
              { st with
                seen := st.seen ++ [m.index]
                unresolved_on_current_level :=
                  st.unresolved_on_current_level + 1 } c := by
          unfold Session.add_clause
          rw [List.foldl_cons, hone]
        rw [hstep]
        obtain ⟨q, hqk, l2, hql2, hl2i⟩ :=
          hocc m (List.mem_cons_self m c) hlv hm
        have hl2mem : l2 ∈ trail.take k := by
          have hq2 : (trail.take k)[q]? = some l2 := by
            rw [List.getElem?_take, if_pos hqk, hql2]
          exact List.getElem?_mem hq2
        have hpw : (trail.take k).Pairwise
            (fun a b => a.index ≠ b.index) :=
          hdis.sublist (List.take_sublist k trail)
        have hsnoc := filter_seen_snoc_mem (trail.take k) st.seen
          m.index hm hpw l2 hl2mem hl2i
        have hInv2 : AnalyzeInv P current trail k
            { st with
              seen := st.seen ++ [m.index]
              unresolved_on_current_level :=
                st.unresolved_on_current_level + 1 } := by
          constructor
          · show st.unresolved_on_current_level + 1 =
              ((trail.take k).filter
                (fun l => decide (l.index ∈ st.seen ++ [m.index]))).length
            omega
          · exact hrec
        obtain ⟨hI, hmono, hmem, hun⟩ := ih _
          (fun m2 h2 => hle m2 (List.mem_cons_of_mem _ h2))
          (fun m2 h2 hnot => hfa m2 (List.mem_cons_of_mem _ h2)
            (fun hin => hnot (List.mem_append_left _ hin)))
          (fun m2 h2 hcur hnot => hocc m2 (List.mem_cons_of_mem _ h2) hcur
            (fun hin => hnot (List.mem_append_left _ hin))) hInv2
        refine ⟨hI, ?_, ?_, ?_⟩
        · intro v hv
          exact hmono v (List.mem_append_left _ hv)
        · intro m2 h2
          rcases List.mem_cons.mp h2 with h2 | h2
          · rw [h2]
            exact hmono m.index (List.mem_append_right _ (by simp))
          · exact hmem m2 h2
        · have : st.unresolved_on_current_level ≤
              st.unresolved_on_current_level + 1 := by omega
          exact this.trans hun
      · have hne : ∀ l ∈ trail.take k, l.index ≠ m.index := by
          intro l hl hq
          have := htr l (List.mem_of_mem_take hl)
          rw [hq] at this
          exact hlv this
        have hceq := filter_seen_snoc_not (trail.take k) st.seen
          m.index hne
        by_cases hz : P.level m.index = 0
        · have hone : Session.add_literal P current st m =
              { st with seen := st.seen ++ [m.index] } := by
            unfold Session.add_literal
            rw [if_neg hm, if_neg hlv, if_neg (fun h => h hz)]
          have hstep : Session.add_clause P current st (m :: c) =
              Session.add_clause P current
                { st with seen := st.seen ++ [m.index] } c := by
            unfold Session.add_clause
            rw [List.foldl_cons, hone]
          rw [hstep]
          have hInv2 : AnalyzeInv P current trail k
              { st with seen := st.seen ++ [m.index] } := by
            constructor
            · show st.unresolved_on_current_level =
                ((trail.take k).filter
                  (fun l => decide (l.index ∈ st.seen ++ [m.index]))).length
              omega
            · exact hrec
          obtain ⟨hI, hmono, hmem, hun⟩ := ih _
            (fun m2 h2 => hle m2 (List.mem_cons_of_mem _ h2))
            (fun m2 h2 hnot => hfa m2 (List.mem_cons_of_mem _ h2)
              (fun hin => hnot (List.mem_append_left _ hin)))
            (fun m2 h2 hcur hnot => hocc m2 (List.mem_cons_of_mem _ h2)
              hcur (fun hin => hnot (List.mem_append_left _ hin))) hInv2
          refine ⟨hI, ?_, ?_, hun⟩
          · intro v hv
            exact hmono v (List.mem_append_left _ hv)
          · intro m2 h2
            rcases List.mem_cons.mp h2 with h2 | h2
            · rw [h2]
              exact hmono m.index (List.mem_append_right _ (by simp))
            · exact hmem m2 h2
        · have hone : Session.add_literal P current st m =
              { st with
                seen := st.seen ++ [m.index]
                recorded := st.recorded ++ [m] } := by
            unfold Session.add_literal
            rw [if_neg hm, if_neg hlv, if_pos hz]
          have hstep : Session.add_clause P current st (m :: c) =
              Session.add_clause P current
                { st with
                  seen := st.seen ++ [m.index]
                  recorded := st.recorded ++ [m] } c := by
            unfold Session.add_clause
            rw [List.foldl_cons, hone]
          rw [hstep]
          have hInv2 : AnalyzeInv P current trail k
              { st with
                seen := st.seen ++ [m.index]
                recorded := st.recorded ++ [m] } := by
            constructor
            · show st.unresolved_on_current_level =
                ((trail.take k).filter
                  (fun l => decide (l.index ∈ st.seen ++ [m.index]))).length
              omega
            · intro l hl
              rcases List.mem_append.mp hl with hl | hl
              · exact hrec l hl
              · have : l = m := by simpa using hl
                rw [this]
                have hmle := hle m (List.mem_cons_self m c)
                exact ⟨hfa m (List.mem_cons_self m c) hm, by omega,
                  by omega⟩
          obtain ⟨hI, hmono, hmem, hun⟩ := ih _
            (fun m2 h2 => hle m2 (List.mem_cons_of_mem _ h2))
            (fun m2 h2 hnot => hfa m2 (List.mem_cons_of_mem _ h2)
              (fun hin => hnot (List.mem_append_left _ hin)))
            (fun m2 h2 hcur hnot => hocc m2 (List.mem_cons_of_mem _ h2)
              hcur (fun hin => hnot (List.mem_append_left _ hin))) hInv2
          refine ⟨hI, ?_, ?_, hun⟩
          · intro v hv
            exact hmono v (List.mem_append_left _ hv)
          · intro m2 h2
            rcases List.mem_cons.mp h2 with h2 | h2
            · rw [h2]
              exact hmono m.index (List.mem_append_right _ (by simp))
            · exact hmem m2 h2

theorem litFalse_value_ne_none (P : ConflictData) (l : Literal)
    (h : litFalse P l) : P.value l.index ≠ none := by
  intro hn
  unfold litFalse ConflictData.litValue at h
  rw [hn] at h
  cases h

theorem litFalse_flip (P : ConflictData) (x : Nat) (b : Bool)
    (h : P.value x = some b) : litFalse P ⟨⟨x⟩, !b⟩ := by
  unfold litFalse ConflictData.litValue
  have hidx : (Literal.mk ⟨x⟩ (!b)).index = x := rfl
  rw [hidx, h]
  cases b <;> rfl

theorem analyzeLoop_spec (P : ConflictData) (current : Nat)
    (trail : List Literal)
    (htr : ∀ l ∈ trail, P.level l.index = current ∧
      P.value l.index = some l.positive)
    (hdis : trail.Pairwise (fun a b => a.index ≠ b.index))
    (hante : ∀ (p : Nat) (l : Literal), trail[p]? = some l →
      ∀ ante, P.antecedents l.index = some ante →
        (∀ m ∈ ante, P.level m.index ≤ current) ∧
        (∀ m ∈ ante, m.index ≠ l.index → litFalse P m) ∧
        (∀ m ∈ ante, P.level m.index = current → m.index ≠ l.index →
          ∃ q, q < p ∧ ∃ l2 : Literal, trail[q]? = some l2 ∧
            l2.index = m.index))
    (hup : ∀ (p : Nat) (l : Literal), trail[p]? = some l → 0 < p →
      P.antecedents l.index ≠ none) :
    ∀ (k : Nat), k ≤ trail.length → ∀ (st : Session),
    AnalyzeInv P current trail k st →
    1 ≤ st.unresolved_on_current_level →
    ∃ out, analyzeLoop P current st ((trail.take k).reverse) = some out ∧
      (∀ l ∈ out, P.value l.index ≠ none) ∧
      out.countP (fun l => decide (P.level l.index = current)) = 1 ∧
      (∀ l ∈ out, P.level l.index ≠ current →
        0 < P.level l.index ∧ P.level l.index < current) ∧
      (∀ l ∈ out, litFalse P l) ∧
      (∃ x b, P.value x = some b ∧ P.level x = current ∧
        out.getLast? = some ⟨⟨x⟩, !b⟩ ∧
        ∀ l ∈ out, P.level l.index = current → l = ⟨⟨x⟩, !b⟩) := by
  intro k
  induction k with
  | zero =>
    intro hk st hInv hpos
    exfalso
    have := hInv.1
    simp at this
    omega
  | succ k ih =>
    intro hk1 st hInv hpos
    have hk : k < trail.length := by omega
    obtain ⟨lit, hlit⟩ : ∃ l, trail[k]? = some l :=
      ⟨trail[k], List.getElem?_eq_getElem hk⟩
    have hsplit : (trail.take (k+1)).reverse =
        lit :: (trail.take k).reverse := by
      rw [List.take_succ, hlit]
      simp
    have htk : trail.take (k+1) = trail.take k ++ [lit] := by
      rw [List.take_succ, hlit]
      rfl
    have hlmem : lit ∈ trail := List.getElem?_mem hlit
    have hcur := (htr lit hlmem).1
    have hval := (htr lit hlmem).2
    have hcount := hInv.1
    have hrec := hInv.2
    rw [htk, List.filter_append, List.length_append] at hcount
    rw [hsplit]
    by_cases hmem : lit.index ∈ st.seen
    · have hflt : (List.filter (fun l => decide (l.index ∈ st.seen))
          [lit]).length = 1 := by
        simp [List.filter_cons, hmem]
      have hred : analyzeLoop P current st
          (lit :: (trail.take k).reverse) =
          (if st.unresolved_on_current_level = 0 then none
          else if st.unresolved_on_current_level - 1 = 0 then
            match P.value lit.index with
            | none => none
            | some b => some (st.recorded ++ [⟨⟨lit.index⟩, !b⟩])
          else
            match P.antecedents lit.index with
            | none => none
            | some antecedents =>
              analyzeLoop P current
                (Session.add_clause P current
                  { st with unresolved_on_current_level :=
                      st.unresolved_on_current_level - 1 } antecedents)
                (trail.take k).reverse) := by
        simp only [analyzeLoop]
        rw [if_pos hmem]
      have h0ne : ¬ st.unresolved_on_current_level = 0 := by omega
      by_cases hu : st.unresolved_on_current_level - 1 = 0
      · have hred2 : analyzeLoop P current st
            (lit :: (trail.take k).reverse) =
            some (st.recorded ++ [⟨⟨lit.index⟩, !lit.positive⟩]) := by
          rw [hred, if_neg h0ne, if_pos hu, hval]
        refine ⟨st.recorded ++ [⟨⟨lit.index⟩, !lit.positive⟩], hred2,
          ?_, ?_, ?_, ?_, ?_⟩
        · intro l hl
          rcases List.mem_append.mp hl with hl | hl
          · exact litFalse_value_ne_none P l (hrec l hl).1
          · have : l = ⟨⟨lit.index⟩, !lit.positive⟩ := by simpa using hl
            rw [this]
            have hidx : (Literal.mk ⟨lit.index⟩
                (!lit.positive)).index = lit.index := rfl
            rw [hidx, hval]
            intro h
            cases h
        · rw [List.countP_append]
          have h1 : st.recorded.countP
              (fun l => decide (P.level l.index = current)) = 0 := by
            rw [List.countP_eq_zero]
            intro l hl
            have := (hrec l hl).2.2
            simp
            omega
          have h2 : List.countP
              (fun l : Literal => decide (P.level l.index = current))
              [(⟨⟨lit.index⟩, !lit.positive⟩ : Literal)] = 1 := by
            have hidx : (Literal.mk ⟨lit.index⟩
                (!lit.positive)).index = lit.index := rfl
            simp [List.countP_cons, hidx, hcur]
          omega
        · intro l hl hne
          rcases List.mem_append.mp hl with hl | hl
          · exact ⟨(hrec l hl).2.1, (hrec l hl).2.2⟩
          · exfalso
            have : l = ⟨⟨lit.index⟩, !lit.positive⟩ := by simpa using hl
            rw [this] at hne
            exact hne hcur
        · intro l hl
          rcases List.mem_append.mp hl with hl | hl
          · exact (hrec l hl).1
          · have : l = ⟨⟨lit.index⟩, !lit.positive⟩ := by simpa using hl
            rw [this]
            exact litFalse_flip P lit.index lit.positive hval
        · refine ⟨lit.index, lit.positive, hval, hcur,
            List.getLast?_concat _, ?_⟩
          intro l hl hlv
          rcases List.mem_append.mp hl with hl | hl
          · exfalso
            have := (hrec l hl).2.2
            omega
          · simpa using hl
      · have hkpos : 0 < k := by
          by_contra hz
          have hz0 : k = 0 := by omega
          rw [hz0] at hcount
          simp at hcount
          omega
        have hanne := hup k lit hlit hkpos
        cases han : P.antecedents lit.index with
        | none => exact absurd han hanne
        | some ante =>
          have hred2 : analyzeLoop P current st
              (lit :: (trail.take k).reverse) =
              analyzeLoop P current
                (Session.add_clause P current
                  { st with unresolved_on_current_level :=
                      st.unresolved_on_current_level - 1 } ante)
                (trail.take k).reverse := by
            rw [hred, if_neg h0ne, if_neg hu, han]
          obtain ⟨hA1, hA2, hA3⟩ := hante k lit hlit ante han
          have hInv2 : AnalyzeInv P current trail k
              { st with unresolved_on_current_level :=
                  st.unresolved_on_current_level - 1 } := by
            constructor
            · show st.unresolved_on_current_level - 1 =
                ((trail.take k).filter
                  (fun l => decide (l.index ∈ st.seen))).length
              have hflt : (List.filter
                  (fun l => decide (l.index ∈ st.seen)) [lit]).length
                  = 1 := by
                simp [List.filter_cons, hmem]
              omega
            · exact hrec
          obtain ⟨hI2, hmono2, hmem2, hun2⟩ :=
            session_add_clause_spec P current trail k
              (fun l hl => (htr l hl).1) hdis ante
              { st with unresolved_on_current_level :=
                  st.unresolved_on_current_level - 1 }
              hA1
              (fun m hm hnot => hA2 m hm
                (fun he => hnot (by rw [he]; exact hmem)))
              (fun m hm hcur2 hnot => hA3 m hm hcur2
                (fun he => hnot (by rw [he]; exact hmem)))
              hInv2
          have hpos2 : 1 ≤ (Session.add_clause P current
              { st with unresolved_on_current_level :=
                  st.unresolved_on_current_level - 1 }
              ante).unresolved_on_current_level := by
            have hflt : (List.filter
                (fun l => decide (l.index ∈ st.seen)) [lit]).length
                = 1 := by
              simp [List.filter_cons, hmem]
            have h1 : 1 ≤ st.unresolved_on_current_level - 1 := by
              omega
            exact h1.trans hun2
          obtain ⟨out, hout, hrest⟩ := ih (by omega) _ hI2 hpos2
          exact ⟨out, by rw [hred2]; exact hout, hrest⟩
    · have hflt : (List.filter (fun l => decide (l.index ∈ st.seen))
          [lit]).length = 0 := by
        simp [List.filter_cons, hmem]
      have hred : analyzeLoop P current st
          (lit :: (trail.take k).reverse) =
          analyzeLoop P current st (trail.take k).reverse := by
        simp only [analyzeLoop]
        rw [if_neg hmem]
      have hInv2 : AnalyzeInv P current trail k st := by
        refine ⟨?_, hrec⟩
        omega
      obtain ⟨out, hout, hrest⟩ := ih (by omega) st hInv2 hpos
      exact ⟨out, by rw [hred]; exact hout, hrest⟩

/-- The First-UIP postcondition of analyze, as a reusable lemma. -/
theorem analyze_first_uip_spec (P : ConflictData) (current : Nat)
    (conflicting : Clause) (trail : List Literal)
    (htr : ∀ l ∈ trail, P.level l.index = current ∧
      P.value l.index = some l.positive)
    (hdis : trail.Pairwise (fun a b => a.index ≠ b.index))
    (hante : ∀ (p : Nat) (l : Literal), trail[p]? = some l →
      ∀ ante, P.antecedents l.index = some ante →
        (∀ m ∈ ante, P.level m.index ≤ current) ∧
        (∀ m ∈ ante, m.index ≠ l.index → litFalse P m) ∧
        (∀ m ∈ ante, P.level m.index = current → m.index ≠ l.index →
          ∃ q, q < p ∧ ∃ l2 : Literal, trail[q]? = some l2 ∧
            l2.index = m.index))
    (hup : ∀ (p : Nat) (l : Literal), trail[p]? = some l → 0 < p →
      P.antecedents l.index ≠ none)
    (hcf : ∀ l ∈ conflicting, litFalse P l)
    (hcl : ∀ l ∈ conflicting, P.level l.index ≤ current)
    (hct : ∀ l ∈ conflicting, P.level l.index = current →
      ∃ q : Nat, ∃ l2 : Literal, trail[q]? = some l2 ∧
        l2.index = l.index)
    (hcs : ∃ l ∈ conflicting, P.level l.index = current) :
    ∃ out, ConflictAnalyzer.analyze P current conflicting trail =
        some out ∧
      (∀ l ∈ out, P.value l.index ≠ none) ∧
      out.countP (fun l => decide (P.level l.index = current)) = 1 ∧
      (∀ l ∈ out, P.level l.index ≠ current →
        0 < P.level l.index ∧ P.level l.index < current) ∧
      (∀ l ∈ out, litFalse P l) ∧
      (∃ x b, P.value x = some b ∧ P.level x = current ∧
        out.getLast? = some ⟨⟨x⟩, !b⟩ ∧
        ∀ l ∈ out, P.level l.index = current → l = ⟨⟨x⟩, !b⟩) := by
  have hInv0 : AnalyzeInv P current trail trail.length ⟨[], [], 0⟩ := by
    constructor
    · show 0 = ((trail.take trail.length).filter
        (fun l => decide (l.index ∈ ([] : List Nat)))).length
      simp
    · intro l hl
      simp at hl
  obtain ⟨hI0, hmono0, hmemc, hun0⟩ :=
    session_add_clause_spec P current trail trail.length
      (fun l hl => (htr l hl).1) hdis conflicting ⟨[], [], 0⟩
      hcl (fun m hm _ => hcf m hm)
      (fun m hm hcur _ => by
        rcases hct m hm hcur with ⟨q, l2, hq, hidx⟩
        have hqlt : q < trail.length := by
          by_contra hge
          rw [List.getElem?_eq_none (by omega)] at hq
          cases hq
        exact ⟨q, hqlt, l2, hq, hidx⟩)
      hInv0
  obtain ⟨l0, hl0, hl0cur⟩ := hcs
  have hl0seen := hmemc l0 hl0
  obtain ⟨q, l2, hq, hidx⟩ := hct l0 hl0 hl0cur
  have hl2mem : l2 ∈ trail := List.getElem?_mem hq
  have hl2take : l2 ∈ trail.take trail.length := by
    rw [List.take_length]
    exact hl2mem
  have hl2f : l2 ∈ (trail.take trail.length).filter
      (fun l => decide (l.index ∈
        (Session.add_clause P current ⟨[], [], 0⟩
          conflicting).seen)) := by
    apply List.mem_filter.mpr
    refine ⟨hl2take, decide_eq_true ?_⟩
    rw [hidx]
    exact hl0seen
  have hpos : 1 ≤ (Session.add_clause P current ⟨[], [], 0⟩
      conflicting).unresolved_on_current_level := by
    have hne := List.ne_nil_of_mem hl2f
    have hlp := List.length_pos.mpr hne
    have := hI0.1
    omega
  obtain ⟨out, hout, hrest⟩ := analyzeLoop_spec P current trail htr hdis
    hante hup trail.length (le_refl _) _ hI0 hpos
  rw [List.take_length] at hout
  exact ⟨out, hout, hrest⟩

/-- C4: for every call to ConflictAnalyzer::analyze with a conflicting
clause all of whose literals are false under the current assignment and a
current-level trail in chronological order (trail literals assigned true
at the current level with distinct variables; each propagated literal's
antecedent clause has levels at most current, its side literals false,
and its current-level side variables assigned strictly earlier on the
trail; non-initial trail entries have antecedents; the conflicting
clause's literals have level at most current, its current-level variables
lie on the trail, and at least one does), the analyzer returns a learned
clause in which every literal's variable is assigned, exactly one literal
has decision level equal to current (the First-UIP literal, pushed last
and constructed as Literal(x, not value(x))), every other literal has
level strictly between 0 and current, and every literal is false under
the current assignment. -/
theorem C4_analyze_first_uip (P : ConflictData) (current : Nat)
    (conflicting : Clause) (trail : List Literal)
    (htr : ∀ l ∈ trail, P.level l.index = current ∧
      P.value l.index = some l.positive)
    (hdis : trail.Pairwise (fun a b => a.index ≠ b.index))
    (hante : ∀ (p : Nat) (l : Literal), trail[p]? = some l →
      ∀ ante, P.antecedents l.index = some ante →
        (∀ m ∈ ante, P.level m.index ≤ current) ∧
        (∀ m ∈ ante, m.index ≠ l.index → litFalse P m) ∧
        (∀ m ∈ ante, P.level m.index = current → m.index ≠ l.index →
          ∃ q, q < p ∧ ∃ l2 : Literal, trail[q]? = some l2 ∧
            l2.index = m.index))
    (hup : ∀ (p : Nat) (l : Literal), trail[p]? = some l → 0 < p →
      P.antecedents l.index ≠ none)
    (hcf : ∀ l ∈ conflicting, litFalse P l)
    (hcl : ∀ l ∈ conflicting, P.level l.index ≤ current)
    (hct : ∀ l ∈ conflicting, P.level l.index = current →
      ∃ q : Nat, ∃ l2 : Literal, trail[q]? = some l2 ∧
        l2.index = l.index)
    (hcs : ∃ l ∈ conflicting, P.level l.index = current) :
    ∃ out, ConflictAnalyzer.analyze P current conflicting trail =
        some out ∧
      (∀ l ∈ out, P.value l.index ≠ none) ∧
      out.countP (fun l => decide (P.level l.index = current)) = 1 ∧
      (∀ l ∈ out, P.level l.index ≠ current →
        0 < P.level l.index ∧ P.level l.index < current) ∧
      (∀ l ∈ out, litFalse P l) ∧
      (∃ x b, P.value x = some b ∧ P.level x = current ∧
        out.getLast? = some ⟨⟨x⟩, !b⟩ ∧
        ∀ l ∈ out, P.level l.index = current → l = ⟨⟨x⟩, !b⟩) :=
  analyze_first_uip_spec P current conflicting trail htr hdis hante hup
    hcf hcl hct hcs

/-- A concrete conflict-data provider: variable 0 assigned true at level
1, no antecedents. -/
def analyzeWitnessData : ConflictData :=
  ⟨fun v => if v = 0 then some true else none,
   fun v => if v = 0 then 1 else 0,
   fun _ => none⟩

theorem C4_analyze_first_uip_witness :
    ∃ out, ConflictAnalyzer.analyze analyzeWitnessData 1
        [(⟨⟨0⟩, false⟩ : Literal)] [(⟨⟨0⟩, true⟩ : Literal)] =
        some out ∧
      (∀ l ∈ out, analyzeWitnessData.value l.index ≠ none) ∧
      out.countP
        (fun l => decide (analyzeWitnessData.level l.index = 1)) = 1 ∧
      (∀ l ∈ out, analyzeWitnessData.level l.index ≠ 1 →
        0 < analyzeWitnessData.level l.index ∧
        analyzeWitnessData.level l.index < 1) ∧
      (∀ l ∈ out, litFalse analyzeWitnessData l) ∧
      (∃ x b, analyzeWitnessData.value x = some b ∧
        analyzeWitnessData.level x = 1 ∧
        out.getLast? = some ⟨⟨x⟩, !b⟩ ∧
        ∀ l ∈ out, analyzeWitnessData.level l.index = 1 →
          l = ⟨⟨x⟩, !b⟩) :=
  C4_analyze_first_uip analyzeWitnessData 1
    [(⟨⟨0⟩, false⟩ : Literal)] [(⟨⟨0⟩, true⟩ : Literal)]
    (by
      intro l hl
      rw [List.mem_singleton] at hl
      subst hl
      exact ⟨rfl, rfl⟩)
    (by simp)
    (by
      intro p l hp ante hgot
      exact Option.noConfusion hgot)
    (by
      intro p l hp hppos
      cases p with
      | zero => omega
      | succ n => simp at hp)
    (by
      intro l hl
      rw [List.mem_singleton] at hl
      subst hl
      rfl)
    (by
      intro l hl
      rw [List.mem_singleton] at hl
      subst hl
      exact le_refl 1)
    (by
      intro l hl hcur
      rw [List.mem_singleton] at hl
      subst hl
      exact ⟨0, ⟨⟨0⟩, true⟩, rfl, rfl⟩)
    ⟨⟨⟨0⟩, false⟩, by simp, rfl⟩

/-! ### Semantic (entailment) properties of the conflict analyzer,
used for the solver correctness claim. -/

theorem literal_ext {a b : Literal} (h1 : a.index = b.index)
    (h2 : a.positive = b.positive) : a = b := by
  cases a with
  | mk av ap =>
    cases b with
    | mk bv bp =>
      cases av
      cases bv
      simp only [Literal.index] at h1
      simp_all

theorem litFalse_iff (P : ConflictData) (m : Literal) :
    litFalse P m ↔ P.value m.index = some (!m.positive) := by
  unfold litFalse ConflictData.litValue
  cases hv : P.value m.index with
  | none =>
    simp
  | some b =>
    cases hb : m.positive <;> cases b <;> simp

theorem value_true_iff {m : Literal} {τ : List Bool}
    (h : m.index < τ.length) :
    m.value τ = true ↔ τ[m.index]? = some m.positive := by
  unfold Literal.value
  rw [List.getD_eq_getElem?_getD, List.getElem?_eq_getElem h]
  cases hp : m.positive <;> simp

theorem mapM_some_of_forall {α β : Type} (f : α → Option β) :
    ∀ xs : List α, (∀ a ∈ xs, ∃ b, f a = some b) →
    ∃ ys, xs.mapM f = some ys := by
  intro xs
  induction xs with
  | nil =>
    intro h
    exact ⟨[], rfl⟩
  | cons x xt ih =>
    intro h
    obtain ⟨b, hb⟩ := h x (List.mem_cons_self x xt)
    obtain ⟨ys, hys⟩ := ih (fun a ha => h a (List.mem_cons_of_mem _ ha))
    refine ⟨b :: ys, ?_⟩
    rw [List.mapM_cons, hb, hys]
    rfl

/-- Variables marked seen at a level other than 0 and the current level
have their (false) literal recorded. -/
def SeenRecorded (P : ConflictData) (current : Nat) (st : Session) :
    Prop :=
  ∀ v ∈ st.seen, P.level v ≠ current → P.level v ≠ 0 →
    ∃ m ∈ st.recorded, m.index = v

/-- The virtual clause held by the analyzer session (recorded literals
plus the negations of the unresolved current-level trail literals) is
entailed by the formula. -/
def VirtualEntails (P : ConflictData) (current : Nat)
    (trail : List Literal) (f : Cnf) (k : Nat) (st : Session) : Prop :=
  ∀ τ : List Bool, τ.length = f.num_variables → cnfSat f τ = true →
    (∃ m ∈ st.recorded, m.value τ = true) ∨
    (∃ q, q < k ∧ ∃ l2 : Literal, trail[q]? = some l2 ∧
      l2.index ∈ st.seen ∧ τ[l2.index]? = some (!l2.positive))

theorem session_add_clause_sem (P : ConflictData) (current : Nat) :
    ∀ (c : Clause) (st : Session),
    (∀ m ∈ st.recorded, m ∈ (Session.add_clause P current st c).recorded) ∧
    (SeenRecorded P current st →
      SeenRecorded P current (Session.add_clause P current st c)) := by
  intro c
  induction c with
  | nil =>
    intro st
    exact ⟨fun m hm => hm, fun h => h⟩
  | cons lit c ih =>
    intro st
    have hstep : Session.add_clause P current st (lit :: c) =
        Session.add_clause P current
          (Session.add_literal P current st lit) c := by
      unfold Session.add_clause
      rw [List.foldl_cons]
    rw [hstep]
    obtain ⟨ihm, ihs⟩ := ih (Session.add_literal P current st lit)
    by_cases hm : lit.index ∈ st.seen
    · have hone : Session.add_literal P current st lit = st := by
        unfold Session.add_literal
        rw [if_pos hm]
      rw [hone] at ihm ihs ⊢
      exact ⟨ihm, ihs⟩
    · by_cases hlv : P.level lit.index = current
      · have hone : Session.add_literal P current st lit =
            { st with
              seen := st.seen ++ [lit.index]
              unresolved_on_current_level :=
                st.unresolved_on_current_level + 1 } := by
          unfold Session.add_literal
          rw [if_neg hm, if_pos hlv]
        rw [hone] at ihm ihs ⊢
        refine ⟨fun m h2 => ihm m h2, fun hSR => ihs ?_⟩
        intro v hv hvc hv0
        rcases List.mem_append.mp hv with hv | hv
        · exact hSR v hv hvc hv0
        · exfalso
          have : v = lit.index := by simpa using hv
          rw [this] at hvc
          exact hvc hlv
      · by_cases hz : P.level lit.index = 0
        · have hone : Session.add_literal P current st lit =
              { st with seen := st.seen ++ [lit.index] } := by
            unfold Session.add_literal
            rw [if_neg hm, if_neg hlv, if_neg (fun h => h hz)]
          rw [hone] at ihm ihs ⊢
          refine ⟨fun m h2 => ihm m h2, fun hSR => ihs ?_⟩
          intro v hv hvc hv0
          rcases List.mem_append.mp hv with hv | hv
          · exact hSR v hv hvc hv0
          · exfalso
            have : v = lit.index := by simpa using hv
            rw [this] at hv0
            exact hv0 hz
        · have hone : Session.add_literal P current st lit =
              { st with
                seen := st.seen ++ [lit.index]
                recorded := st.recorded ++ [lit] } := by
            unfold Session.add_literal
            rw [if_neg hm, if_neg hlv, if_pos hz]
          rw [hone] at ihm ihs ⊢
          refine ⟨fun m h2 => ihm m (List.mem_append_left _ h2),
            fun hSR => ihs ?_⟩
          intro v hv hvc hv0
          rcases List.mem_append.mp hv with hv | hv
          · obtain ⟨m, hm2, hmi⟩ := hSR v hv hvc hv0
            exact ⟨m, List.mem_append_left _ hm2, hmi⟩
          · have : v = lit.index := by simpa using hv
            exact ⟨lit, List.mem_append_right _ (by simp), this.symm⟩

theorem analyzeLoop_entails (P : ConflictData) (current : Nat)
    (trail : List Literal) (f : Cnf)
    (htr : ∀ l ∈ trail, P.level l.index = current ∧
      P.value l.index = some l.positive)
    (hdis : trail.Pairwise (fun a b => a.index ≠ b.index))
    (htn : ∀ l ∈ trail, l.index < f.num_variables)
    (hanteE : ∀ (p : Nat) (l : Literal), trail[p]? = some l →
      ∀ ante, P.antecedents l.index = some ante →
        (∀ m ∈ ante, P.level m.index ≤ current) ∧
        (∀ m ∈ ante, m.index ≠ l.index → litFalse P m) ∧
        (∀ m ∈ ante, m.index = l.index → m = l) ∧
        (∀ m ∈ ante, m.index < f.num_variables) ∧
        (∀ m ∈ ante, P.level m.index = current → m.index ≠ l.index →
          ∃ q, q < p ∧ ∃ l2 : Literal, trail[q]? = some l2 ∧
            l2.index = m.index) ∧
        (∀ τ : List Bool, τ.length = f.num_variables →
          cnfSat f τ = true → clauseSat τ ante = true))
    (hzero : ∀ (v : Nat) (b : Bool), P.level v = 0 → P.value v = some b →
      ∀ τ : List Bool, τ.length = f.num_variables → cnfSat f τ = true →
        τ[v]? = some b) :
    ∀ k, k ≤ trail.length → ∀ (st : Session) (out : Clause),
    AnalyzeInv P current trail k st →
    SeenRecorded P current st →
    VirtualEntails P current trail f k st →
    analyzeLoop P current st ((trail.take k).reverse) = some out →
    ∀ τ : List Bool, τ.length = f.num_variables → cnfSat f τ = true →
      clauseSat τ out = true := by
  intro k
  induction k with
  | zero =>
    intro hk st out hInv hSR hVE hout
    simp [analyzeLoop] at hout
  | succ k ih =>
    intro hk1 st out hInv hSR hVE hout τ hτlen hτsat
    have hk : k < trail.length := by omega
    obtain ⟨lit, hlit⟩ : ∃ l, trail[k]? = some l :=
      ⟨trail[k], List.getElem?_eq_getElem hk⟩
    have hsplit : (trail.take (k+1)).reverse =
        lit :: (trail.take k).reverse := by
      rw [List.take_succ, hlit]
      simp
    have htk : trail.take (k+1) = trail.take k ++ [lit] := by
      rw [List.take_succ, hlit]
      rfl
    have hlmem : lit ∈ trail := List.getElem?_mem hlit
    have hcur := (htr lit hlmem).1
    have hval := (htr lit hlmem).2
    have hcount := hInv.1
    have hrec := hInv.2
    rw [htk, List.filter_append, List.length_append] at hcount
    rw [hsplit] at hout
    by_cases hmem : lit.index ∈ st.seen
    · have hflt : (List.filter (fun l => decide (l.index ∈ st.seen))
          [lit]).length = 1 := by
        simp [List.filter_cons, hmem]
      have hred : analyzeLoop P current st
          (lit :: (trail.take k).reverse) =
          (if st.unresolved_on_current_level = 0 then none
          else if st.unresolved_on_current_level - 1 = 0 then
            match P.value lit.index with
            | none => none
            | some b => some (st.recorded ++ [⟨⟨lit.index⟩, !b⟩])
          else
            match P.antecedents lit.index with
            | none => none
            | some antecedents =>
              analyzeLoop P current
                (Session.add_clause P current
                  { st with unresolved_on_current_level :=
                      st.unresolved_on_current_level - 1 } antecedents)
                (trail.take k).reverse) := by
        simp only [analyzeLoop]
        rw [if_pos hmem]
      rw [hred] at hout
      by_cases h0 : st.unresolved_on_current_level = 0
      · rw [if_pos h0] at hout
        cases hout
      · rw [if_neg h0] at hout
        by_cases hu : st.unresolved_on_current_level - 1 = 0
        · rw [if_pos hu, hval] at hout
          have hout2 : st.recorded ++ [⟨⟨lit.index⟩, !lit.positive⟩] =
              out := Option.some.inj hout
          rw [← hout2]
          rcases hVE τ hτlen hτsat with ⟨m, hm, hmv⟩ |
            ⟨q, hq, l2, hql2, hl2in, hl2τ⟩
          · unfold clauseSat
            rw [List.any_eq_true]
            exact ⟨m, List.mem_append_left _ hm, hmv⟩
          · by_cases hqk : q < k
            · exfalso
              have hl2take : l2 ∈ trail.take k := by
                have h2 : (trail.take k)[q]? = some l2 := by
                  rw [List.getElem?_take, if_pos hqk, hql2]
                exact List.getElem?_mem h2
              have hl2f : l2 ∈ (trail.take k).filter
                  (fun l => decide (l.index ∈ st.seen)) :=
                List.mem_filter.mpr ⟨hl2take, decide_eq_true hl2in⟩
              have := List.length_pos.mpr (List.ne_nil_of_mem hl2f)
              omega
            · have hqeq : q = k := by omega
              rw [hqeq, hlit] at hql2
              have hl2lit : l2 = lit := (Option.some.inj hql2).symm
              rw [hl2lit] at hl2τ
              unfold clauseSat
              rw [List.any_eq_true]
              refine ⟨⟨⟨lit.index⟩, !lit.positive⟩,
                List.mem_append_right _ (by simp), ?_⟩
              have hidx : (Literal.mk ⟨lit.index⟩
                  (!lit.positive)).index = lit.index := rfl
              rw [value_true_iff (by rw [hidx, hτlen]; exact htn lit hlmem)]
              rw [hidx]
              exact hl2τ
        · rw [if_neg hu] at hout
          cases han : P.antecedents lit.index with
          | none =>
            rw [han] at hout
            cases hout
          | some ante =>
            rw [han] at hout
            obtain ⟨hA0, hA1, hA2, hA3, hA4, hA5⟩ :=
              hanteE k lit hlit ante han
            have hInv2 : AnalyzeInv P current trail k
                { st with unresolved_on_current_level :=
                    st.unresolved_on_current_level - 1 } := by
              constructor
              · show st.unresolved_on_current_level - 1 =
                  ((trail.take k).filter
                    (fun l => decide (l.index ∈ st.seen))).length
                omega
              · exact hrec
            obtain ⟨hI2, hmono2, hmem2, hun2⟩ :=
              session_add_clause_spec P current trail k
                (fun l hl => (htr l hl).1) hdis ante
                { st with unresolved_on_current_level :=
                    st.unresolved_on_current_level - 1 }
                hA0
                (fun m hm2 hnot => hA1 m hm2
                  (fun he => hnot (by rw [he]; exact hmem)))
                (fun m hm2 hcur2 hnot => hA4 m hm2 hcur2
                  (fun he => hnot (by rw [he]; exact hmem)))
                hInv2
            have hsem := session_add_clause_sem P current ante
              { st with unresolved_on_current_level :=
                  st.unresolved_on_current_level - 1 }
            have hSR2 : SeenRecorded P current
                (Session.add_clause P current
                  { st with unresolved_on_current_level :=
                      st.unresolved_on_current_level - 1 } ante) :=
              hsem.2 hSR
            have hVE2 : VirtualEntails P current trail f k
                (Session.add_clause P current
                  { st with unresolved_on_current_level :=
                      st.unresolved_on_current_level - 1 } ante) := by
              intro τ2 hτ2len hτ2sat
              rcases hVE τ2 hτ2len hτ2sat with ⟨m, hm, hmv⟩ |
                ⟨q, hq, l2, hql2, hl2in, hl2τ⟩
              · exact Or.inl ⟨m, hsem.1 m hm, hmv⟩
              · by_cases hqk : q < k
                · exact Or.inr ⟨q, hqk, l2, hql2,
                    hmono2 l2.index hl2in, hl2τ⟩
                · have hqeq : q = k := by omega
                  rw [hqeq, hlit] at hql2
                  have hl2lit : l2 = lit := (Option.some.inj hql2).symm
                  rw [hl2lit] at hl2τ
                  have hcs := hA5 τ2 hτ2len hτ2sat
                  unfold clauseSat at hcs
                  rw [List.any_eq_true] at hcs
                  obtain ⟨mt, hmt, hmtv⟩ := hcs
                  have hmtn : mt.index < f.num_variables := hA3 mt hmt
                  have hmtτ : τ2[mt.index]? = some mt.positive :=
                    (value_true_iff (by rw [hτ2len]; exact hmtn)).mp hmtv
                  by_cases hmi : mt.index = lit.index
                  · exfalso
                    rw [show mt = lit from hA2 mt hmt hmi] at hmtτ
                    have h4 := Option.some.inj (hl2τ.symm.trans hmtτ)
                    cases hlp : lit.positive <;> rw [hlp] at h4 <;>
                      cases h4
                  · have hmf := hA1 mt hmt hmi
                    have hPmt := (litFalse_iff P mt).mp hmf
                    by_cases hm0 : P.level mt.index = 0
                    · exfalso
                      have hτm := hzero mt.index (!mt.positive) hm0 hPmt
                        τ2 hτ2len hτ2sat
                      have h4 := Option.some.inj (hτm.symm.trans hmtτ)
                      cases hlp : mt.positive <;> rw [hlp] at h4 <;>
                        cases h4
                    · by_cases hmc : P.level mt.index = current
                      · obtain ⟨q2, hq2k, l2b, hql2b, hidxb⟩ :=
                          hA4 mt hmt hmc hmi
                        have hl2bmem : l2b ∈ trail :=
                          List.getElem?_mem hql2b
                        have hvl2b := (htr l2b hl2bmem).2
                        rw [hidxb] at hvl2b
                        have hpol := Option.some.inj
                          (hvl2b.symm.trans hPmt)
                        refine Or.inr ⟨q2, hq2k, l2b, hql2b, ?_, ?_⟩
                        · rw [hidxb]
                          exact hmem2 mt hmt
                        · rw [hidxb, hmtτ, hpol, Bool.not_not]
                      · obtain ⟨m2, hm2mem, hm2idx⟩ := hSR2 mt.index
                          (hmem2 mt hmt) hmc hm0
                        have hm2f := (hI2.2 m2 hm2mem).1
                        have hPm2 := (litFalse_iff P m2).mp hm2f
                        rw [hm2idx] at hPm2
                        have hpol := Option.some.inj
                          (hPm2.symm.trans hPmt)
                        have hpol2 : m2.positive = mt.positive := by
                          cases h2 : m2.positive <;>
                            cases h3 : mt.positive <;>
                            rw [h2, h3] at hpol <;> first | rfl | cases hpol
                        have hm2mt : m2 = mt :=
                          literal_ext hm2idx hpol2
                        rw [hm2mt] at hm2mem
                        exact Or.inl ⟨mt, hm2mem, hmtv⟩
            exact ih (by omega) _ out hI2 hSR2 hVE2 hout τ hτlen hτsat
    · have hflt : (List.filter (fun l => decide (l.index ∈ st.seen))
          [lit]).length = 0 := by
        simp [List.filter_cons, hmem]
      have hred : analyzeLoop P current st
          (lit :: (trail.take k).reverse) =
          analyzeLoop P current st (trail.take k).reverse := by
        simp only [analyzeLoop]
        rw [if_neg hmem]
      rw [hred] at hout
      have hInv2 : AnalyzeInv P current trail k st := by
        refine ⟨?_, hrec⟩
        omega
      have hVE2 : VirtualEntails P current trail f k st := by
        intro τ2 hτ2len hτ2sat
        rcases hVE τ2 hτ2len hτ2sat with ⟨m, hm, hmv⟩ |
          ⟨q, hq, l2, hql2, hl2in, hl2τ⟩
        · exact Or.inl ⟨m, hm, hmv⟩
        · by_cases hqk : q < k
          · exact Or.inr ⟨q, hqk, l2, hql2, hl2in, hl2τ⟩
          · exfalso
            have hqeq : q = k := by omega
            rw [hqeq, hlit] at hql2
            have hl2lit : l2 = lit := (Option.some.inj hql2).symm
            rw [hl2lit] at hl2in
            exact hmem hl2in
      exact ih (by omega) st out hInv2 hSR hVE2 hout τ hτlen hτsat

/-- The returned learned clause is entailed by the formula, given that
the conflicting clause and every antecedent clause are entailed and that
level-0 assignments are forced by the formula. -/
theorem analyze_entails (P : ConflictData) (current : Nat)
    (trail : List Literal) (f : Cnf)
    (htr : ∀ l ∈ trail, P.level l.index = current ∧
      P.value l.index = some l.positive)
    (hdis : trail.Pairwise (fun a b => a.index ≠ b.index))
    (htn : ∀ l ∈ trail, l.index < f.num_variables)
    (hanteE : ∀ (p : Nat) (l : Literal), trail[p]? = some l →
      ∀ ante, P.antecedents l.index = some ante →
        (∀ m ∈ ante, P.level m.index ≤ current) ∧
        (∀ m ∈ ante, m.index ≠ l.index → litFalse P m) ∧
        (∀ m ∈ ante, m.index = l.index → m = l) ∧
        (∀ m ∈ ante, m.index < f.num_variables) ∧
        (∀ m ∈ ante, P.level m.index = current → m.index ≠ l.index →
          ∃ q, q < p ∧ ∃ l2 : Literal, trail[q]? = some l2 ∧
            l2.index = m.index) ∧
        (∀ τ : List Bool, τ.length = f.num_variables →
          cnfSat f τ = true → clauseSat τ ante = true))
    (hzero : ∀ (v : Nat) (b : Bool), P.level v = 0 → P.value v = some b →
      ∀ τ : List Bool, τ.length = f.num_variables → cnfSat f τ = true →
        τ[v]? = some b)
    (conflicting : Clause)
    (hcf : ∀ l ∈ conflicting, litFalse P l)
    (hcl : ∀ l ∈ conflicting, P.level l.index ≤ current)
    (hcn : ∀ l ∈ conflicting, l.index < f.num_variables)
    (hct : ∀ l ∈ conflicting, P.level l.index = current →
      ∃ q : Nat, ∃ l2 : Literal, trail[q]? = some l2 ∧
        l2.index = l.index)
    (hce : ∀ τ : List Bool, τ.length = f.num_variables →
      cnfSat f τ = true → clauseSat τ conflicting = true) :
    ∀ out, ConflictAnalyzer.analyze P current conflicting trail =
      some out →
    ∀ τ : List Bool, τ.length = f.num_variables → cnfSat f τ = true →
      clauseSat τ out = true := by
  intro out hout
  have hInv0 : AnalyzeInv P current trail trail.length ⟨[], [], 0⟩ := by
    constructor
    · show 0 = ((trail.take trail.length).filter
        (fun l => decide (l.index ∈ ([] : List Nat)))).length
      simp
    · intro l hl
      simp at hl
  obtain ⟨hI0, hmono0, hmemc, hun0⟩ :=
    session_add_clause_spec P current trail trail.length
      (fun l hl => (htr l hl).1) hdis conflicting ⟨[], [], 0⟩
      hcl (fun m hm _ => hcf m hm)
      (fun m hm hcur _ => by
        rcases hct m hm hcur with ⟨q, l2, hq, hidx⟩
        have hqlt : q < trail.length := by
          by_contra hge
          rw [List.getElem?_eq_none (by omega)] at hq
          cases hq
        exact ⟨q, hqlt, l2, hq, hidx⟩)
      hInv0
  have hsem := session_add_clause_sem P current conflicting ⟨[], [], 0⟩
  have hSR0 : SeenRecorded P current
      (Session.add_clause P current ⟨[], [], 0⟩ conflicting) := by
    apply hsem.2
    intro v hv
    simp at hv
  have hVE0 : VirtualEntails P current trail f trail.length
      (Session.add_clause P current ⟨[], [], 0⟩ conflicting) := by
    intro τ hτlen hτsat
    have hcs := hce τ hτlen hτsat
    unfold clauseSat at hcs
    rw [List.any_eq_true] at hcs
    obtain ⟨mt, hmt, hmtv⟩ := hcs
    have hmtn : mt.index < f.num_variables := hcn mt hmt
    have hmtτ : τ[mt.index]? = some mt.positive :=
      (value_true_iff (by rw [hτlen]; exact hmtn)).mp hmtv
    have hmf := hcf mt hmt
    have hPmt := (litFalse_iff P mt).mp hmf
    by_cases hm0 : P.level mt.index = 0
    · exfalso
      have hτm := hzero mt.index (!mt.positive) hm0 hPmt τ hτlen hτsat
      have h4 := Option.some.inj (hτm.symm.trans hmtτ)
      cases hlp : mt.positive <;> rw [hlp] at h4 <;> cases h4
    · by_cases hmc : P.level mt.index = current
      · obtain ⟨q, l2, hql2, hidx⟩ := hct mt hmt hmc
        have hqlt : q < trail.length := by
          by_contra hge
          rw [List.getElem?_eq_none (by omega)] at hql2
          cases hql2
        have hl2mem : l2 ∈ trail := List.getElem?_mem hql2
        have hvl2 := (htr l2 hl2mem).2
        rw [hidx] at hvl2
        have hpol := Option.some.inj (hvl2.symm.trans hPmt)
        refine Or.inr ⟨q, hqlt, l2, hql2, ?_, ?_⟩
        · rw [hidx]
          exact hmemc mt hmt
        · rw [hidx, hmtτ, hpol, Bool.not_not]
      · obtain ⟨m2, hm2mem, hm2idx⟩ := hSR0 mt.index
          (hmemc mt hmt) hmc hm0
        have hm2f := (hI0.2 m2 hm2mem).1
        have hPm2 := (litFalse_iff P m2).mp hm2f
        rw [hm2idx] at hPm2
        have hpol := Option.some.inj (hPm2.symm.trans hPmt)
        have hpol2 : m2.positive = mt.positive := by
          cases h2 : m2.positive <;> cases h3 : mt.positive <;>
            rw [h2, h3] at hpol <;> first | rfl | cases hpol
        have hm2mt : m2 = mt := literal_ext hm2idx hpol2
        rw [hm2mt] at hm2mem
        exact Or.inl ⟨mt, hm2mem, hmtv⟩
  have hout2 : analyzeLoop P current
      (Session.add_clause P current ⟨[], [], 0⟩ conflicting)
      ((trail.take trail.length).reverse) = some out := by
    rw [List.take_length]
    exact hout
  exact analyzeLoop_entails P current trail f htr hdis htn hanteE hzero
    trail.length (le_refl _) _ out hI0 hSR0 hVE0 hout2

/-! ### CdclSolver::solve (cdcl.rs lines 130-203) -/

/-- The result of CdclSolver::solve; panicked models every Rust panic
(unwraps on empty structures, Model::new asserts, the unreachable!() in
analyze), fuelOut is the artifact of the bounded loop: the claims about
solve are conditional on a Some/None return, which only the sat/unsat
constructors model. -/
inductive CdclResult where
  | sat : Model → CdclResult
  | unsat : CdclResult
  | panicked : CdclResult
  | fuelOut : CdclResult

/-- CdclDataProvider (cdcl.rs lines 27-60) over the solver state: value
reads the tracker assignment (the unwrap of an unassigned variable is
deferred to the Option), level reads the decision memo (the unwrap of a
missing memo is defaulted; the analyzer lemmas constrain only variables
whose memo exists), antecedents maps a unit-propagation memo to the
original clause. -/
def CdclSolver.dataProvider (s : CdclSolver) : ConflictData :=
  ⟨fun v => s.tracker.assignments.getD v none,
   fun v =>
     ((s.decisions.getD v none).map (fun d => d.decision_level)).getD 0,
   fun v =>
     match s.decisions.getD v none with
     | none => none
     | some d =>
       match d.reason with
       | DecisionReason.UnitPropagation ci => s.tracker.original_clause ci
       | DecisionReason.Decision => none⟩

/-- The loop of CdclSolver::solve (cdcl.rs lines 131-192), fuel-bounded.
Each iteration mirrors the source order: exit and build the model when
every clause is satisfied; otherwise handle the least falsified clause
(returning None at level 0, else analyze, compute the backjump level,
learn the clause and rewind); otherwise propagate the least unit clause;
otherwise branch on the heuristic choice (the VSIDS top(), abstracted to
the choose oracle over the set of unassigned variables; learn_clause and
decay mutate only scores, which the abstraction drops). -/
def solveLoop (choose : Finset Variable → Option Variable) :
    CdclSolver → Nat → CdclResult
  | _, 0 => .fuelOut
  | s, fuel + 1 =>
    if (s.tracker.clause_cache.get ClauseStatus.Satisfied).card =
        s.tracker.num_clauses then
      match Model.new s.formula
          (s.tracker.assignments.map (fun a => a.getD true)) with
      | some m => .sat m
      | none => .panicked
    else if hf : (s.tracker.clause_cache.get
        ClauseStatus.Falsified).Nonempty then
      if s.current_level = 0 then .unsat
      else
        match s.frame.getLast? with
        | none => .panicked
        | some fl =>
          match s.tracker.original_clause
              ((s.tracker.clause_cache.get ClauseStatus.Falsified).min'
                hf) with
          | none => .panicked
          | some conflicting =>
            match ConflictAnalyzer.analyze s.dataProvider
                s.current_level conflicting
                (s.decision_stack.drop fl) with
            | none => .panicked
            | some clause_to_learn =>
              match second_max s.decisions clause_to_learn
                  s.current_level with
              | none => .panicked
              | some smax =>
                solveLoop choose
                  (CdclSolver.rewind
                    { s with tracker :=
                        s.tracker.add_clause clause_to_learn }
                    (smax.getD 0) s.decision_stack.length) fuel
    else if hu : (s.tracker.clause_cache.get
        ClauseStatus.Unit).Nonempty then
      match s.tracker.get_unit_clause_literal
          ((s.tracker.clause_cache.get ClauseStatus.Unit).min' hu) with
      | none => .panicked
      | some literal =>
        solveLoop choose
          (s.push_decision literal (DecisionReason.UnitPropagation
            ((s.tracker.clause_cache.get ClauseStatus.Unit).min' hu)))
          fuel
    else
      match choose s.unassigned with
      | none => .panicked
      | some v =>
        solveLoop choose
          (s.push_decision ⟨v, true⟩ DecisionReason.Decision) fuel

/-- CdclSolver::solve from the state built by Solver::new (cdcl.rs lines
115-129): fresh tracker from the formula, empty stack and frame, no
memos, every variable present in the heuristic set. -/
def cdclSolve (formula : Cnf)
    (choose : Finset Variable → Option Variable) (fuel : Nat) :
    CdclResult :=
  solveLoop choose
    ⟨formula, List.replicate formula.num_variables none, [], [],
      Tracker.from_cnf formula,
      (Finset.range formula.num_variables).image (fun i => ⟨i⟩)⟩ fuel

/-! ### The solver invariant -/

/-- The decision level of the stack position p: the number of frame
marks at or before p. -/
def posLevel (s : CdclSolver) (p : Nat) : Nat :=
  (s.frame.filter (fun q => decide (q ≤ p))).length

/-- A clause is a semantic consequence of the formula. -/
def Entails (f : Cnf) (c : Clause) : Prop :=
  ∀ τ : List Bool, τ.length = f.num_variables → cnfSat f τ = true →
    clauseSat τ c = true

/-- Every satisfying assignment of the formula assigns this literal its
polarity. -/
def Forced (f : Cnf) (l : Literal) : Prop :=
  ∀ τ : List Bool, τ.length = f.num_variables → cnfSat f τ = true →
    τ[l.index]? = some l.positive

/-- The justification carried by a unit-propagated stack entry at
position p: the antecedent clause exists, contains the literal (and its
variable only with that polarity), and every other literal is falsified
by a strictly earlier stack entry. -/
def UPJust (s : CdclSolver) (p : Nat) (l : Literal) (ci : Nat) : Prop :=
  ∃ orig, s.tracker.original_clause ci = some orig ∧ l ∈ orig ∧
    (∀ m ∈ orig, m.index = l.index → m = l) ∧
    (∀ m ∈ orig, m.index ≠ l.index → ∃ q, q < p ∧ ∃ l2 : Literal,
      s.decision_stack[q]? = some l2 ∧ l2.index = m.index ∧
      l2.positive = !m.positive)

/-- The full CDCL solver invariant, preserved by every loop iteration. -/
structure MainInv (s : CdclSolver) : Prop where
  tInv : Inv s.tracker
  sInv : StackInv s
  nvar : s.tracker.num_variables = s.formula.num_variables
  dlen : s.decisions.length = s.formula.num_variables
  stackAssign : ∀ l ∈ s.decision_stack,
    s.tracker.assignments.getD l.index none = some l.positive ∧
    l.index < s.formula.num_variables
  assignStack : ∀ v : Nat, s.tracker.assignments.getD v none ≠ none →
    ∃ l ∈ s.decision_stack, l.index = v
  memoLevel : ∀ (p : Nat) (l : Literal), s.decision_stack[p]? = some l →
    ∃ d : Decision, s.decisions.getD l.index none = some d ∧
      d.decision_level = posLevel s p ∧
      ∀ ci, d.reason = DecisionReason.UnitPropagation ci →
        UPJust s p l ci
  unassignedOk : ∀ v : Variable, v ∈ s.unassigned ↔
    (v.idx < s.formula.num_variables ∧
      s.tracker.assignments.getD v.idx none = none)
  zeroForced : ∀ (p : Nat) (l : Literal), s.decision_stack[p]? = some l →
    (∀ q ∈ s.frame, p < q) → Forced s.formula l
  entailed : ∀ (i : Nat) (tc : TrackedClause),
    s.tracker.clauses[i]? = some tc → Entails s.formula tc.original
  falsifiedW : 0 < s.current_level →
    ∀ i ∈ s.tracker.clause_cache.get ClauseStatus.Falsified,
    ∀ tc, s.tracker.clauses[i]? = some tc →
    ∃ m ∈ tc.original, ∃ (p : Nat) (l2 : Literal),
      s.decision_stack[p]? = some l2 ∧ l2.index = m.index ∧
      posLevel s p = s.current_level

theorem posLevel_le (s : CdclSolver) (p : Nat) :
    posLevel s p ≤ s.current_level := by
  unfold posLevel CdclSolver.current_level
  exact List.length_filter_le _ _

theorem posLevel_eq_iff (s : CdclSolver) (p : Nat) :
    posLevel s p = s.current_level ↔ ∀ q ∈ s.frame, q ≤ p := by
  unfold posLevel CdclSolver.current_level
  constructor
  · intro h q hq
    have h2 := List.filter_length_eq_length.mp h q hq
    simpa using h2
  · intro h
    apply List.filter_length_eq_length.mpr
    intro q hq
    exact decide_eq_true (h q hq)

theorem Model.new_inv {f : Cnf} {a : List Bool} {m : Model}
    (h : Model.new f a = some m) :
    m.formula = f ∧ m.assignment = a ∧ cnfSat f a = true := by
  unfold Model.new at h
  split_ifs at h with hc
  · have hm := Option.some.inj h
    rw [← hm]
    exact ⟨rfl, rfl, by
      have := hc.2
      simpa using this⟩

theorem pop_formula {s : CdclSolver}
    {r : (Literal × Decision) × CdclSolver}
    (h : s.pop_decision = some r) : r.2.formula = s.formula := by
  unfold CdclSolver.pop_decision at h
  cases h1 : s.decision_stack.getLast? with
  | none =>
    simp only [h1] at h
    cases h
  | some lit =>
    simp only [h1] at h
    cases h2 : s.decisions.getD lit.index none with
    | none =>
      simp only [h2] at h
      cases h
    | some d =>
      simp only [h2] at h
      have h3 := Option.some.inj h
      rw [← h3]

theorem rewind_formula : ∀ (fuel : Nat) (s : CdclSolver) (target : Nat),
    (CdclSolver.rewind s target fuel).formula = s.formula := by
  intro fuel
  induction fuel with
  | zero =>
    intro s target
    rfl
  | succ fuel ih =>
    intro s target
    show (if target < s.current_level then
        match s.pop_decision with
        | none => s
        | some (_, s2) => CdclSolver.rewind s2 target fuel
      else s).formula = s.formula
    by_cases hgt : target < s.current_level
    · rw [if_pos hgt]
      cases hp : s.pop_decision with
      | none => rfl
      | some r =>
        obtain ⟨pr, s2⟩ := r
        rw [ih s2 target]
        exact pop_formula hp
    · rw [if_neg hgt]

theorem solveLoop_sat (choose : Finset Variable → Option Variable) :
    ∀ (fuel : Nat) (s : CdclSolver) (m : Model),
    solveLoop choose s fuel = CdclResult.sat m →
    m.formula = s.formula ∧ cnfSat s.formula m.assignment = true := by
  intro fuel
  induction fuel with
  | zero =>
    intro s m h
    cases h
  | succ fuel ih =>
    intro s m h
    simp only [solveLoop] at h
    by_cases hsat : (s.tracker.clause_cache.get
        ClauseStatus.Satisfied).card = s.tracker.num_clauses
    · rw [if_pos hsat] at h
      cases hm : Model.new s.formula
          (s.tracker.assignments.map (fun a => a.getD true)) with
      | none =>
        simp only [hm] at h
        cases h
      | some m2 =>
        simp only [hm] at h
        have hm2 : m2 = m := by
          have : CdclResult.sat m2 = CdclResult.sat m := h
          cases this
          rfl
        rw [hm2] at hm
        obtain ⟨h1, h2, h3⟩ := Model.new_inv hm
        rw [h1, h2]
        exact ⟨rfl, h3⟩
    · rw [if_neg hsat] at h
      by_cases hf : (s.tracker.clause_cache.get
          ClauseStatus.Falsified).Nonempty
      · rw [dif_pos hf] at h
        by_cases hl0 : s.current_level = 0
        · rw [if_pos hl0] at h
          cases h
        · rw [if_neg hl0] at h
          cases h1 : s.frame.getLast? with
          | none =>
            simp only [h1] at h
            cases h
          | some fl =>
            simp only [h1] at h
            cases h2 : s.tracker.original_clause
                ((s.tracker.clause_cache.get
                  ClauseStatus.Falsified).min' hf) with
            | none =>
              simp only [h2] at h
              cases h
            | some conflicting =>
              simp only [h2] at h
              cases h3 : ConflictAnalyzer.analyze s.dataProvider
                  s.current_level conflicting
                  (s.decision_stack.drop fl) with
              | none =>
                simp only [h3] at h
                cases h
              | some clause_to_learn =>
                simp only [h3] at h
                cases h4 : second_max s.decisions clause_to_learn
                    s.current_level with
                | none =>
                  simp only [h4] at h
                  cases h
                | some smax =>
                  simp only [h4] at h
                  obtain ⟨hmf, hcs⟩ := ih _ m h
                  rw [rewind_formula] at hmf hcs
                  exact ⟨hmf, hcs⟩
      · rw [dif_neg hf] at h
        by_cases hu : (s.tracker.clause_cache.get
            ClauseStatus.Unit).Nonempty
        · rw [dif_pos hu] at h
          cases h5 : s.tracker.get_unit_clause_literal
              ((s.tracker.clause_cache.get ClauseStatus.Unit).min'
                hu) with
          | none =>
            simp only [h5] at h
            cases h
          | some literal =>
            simp only [h5] at h
            exact ih (s.push_decision literal
              (DecisionReason.UnitPropagation
                ((s.tracker.clause_cache.get ClauseStatus.Unit).min'
                  hu))) m h
        · rw [dif_neg hu] at h
          cases h6 : choose s.unassigned with
          | none =>
            simp only [h6] at h
            cases h
          | some v =>
            simp only [h6] at h
            exact ih (s.push_decision ⟨v, true⟩
              DecisionReason.Decision) m h

theorem getD_replicate_none (v n : Nat) :
    (List.replicate n (none : Option Bool)).getD v none = none := by
  rw [List.getD_eq_getElem?_getD, List.getElem?_replicate]
  by_cases hvn : v < n
  · rw [if_pos hvn]
    rfl
  · rw [if_neg hvn]
    rfl

theorem from_cnf_facts (f : Cnf)
    (hwf : ∀ c ∈ f.clauses, ∀ l ∈ c, l.index < f.num_variables) :
    Inv (Tracker.from_cnf f) ∧
    (Tracker.from_cnf f).num_variables = f.num_variables ∧
    (Tracker.from_cnf f).assignments =
      List.replicate f.num_variables none ∧
    (∀ (i : Nat) (tc : TrackedClause),
      (Tracker.from_cnf f).clauses[i]? = some tc →
      tc.original ∈ f.clauses) := by
  have haux : ∀ (cs : List Clause), (∀ c ∈ cs, c ∈ f.clauses) →
      ∀ t : Tracker, Inv t → t.num_variables = f.num_variables →
      t.assignments = List.replicate f.num_variables none →
      (∀ (i : Nat) (tc : TrackedClause), t.clauses[i]? = some tc →
        tc.original ∈ f.clauses) →
      Inv (cs.foldl (fun t c => t.add_clause c) t) ∧
      (cs.foldl (fun t c => t.add_clause c) t).num_variables =
        f.num_variables ∧
      (cs.foldl (fun t c => t.add_clause c) t).assignments =
        List.replicate f.num_variables none ∧
      (∀ (i : Nat) (tc : TrackedClause),
        (cs.foldl (fun t c => t.add_clause c) t).clauses[i]? = some tc →
        tc.original ∈ f.clauses) := by
    intro cs
    induction cs with
    | nil =>
      intro hmem t hI hnv hass horig
      exact ⟨hI, hnv, hass, horig⟩
    | cons c cs ih =>
      intro hmem t hI hnv hass horig
      rw [List.foldl_cons]
      have hcf : c ∈ f.clauses := hmem c (List.mem_cons_self c cs)
      have hb : ∀ z ∈ c, z.index < t.num_variables := by
        intro z hz
        rw [hnv]
        exact hwf c hcf z hz
      obtain ⟨hI2, hass2, hnv2, hac2, lits, hcl2⟩ := add_clause_spec hI hb
      apply ih (fun c2 h2 => hmem c2 (List.mem_cons_of_mem _ h2))
      · exact hI2
      · rw [hnv2, hnv]
      · rw [hass2, hass]
      · intro i tc hi
        rw [hcl2] at hi
        by_cases hlt : i < t.clauses.length
        · rw [List.getElem?_append_left hlt] at hi
          exact horig i tc hi
        · by_cases heq : i = t.clauses.length
          · rw [heq, List.getElem?_concat_length] at hi
            have := Option.some.inj hi
            rw [← this]
            exact hcf
          · exfalso
            rw [List.getElem?_eq_none (by
              rw [List.length_append, List.length_singleton]
              omega)] at hi
            cases hi
  have hmk : CoreInv (Tracker.mkNew f.num_variables) ∧
      Inv (Tracker.mkNew f.num_variables) := ⟨(mkNew_Inv _).toCoreInv,
    mkNew_Inv _⟩
  unfold Tracker.from_cnf
  apply haux f.clauses (fun c h => h) (Tracker.mkNew f.num_variables)
    hmk.2 rfl rfl
  intro i tc hi
  exfalso
  have : (Tracker.mkNew f.num_variables).clauses = [] := rfl
  rw [this] at hi
  simp at hi

theorem maininv_init (f : Cnf)
    (hwf : ∀ c ∈ f.clauses, ∀ l ∈ c, l.index < f.num_variables) :
    MainInv ⟨f, List.replicate f.num_variables none, [], [],
      Tracker.from_cnf f,
      (Finset.range f.num_variables).image (fun i => ⟨i⟩)⟩ := by
  obtain ⟨hI, hnv, hass, horig⟩ := from_cnf_facts f hwf
  refine ⟨hI, ⟨List.Pairwise.nil, ?_, List.Pairwise.nil, ?_⟩, hnv, ?_,
    ?_, ?_, ?_, ?_, ?_, ?_, ?_⟩
  · intro q hq
    simp at hq
  · intro p l h
    simp at h
  · simp
  · intro l hl
    simp at hl
  · intro v hv
    exfalso
    have hv2 : (Tracker.from_cnf f).assignments.getD v none ≠ none := hv
    rw [hass] at hv2
    exact hv2 (getD_replicate_none v f.num_variables)
  · intro p l h
    simp at h
  · intro v
    constructor
    · intro hv
      rw [Finset.mem_image] at hv
      obtain ⟨i, hi, hiv⟩ := hv
      rw [Finset.mem_range] at hi
      constructor
      · rw [← hiv]
        exact hi
      · have : (Tracker.from_cnf f).assignments.getD v.idx none =
            none := by
          rw [hass]
          exact getD_replicate_none v.idx f.num_variables
        exact this
    · intro ⟨hlt, _⟩
      rw [Finset.mem_image]
      refine ⟨v.idx, Finset.mem_range.mpr hlt, ?_⟩
      cases v
      rfl
  · intro p l h
    simp at h
  · intro i tc hi τ hτlen hτsat
    have hc := horig i tc hi
    unfold cnfSat at hτsat
    rw [List.all_eq_true] at hτsat
    exact hτsat tc.original hc
  · intro h
    exfalso
    simp [CdclSolver.current_level] at h

theorem getD_set_self_gen {α : Type} {a : List α} {i : Nat} {v d : α}
    (h : i < a.length) : (a.set i v).getD i d = v := by
  rw [List.getD_eq_getElem?_getD, List.getElem?_set_self h]
  rfl

theorem getD_set_ne_gen {α : Type} {a : List α} {i j : Nat} {v d : α}
    (h : j ≠ i) : (a.set i v).getD j d = a.getD j d := by
  rw [List.getD_eq_getElem?_getD,
    List.getElem?_set_ne (fun e => h e.symm), ← List.getD_eq_getElem?_getD]

theorem optValue_false_getD {m : Literal} {a : List (Option Bool)}
    (h : m.optValue a = some false) :
    a.getD m.index none = some (!m.positive) := by
  unfold Literal.optValue at h
  cases hg : a.getD m.index none with
  | none =>
    rw [hg] at h
    cases h
  | some b =>
    rw [hg] at h
    have h2 := Option.some.inj h
    cases hp : m.positive <;> cases hb : b <;>
      rw [hp, hb] at h2 <;> first | rfl | cases h2

theorem optValue_set_ne_idx {y : Literal} {a : List (Option Bool)}
    {i : Nat} {v : Option Bool} (h : y.index ≠ i) :
    y.optValue (a.set i v) = y.optValue a := by
  unfold Literal.optValue
  rw [getD_set_ne_gen h]

theorem from_count_falsified_iff (t s u : Nat) :
    ClauseStatus.from_count t s u = ClauseStatus.Falsified ↔ u = t := by
  unfold ClauseStatus.from_count
  split_ifs with h1 h2 h3 <;> simp_all

theorem original_clause_some {t : Tracker} {ci : Nat}
    {orig : List Literal} (h : t.original_clause ci = some orig) :
    ∃ tc, t.clauses[ci]? = some tc ∧ tc.original = orig := by
  unfold Tracker.original_clause at h
  cases hg : t.clauses[ci]? with
  | none =>
    rw [hg] at h
    cases h
  | some tc =>
    rw [hg] at h
    exact ⟨tc, rfl, Option.some.inj h⟩

theorem var_ne_iff (a b : Variable) : a ≠ b ↔ a.idx ≠ b.idx := by
  cases a
  cases b
  simp

theorem push_decision_maininv {s : CdclSolver} {l : Literal}
    {reason : DecisionReason} (hM : MainInv s)
    (hun : s.tracker.assignments.getD l.index none = none)
    (hidx : l.index < s.formula.num_variables)
    (hfalsE : s.tracker.clause_cache.get ClauseStatus.Falsified = ∅)
    (hjust : reason = DecisionReason.Decision ∨
      (∃ ci, reason = DecisionReason.UnitPropagation ci ∧
        ∃ orig, s.tracker.original_clause ci = some orig ∧ l ∈ orig ∧
          (∀ m ∈ orig, m.index = l.index → m = l) ∧
          (∀ m ∈ orig, m.index ≠ l.index →
            m.optValue s.tracker.assignments = some false))) :
    MainInv (s.push_decision l reason) := by
  obtain ⟨hI2, hass2, hnv2, hac2, hlen2, hcl2⟩ :=
    set_literal_spec hM.tInv hun (by rw [hM.nvar]; exact hidx)
  have halen : l.index < s.tracker.assignments.length := by
    rw [hM.tInv.alen, hM.nvar]
    exact hidx
  have hdeclen : l.index < s.decisions.length := by
    rw [hM.dlen]
    exact hidx
  have hnotmem : ∀ l2 ∈ s.decision_stack, l2.index ≠ l.index := by
    intro l2 h2 he
    have := (hM.stackAssign l2 h2).1
    rw [he, hun] at this
    cases this
  have h2stack : (s.push_decision l reason).decision_stack =
      s.decision_stack ++ [l] := rfl
  have h2dec : (s.push_decision l reason).decisions =
      s.decisions.set l.index
        (some ⟨(s.push_decision l reason).frame.length, reason⟩) := rfl
  have hass2p : (s.push_decision l reason).tracker.assignments =
      s.tracker.assignments.set l.index (some l.positive) := hass2
  have hframeMem : ∀ q : Nat, q ∈ (s.push_decision l reason).frame ↔
      (q ∈ s.frame ∨ (reason = DecisionReason.Decision ∧
        q = s.decision_stack.length)) := by
    intro q
    cases reason with
    | Decision =>
      show q ∈ s.frame ++ [s.decision_stack.length] ↔ _
      rw [List.mem_append, List.mem_singleton]
      simp
    | UnitPropagation ci =>
      show q ∈ s.frame ↔ _
      simp
  have hF1 : ∀ q ∈ (s.push_decision l reason).frame,
      q ≤ s.decision_stack.length := by
    intro q hq
    rcases (hframeMem q).mp hq with h | ⟨_, h⟩
    · have := hM.sInv.bound q h
      omega
    · omega
  have hF4 : (s.push_decision l reason).frame.Pairwise
      (fun a b => a < b) := by
    cases reason with
    | Decision =>
      show (s.frame ++ [s.decision_stack.length]).Pairwise _
      rw [List.pairwise_append]
      refine ⟨hM.sInv.mono, by simp, ?_⟩
      intro a ha b hb
      rw [List.mem_singleton] at hb
      rw [hb]
      exact hM.sInv.bound a ha
    | UnitPropagation ci => exact hM.sInv.mono
  have hF5 : s.decision_stack.length ∈ (s.push_decision l reason).frame ↔
      reason = DecisionReason.Decision := by
    rw [hframeMem]
    constructor
    · intro h
      rcases h with h | ⟨h, _⟩
      · exfalso
        have := hM.sInv.bound _ h
        omega
      · exact h
    · intro h
      exact Or.inr ⟨h, rfl⟩
  have hF6 : ∀ p, p < s.decision_stack.length →
      posLevel (s.push_decision l reason) p = posLevel s p := by
    intro p hp
    cases reason with
    | Decision =>
      show ((s.frame ++ [s.decision_stack.length]).filter
        (fun q => decide (q ≤ p))).length = _
      rw [List.filter_append, List.length_append]
      have : (List.filter (fun q => decide (q ≤ p))
          [s.decision_stack.length]).length = 0 := by
        simp [List.filter_cons]
        omega
      unfold posLevel
      omega
    | UnitPropagation ci => rfl
  have hF7 : posLevel (s.push_decision l reason)
      s.decision_stack.length =
      (s.push_decision l reason).frame.length := by
    unfold posLevel
    apply List.filter_length_eq_length.mpr
    intro q hq
    exact decide_eq_true (hF1 q hq)
  have hF8 : ∀ q ∈ s.frame, q ∈ (s.push_decision l reason).frame := by
    intro q hq
    exact (hframeMem q).mpr (Or.inl hq)
  have hstackOld : ∀ p, p < s.decision_stack.length →
      (s.push_decision l reason).decision_stack[p]? =
      s.decision_stack[p]? := by
    intro p hp
    rw [h2stack, List.getElem?_append_left hp]
  have hstackNew : (s.push_decision l reason).decision_stack[
      s.decision_stack.length]? = some l := by
    rw [h2stack, List.getElem?_concat_length]
  have hstackHigh : ∀ p, s.decision_stack.length < p →
      (s.push_decision l reason).decision_stack[p]? = none := by
    intro p hp
    rw [h2stack, List.getElem?_eq_none]
    rw [List.length_append, List.length_singleton]
    omega
  have horig2 : ∀ (ci : Nat) (orig : List Literal),
      s.tracker.original_clause ci = some orig →
      (s.push_decision l reason).tracker.original_clause ci =
        some orig := by
    intro ci orig ho
    obtain ⟨tc, htc, htcor⟩ := original_clause_some ho
    obtain ⟨tc2, htc2, horeq, _⟩ := hcl2 ci tc htc
    show ((s.tracker.set_literal l).clauses[ci]?).map _ = some orig
    rw [htc2]
    show some tc2.original = some orig
    rw [horeq, htcor]
  have hrev : ∀ (i : Nat) (tc2 : TrackedClause),
      (s.push_decision l reason).tracker.clauses[i]? = some tc2 →
      ∃ tc, s.tracker.clauses[i]? = some tc ∧
        tc.original = tc2.original := by
    intro i tc2 hi2
    have hi2' : (s.tracker.set_literal l).clauses[i]? = some tc2 := hi2
    have hilen : i < s.tracker.clauses.length := by
      by_contra hge
      rw [List.getElem?_eq_none (by rw [hlen2]; omega)] at hi2'
      cases hi2'
    obtain ⟨tc, hold⟩ : ∃ tc, s.tracker.clauses[i]? = some tc := by
      rw [List.getElem?_eq_getElem hilen]
      exact ⟨_, rfl⟩
    obtain ⟨tc2b, hi2b, horeqb, _⟩ := hcl2 i tc hold
    have heq : tc2b = tc2 := Option.some.inj (hi2b.symm.trans hi2')
    refine ⟨tc, hold, ?_⟩
    rw [← heq]
    exact horeqb.symm
  refine ⟨hI2, ⟨hF4, ?_, ?_, ?_⟩, hnv2.trans hM.nvar, ?_, ?_, ?_, ?_,
    ?_, ?_, ?_, ?_⟩
  · intro q hq
    have := hF1 q hq
    rw [h2stack, List.length_append, List.length_singleton]
    omega
  · rw [h2stack]
    rw [List.pairwise_append]
    refine ⟨hM.sInv.distinct, by simp, ?_⟩
    intro a ha b hb
    rw [List.mem_singleton] at hb
    rw [hb]
    exact hnotmem a ha
  · intro p l2 hp
    by_cases hpA : p < s.decision_stack.length
    · rw [hstackOld p hpA] at hp
      obtain ⟨d, hd, hdr⟩ := hM.sInv.memo p l2 hp
      refine ⟨d, ?_, ?_⟩
      · rw [h2dec, getD_set_ne_gen
          (hnotmem l2 (List.getElem?_mem hp))]
        exact hd
      · rw [hframeMem p]
        constructor
        · intro h
          exact Or.inl (hdr.mp h)
        · rintro (h | ⟨_, hpa⟩)
          · exact hdr.mpr h
          · omega
    · by_cases hpeq : p = s.decision_stack.length
      · rw [hpeq, hstackNew] at hp
        have hl2 : l2 = l := (Option.some.inj hp).symm
        refine ⟨⟨(s.push_decision l reason).frame.length, reason⟩,
          ?_, ?_⟩
        · rw [h2dec, hl2, getD_set_self_gen hdeclen]
        · show reason = DecisionReason.Decision ↔ _
          rw [hpeq]
          exact hF5.symm
      · rw [hstackHigh p (by omega)] at hp
        cases hp
  · rw [h2dec, List.length_set]
    exact hM.dlen
  · intro l2 h2
    rw [h2stack] at h2
    rcases List.mem_append.mp h2 with h2 | h2
    · constructor
      · have hg : (s.push_decision l reason).tracker.assignments.getD
            l2.index none = s.tracker.assignments.getD l2.index none := by
          rw [hass2p, getD_set_ne (hnotmem l2 h2)]
        rw [hg]
        exact (hM.stackAssign l2 h2).1
      · exact (hM.stackAssign l2 h2).2
    · have hl2 : l2 = l := by simpa using h2
      rw [hl2]
      constructor
      · rw [hass2p, getD_set_self halen]
      · exact hidx
  · intro v hv
    have hv2 : (s.tracker.assignments.set l.index
        (some l.positive)).getD v none ≠ none := by
      rw [← hass2p]
      exact hv
    by_cases hveq : v = l.index
    · refine ⟨l, ?_, hveq.symm⟩
      rw [h2stack]
      exact List.mem_append_right _ (by simp)
    · rw [getD_set_ne hveq] at hv2
      obtain ⟨l2, hl2, hl2i⟩ := hM.assignStack v hv2
      refine ⟨l2, ?_, hl2i⟩
      rw [h2stack]
      exact List.mem_append_left _ hl2
  · intro p l2 hp
    by_cases hpA : p < s.decision_stack.length
    · rw [hstackOld p hpA] at hp
      obtain ⟨d, hd, hlev, hups⟩ := hM.memoLevel p l2 hp
      refine ⟨d, ?_, ?_, ?_⟩
      · rw [h2dec, getD_set_ne_gen
          (hnotmem l2 (List.getElem?_mem hp))]
        exact hd
      · rw [hF6 p hpA]
        exact hlev
      · intro ci hci
        obtain ⟨orig, ho, hin, huniq, hside⟩ := hups ci hci
        refine ⟨orig, horig2 ci orig ho, hin, huniq, ?_⟩
        intro m hm hmne
        obtain ⟨q, hq, l3, hql3, hl3i, hl3p⟩ := hside m hm hmne
        refine ⟨q, hq, l3, ?_, hl3i, hl3p⟩
        rw [hstackOld q (by omega)]
        exact hql3
    · by_cases hpeq : p = s.decision_stack.length
      · rw [hpeq, hstackNew] at hp
        have hl2 : l2 = l := (Option.some.inj hp).symm
        rw [hl2]
        refine ⟨⟨(s.push_decision l reason).frame.length, reason⟩,
          ?_, ?_, ?_⟩
        · rw [h2dec, getD_set_self_gen hdeclen]
        · show (s.push_decision l reason).frame.length = _
          rw [hpeq, hF7]
        · intro ci hci
          rcases hjust with hr | ⟨ci2, hr, orig, ho, hin, huniq, hside⟩
          · rw [hr] at hci
            cases hci
          · have hcieq : ci2 = ci := by
              rw [hr] at hci
              injection hci
            rw [hcieq] at ho
            refine ⟨orig, horig2 ci orig ho, hin, huniq, ?_⟩
            intro m hm hmne
            have hmf := hside m hm hmne
            have hg := optValue_false_getD hmf
            have hgn : s.tracker.assignments.getD m.index none ≠
                none := by
              rw [hg]
              intro h
              cases h
            obtain ⟨l3, hl3, hl3i⟩ := hM.assignStack m.index hgn
            obtain ⟨q, hq⟩ := List.mem_iff_getElem?.mp hl3
            have hqA : q < s.decision_stack.length := by
              by_contra hge
              rw [List.getElem?_eq_none (by omega)] at hq
              cases hq
            have hl3p : l3.positive = !m.positive := by
              have := (hM.stackAssign l3 hl3).1
              rw [hl3i, hg] at this
              exact (Option.some.inj this).symm
            refine ⟨q, by omega, l3, ?_, hl3i, hl3p⟩
            rw [hstackOld q hqA]
            exact hq
      · rw [hstackHigh p (by omega)] at hp
        cases hp
  · intro v
    show v ∈ s.unassigned.erase l.var ↔ _
    rw [Finset.mem_erase, hM.unassignedOk v]
    constructor
    · intro ⟨hne, hlt, hnone⟩
      refine ⟨hlt, ?_⟩
      have hvne : v.idx ≠ l.index := (var_ne_iff v l.var).mp hne
      rw [hass2p, getD_set_ne hvne]
      exact hnone
    · intro ⟨hlt, hnone2⟩
      have hvne : v.idx ≠ l.index := by
        intro he
        rw [hass2p, he, getD_set_self halen] at hnone2
        cases hnone2
      rw [hass2p, getD_set_ne hvne] at hnone2
      exact ⟨(var_ne_iff v l.var).mpr hvne, hlt, hnone2⟩
  · intro p l2 hp hcond
    by_cases hpA : p < s.decision_stack.length
    · rw [hstackOld p hpA] at hp
      have : Forced s.formula l2 := hM.zeroForced p l2 hp
        (fun q hq => hcond q (hF8 q hq))
      exact this
    · by_cases hpeq : p = s.decision_stack.length
      · rw [hpeq, hstackNew] at hp
        have hl2 : l2 = l := (Option.some.inj hp).symm
        rcases hjust with hr | ⟨ci2, hr, orig, ho, hin, huniq, hside⟩
        · exfalso
          have hmem5 := hF5.mpr hr
          have := hcond _ hmem5
          omega
        · rw [hl2]
          intro τ hτlen hτsat
          obtain ⟨tc, htc, htcor⟩ := original_clause_some ho
          have hent := hM.entailed ci2 tc htc τ hτlen hτsat
          rw [htcor] at hent
          unfold clauseSat at hent
          rw [List.any_eq_true] at hent
          obtain ⟨mt, hmt, hmtv⟩ := hent
          have hmtn : mt.index < s.formula.num_variables := by
            have := hM.tInv.origIdxOk ci2 tc htc mt (by
              rw [htcor]
              exact hmt)
            rw [hM.nvar] at this
            exact this
          have hmtτ : τ[mt.index]? = some mt.positive :=
            (value_true_iff (by rw [hτlen]; exact hmtn)).mp hmtv
          by_cases hmi : mt.index = l.index
          · rw [show mt = l from huniq mt hmt hmi] at hmtτ
            exact hmtτ
          · exfalso
            have hmf := hside mt hmt hmi
            have hg := optValue_false_getD hmf
            have hgn : s.tracker.assignments.getD mt.index none ≠
                none := by
              rw [hg]
              intro h
              cases h
            obtain ⟨l3, hl3, hl3i⟩ := hM.assignStack mt.index hgn
            obtain ⟨q, hq⟩ := List.mem_iff_getElem?.mp hl3
            have hqA : q < s.decision_stack.length := by
              by_contra hge
              rw [List.getElem?_eq_none (by omega)] at hq
              cases hq
            have hl3p : l3.positive = !mt.positive := by
              have := (hM.stackAssign l3 hl3).1
              rw [hl3i, hg] at this
              exact (Option.some.inj this).symm
            have hfl3 : Forced s.formula l3 := hM.zeroForced q l3 hq
              (fun q2 hq2 => by
                have := hcond q2 (hF8 q2 hq2)
                omega)
            have hτ3 := hfl3 τ hτlen hτsat
            rw [hl3i, hl3p] at hτ3
            have h4 := Option.some.inj (hτ3.symm.trans hmtτ)
            cases hlp : mt.positive <;> rw [hlp] at h4 <;> cases h4
      · rw [hstackHigh p (by omega)] at hp
        cases hp
  · intro i tc2 hi2
    obtain ⟨tc, hold, horeq⟩ := hrev i tc2 hi2
    intro τ h1 h2
    have := hM.entailed i tc hold τ h1 h2
    rw [horeq] at this
    exact this
  · intro hpos i hib tc2 hic
    have hstat : ClauseStatus.Falsified = tc2.stat.status :=
      (hI2.bucketOk i tc2 hic ClauseStatus.Falsified).mp hib
    have hfc := hI2.statOk i tc2 hic
    have hcnt := (hI2.countOk i tc2 hic).2
    have hsum := (hI2.sumOk i tc2 hic).2
    have hunsat : unsatCount
        (s.tracker.set_literal l).assignments tc2.original =
        tc2.original.length := by
      rw [← hcnt]
      have : tc2.stat.unsatisfied = tc2.stat.total := by
        rw [← from_count_falsified_iff tc2.stat.total
          tc2.stat.satisfied tc2.stat.unsatisfied, ← hfc]
        exact hstat.symm
      rw [this, hsum]
    obtain ⟨tc, hold, horeq⟩ := hrev i tc2 hic
    have hnotold : i ∉ s.tracker.clause_cache.get
        ClauseStatus.Falsified := by
      rw [hfalsE]
      exact Finset.not_mem_empty i
    have hstatold : ¬ (ClauseStatus.Falsified = tc.stat.status) := by
      intro h
      exact hnotold ((hM.tInv.bucketOk i tc hold
        ClauseStatus.Falsified).mpr h)
    have hunsatold : unsatCount s.tracker.assignments tc.original ≠
        tc.original.length := by
      intro h
      apply hstatold
      rw [hM.tInv.statOk i tc hold]
      symm
      rw [from_count_falsified_iff]
      rw [(hM.tInv.countOk i tc hold).2, h,
        (hM.tInv.sumOk i tc hold).2]
    have hallnew : ∀ m ∈ tc2.original,
        m.optValue (s.tracker.set_literal l).assignments =
        some false := by
      intro m hm
      have := List.countP_eq_length.mp hunsat m hm
      simpa using this
    obtain ⟨m, hm, hmchange⟩ : ∃ m ∈ tc.original,
        m.optValue s.tracker.assignments ≠ some false := by
      by_contra hall
      push_neg at hall
      apply hunsatold
      apply List.countP_eq_length.mpr
      intro m hm
      exact decide_eq_true (hall m hm)
    have hmi : m.index = l.index := by
      by_contra hne
      apply hmchange
      have := hallnew m (by rw [← horeq]; exact hm)
      rw [hass2, optValue_set_ne_idx hne] at this
      exact this
    refine ⟨m, by rw [← horeq]; exact hm, s.decision_stack.length, l,
      hstackNew, hmi.symm, ?_⟩
    rw [hF7]
    rfl

/-- The state produced by a successful pop_decision. -/
def popState (s : CdclSolver) (l : Literal) (d : Decision) :
    CdclSolver :=
  { s with
    decision_stack := s.decision_stack.dropLast
    unassigned := insert l.var s.unassigned
    tracker := s.tracker.unset l.var
    decisions := s.decisions.set l.index none
    frame := match d.reason with
      | DecisionReason.Decision => s.frame.dropLast
      | _ => s.frame }

theorem pop_decision_maininv {s : CdclSolver} (hM : MainInv s)
    {l : Literal} (hl : s.decision_stack.getLast? = some l) :
    ∃ (d : Decision) (s2 : CdclSolver),
      s.pop_decision = some ((l, d), s2) ∧ MainInv s2 ∧
      s2.formula = s.formula := by
  have hne : s.decision_stack ≠ [] := by
    intro h
    rw [h] at hl
    cases hl
  have hA : 0 < s.decision_stack.length := List.length_pos.mpr hne
  have hplast : s.decision_stack[s.decision_stack.length - 1]? =
      some l := by
    rw [← List.getLast?_eq_getElem?]
    exact hl
  have hlmem : l ∈ s.decision_stack := List.getElem?_mem hplast
  obtain ⟨d, hd, hdlev, hdups⟩ :=
    hM.memoLevel (s.decision_stack.length - 1) l hplast
  obtain ⟨d', hd', hdr⟩ :=
    hM.sInv.memo (s.decision_stack.length - 1) l hplast
  have hdd : d' = d := Option.some.inj (hd'.symm.trans hd)
  rw [hdd] at hdr
  have hassl := (hM.stackAssign l hlmem).1
  have hidxl := (hM.stackAssign l hlmem).2
  have hdeclen : l.index < s.decisions.length := by
    rw [hM.dlen]
    exact hidxl
  have halen : l.index < s.tracker.assignments.length := by
    rw [hM.tInv.alen, hM.nvar]
    exact hidxl
  obtain ⟨hI2, hass2, hnv2, hac2, hlen2, hcl2⟩ :=
    unset_spec hM.tInv (show s.tracker.assignments.getD l.var.idx none =
      some l.positive from hassl)
  have huniqpos : ∀ (q : Nat) (l3 : Literal),
      s.decision_stack[q]? = some l3 → l3.index = l.index →
      q = s.decision_stack.length - 1 ∧ l3 = l := by
    intro q l3 hq hqi
    have hqlt : q < s.decision_stack.length := by
      by_contra hge
      rw [List.getElem?_eq_none (by omega)] at hq
      cases hq
    by_cases hqe : q = s.decision_stack.length - 1
    · rw [hqe] at hq
      exact ⟨hqe, Option.some.inj (hq.symm.trans hplast)⟩
    · exfalso
      have hpw := List.pairwise_iff_getElem.mp hM.sInv.distinct
      have hA1lt : s.decision_stack.length - 1 <
          s.decision_stack.length := by omega
      have hgq : s.decision_stack[q] = l3 := by
        have := List.getElem?_eq_getElem hqlt
        exact Option.some.inj (this.symm.trans hq)
      have hgl : s.decision_stack[s.decision_stack.length - 1] = l := by
        have := List.getElem?_eq_getElem hA1lt
        exact Option.some.inj (this.symm.trans hplast)
      rcases Nat.lt_or_ge q (s.decision_stack.length - 1) with hlt | hge
      · have := hpw q (s.decision_stack.length - 1) hqlt (by omega) hlt
        rw [hgq, hgl] at this
        exact this hqi
      · have hgt : s.decision_stack.length - 1 < q := by omega
        have := hpw (s.decision_stack.length - 1) q (by omega) hqlt hgt
        rw [hgq, hgl] at this
        exact this hqi.symm
  have hstack2 : (popState s l d).decision_stack =
      s.decision_stack.dropLast := rfl
  have hstlen : (popState s l d).decision_stack.length =
      s.decision_stack.length - 1 := by
    rw [hstack2, List.length_dropLast]
  have H1 : ∀ p, p < s.decision_stack.length - 1 →
      (popState s l d).decision_stack[p]? = s.decision_stack[p]? := by
    intro p hp
    rw [hstack2, List.dropLast_eq_take, List.getElem?_take, if_pos hp]
  have H2 : ∀ p, s.decision_stack.length - 1 ≤ p →
      (popState s l d).decision_stack[p]? = none := by
    intro p hp
    rw [List.getElem?_eq_none]
    rw [hstlen]
    omega
  have hdec2 : (popState s l d).decisions =
      s.decisions.set l.index none := rfl
  have hassn2 : (popState s l d).tracker.assignments =
      s.tracker.assignments.set l.index none := hass2
  have hfrD : d.reason = DecisionReason.Decision →
      (popState s l d).frame = s.frame.dropLast := by
    intro h
    show (match d.reason with
      | DecisionReason.Decision => s.frame.dropLast
      | _ => s.frame) = _
    rw [h]
  have hfrU : ∀ ci, d.reason = DecisionReason.UnitPropagation ci →
      (popState s l d).frame = s.frame := by
    intro ci h
    show (match d.reason with
      | DecisionReason.Decision => s.frame.dropLast
      | _ => s.frame) = _
    rw [h]
  have hnotdrop : ∀ l3 ∈ (popState s l d).decision_stack,
      l3.index ≠ l.index := by
    intro l3 h3 hi
    obtain ⟨q, hq⟩ := List.mem_iff_getElem?.mp h3
    have hqlt : q < s.decision_stack.length - 1 := by
      by_contra hge
      rw [H2 q (by omega)] at hq
      cases hq
    rw [H1 q hqlt] at hq
    have := (huniqpos q l3 hq hi).1
    omega
  have G1 : ∀ q ∈ (popState s l d).frame, q ∈ s.frame := by
    cases hrc : d.reason with
    | Decision =>
      rw [hfrD hrc]
      intro q hq
      exact (List.dropLast_sublist s.frame).mem hq
    | UnitPropagation ci =>
      rw [hfrU ci hrc]
      intro q hq
      exact hq
  have G3 : ∀ q ∈ (popState s l d).frame,
      q < s.decision_stack.length - 1 := by
    cases hrc : d.reason with
    | Decision =>
      have hmemA : s.decision_stack.length - 1 ∈ s.frame := hdr.mp hrc
      have hgl : s.frame.getLast? =
          some (s.decision_stack.length - 1) :=
        sorted_getLast_max hM.sInv.mono hmemA (fun x hx => by
          have := hM.sInv.bound x hx
          omega)
      rw [hfrD hrc]
      intro q hq
      exact sorted_dropLast_lt hM.sInv.mono hgl q hq
    | UnitPropagation ci =>
      rw [hfrU ci hrc]
      intro q hq
      have hb := hM.sInv.bound q hq
      by_cases hqe : q = s.decision_stack.length - 1
      · exfalso
        rw [← hqe] at hdr
        have := hdr.mpr hq
        rw [hrc] at this
        cases this
      · omega
  have G4 : ∀ q ∈ s.frame, q ≠ s.decision_stack.length - 1 →
      q ∈ (popState s l d).frame := by
    cases hrc : d.reason with
    | Decision =>
      have hmemA : s.decision_stack.length - 1 ∈ s.frame := hdr.mp hrc
      have hgl : s.frame.getLast? =
          some (s.decision_stack.length - 1) :=
        sorted_getLast_max hM.sInv.mono hmemA (fun x hx => by
          have := hM.sInv.bound x hx
          omega)
      rw [hfrD hrc]
      intro q hq hqe
      exact (sorted_mem_dropLast hM.sInv.mono hgl hqe).mpr hq
    | UnitPropagation ci =>
      rw [hfrU ci hrc]
      intro q hq _
      exact hq
  have G2 : (popState s l d).frame.Pairwise (fun a b => a < b) := by
    cases hrc : d.reason with
    | Decision =>
      rw [hfrD hrc]
      exact hM.sInv.mono.sublist (List.dropLast_sublist s.frame)
    | UnitPropagation ci =>
      rw [hfrU ci hrc]
      exact hM.sInv.mono
  have G6 : ∀ p, p < s.decision_stack.length - 1 →
      posLevel (popState s l d) p = posLevel s p := by
    cases hrc : d.reason with
    | Decision =>
      have hmemA : s.decision_stack.length - 1 ∈ s.frame := hdr.mp hrc
      have hfne : s.frame ≠ [] := by
        intro h
        rw [h] at hmemA
        simp at hmemA
      have hgl : s.frame.getLast? =
          some (s.decision_stack.length - 1) :=
        sorted_getLast_max hM.sInv.mono hmemA (fun x hx => by
          have := hM.sInv.bound x hx
          omega)
      have hglv : s.frame.getLast hfne =
          s.decision_stack.length - 1 := by
        rw [List.getLast?_eq_getLast _ hfne] at hgl
        exact Option.some.inj hgl
      have hfr_eq : s.frame.dropLast ++
          [s.decision_stack.length - 1] = s.frame := by
        rw [← hglv]
        exact List.dropLast_append_getLast hfne
      intro p hp
      unfold posLevel
      rw [hfrD hrc]
      nth_rewrite 2 [← hfr_eq]
      rw [List.filter_append, List.length_append]
      have : (List.filter (fun q => decide (q ≤ p))
          [s.decision_stack.length - 1]).length = 0 := by
        simp [List.filter_cons]
        omega
      omega
    | UnitPropagation ci =>
      intro p hp
      unfold posLevel
      rw [hfrU ci hrc]
  have horig2 : ∀ (ci : Nat) (orig : List Literal),
      s.tracker.original_clause ci = some orig →
      (popState s l d).tracker.original_clause ci = some orig := by
    intro ci orig ho
    obtain ⟨tc, htc, htcor⟩ := original_clause_some ho
    obtain ⟨tc2, htc2, horeq, _⟩ := hcl2 ci tc htc
    show ((s.tracker.unset l.var).clauses[ci]?).map _ = some orig
    rw [htc2]
    show some tc2.original = some orig
    rw [horeq, htcor]
  have hrev : ∀ (i : Nat) (tc2 : TrackedClause),
      (popState s l d).tracker.clauses[i]? = some tc2 →
      ∃ tc, s.tracker.clauses[i]? = some tc ∧
        tc.original = tc2.original := by
    intro i tc2 hi2
    have hi2' : (s.tracker.unset l.var).clauses[i]? = some tc2 := hi2
    have hilen : i < s.tracker.clauses.length := by
      by_contra hge
      rw [List.getElem?_eq_none (by rw [hlen2]; omega)] at hi2'
      cases hi2'
    obtain ⟨tc, hold⟩ : ∃ tc, s.tracker.clauses[i]? = some tc := by
      rw [List.getElem?_eq_getElem hilen]
      exact ⟨_, rfl⟩
    obtain ⟨tc2b, hi2b, horeqb, _⟩ := hcl2 i tc hold
    have heq : tc2b = tc2 := Option.some.inj (hi2b.symm.trans hi2')
    refine ⟨tc, hold, ?_⟩
    rw [← heq]
    exact horeqb.symm
  have hM2 : MainInv (popState s l d) := by
    refine ⟨hI2, ⟨G2, ?_, ?_, ?_⟩, hnv2.trans hM.nvar, ?_, ?_, ?_, ?_,
      ?_, ?_, ?_, ?_⟩
    · intro q hq
      have := G3 q hq
      rw [hstlen]
      omega
    · rw [hstack2]
      exact hM.sInv.distinct.sublist (List.dropLast_sublist _)
    · intro p l3 hp
      have hplt : p < s.decision_stack.length - 1 := by
        by_contra hge
        rw [H2 p (by omega)] at hp
        cases hp
      rw [H1 p hplt] at hp
      obtain ⟨d3, hd3, hdr3⟩ := hM.sInv.memo p l3 hp
      have hne3 : l3.index ≠ l.index := by
        intro hi
        have := (huniqpos p l3 hp hi).1
        omega
      refine ⟨d3, ?_, ?_⟩
      · rw [hdec2, getD_set_ne_gen hne3]
        exact hd3
      · constructor
        · intro h
          exact G4 p (hdr3.mp h) (by omega)
        · intro h
          exact hdr3.mpr (G1 p h)
    · rw [hdec2, List.length_set]
      exact hM.dlen
    · intro l3 h3
      have hmem3 : l3 ∈ s.decision_stack :=
        (List.dropLast_sublist _).mem h3
      have hne3 : l3.index ≠ l.index := hnotdrop l3 h3
      constructor
      · rw [hassn2, getD_set_ne hne3]
        exact (hM.stackAssign l3 hmem3).1
      · exact (hM.stackAssign l3 hmem3).2
    · intro v hv
      have hv2 : (s.tracker.assignments.set l.index none).getD v none ≠
          none := by
        rw [← hassn2]
        exact hv
      by_cases hveq : v = l.index
      · exfalso
        rw [hveq, getD_set_self halen] at hv2
        exact hv2 rfl
      · rw [getD_set_ne hveq] at hv2
        obtain ⟨l3, hl3, hl3i⟩ := hM.assignStack v hv2
        obtain ⟨q, hq⟩ := List.mem_iff_getElem?.mp hl3
        have hne3 : l3.index ≠ l.index := by
          rw [hl3i]
          exact hveq
        have hqlt : q < s.decision_stack.length - 1 := by
          have hq2 : q < s.decision_stack.length := by
            by_contra hge
            rw [List.getElem?_eq_none (by omega)] at hq
            cases hq
          by_cases hqe : q = s.decision_stack.length - 1
          · exfalso
            rw [hqe] at hq
            have := Option.some.inj (hq.symm.trans hplast)
            rw [this] at hne3
            exact hne3 rfl
          · omega
        refine ⟨l3, ?_, hl3i⟩
        have hq2 : (popState s l d).decision_stack[q]? = some l3 := by
          rw [H1 q hqlt]
          exact hq
        exact List.getElem?_mem hq2
    · intro p l3 hp
      have hplt : p < s.decision_stack.length - 1 := by
        by_contra hge
        rw [H2 p (by omega)] at hp
        cases hp
      rw [H1 p hplt] at hp
      obtain ⟨d3, hd3, hlev3, hups3⟩ := hM.memoLevel p l3 hp
      have hne3 : l3.index ≠ l.index := by
        intro hi
        have := (huniqpos p l3 hp hi).1
        omega
      refine ⟨d3, ?_, ?_, ?_⟩
      · rw [hdec2, getD_set_ne_gen hne3]
        exact hd3
      · rw [G6 p hplt]
        exact hlev3
      · intro ci hci
        obtain ⟨orig, ho, hin, huniq, hside⟩ := hups3 ci hci
        refine ⟨orig, horig2 ci orig ho, hin, huniq, ?_⟩
        intro m hm hmne
        obtain ⟨q, hq, l4, hql4, hl4i, hl4p⟩ := hside m hm hmne
        refine ⟨q, hq, l4, ?_, hl4i, hl4p⟩
        rw [H1 q (by omega)]
        exact hql4
    · intro v
      show v ∈ insert l.var s.unassigned ↔ _
      rw [Finset.mem_insert, hM.unassignedOk v]
      constructor
      · rintro (hv | ⟨hlt, hnone⟩)
        · rw [hv]
          refine ⟨hidxl, ?_⟩
          rw [hassn2]
          exact getD_set_self halen
        · refine ⟨hlt, ?_⟩
          have hvne : v.idx ≠ l.index := by
            intro he
            rw [he, hassl] at hnone
            cases hnone
          rw [hassn2, getD_set_ne hvne]
          exact hnone
      · intro ⟨hlt, hnone2⟩
        by_cases hveq : v.idx = l.index
        · left
          have : v = l.var := by
            by_contra hc
            exact ((var_ne_iff v l.var).mp hc) hveq
          exact this
        · right
          rw [hassn2, getD_set_ne hveq] at hnone2
          exact ⟨hlt, hnone2⟩
    · intro p l3 hp hcond
      have hplt : p < s.decision_stack.length - 1 := by
        by_contra hge
        rw [H2 p (by omega)] at hp
        cases hp
      rw [H1 p hplt] at hp
      have : Forced s.formula l3 := by
        apply hM.zeroForced p l3 hp
        intro q hq
        by_cases hqe : q = s.decision_stack.length - 1
        · omega
        · exact hcond q (G4 q hq hqe)
      exact this
    · intro i tc2 hi2
      obtain ⟨tc, hold, horeq⟩ := hrev i tc2 hi2
      intro τ h1 h2
      have := hM.entailed i tc hold τ h1 h2
      rw [horeq] at this
      exact this
    · intro hpos i hib tc2 hic
      have hstat : ClauseStatus.Falsified = tc2.stat.status :=
        (hI2.bucketOk i tc2 hic ClauseStatus.Falsified).mp hib
      have hfc := hI2.statOk i tc2 hic
      have hcnt := (hI2.countOk i tc2 hic).2
      have hsum := (hI2.sumOk i tc2 hic).2
      have hunsat : unsatCount (s.tracker.unset l.var).assignments
          tc2.original = tc2.original.length := by
        rw [← hcnt]
        have : tc2.stat.unsatisfied = tc2.stat.total := by
          rw [← from_count_falsified_iff tc2.stat.total
            tc2.stat.satisfied tc2.stat.unsatisfied, ← hfc]
          exact hstat.symm
        rw [this, hsum]
      have hallnew : ∀ m ∈ tc2.original,
          m.optValue (s.tracker.unset l.var).assignments =
          some false := by
        intro m hm
        have := List.countP_eq_length.mp hunsat m hm
        simpa using this
      have hnol : ∀ m ∈ tc2.original, m.index ≠ l.index := by
        intro m hm he
        have hval := hallnew m hm
        have : m.optValue (s.tracker.unset l.var).assignments =
            none := by
          rw [optValue_none_iff, hass2, he]
          exact getD_set_self halen
        rw [this] at hval
        cases hval
      obtain ⟨tc, hold, horeq⟩ := hrev i tc2 hic
      have hcongr : unsatCount s.tracker.assignments tc2.original =
          unsatCount (s.tracker.unset l.var).assignments
            tc2.original := by
        apply List.countP_congr
        intro m hm
        have : m.optValue (s.tracker.unset l.var).assignments =
            m.optValue s.tracker.assignments := by
          rw [hass2]
          exact optValue_set_ne_idx (hnol m hm)
        rw [this]
      have holdfals : i ∈ s.tracker.clause_cache.get
          ClauseStatus.Falsified := by
        apply (hM.tInv.bucketOk i tc hold ClauseStatus.Falsified).mpr
        rw [hM.tInv.statOk i tc hold]
        symm
        rw [from_count_falsified_iff]
        rw [(hM.tInv.countOk i tc hold).2, horeq, hcongr, hunsat,
          (hM.tInv.sumOk i tc hold).2, horeq]
      have hposold : 0 < s.current_level := by
        cases hrc : d.reason with
        | Decision =>
          have hmemA : s.decision_stack.length - 1 ∈ s.frame :=
            hdr.mp hrc
          have : s.frame ≠ [] := by
            intro h
            rw [h] at hmemA
            simp at hmemA
          unfold CdclSolver.current_level
          have := List.length_pos.mpr this
          omega
        | UnitPropagation ci =>
          have : (popState s l d).current_level = s.frame.length := by
            unfold CdclSolver.current_level
            rw [hfrU ci hrc]
          rw [this] at hpos
          exact hpos
      obtain ⟨m, hm, p, l2w, hpw, hidxw, hplev⟩ :=
        hM.falsifiedW hposold i holdfals tc hold
      have hmm2 : m ∈ tc2.original := by
        rw [← horeq]
        exact hm
      have hpne : p ≠ s.decision_stack.length - 1 := by
        intro he
        rw [he] at hpw
        have : l2w = l := Option.some.inj (hpw.symm.trans hplast)
        rw [this] at hidxw
        exact hnol m hmm2 hidxw.symm
      have hplt : p < s.decision_stack.length := by
        by_contra hge
        rw [List.getElem?_eq_none (by omega)] at hpw
        cases hpw
      cases hrc : d.reason with
      | Decision =>
        exfalso
        have hmemA : s.decision_stack.length - 1 ∈ s.frame :=
          hdr.mp hrc
        have hle := (posLevel_eq_iff s p).mp hplev _ hmemA
        omega
      | UnitPropagation ci =>
        refine ⟨m, hmm2, p, l2w, ?_, hidxw, ?_⟩
        · rw [H1 p (by omega)]
          exact hpw
        · have h1 : posLevel (popState s l d) p = posLevel s p := by
            unfold posLevel
            rw [hfrU ci hrc]
          have h2 : (popState s l d).current_level =
              s.current_level := by
            unfold CdclSolver.current_level
            rw [hfrU ci hrc]
          rw [h1, h2]
          exact hplev
  refine ⟨d, popState s l d, ?_, hM2, rfl⟩
  show s.pop_decision = some ((l, d), popState s l d)
  unfold CdclSolver.pop_decision popState
  simp only [hl, hd]

theorem rewind_maininv : ∀ (fuel : Nat) (s : CdclSolver) (target : Nat),
    MainInv s → MainInv (CdclSolver.rewind s target fuel) := by
  intro fuel
  induction fuel with
  | zero =>
    intro s target hM
    exact hM
  | succ fuel ih =>
    intro s target hM
    show MainInv (if target < s.current_level then
        match s.pop_decision with
        | none => s
        | some (_, s2) => CdclSolver.rewind s2 target fuel
      else s)
    by_cases hgt : target < s.current_level
    · rw [if_pos hgt]
      cases hp : s.pop_decision with
      | none => exact hM
      | some r =>
        cases hgl : s.decision_stack.getLast? with
        | none =>
          exfalso
          unfold CdclSolver.pop_decision at hp
          simp only [hgl] at hp
          cases hp
        | some l =>
          obtain ⟨d, s2, hpop, hM2, _⟩ := pop_decision_maininv hM hgl
          have hr : r = ((l, d), s2) :=
            Option.some.inj (hp.symm.trans hpop)
          rw [hr]
          exact ih s2 target hM2
    · rw [if_neg hgt]
      exact hM

theorem conflict_at_zero {s : CdclSolver} (hM : MainInv s)
    (hl0 : s.current_level = 0) {i : Nat}
    (hib : i ∈ s.tracker.clause_cache.get ClauseStatus.Falsified) :
    ∀ τ : List Bool, τ.length = s.formula.num_variables →
      cnfSat s.formula τ = false := by
  intro τ hτlen
  have hfr : s.frame = [] := by
    unfold CdclSolver.current_level at hl0
    exact List.length_eq_zero.mp hl0
  by_contra hsat
  rw [Bool.not_eq_false] at hsat
  have hilen : i < s.tracker.clauses.length := hM.tInv.bucketSub _ i hib
  obtain ⟨tc, htc⟩ : ∃ tc, s.tracker.clauses[i]? = some tc := by
    rw [List.getElem?_eq_getElem hilen]
    exact ⟨_, rfl⟩
  have hstat : ClauseStatus.Falsified = tc.stat.status :=
    (hM.tInv.bucketOk i tc htc ClauseStatus.Falsified).mp hib
  have hunsat : unsatCount s.tracker.assignments tc.original =
      tc.original.length := by
    rw [← (hM.tInv.countOk i tc htc).2]
    have : tc.stat.unsatisfied = tc.stat.total := by
      rw [← from_count_falsified_iff tc.stat.total tc.stat.satisfied
        tc.stat.unsatisfied, ← hM.tInv.statOk i tc htc]
      exact hstat.symm
    rw [this, (hM.tInv.sumOk i tc htc).2]
  have hallf : ∀ m ∈ tc.original,
      m.optValue s.tracker.assignments = some false := by
    intro m hm
    have := List.countP_eq_length.mp hunsat m hm
    simpa using this
  have hent := hM.entailed i tc htc τ hτlen hsat
  unfold clauseSat at hent
  rw [List.any_eq_true] at hent
  obtain ⟨mt, hmt, hmtv⟩ := hent
  have hmtn : mt.index < s.formula.num_variables := by
    have := hM.tInv.origIdxOk i tc htc mt hmt
    rw [hM.nvar] at this
    exact this
  have hmtτ : τ[mt.index]? = some mt.positive :=
    (value_true_iff (by rw [hτlen]; exact hmtn)).mp hmtv
  have hg := optValue_false_getD (hallf mt hmt)
  have hgn : s.tracker.assignments.getD mt.index none ≠ none := by
    rw [hg]
    intro h
    cases h
  obtain ⟨l2, hl2, hl2i⟩ := hM.assignStack mt.index hgn
  obtain ⟨q, hq⟩ := List.mem_iff_getElem?.mp hl2
  have hl2p : l2.positive = !mt.positive := by
    have := (hM.stackAssign l2 hl2).1
    rw [hl2i, hg] at this
    exact (Option.some.inj this).symm
  have hforced : Forced s.formula l2 := hM.zeroForced q l2 hq (by
    intro q2 hq2
    rw [hfr] at hq2
    simp at hq2)
  have hτ2 := hforced τ hτlen hsat
  rw [hl2i, hl2p] at hτ2
  have h4 := Option.some.inj (hτ2.symm.trans hmtτ)
  cases hlp : mt.positive <;> rw [hlp] at h4 <;> cases h4

theorem dataProvider_value (s : CdclSolver) (v : Nat) :
    s.dataProvider.value v = s.tracker.assignments.getD v none := rfl

theorem dataProvider_level {s : CdclSolver} {v : Nat} {d : Decision}
    (h : s.decisions.getD v none = some d) :
    s.dataProvider.level v = d.decision_level := by
  show ((s.decisions.getD v none).map
    (fun d => d.decision_level)).getD 0 = _
  rw [h]
  rfl

theorem dataProvider_ante_up {s : CdclSolver} {v : Nat} {d : Decision}
    {ci : Nat} (h : s.decisions.getD v none = some d)
    (hr : d.reason = DecisionReason.UnitPropagation ci) :
    s.dataProvider.antecedents v = s.tracker.original_clause ci := by
  show (match s.decisions.getD v none with
    | none => none
    | some d =>
      match d.reason with
      | DecisionReason.UnitPropagation ci => s.tracker.original_clause ci
      | DecisionReason.Decision => none) = _
  simp only [h]
  rw [hr]

theorem dataProvider_ante_dec {s : CdclSolver} {v : Nat} {d : Decision}
    (h : s.decisions.getD v none = some d)
    (hr : d.reason = DecisionReason.Decision) :
    s.dataProvider.antecedents v = none := by
  show (match s.decisions.getD v none with
    | none => none
    | some d =>
      match d.reason with
      | DecisionReason.UnitPropagation ci => s.tracker.original_clause ci
      | DecisionReason.Decision => none) = _
  simp only [h]
  rw [hr]

theorem stack_level {s : CdclSolver} (hM : MainInv s) {q : Nat}
    {l2 : Literal} (hq : s.decision_stack[q]? = some l2) :
    s.dataProvider.level l2.index = posLevel s q := by
  obtain ⟨d, hd, hlev, _⟩ := hM.memoLevel q l2 hq
  rw [dataProvider_level hd, hlev]

theorem posLevel_of_last_le {s : CdclSolver} (hM : MainInv s) {fl : Nat}
    (hfl : s.frame.getLast? = some fl) {q : Nat} (hq : fl ≤ q) :
    posLevel s q = s.current_level := by
  rw [posLevel_eq_iff]
  intro q2 hq2
  by_cases hqe : q2 = fl
  · omega
  · have := sorted_dropLast_lt hM.sInv.mono hfl q2
      ((sorted_mem_dropLast hM.sInv.mono hfl hqe).mpr hq2)
    omega

theorem posLevel_lt_of_lt_last {s : CdclSolver} (hM : MainInv s)
    {fl : Nat} (hfl : s.frame.getLast? = some fl) {q : Nat}
    (hq : q < fl) : posLevel s q < s.current_level := by
  have hle := posLevel_le s q
  have hne : posLevel s q ≠ s.current_level := by
    intro he
    have hmem : fl ∈ s.frame := by
      rw [List.getLast?_eq_getElem?] at hfl
      exact List.getElem?_mem hfl
    have := (posLevel_eq_iff s q).mp he fl hmem
    omega
  omega

theorem posLevel_zero_frame {s : CdclSolver} {q : Nat}
    (h : posLevel s q = 0) : ∀ f ∈ s.frame, q < f := by
  unfold posLevel at h
  rw [List.length_eq_zero] at h
  intro f hf
  have := List.filter_eq_nil_iff.mp h f hf
  simp at this
  omega

theorem conflict_step {s : CdclSolver} (hM : MainInv s)
    (hl0 : ¬ s.current_level = 0)
    {fl : Nat} (hfl : s.frame.getLast? = some fl)
    {i : Nat}
    (hib : i ∈ s.tracker.clause_cache.get ClauseStatus.Falsified)
    {conflicting : List Literal}
    (hco : s.tracker.original_clause i = some conflicting) :
    ∃ learned, ConflictAnalyzer.analyze s.dataProvider s.current_level
        conflicting (s.decision_stack.drop fl) = some learned ∧
      (∃ smax, second_max s.decisions learned s.current_level =
        some smax) ∧
      MainInv { s with tracker := s.tracker.add_clause learned } := by
  have hlpos : 0 < s.current_level := by omega
  have hfllt : fl < s.decision_stack.length := by
    apply hM.sInv.bound
    rw [List.getLast?_eq_getElem?] at hfl
    exact List.getElem?_mem hfl
  have htrget : ∀ p : Nat, (s.decision_stack.drop fl)[p]? =
      s.decision_stack[fl + p]? := by
    intro p
    exact List.getElem?_drop s.decision_stack fl p
  have hstackpos : ∀ (q : Nat) (l2 : Literal),
      s.decision_stack[q]? = some l2 → q < s.decision_stack.length := by
    intro q l2 hq
    by_contra hge
    rw [List.getElem?_eq_none (by omega)] at hq
    cases hq
  have hassigned_pos : ∀ (v : Nat),
      s.tracker.assignments.getD v none ≠ none →
      ∃ (q : Nat) (l2 : Literal), s.decision_stack[q]? = some l2 ∧
        l2.index = v := by
    intro v hv
    obtain ⟨l2, hl2, hl2i⟩ := hM.assignStack v hv
    obtain ⟨q, hq⟩ := List.mem_iff_getElem?.mp hl2
    exact ⟨q, l2, hq, hl2i⟩
  have htr : ∀ l ∈ s.decision_stack.drop fl,
      s.dataProvider.level l.index = s.current_level ∧
      s.dataProvider.value l.index = some l.positive := by
    intro l hl
    obtain ⟨p, hp⟩ := List.mem_iff_getElem?.mp hl
    rw [htrget p] at hp
    constructor
    · rw [stack_level hM hp]
      exact posLevel_of_last_le hM hfl (by omega)
    · rw [dataProvider_value]
      exact (hM.stackAssign l (List.getElem?_mem hp)).1
  have hdis : (s.decision_stack.drop fl).Pairwise
      (fun a b => a.index ≠ b.index) :=
    hM.sInv.distinct.sublist (List.drop_sublist fl s.decision_stack)
  have htn : ∀ l ∈ s.decision_stack.drop fl,
      l.index < s.formula.num_variables := by
    intro l hl
    exact (hM.stackAssign l
      ((List.drop_sublist fl s.decision_stack).mem hl)).2
  have hanteFull : ∀ (p : Nat) (l : Literal),
      (s.decision_stack.drop fl)[p]? = some l →
      ∀ ante, s.dataProvider.antecedents l.index = some ante →
        (∀ m ∈ ante, s.dataProvider.level m.index ≤ s.current_level) ∧
        (∀ m ∈ ante, m.index ≠ l.index → litFalse s.dataProvider m) ∧
        (∀ m ∈ ante, m.index = l.index → m = l) ∧
        (∀ m ∈ ante, m.index < s.formula.num_variables) ∧
        (∀ m ∈ ante, s.dataProvider.level m.index = s.current_level →
          m.index ≠ l.index →
          ∃ q, q < p ∧ ∃ l2 : Literal,
            (s.decision_stack.drop fl)[q]? = some l2 ∧
            l2.index = m.index) ∧
        (∀ τ : List Bool, τ.length = s.formula.num_variables →
          cnfSat s.formula τ = true → clauseSat τ ante = true) := by
    intro p l hp ante hante
    rw [htrget p] at hp
    obtain ⟨d, hd, hlev, hups⟩ := hM.memoLevel (fl + p) l hp
    cases hrc : d.reason with
    | Decision =>
      rw [dataProvider_ante_dec hd hrc] at hante
      cases hante
    | UnitPropagation ci =>
      rw [dataProvider_ante_up hd hrc] at hante
      obtain ⟨orig, ho, hin, huniq, hside⟩ := hups ci hrc
      have horigeq : orig = ante := Option.some.inj (ho.symm.trans hante)
      rw [← horigeq]
      obtain ⟨tcci, htcci, htccior⟩ := original_clause_some ho
      have hsidefacts : ∀ m ∈ orig, m.index ≠ l.index →
          ∃ (q : Nat) (l2 : Literal), q < fl + p ∧
            s.decision_stack[q]? = some l2 ∧ l2.index = m.index ∧
            l2.positive = !m.positive := by
        intro m hm hmne
        obtain ⟨q, hq, l2, hql2, hl2i, hl2p⟩ := hside m hm hmne
        exact ⟨q, l2, hq, hql2, hl2i, hl2p⟩
      refine ⟨?_, ?_, huniq, ?_, ?_, ?_⟩
      · intro m hm
        by_cases hmi : m.index = l.index
        · rw [hmi]
          have := (htr l (by
            have : l ∈ s.decision_stack.drop fl := by
              rw [← htrget p] at hp
              exact List.getElem?_mem hp
            exact this)).1
          rw [this]
        · obtain ⟨q, l2, hqlt, hql2, hl2i, hl2p⟩ :=
            hsidefacts m hm hmi
          rw [← hl2i, stack_level hM hql2]
          exact posLevel_le s q
      · intro m hm hmne
        obtain ⟨q, l2, hqlt, hql2, hl2i, hl2p⟩ := hsidefacts m hm hmne
        rw [litFalse_iff, dataProvider_value, ← hl2i]
        have := (hM.stackAssign l2 (List.getElem?_mem hql2)).1
        rw [this, hl2p]
      · intro m hm
        have := hM.tInv.origIdxOk ci tcci htcci m (by
          rw [htccior]
          exact hm)
        rw [hM.nvar] at this
        exact this
      · intro m hm hmc hmne
        obtain ⟨q, l2, hqlt, hql2, hl2i, hl2p⟩ := hsidefacts m hm hmne
        have hlevq : posLevel s q = s.current_level := by
          rw [← stack_level hM hql2, hl2i]
          exact hmc
        have hqfl : fl ≤ q := by
          by_contra hlt
          have := posLevel_lt_of_lt_last hM hfl
            (show q < fl by omega)
          omega
        refine ⟨q - fl, by omega, l2, ?_, hl2i⟩
        rw [htrget (q - fl)]
        have : fl + (q - fl) = q := by omega
        rw [this]
        exact hql2
      · intro τ hτlen hτsat
        have := hM.entailed ci tcci htcci τ hτlen hτsat
        rw [htccior] at this
        exact this
  have hante : ∀ (p : Nat) (l : Literal),
      (s.decision_stack.drop fl)[p]? = some l →
      ∀ ante, s.dataProvider.antecedents l.index = some ante →
        (∀ m ∈ ante, s.dataProvider.level m.index ≤ s.current_level) ∧
        (∀ m ∈ ante, m.index ≠ l.index → litFalse s.dataProvider m) ∧
        (∀ m ∈ ante, s.dataProvider.level m.index = s.current_level →
          m.index ≠ l.index →
          ∃ q, q < p ∧ ∃ l2 : Literal,
            (s.decision_stack.drop fl)[q]? = some l2 ∧
            l2.index = m.index) := by
    intro p l hp ante ha
    obtain ⟨h1, h2, _, _, h5, _⟩ := hanteFull p l hp ante ha
    exact ⟨h1, h2, h5⟩
  have hup : ∀ (p : Nat) (l : Literal),
      (s.decision_stack.drop fl)[p]? = some l → 0 < p →
      s.dataProvider.antecedents l.index ≠ none := by
    intro p l hp hppos
    rw [htrget p] at hp
    obtain ⟨d, hd, hdr⟩ := hM.sInv.memo (fl + p) l hp
    cases hrc : d.reason with
    | Decision =>
      exfalso
      have hmem := hdr.mp hrc
      have hmax : fl + p ≤ fl := by
        by_cases hqe : fl + p = fl
        · omega
        · have := sorted_dropLast_lt hM.sInv.mono hfl (fl + p)
            ((sorted_mem_dropLast hM.sInv.mono hfl hqe).mpr hmem)
          omega
      omega
    | UnitPropagation ci =>
      rw [dataProvider_ante_up hd hrc]
      obtain ⟨d2, hd2, _, hups⟩ := hM.memoLevel (fl + p) l hp
      have : d2 = d := Option.some.inj (hd2.symm.trans hd)
      rw [this] at hups
      obtain ⟨orig, ho, _⟩ := hups ci hrc
      rw [ho]
      intro h
      cases h
  have hzero : ∀ (v : Nat) (b : Bool), s.dataProvider.level v = 0 →
      s.dataProvider.value v = some b →
      ∀ τ : List Bool, τ.length = s.formula.num_variables →
        cnfSat s.formula τ = true → τ[v]? = some b := by
    intro v b hlv hvv τ hτlen hτsat
    rw [dataProvider_value] at hvv
    obtain ⟨q, l2, hq, hl2i⟩ := hassigned_pos v (by
      rw [hvv]
      intro h
      cases h)
    have hbpol : l2.positive = b := by
      have := (hM.stackAssign l2 (List.getElem?_mem hq)).1
      rw [hl2i, hvv] at this
      exact (Option.some.inj this).symm
    have hplev : posLevel s q = 0 := by
      rw [← stack_level hM hq, hl2i]
      exact hlv
    have hforced : Forced s.formula l2 := hM.zeroForced q l2 hq
      (posLevel_zero_frame hplev)
    have := hforced τ hτlen hτsat
    rw [hl2i, hbpol] at this
    exact this
  obtain ⟨tci, htci, htcior⟩ := original_clause_some hco
  have hstat : ClauseStatus.Falsified = tci.stat.status :=
    (hM.tInv.bucketOk i tci htci ClauseStatus.Falsified).mp hib
  have hunsat : unsatCount s.tracker.assignments tci.original =
      tci.original.length := by
    rw [← (hM.tInv.countOk i tci htci).2]
    have : tci.stat.unsatisfied = tci.stat.total := by
      rw [← from_count_falsified_iff tci.stat.total tci.stat.satisfied
        tci.stat.unsatisfied, ← hM.tInv.statOk i tci htci]
      exact hstat.symm
    rw [this, (hM.tInv.sumOk i tci htci).2]
  have hallf : ∀ m ∈ conflicting,
      m.optValue s.tracker.assignments = some false := by
    intro m hm
    have := List.countP_eq_length.mp hunsat m (by
      rw [htcior]
      exact hm)
    simpa using this
  have hcf : ∀ l ∈ conflicting, litFalse s.dataProvider l := by
    intro m hm
    rw [litFalse_iff, dataProvider_value]
    exact optValue_false_getD (hallf m hm)
  have hconfstack : ∀ m ∈ conflicting, ∃ (q : Nat) (l2 : Literal),
      s.decision_stack[q]? = some l2 ∧ l2.index = m.index := by
    intro m hm
    apply hassigned_pos
    rw [optValue_false_getD (hallf m hm)]
    intro h
    cases h
  have hcl : ∀ l ∈ conflicting,
      s.dataProvider.level l.index ≤ s.current_level := by
    intro m hm
    obtain ⟨q, l2, hq, hl2i⟩ := hconfstack m hm
    rw [← hl2i, stack_level hM hq]
    exact posLevel_le s q
  have hcn : ∀ l ∈ conflicting, l.index < s.formula.num_variables := by
    intro m hm
    have := hM.tInv.origIdxOk i tci htci m (by
      rw [htcior]
      exact hm)
    rw [hM.nvar] at this
    exact this
  have hct : ∀ l ∈ conflicting,
      s.dataProvider.level l.index = s.current_level →
      ∃ q : Nat, ∃ l2 : Literal,
        (s.decision_stack.drop fl)[q]? = some l2 ∧
        l2.index = l.index := by
    intro m hm hmc
    obtain ⟨q, l2, hq, hl2i⟩ := hconfstack m hm
    have hlevq : posLevel s q = s.current_level := by
      rw [← stack_level hM hq, hl2i]
      exact hmc
    have hqfl : fl ≤ q := by
      by_contra hlt
      have := posLevel_lt_of_lt_last hM hfl (show q < fl by omega)
      omega
    refine ⟨q - fl, l2, ?_, hl2i⟩
    rw [htrget (q - fl)]
    have : fl + (q - fl) = q := by omega
    rw [this]
    exact hq
  have hcs : ∃ l ∈ conflicting,
      s.dataProvider.level l.index = s.current_level := by
    obtain ⟨m, hm, p, l2, hpw, hidxw, hplev⟩ :=
      hM.falsifiedW hlpos i hib tci htci
    refine ⟨m, by rw [← htcior]; exact hm, ?_⟩
    rw [← hidxw, stack_level hM hpw, hplev]
  have hce : ∀ τ : List Bool, τ.length = s.formula.num_variables →
      cnfSat s.formula τ = true → clauseSat τ conflicting = true := by
    intro τ h1 h2
    have := hM.entailed i tci htci τ h1 h2
    rw [htcior] at this
    exact this
  obtain ⟨learned, hanalyze, hprop1, hprop2, hprop3, hprop4, x, b,
      hxval, hxlev, hgetlast, hxuniq⟩ :=
    analyze_first_uip_spec s.dataProvider s.current_level conflicting
      (s.decision_stack.drop fl) htr hdis hante hup hcf hcl hct hcs
  have hentl : ∀ τ : List Bool, τ.length = s.formula.num_variables →
      cnfSat s.formula τ = true → clauseSat τ learned = true :=
    analyze_entails s.dataProvider s.current_level
      (s.decision_stack.drop fl) s.formula htr hdis htn
      (fun p l hp ante ha => by
        obtain ⟨h1, h2, h3, h4, h5, h6⟩ := hanteFull p l hp ante ha
        exact ⟨h1, h2, h3, h4, h5, h6⟩)
      hzero conflicting hcf hcl hcn hct hce learned hanalyze
  have hlearnstack : ∀ m ∈ learned, ∃ (q : Nat) (l2 : Literal),
      s.decision_stack[q]? = some l2 ∧ l2.index = m.index := by
    intro m hm
    apply hassigned_pos
    have := hprop1 m hm
    rw [dataProvider_value] at this
    exact this
  have hlearnbound : ∀ m ∈ learned,
      m.index < s.tracker.num_variables := by
    intro m hm
    obtain ⟨q, l2, hq, hl2i⟩ := hlearnstack m hm
    rw [← hl2i, hM.nvar]
    exact (hM.stackAssign l2 (List.getElem?_mem hq)).2
  have hsm : ∃ smax, second_max s.decisions learned s.current_level =
      some smax := by
    obtain ⟨ds, hds⟩ := mapM_some_of_forall
      (fun l => s.decisions.getD l.index none) learned (by
        intro m hm
        obtain ⟨q, l2, hq, hl2i⟩ := hlearnstack m hm
        obtain ⟨d, hd, _, _⟩ := hM.memoLevel q l2 hq
        rw [hl2i] at hd
        exact ⟨d, hd⟩)
    have h2 : second_max s.decisions learned s.current_level =
        some (((ds.map (fun d => d.decision_level)).filter
          (fun lv => decide (lv < s.current_level))).max?) := by
      unfold second_max
      rw [hds]
      rfl
    exact ⟨_, h2⟩
  obtain ⟨hIA, hassA, hnvA, hacA, lits, hclA⟩ :=
    add_clause_spec hM.tInv hlearnbound
  have hclePres : ∀ j : Nat, j < s.tracker.clauses.length →
      (s.tracker.add_clause learned).clauses[j]? =
      s.tracker.clauses[j]? := by
    intro j hj
    rw [hclA, List.getElem?_append_left hj]
  have horigA : ∀ (ci : Nat) (orig : List Literal),
      s.tracker.original_clause ci = some orig →
      (s.tracker.add_clause learned).original_clause ci = some orig := by
    intro ci orig ho
    obtain ⟨tc, htc, htcor⟩ := original_clause_some ho
    have hcilt : ci < s.tracker.clauses.length := by
      by_contra hge
      rw [List.getElem?_eq_none (by omega)] at htc
      cases htc
    show ((s.tracker.add_clause learned).clauses[ci]?).map _ = some orig
    rw [hclePres ci hcilt, htc]
    show some tc.original = some orig
    rw [htcor]
  have hrevA : ∀ (j : Nat) (tc2 : TrackedClause),
      (s.tracker.add_clause learned).clauses[j]? = some tc2 →
      (j < s.tracker.clauses.length ∧
        s.tracker.clauses[j]? = some tc2) ∨
      (j = s.tracker.clauses.length ∧ tc2.original = learned) := by
    intro j tc2 hj
    by_cases hlt : j < s.tracker.clauses.length
    · left
      refine ⟨hlt, ?_⟩
      rw [← hclePres j hlt]
      exact hj
    · right
      rw [hclA] at hj
      by_cases heq : j = s.tracker.clauses.length
      · refine ⟨heq, ?_⟩
        rw [heq, List.getElem?_concat_length] at hj
        have := Option.some.inj hj
        rw [← this]
      · exfalso
        rw [List.getElem?_eq_none (by
          rw [List.length_append, List.length_singleton]
          omega)] at hj
        cases hj
  refine ⟨learned, hanalyze, hsm, ?_⟩
  have hassEq : ∀ v : Nat,
      (s.tracker.add_clause learned).assignments.getD v none =
      s.tracker.assignments.getD v none := by
    intro v
    rw [hassA]
  refine ⟨hIA, ⟨hM.sInv.mono, hM.sInv.bound, hM.sInv.distinct,
    hM.sInv.memo⟩, hnvA.trans hM.nvar, hM.dlen, ?_, ?_, ?_, ?_,
    hM.zeroForced, ?_, ?_⟩
  · intro l2 h2
    refine ⟨?_, (hM.stackAssign l2 h2).2⟩
    rw [hassEq]
    exact (hM.stackAssign l2 h2).1
  · intro v hv
    apply hM.assignStack v
    rw [← hassEq v]
    exact hv
  · intro p l2 hp
    obtain ⟨d, hd, hlev, hups⟩ := hM.memoLevel p l2 hp
    refine ⟨d, hd, hlev, ?_⟩
    intro ci hci
    obtain ⟨orig, ho, hin, huniq, hside⟩ := hups ci hci
    exact ⟨orig, horigA ci orig ho, hin, huniq, hside⟩
  · intro v
    rw [hM.unassignedOk v, hassEq]
  · intro j tc2 hj
    rcases hrevA j tc2 hj with ⟨hlt, hold⟩ | ⟨heq, hor⟩
    · exact hM.entailed j tc2 hold
    · intro τ h1 h2
      rw [hor]
      exact hentl τ h1 h2
  · intro hpos j hjb tc2 hj
    have hstatj : ClauseStatus.Falsified = tc2.stat.status :=
      (hIA.bucketOk j tc2 hj ClauseStatus.Falsified).mp hjb
    rcases hrevA j tc2 hj with ⟨hlt, hold⟩ | ⟨heq, hor⟩
    · have hjbold : j ∈ s.tracker.clause_cache.get
          ClauseStatus.Falsified :=
        (hM.tInv.bucketOk j tc2 hold ClauseStatus.Falsified).mpr hstatj
      exact hM.falsifiedW hpos j hjbold tc2 hold
    · have huipmem : (⟨⟨x⟩, !b⟩ : Literal) ∈ learned := by
        rw [List.getLast?_eq_getElem?] at hgetlast
        exact List.getElem?_mem hgetlast
      obtain ⟨q, l2, hq, hl2i⟩ := hlearnstack _ huipmem
      have hl2x : l2.index = x := hl2i
      have hlevq : posLevel s q = s.current_level := by
        have := stack_level hM hq
        rw [hl2x] at this
        rw [← this]
        exact hxlev
      refine ⟨⟨⟨x⟩, !b⟩, by rw [hor]; exact huipmem, q, l2, hq,
        hl2x, hlevq⟩

theorem from_count_unit_iff (t s u : Nat) :
    ClauseStatus.from_count t s u = ClauseStatus.Unit ↔
    (u ≠ t ∧ s = 0 ∧ u + 1 = t) := by
  unfold ClauseStatus.from_count
  split_ifs with h1 h2 h3 <;> simp_all <;> omega

theorem unit_literal_facts {s : CdclSolver} (hM : MainInv s)
    {ci : Nat}
    (hic : ci ∈ s.tracker.clause_cache.get ClauseStatus.Unit)
    {literal : Literal}
    (hgl : s.tracker.get_unit_clause_literal ci = some literal) :
    s.tracker.assignments.getD literal.index none = none ∧
    literal.index < s.formula.num_variables ∧
    ∃ orig, s.tracker.original_clause ci = some orig ∧
      literal ∈ orig ∧
      (∀ m ∈ orig, m.index = literal.index → m = literal) ∧
      (∀ m ∈ orig, m.index ≠ literal.index →
        m.optValue s.tracker.assignments = some false) := by
  unfold Tracker.get_unit_clause_literal at hgl
  cases htc : s.tracker.clauses[ci]? with
  | none =>
    simp only [htc] at hgl
    cases hgl
  | some tc =>
    simp only [htc] at hgl
    by_cases hlen : tc.literals.length = 1
    · rw [if_pos hlen] at hgl
      obtain ⟨wl, hwl⟩ : ∃ wl, tc.literals = [wl] :=
        List.length_eq_one.mp hlen
      have hlit : wl.literal = literal := by
        rw [hwl] at hgl
        exact Option.some.inj hgl
      have hstat : ClauseStatus.Unit = tc.stat.status :=
        (hM.tInv.bucketOk ci tc htc ClauseStatus.Unit).mp hic
      have hcnt := (from_count_unit_iff tc.stat.total
        tc.stat.satisfied tc.stat.unsatisfied).mp (by
          rw [← hM.tInv.statOk ci tc htc]
          exact hstat.symm)
      have hsat0 : satCount s.tracker.assignments tc.original = 0 := by
        rw [← (hM.tInv.countOk ci tc htc).1]
        exact hcnt.2.1
      have hlive := hM.tInv.liveOk ci tc htc
      have hliveLit : liveCount tc literal = 1 := by
        unfold liveCount
        rw [hwl]
        simp [List.countP_cons, hlit]
      have hlitnone : literal.optValue s.tracker.assignments = none := by
        have := hlive literal
        rw [hliveLit] at this
        by_cases hq : literal.optValue s.tracker.assignments = none
        · exact hq
        · rw [if_neg hq] at this
          cases this
      have hlitocc : literal ∈ tc.original := by
        have := hlive literal
        rw [hliveLit, if_pos hlitnone] at this
        have hocc : 0 < occCount tc.original literal := by omega
        unfold occCount at hocc
        rw [List.countP_pos_iff] at hocc
        obtain ⟨a, ha, hav⟩ := hocc
        have : a = literal := by simpa using hav
        rw [← this]
        exact ha
      have hgd : s.tracker.assignments.getD literal.index none =
          none := (optValue_none_iff _ _).mp hlitnone
      refine ⟨hgd, ?_, tc.original, ?_, hlitocc, ?_, ?_⟩
      · have := hM.tInv.origIdxOk ci tc htc literal hlitocc
        rw [hM.nvar] at this
        exact this
      · show (s.tracker.clauses[ci]?).map _ = _
        rw [htc]
        rfl
      · intro m hm hmi
        by_contra hne
        have hmnone : m.optValue s.tracker.assignments = none := by
          rw [optValue_none_iff, hmi]
          exact hgd
        have := hlive m
        rw [if_pos hmnone] at this
        have hocc : 0 < occCount tc.original m := by
          unfold occCount
          rw [List.countP_pos_iff]
          exact ⟨m, hm, by simp⟩
        have hlc : liveCount tc m = 0 := by
          unfold liveCount
          rw [hwl, List.countP_eq_zero]
          intro a ha
          have ha2 : a = wl := by simpa using ha
          rw [ha2, hlit]
          simp only [decide_eq_true_eq]
          intro he
          exact hne he.symm
        omega
      · intro m hm hmi
        cases hval : m.optValue s.tracker.assignments with
        | none =>
          exfalso
          have := hlive m
          rw [if_pos hval] at this
          have hocc : 0 < occCount tc.original m := by
            unfold occCount
            rw [List.countP_pos_iff]
            exact ⟨m, hm, by simp⟩
          have hlc : 0 < liveCount tc m := by omega
          unfold liveCount at hlc
          rw [hwl] at hlc
          rw [List.countP_pos_iff] at hlc
          obtain ⟨wl2, hwl2, hwl2v⟩ := hlc
          have hwl2e : wl2 = wl := by simpa using hwl2
          have : wl.literal = m := by
            rw [← hwl2e]
            simpa using hwl2v
          rw [hlit] at this
          rw [← this] at hmi
          exact hmi rfl
        | some b =>
          cases hb : b with
          | false => rfl
          | true =>
            exfalso
            rw [hb] at hval
            have : 0 < satCount s.tracker.assignments tc.original := by
              unfold satCount
              rw [List.countP_pos_iff]
              exact ⟨m, hm, by simp [hval]⟩
            omega
    · rw [if_neg hlen] at hgl
      cases hgl

theorem solveLoop_unsat (choose : Finset Variable → Option Variable)
    (hchoose : ∀ (u : Finset Variable) (v : Variable),
      choose u = some v → v ∈ u) :
    ∀ (fuel : Nat) (s : CdclSolver), MainInv s →
    solveLoop choose s fuel = CdclResult.unsat →
    ∀ τ : List Bool, τ.length = s.formula.num_variables →
      cnfSat s.formula τ = false := by
  intro fuel
  induction fuel with
  | zero =>
    intro s hM h
    cases h
  | succ fuel ih =>
    intro s hM h
    simp only [solveLoop] at h
    by_cases hsat : (s.tracker.clause_cache.get
        ClauseStatus.Satisfied).card = s.tracker.num_clauses
    · rw [if_pos hsat] at h
      exfalso
      cases hm : Model.new s.formula
          (s.tracker.assignments.map (fun a => a.getD true)) with
      | none =>
        rw [hm] at h
        cases h
      | some m2 =>
        rw [hm] at h
        cases h
    · rw [if_neg hsat] at h
      by_cases hf : (s.tracker.clause_cache.get
          ClauseStatus.Falsified).Nonempty
      · rw [dif_pos hf] at h
        by_cases hl0 : s.current_level = 0
        · rw [if_pos hl0] at h
          exact conflict_at_zero hM hl0
            (Finset.min'_mem _ hf)
        · rw [if_neg hl0] at h
          obtain ⟨fl, hfl⟩ : ∃ fl, s.frame.getLast? = some fl := by
            cases hq : s.frame.getLast? with
            | none =>
              exfalso
              rw [List.getLast?_eq_none_iff] at hq
              apply hl0
              unfold CdclSolver.current_level
              rw [hq]
              rfl
            | some fl => exact ⟨fl, rfl⟩
          have hmin := Finset.min'_mem _ hf
          have hilen : (s.tracker.clause_cache.get
              ClauseStatus.Falsified).min' hf <
              s.tracker.clauses.length :=
            hM.tInv.bucketSub _ _ hmin
          obtain ⟨tci, htci⟩ : ∃ tci, s.tracker.clauses[
              (s.tracker.clause_cache.get
                ClauseStatus.Falsified).min' hf]? = some tci := by
            rw [List.getElem?_eq_getElem hilen]
            exact ⟨_, rfl⟩
          have hco : s.tracker.original_clause
              ((s.tracker.clause_cache.get
                ClauseStatus.Falsified).min' hf) =
              some tci.original := by
            show (s.tracker.clauses[_]?).map _ = _
            rw [htci]
            rfl
          obtain ⟨learned, hanalyze, ⟨smax, hsm⟩, hMA⟩ :=
            conflict_step hM hl0 hfl hmin hco
          rw [hfl] at h
          simp only [hco, hanalyze, hsm] at h
          have hM2 := rewind_maininv s.decision_stack.length
            { s with tracker := s.tracker.add_clause learned }
            (smax.getD 0) hMA
          intro τ hτlen
          have := ih _ hM2 h τ (by
            rw [rewind_formula]
            exact hτlen)
          rw [rewind_formula] at this
          exact this
      · rw [dif_neg hf] at h
        have hfalsE : s.tracker.clause_cache.get
            ClauseStatus.Falsified = ∅ :=
          Finset.not_nonempty_iff_eq_empty.mp hf
        by_cases hu : (s.tracker.clause_cache.get
            ClauseStatus.Unit).Nonempty
        · rw [dif_pos hu] at h
          cases h5 : s.tracker.get_unit_clause_literal
              ((s.tracker.clause_cache.get ClauseStatus.Unit).min'
                hu) with
          | none =>
            rw [h5] at h
            cases h
          | some literal =>
            rw [h5] at h
            obtain ⟨hun, hidx, orig, ho, hin, huniq, hside⟩ :=
              unit_literal_facts hM (Finset.min'_mem _ hu) h5
            have hM2 := push_decision_maininv hM hun hidx hfalsE
              (Or.inr ⟨_, rfl, orig, ho, hin, huniq, hside⟩)
            exact ih (s.push_decision literal
              (DecisionReason.UnitPropagation
                ((s.tracker.clause_cache.get ClauseStatus.Unit).min'
                  hu))) hM2 h
        · rw [dif_neg hu] at h
          cases h6 : choose s.unassigned with
          | none =>
            rw [h6] at h
            cases h
          | some v =>
            rw [h6] at h
            have hvmem := hchoose _ _ h6
            obtain ⟨hlt, hnone⟩ := (hM.unassignedOk v).mp hvmem
            have hM2 := push_decision_maininv hM
              (show s.tracker.assignments.getD
                (Literal.mk v true).index none = none from hnone)
              (show (Literal.mk v true).index <
                s.formula.num_variables from hlt)
              hfalsE (Or.inl rfl)
            exact ih (s.push_decision ⟨v, true⟩
              DecisionReason.Decision) hM2 h

/-- C1: for every CNF formula (well-formed: literal indices below the
declared variable count, as Cnf::new and Cnf::add_clause enforce), both
engines are partially correct.  If DpllSolver::solve returns a model,
it satisfies every clause; if it returns unsat, no total assignment
satisfies the formula.  If CdclSolver::solve returns Some(model), the
model satisfies every clause of the original formula; if it returns
None, no total assignment over the formula's variables satisfies every
clause.  The CDCL branching heuristic is an oracle that may return only
currently-unassigned variables (as VSIDS top() does); the CDCL loop is
fuel-bounded and the claims are conditional on a sat/unsat return. -/
theorem C1_solver_correctness :
    (∀ (f : Cnf) (m : List Bool),
      Dpll.solve f = Dpll.DpllResult.sat m → cnfSat f m = true) ∧
    (∀ f : Cnf, (∀ c ∈ f.clauses, ∀ l ∈ c, l.index < f.num_variables) →
      Dpll.solve f = Dpll.DpllResult.unsat →
      ∀ τ : List Bool, τ.length = f.num_variables →
        cnfSat f τ = false) ∧
    (∀ (f : Cnf) (choose : Finset Variable → Option Variable)
      (fuel : Nat) (m : Model),
      cdclSolve f choose fuel = CdclResult.sat m →
      cnfSat f m.assignment = true) ∧
    (∀ (f : Cnf) (choose : Finset Variable → Option Variable)
      (fuel : Nat),
      (∀ (u : Finset Variable) (v : Variable), choose u = some v →
        v ∈ u) →
      (∀ c ∈ f.clauses, ∀ l ∈ c, l.index < f.num_variables) →
      cdclSolve f choose fuel = CdclResult.unsat →
      ∀ τ : List Bool, τ.length = f.num_variables →
        cnfSat f τ = false) := by
  refine ⟨?_, ?_, ?_, ?_⟩
  · intro f m h
    unfold Dpll.solve at h
    exact (Dpll.solve_inner_sat f.num_variables _ m h).1
  · intro f hwf h τ hτlen
    unfold Dpll.solve at h
    apply Dpll.solve_inner_unsat hwf f.num_variables _ (by simp) h τ
    constructor
    · simp [hτlen]
    · intro i v hi
      rw [List.getElem?_replicate] at hi
      by_cases hlt : i < f.num_variables
      · rw [if_pos hlt] at hi
        cases Option.some.inj hi
      · rw [if_neg hlt] at hi
        cases hi
  · intro f choose fuel m h
    exact (solveLoop_sat choose fuel _ m h).2
  · intro f choose fuel hchoose hwf h τ hτlen
    exact solveLoop_unsat choose hchoose fuel _ (maininv_init f hwf)
      h τ hτlen

theorem C1_solver_correctness_witness :
    cnfSat ⟨1, [[(⟨⟨0⟩, true⟩ : Literal)], [(⟨⟨0⟩, false⟩ : Literal)]]⟩
      [true] = false ∧
    cnfSat ⟨1, [[(⟨⟨0⟩, true⟩ : Literal)], [(⟨⟨0⟩, false⟩ : Literal)]]⟩
      [false] = false :=
  ⟨C1_solver_correctness.2.1
    ⟨1, [[⟨⟨0⟩, true⟩], [⟨⟨0⟩, false⟩]]⟩
    (by decide) (by decide) [true] (by decide),
  C1_solver_correctness.2.2.2
    ⟨1, [[⟨⟨0⟩, true⟩], [⟨⟨0⟩, false⟩]]⟩
    (fun _ => none) 2 (fun u v h => by cases h) (by decide)
    (by rfl) [false] (by decide)⟩

end Cdcl

end Satire